import Mathlib

/-!
# storm: compressed-row sparse matrix and elimination solver

A shallow embedding of `storm::storage::SparseMatrix<T>`
(src/storage/SparseMatrix.cpp), of the functions of
`storm::solver::EliminationLinearEquationSolver`
(src/solver/EliminationLinearEquationSolver.cpp) and of the Python binding
`get_row` (stormpy/src/storage/matrix.cpp), and a verification of the claims
made about them: the definitions first, then the lemmas about the loops and the
invariants of the construction protocol, then the claims.

Conventions of the embedding.

* `std::vector<X>` is a `List X`; `uint_fast64_t` indices are `Nat` (a vector
  cannot hold `2^64` elements, so no index computation below wraps around; the
  one difference of two caller-supplied indices, in the row-group
  `getSubmatrix`, is computed modulo `2^64`).
* The value type `T` of the template stays a parameter; the operations ask only
  for the structure they use (`0`, `1`, `-`, `<`).  The source instantiates the
  template at `double` and `int`; the concrete evaluations use `Int`, and `ℚ`
  where the solver divides.
* A member function that mutates `*this` and may throw is a function from the
  state before the call to a `Result`: the state after a normal return, or the
  exception together with the state at the throw (C++ leaves the object in the
  state it had reached).  A `const` member function yields `Except Exception`.
* `operator[]` outside the bounds of a vector is undefined behaviour; it is
  reported as `Exception.OutOfBoundsAccess`, which is not a C++ exception.
* The members the source spells `nonZeroEntryCount` and `colCount` (names from
  before a renaming that the file carries out only halfway) are the members
  `entryCount` and `columnCount`.
* Classes that the two files use but that are not part of the sources (the bit
  vector, the row iterator, the elimination graph and its queue, the vector
  helpers) and the two member functions that `getJacobiDecomposition` calls
  without a definition in SparseMatrix.cpp are modelled from the specification;
  each such definition says so.
* Overloads of one C++ name are told apart by a suffix: `getSubmatrix` is the
  row-mask variant, `getSubmatrix_rowGroups` and `getSubmatrix_columnConstraint`
  are the row-group variants with three and four arguments.
-/

namespace storm.storage

/-! ## Definitions -/

/-- The exception classes thrown in SparseMatrix.cpp.  The specification names
error kinds by the condition that raises them: its OutOfRange is
`OutOfRangeException`, its OutOfOrder is the `InvalidArgumentException` thrown
by the order checks of `addNextValue`, its IllegalState / InvalidState is
`InvalidStateException`, its InvalidArgument is `InvalidArgumentException`.
`OutOfBoundsAccess` marks an access outside a vector (undefined behaviour). -/
inductive Exception where
  | OutOfRangeException
  | InvalidArgumentException
  | InvalidStateException
  | OutOfBoundsAccess
  deriving DecidableEq

/-- The values of `internalStatus` used in the source. -/
inductive MatrixStatus where
  | Error
  | UNINITIALIZED
  | INITIALIZED
  deriving DecidableEq

/-- The data members of `SparseMatrix<T>`, in the order of the constructor's
initialiser list (lines 104, 115). -/
structure SparseMatrix (T : Type) where
  rowCount : Nat
  columnCount : Nat
  entryCount : Nat
  storagePreallocated : Bool
  valueStorage : List T
  columnIndications : List Nat
  rowIndications : List Nat
  internalStatus : MatrixStatus
  currentEntryCount : Nat
  lastRow : Nat
  lastColumn : Nat
  deriving DecidableEq

/-- What a call of a mutating member function yields: the state after a normal
return, or the exception thrown together with the state the object is in at the
throw.  For `Exception.OutOfBoundsAccess` the state component carries no
meaning (the behaviour is undefined). -/
abbrev Result (T : Type) := Except (Exception × SparseMatrix T) (SparseMatrix T)

/-- Subscript write `v[i] = x`: defined only inside the vector. -/
def writeAt {α : Type} (v : List α) (i : Nat) (x : α) : Option (List α) :=
  if i < v.length then some (v.set i x) else none

/-- Subscript read `v[i]`: defined only inside the vector. -/
def readAt {α : Type} (v : List α) (i : Nat) : Option α := v[i]?

/-- The call `v.resize(n, x)` of `std::vector`. -/
def resize {α : Type} (v : List α) (n : Nat) (x : α) : List α :=
  v.take n ++ List.replicate (n - v.length) x

/-- Lines 910-931, `prepareInternalStorage(initializeElements)`.  With
`initializeElements` the three vectors are resized (new elements zero);
otherwise space is only reserved, which leaves the vectors as they are.  The
returned flag reports the capacities; the constructor discards it. -/
def prepareInternalStorage {T : Type} [Zero T] (m : SparseMatrix T)
    (initializeElements : Bool) : SparseMatrix T :=
  if initializeElements then
    { m with
      valueStorage := resize m.valueStorage m.entryCount 0
      columnIndications := resize m.columnIndications m.entryCount 0
      rowIndications := resize m.rowIndications (m.rowCount + 1) 0 }
  else m

/-- Modelled from the spec: the default argument of `prepareInternalStorage`,
declared in SparseMatrix.h, which is not part of the sources.  The constructor
calls `prepareInternalStorage()` without an argument; the specification says
that for a preallocated matrix "arrays are sized up front", and the subscript
writes of `addNextValue` need the sized arrays, so the default is `true`. -/
def initializeElementsDefault : Bool := true

/-- Lines 103-107, the constructor `SparseMatrix(rows, columns, entries)`, with
the argument that `prepareInternalStorage` receives made explicit. -/
def SparseMatrix.createWith {T : Type} [Zero T] (initializeElements : Bool)
    (rows columns entries : Nat) : SparseMatrix T :=
  prepareInternalStorage
    { rowCount := rows
      columnCount := columns
      entryCount := entries
      storagePreallocated := rows != 0 && columns != 0 && entries != 0
      valueStorage := []
      columnIndications := []
      rowIndications := []
      internalStatus := .UNINITIALIZED
      currentEntryCount := 0
      lastRow := 0
      lastColumn := 0 }
    initializeElements

/-- Lines 103-107, the constructor `SparseMatrix(rows, columns, entries)`. -/
def SparseMatrix.create {T : Type} [Zero T] (rows columns entries : Nat) : SparseMatrix T :=
  SparseMatrix.createWith initializeElementsDefault rows columns entries

/-- Lines 137-156, `operator=`: `m = other` copies the members of `other` listed
in the body, which are all data members except `storagePreallocated` (the copy
constructor of line 115 copies that one too), so the target keeps the
construction mode it was created with.  A self-assignment, which the source
skips, would copy every member onto itself. -/
def SparseMatrix.assign {T : Type} (m other : SparseMatrix T) : SparseMatrix T :=
  { m with
    rowCount := other.rowCount
    columnCount := other.columnCount
    entryCount := other.entryCount
    valueStorage := other.valueStorage
    columnIndications := other.columnIndications
    rowIndications := other.rowIndications
    internalStatus := other.internalStatus
    currentEntryCount := other.currentEntryCount
    lastRow := other.lastRow
    lastColumn := other.lastColumn }

/-- The loop `for (i = start; ...; ++i) rowIndications[i] = value` of lines
184-186 and 219-221, run for `count` iterations. -/
def fillRowIndications (rowIndications : List Nat) (i count value : Nat) : Option (List Nat) :=
  match count with
  | 0 => some rowIndications
  | count + 1 =>
    match writeAt rowIndications i value with
    | some v => fillRowIndications v (i + 1) count value
    | none => none

/-- The loop `for (...) rowIndications.push_back(value)` of lines 189-191 and
223-225, run for `count` iterations. -/
def pushRowIndications (rowIndications : List Nat) (count value : Nat) : List Nat :=
  match count with
  | 0 => rowIndications
  | count + 1 => pushRowIndications (rowIndications ++ [value]) count value

/-- Lines 179-194 of `addNextValue`: on a switch to another row the row starts
of the rows `lastRow + 1 .. row` are set to the current entry count (the loop
`for (i = lastRow + 1; i <= row; ++i)` runs `row + 1 - (lastRow + 1)` times). -/
def addNextValue_switchRow {T : Type} (m : SparseMatrix T) (row : Nat) :
    Option (SparseMatrix T) :=
  if row ≠ m.lastRow then
    if m.storagePreallocated then
      match fillRowIndications m.rowIndications (m.lastRow + 1)
          (row + 1 - (m.lastRow + 1)) m.currentEntryCount with
      | some ri => some { m with rowIndications := ri, lastRow := row }
      | none => none
    else
      some { m with
             rowIndications := pushRowIndications m.rowIndications
               (row + 1 - (m.lastRow + 1)) m.currentEntryCount
             lastRow := row }
  else some m

/-- Lines 196-206 of `addNextValue`: remember the column, store the element and,
in the preallocated branch only, advance `currentEntryCount`. -/
def addNextValue_store {T : Type} (m : SparseMatrix T) (column : Nat) (value : T) :
    Option (SparseMatrix T) :=
  if m.storagePreallocated then
    match writeAt m.valueStorage m.currentEntryCount value with
    | none => none
    | some vs =>
      match writeAt m.columnIndications m.currentEntryCount column with
      | none => none
      | some cs =>
        some { m with
               lastColumn := column
               valueStorage := vs
               columnIndications := cs
               currentEntryCount := m.currentEntryCount + 1 }
  else
    some { m with
           lastColumn := column
           valueStorage := m.valueStorage ++ [value]
           columnIndications := m.columnIndications ++ [column] }

/-- Lines 158-207, `SparseMatrix::addNextValue(row, column, value)`. -/
def SparseMatrix.addNextValue {T : Type} (m : SparseMatrix T) (row column : Nat) (value : T) :
    Result T :=
  if m.storagePreallocated = true ∧ (row > m.rowCount ∨ column > m.columnCount) then
    .error (.OutOfRangeException, m)
  else if row < m.lastRow then
    .error (.InvalidArgumentException, m)
  else if row = m.lastRow ∧ column < m.lastColumn then
    .error (.InvalidArgumentException, m)
  else
    match addNextValue_switchRow m row with
    | none => .error (.OutOfBoundsAccess, m)
    | some m1 =>
      match addNextValue_store m1 column value with
      | none => .error (.OutOfBoundsAccess, m1)
      | some m2 => .ok m2

/-- Lines 209-239, `SparseMatrix::finalize()`.  The back-fill loop
`for (i = lastRow + 1; i < rowCount; ++i)` runs `rowCount - (lastRow + 1)`
times. -/
def SparseMatrix.finalize {T : Type} (m : SparseMatrix T) : Result T :=
  if m.internalStatus = .INITIALIZED then
    .error (.InvalidStateException, m)
  else if m.storagePreallocated = true ∧ m.currentEntryCount ≠ m.entryCount then
    .error (.InvalidStateException, m)
  else if m.storagePreallocated then
    match fillRowIndications m.rowIndications (m.lastRow + 1)
        (m.rowCount - (m.lastRow + 1)) m.currentEntryCount with
    | none => .error (.OutOfBoundsAccess, m)
    | some ri =>
      match writeAt ri m.rowCount m.entryCount with
      | none => .error (.OutOfBoundsAccess, m)
      | some ri1 => .ok { m with rowIndications := ri1, internalStatus := .INITIALIZED }
  else
    .ok { m with
          rowIndications := pushRowIndications m.rowIndications
            (m.rowCount - (m.lastRow + 1)) m.currentEntryCount ++ [m.entryCount]
          internalStatus := .INITIALIZED }

/-- The elements `v[s], ..., v[e - 1]` of a vector. -/
def slice {α : Type} (v : List α) (s e : Nat) : List α := (v.drop s).take (e - s)

/-- Lines 719-722, `getRows(startRow, endRow)`: the view that starts at
`rowIndications[startRow]` and has `rowIndications[endRow + 1] -
rowIndications[startRow]` elements, given as the list of the `(column, value)`
pairs an iteration over it yields.  A view that does not lie inside the two
storage vectors cannot be iterated (its reads are out of bounds). -/
def SparseMatrix.getRows {T : Type} (m : SparseMatrix T) (startRow endRow : Nat) :
    Except Exception (List (Nat × T)) :=
  match readAt m.rowIndications startRow, readAt m.rowIndications (endRow + 1) with
  | some s, some e =>
    if s ≤ e ∧ e ≤ m.valueStorage.length ∧ e ≤ m.columnIndications.length then
      .ok (List.zip (slice m.columnIndications s e) (slice m.valueStorage s e))
    else .error .OutOfBoundsAccess
  | _, _ => .error .OutOfBoundsAccess

/-- Lines 734-737, `getRow(row)`. -/
def SparseMatrix.getRow {T : Type} (m : SparseMatrix T) (row : Nat) :
    Except Exception (List (Nat × T)) :=
  m.getRows row row

/-- The loop of lines 298-301 in `makeRowAbsorbing`:
`for (; valuePtr != valuePtrEnd; ++valuePtr) { *valuePtr = 0; *columnPtr = 0; }`.
Only `valuePtr` advances. -/
def makeRowAbsorbing_loop {T : Type} [Zero T] (vs : List T) (cs : List Nat)
    (valuePtr columnPtr count : Nat) : Option (List T × List Nat) :=
  match count with
  | 0 => some (vs, cs)
  | count + 1 =>
    match writeAt vs valuePtr 0, writeAt cs columnPtr 0 with
    | some vs1, some cs1 => makeRowAbsorbing_loop vs1 cs1 (valuePtr + 1) columnPtr count
    | _, _ => none

/-- Lines 277-302, `SparseMatrix::makeRowAbsorbing(row, column)`. -/
def SparseMatrix.makeRowAbsorbing {T : Type} [Zero T] [One T] (m : SparseMatrix T)
    (row column : Nat) : Result T :=
  if row > m.rowCount then
    .error (.OutOfRangeException, m)
  else
    match readAt m.rowIndications row, readAt m.rowIndications (row + 1) with
    | some s, some e =>
      if s ≥ e then
        .error (.InvalidStateException, m)
      else
        match writeAt m.valueStorage s 1, writeAt m.columnIndications s column with
        | some vs, some cs =>
          match makeRowAbsorbing_loop vs cs s s (e - s) with
          | some (vs1, cs1) => .ok { m with valueStorage := vs1, columnIndications := cs1 }
          | none => .error (.OutOfBoundsAccess, m)
        | _, _ => .error (.OutOfBoundsAccess, m)
    | _, _ => .error (.OutOfBoundsAccess, m)

/-- The inner loop of `invertDiagonal` (lines 602-614) for one row: search the
positions `rowStart, ..., rowStart + count - 1` for the first entry whose column
is `row`, replace its value `v` by `1 - v` and stop; without such an entry the
function throws.  An error carries the values at the throw. -/
def invertDiagonal_row {T : Type} [One T] [Sub T] (columnIndications : List Nat)
    (valueStorage : List T) (row rowStart count : Nat) :
    Except (Exception × List T) (List T) :=
  match count with
  | 0 => .error (.InvalidArgumentException, valueStorage)
  | count + 1 =>
    match readAt columnIndications rowStart with
    | none => .error (.OutOfBoundsAccess, valueStorage)
    | some c =>
      if c = row then
        match readAt valueStorage rowStart with
        | none => .error (.OutOfBoundsAccess, valueStorage)
        | some v =>
          match writeAt valueStorage rowStart (1 - v) with
          | none => .error (.OutOfBoundsAccess, valueStorage)
          | some vs => .ok vs
      else invertDiagonal_row columnIndications valueStorage row (rowStart + 1) count

/-- The loop over the rows `row, ..., row + count - 1` of `invertDiagonal`
(lines 598-615); `while (rowStart < rowEnd)` runs at most `rowEnd - rowStart`
times. -/
def invertDiagonal_rows {T : Type} [One T] [Sub T] (rowIndications columnIndications : List Nat)
    (valueStorage : List T) (row count : Nat) : Except (Exception × List T) (List T) :=
  match count with
  | 0 => .ok valueStorage
  | count + 1 =>
    match readAt rowIndications row, readAt rowIndications (row + 1) with
    | some rowStart, some rowEnd =>
      match invertDiagonal_row columnIndications valueStorage row rowStart (rowEnd - rowStart) with
      | .error e => .error e
      | .ok vs => invertDiagonal_rows rowIndications columnIndications vs (row + 1) count
    | _, _ => .error (.OutOfBoundsAccess, valueStorage)

/-- Lines 586-616, `SparseMatrix::invertDiagonal()`. -/
def SparseMatrix.invertDiagonal {T : Type} [One T] [Sub T] (m : SparseMatrix T) : Result T :=
  if m.rowCount ≠ m.columnCount then
    .error (.InvalidArgumentException, m)
  else
    match invertDiagonal_rows m.rowIndications m.columnIndications m.valueStorage 0 m.rowCount with
    | .error (e, vs) => .error (e, { m with valueStorage := vs })
    | .ok vs => .ok { m with valueStorage := vs }

/-- The inner loop of `negateAllNonDiagonalElements` (lines 630-635) for one
row: every entry at the positions `rowStart, ..., rowStart + count - 1` whose
column differs from `row` is negated. -/
def negateAllNonDiagonalElements_row {T : Type} [Neg T] (columnIndications : List Nat)
    (valueStorage : List T) (row rowStart count : Nat) : Option (List T) :=
  match count with
  | 0 => some valueStorage
  | count + 1 =>
    match readAt columnIndications rowStart with
    | none => none
    | some c =>
      if c ≠ row then
        match readAt valueStorage rowStart with
        | none => none
        | some v =>
          match writeAt valueStorage rowStart (-v) with
          | none => none
          | some vs =>
            negateAllNonDiagonalElements_row columnIndications vs row (rowStart + 1) count
      else negateAllNonDiagonalElements_row columnIndications valueStorage row (rowStart + 1) count

/-- The loop over the rows `row, ..., row + count - 1` of
`negateAllNonDiagonalElements` (lines 627-636). -/
def negateAllNonDiagonalElements_rows {T : Type} [Neg T]
    (rowIndications columnIndications : List Nat) (valueStorage : List T) (row count : Nat) :
    Option (List T) :=
  match count with
  | 0 => some valueStorage
  | count + 1 =>
    match readAt rowIndications row, readAt rowIndications (row + 1) with
    | some rowStart, some rowEnd =>
      match negateAllNonDiagonalElements_row columnIndications valueStorage row rowStart
          (rowEnd - rowStart) with
      | none => none
      | some vs =>
        negateAllNonDiagonalElements_rows rowIndications columnIndications vs (row + 1) count
    | _, _ => none

/-- Lines 618-637, `SparseMatrix::negateAllNonDiagonalElements()`. -/
def SparseMatrix.negateAllNonDiagonalElements {T : Type} [Neg T] (m : SparseMatrix T) :
    Result T :=
  if m.rowCount ≠ m.columnCount then
    .error (.InvalidArgumentException, m)
  else
    match negateAllNonDiagonalElements_rows m.rowIndications m.columnIndications
        m.valueStorage 0 m.rowCount with
    | none => .error (.OutOfBoundsAccess, m)
    | some vs => .ok { m with valueStorage := vs }

/-- Lines 580-584, `SparseMatrix::convertToEquationSystem()`: `invertDiagonal()`
followed by the negation of the non-diagonal elements (which the call site
spells `negateAllNonDiagonalEntries`). -/
def SparseMatrix.convertToEquationSystem {T : Type} [One T] [Sub T] [Neg T]
    (m : SparseMatrix T) : Result T :=
  match m.invertDiagonal with
  | .error e => .error e
  | .ok m1 => m1.negateAllNonDiagonalElements

/-- The counting pass of `transpose` over the entries of one row (lines
543-547): `if (value > 0) ++rowIndications[column + 1]`. -/
def transpose_countRow {T : Type} [Zero T] [LT T] [DecidableRel (fun (a b : T) => a < b)]
    (rowIndications : List Nat) : List (Nat × T) → Option (List Nat)
  | [] => some rowIndications
  | (column, value) :: rest =>
    if 0 < value then
      match readAt rowIndications (column + 1) with
      | none => none
      | some n =>
        match writeAt rowIndications (column + 1) (n + 1) with
        | none => none
        | some ri => transpose_countRow ri rest
    else transpose_countRow rowIndications rest

/-- The counting pass of `transpose` over the rows `i, ..., i + count - 1` of
the source matrix (lines 541-548). -/
def transpose_count {T : Type} [Zero T] [LT T] [DecidableRel (fun (a b : T) => a < b)]
    (m : SparseMatrix T) (rowIndications : List Nat) (i count : Nat) : Option (List Nat) :=
  match count with
  | 0 => some rowIndications
  | count + 1 =>
    match m.getRow i with
    | .error _ => none
    | .ok row =>
      match transpose_countRow rowIndications row with
      | none => none
      | some ri => transpose_count m ri (i + 1) count

/-- The accumulation `rowIndications[i] = rowIndications[i - 1] +
rowIndications[i]` of lines 551-553, for `count` consecutive indices from `i`. -/
def transpose_accumulate (rowIndications : List Nat) (i count : Nat) : Option (List Nat) :=
  match count with
  | 0 => some rowIndications
  | count + 1 =>
    match readAt rowIndications (i - 1), readAt rowIndications i with
    | some a, some b =>
      match writeAt rowIndications i (a + b) with
      | none => none
      | some ri => transpose_accumulate ri (i + 1) count
    | _, _ => none

/-- The vectors the filling pass of `transpose` works on. -/
structure TransposeState (T : Type) where
  values : List T
  columnIndications : List Nat
  nextIndices : List Nat

/-- The filling pass of `transpose` over the entries of row `i` (lines
563-568): `values[nextIndices[column]] = value;
columnIndications[nextIndices[column]++] = i`, for positive values only. -/
def transpose_fillRow {T : Type} [Zero T] [LT T] [DecidableRel (fun (a b : T) => a < b)]
    (st : TransposeState T) (i : Nat) : List (Nat × T) → Option (TransposeState T)
  | [] => some st
  | (column, value) :: rest =>
    if 0 < value then
      match readAt st.nextIndices column with
      | none => none
      | some p =>
        match writeAt st.values p value, writeAt st.columnIndications p i,
            writeAt st.nextIndices column (p + 1) with
        | some vs, some cs, some ni =>
          transpose_fillRow { values := vs, columnIndications := cs, nextIndices := ni } i rest
        | _, _, _ => none
    else transpose_fillRow st i rest

/-- The filling pass of `transpose` over the rows `i, ..., i + count - 1` of the
source matrix (lines 561-569). -/
def transpose_fill {T : Type} [Zero T] [LT T] [DecidableRel (fun (a b : T) => a < b)]
    (m : SparseMatrix T) (st : TransposeState T) (i count : Nat) : Option (TransposeState T) :=
  match count with
  | 0 => some st
  | count + 1 =>
    match m.getRow i with
    | .error _ => none
    | .ok row =>
      match transpose_fillRow st i row with
      | none => none
      | some st1 => transpose_fill m st1 (i + 1) count

/-- Modelled from the spec: the constructor `SparseMatrix(rowCount, colCount,
nonZeroEntryCount, rowIndications, columnIndications, values)` that `transpose`
calls in lines 571-575; the sources define only the variant of lines 132-135,
which derives the counts from the vectors.  As there, the object is
`INITIALIZED` and its construction cursor is reset; the counts are the ones
passed, and `storagePreallocated`, which that constructor does not set, is
`false`. -/
def SparseMatrix.fromVectors {T : Type} (rowCount columnCount entryCount : Nat)
    (rowIndications columnIndications : List Nat) (values : List T) : SparseMatrix T :=
  { rowCount := rowCount
    columnCount := columnCount
    entryCount := entryCount
    storagePreallocated := false
    valueStorage := values
    columnIndications := columnIndications
    rowIndications := rowIndications
    internalStatus := .INITIALIZED
    currentEntryCount := 0
    lastRow := 0
    lastColumn := 0 }

/-- Lines 529-578, `SparseMatrix::transpose()`: count the positive entries of
every column, accumulate the counts into row starts, then store every positive
entry at the next free slot of its column.  The accumulation loop
`for (i = 1; i < rowCount + 1; ++i)` runs `rowCount + 1 - 1` times, with the
`rowCount` of the result, which is `columnCount`.  A failure is an access
outside a vector. -/
def SparseMatrix.transpose {T : Type} [Zero T] [LT T] [DecidableRel (fun (a b : T) => a < b)]
    (m : SparseMatrix T) : Except Exception (SparseMatrix T) :=
  match transpose_count m (List.replicate (m.columnCount + 1) 0) 0 m.rowCount with
  | none => .error .OutOfBoundsAccess
  | some counted =>
    match transpose_accumulate counted 1 (m.columnCount + 1 - 1) with
    | none => .error .OutOfBoundsAccess
    | some rowIndications =>
      match transpose_fill m
          { values := List.replicate m.entryCount 0
            columnIndications := List.replicate m.entryCount 0
            nextIndices := rowIndications } 0 m.rowCount with
      | none => .error .OutOfBoundsAccess
      | some st =>
        .ok (SparseMatrix.fromVectors m.columnCount m.rowCount m.entryCount rowIndications
          st.columnIndications st.values)

/-- One call of the construction protocol: an entry `(row, column, value)`. -/
abbrev Entry (T : Type) := Nat × Nat × T

/-- A sequence of `addNextValue` calls, each on the state the previous one left;
the first call that throws ends the sequence. -/
def addAll {T : Type} (m : SparseMatrix T) : List (Entry T) → Result T
  | [] => .ok m
  | (row, column, value) :: rest =>
    match m.addNextValue row column value with
    | .error e => .error e
    | .ok m1 => addAll m1 rest

/-- The construction protocol: create, add the entries in sequence, finalize;
with the argument that `prepareInternalStorage` receives made explicit. -/
def buildWith {T : Type} [Zero T] (initializeElements : Bool) (rows columns entries : Nat)
    (es : List (Entry T)) : Result T :=
  match addAll (SparseMatrix.createWith initializeElements rows columns entries) es with
  | .error e => .error e
  | .ok m => m.finalize

/-- The construction protocol: create, add the entries in sequence, finalize. -/
def build {T : Type} [Zero T] (rows columns entries : Nat) (es : List (Entry T)) : Result T :=
  buildWith initializeElementsDefault rows columns entries es

/-- The `(column, value)` pairs of the entries of a call sequence that were
inserted with row `r`, in insertion order. -/
def insertedInRow {T : Type} (es : List (Entry T)) (r : Nat) : List (Nat × T) :=
  (es.filter (fun e => e.1 = r)).map (fun e => e.2)

/-- Element `i` of a vector of indices, `0` outside the vector. -/
def nth (v : List Nat) (i : Nat) : Nat := (v[i]?).getD 0

/-- The position of the first entry with column `row` among the positions
`rowStart, ..., rowStart + count - 1`. -/
def findDiagonal (columnIndications : List Nat) (row rowStart : Nat) : Nat → Option Nat
  | 0 => none
  | count + 1 =>
    if columnIndications[rowStart]? = some row then some rowStart
    else findDiagonal columnIndications row (rowStart + 1) count

/-- The row starts `rowIndications[0 .. rowCount]` exist, do not decrease, and
the last of them is at most `bound`. -/
def RowStartsOK (rowIndications : List Nat) (rowCount bound : Nat) : Prop :=
  rowCount + 1 ≤ rowIndications.length ∧
  (∀ i, i < rowCount → nth rowIndications i ≤ nth rowIndications (i + 1)) ∧
  nth rowIndications rowCount ≤ bound

/-- Position `k` lies in one of the rows `lo, ..., hi - 1` and the entry stored
there is not on the diagonal of that row. -/
def NegatedAt (rowIndications columnIndications : List Nat) (lo hi k : Nat) : Prop :=
  ∃ row, lo ≤ row ∧ row < hi ∧ nth rowIndications row ≤ k ∧ k < nth rowIndications (row + 1) ∧
    columnIndications[k]? ≠ some row

/-- Position `k` holds the first diagonal entry of one of the rows
`lo, ..., hi - 1`. -/
def InvertedAt (rowIndications columnIndications : List Nat) (lo hi k : Nat) : Prop :=
  ∃ row, lo ≤ row ∧ row < hi ∧
    findDiagonal columnIndications row (nth rowIndications row)
      (nth rowIndications (row + 1) - nth rowIndications row) = some k

/-- The storage invariant the row-wise operations rely on: the row starts
`rowIndications[0 .. rowCount]` exist and do not decrease, and the last one lies
inside both storage vectors. -/
def SparseMatrix.RowsOK {T : Type} (m : SparseMatrix T) : Prop :=
  RowStartsOK m.rowIndications m.rowCount m.columnIndications.length ∧
  nth m.rowIndications m.rowCount ≤ m.valueStorage.length

/-- Every row `row < rowCount` stores an entry whose column is `row`. -/
def SparseMatrix.HasDiagonal {T : Type} (m : SparseMatrix T) : Prop :=
  ∀ row, row < m.rowCount →
    findDiagonal m.columnIndications row (nth m.rowIndications row)
      (nth m.rowIndications (row + 1) - nth m.rowIndications row) ≠ none

/-- The matrix objects a client obtains without an assignment across
construction modes: the constructor followed by calls of the mutating member
functions modelled here, in any order.  A call that throws leaves the object in
the state at the throw; only `invertDiagonal` throws after it has written.
`operator=` between objects of the same construction mode yields a copy of its
source, so it leads to no further object; between objects of different modes it
yields an object outside this set, because the target keeps its own
`storagePreallocated` (see `SparseMatrix.assign`). -/
inductive Reachable {T : Type} [Zero T] [One T] [Sub T] [Neg T] : SparseMatrix T → Prop
  | create (rows columns entries : Nat) : Reachable (SparseMatrix.create rows columns entries)
  | addNextValue {m m1 : SparseMatrix T} (row column : Nat) (value : T) :
      Reachable m → m.addNextValue row column value = .ok m1 → Reachable m1
  | finalize {m m1 : SparseMatrix T} : Reachable m → m.finalize = .ok m1 → Reachable m1
  | makeRowAbsorbing {m m1 : SparseMatrix T} (row column : Nat) :
      Reachable m → m.makeRowAbsorbing row column = .ok m1 → Reachable m1
  | invertDiagonal {m m1 : SparseMatrix T} :
      Reachable m → m.invertDiagonal = .ok m1 → Reachable m1
  | invertDiagonal_throws {m m1 : SparseMatrix T} :
      Reachable m → m.invertDiagonal = .error (.InvalidArgumentException, m1) → Reachable m1
  | negateAllNonDiagonalElements {m m1 : SparseMatrix T} :
      Reachable m → m.negateAllNonDiagonalElements = .ok m1 → Reachable m1

/-- A finalized matrix obtained without an assignment across construction
modes: a reachable object on which `finalize()` has succeeded (the only place
where a member function sets `internalStatus` to `INITIALIZED`). -/
def Finalized {T : Type} [Zero T] [One T] [Sub T] [Neg T] (m : SparseMatrix T) : Prop :=
  Reachable m ∧ m.internalStatus = .INITIALIZED

/-- `m1` differs from `m` at most in the contents (not the lengths) of the value
and column vectors. -/
def SameShape {T : Type} (m m1 : SparseMatrix T) : Prop :=
  m1.rowCount = m.rowCount ∧ m1.columnCount = m.columnCount ∧ m1.entryCount = m.entryCount ∧
  m1.storagePreallocated = m.storagePreallocated ∧
  m1.valueStorage.length = m.valueStorage.length ∧
  m1.columnIndications.length = m.columnIndications.length ∧
  m1.rowIndications = m.rowIndications ∧ m1.internalStatus = m.internalStatus ∧
  m1.currentEntryCount = m.currentEntryCount ∧ m1.lastRow = m.lastRow ∧
  m1.lastColumn = m.lastColumn

/-- The invariant of the reachable matrix objects. -/
structure Inv {T : Type} (m : SparseMatrix T) : Prop where
  sizes : m.storagePreallocated = true →
    m.rowIndications.length = m.rowCount + 1 ∧ m.valueStorage.length = m.entryCount ∧
    m.columnIndications.length = m.entryCount
  building : m.storagePreallocated = true → m.internalStatus ≠ .INITIALIZED →
    m.lastRow ≤ m.rowCount ∧
    (∀ i j, i ≤ j → j ≤ m.lastRow → nth m.rowIndications i ≤ nth m.rowIndications j) ∧
    (∀ i, i ≤ m.lastRow → nth m.rowIndications i ≤ m.currentEntryCount)
  finalized : m.storagePreallocated = true → m.internalStatus = .INITIALIZED →
    m.currentEntryCount = m.entryCount ∧
    (∀ i, i < m.rowCount → nth m.rowIndications i ≤ nth m.rowIndications (i + 1)) ∧
    nth m.rowIndications m.rowCount = m.entryCount
  dynamic : m.storagePreallocated = false →
    m.rowCount + 1 ≤ m.rowIndications.length ∧
    ∀ i, i ≤ m.rowCount → nth m.rowIndications i = 0

/-- The dense value of a matrix at position `(i, j)`: the sum of the values of
the entries that row `i` stores at column `j`. -/
def SparseMatrix.denseValue {T : Type} [Zero T] [Add T] (m : SparseMatrix T) (i j : Nat) :
    Except Exception T :=
  match m.getRow i with
  | .error e => .error e
  | .ok es => .ok ((es.filter (fun e => e.1 = j)).map (fun e => e.2)).sum

/-- What `convertToEquationSystem` does to an entry of row `i` when the row
stores a single diagonal entry: the diagonal value `v` becomes `1 - v`, every
other value is negated. -/
def convertEntry {T : Type} [One T] [Sub T] [Neg T] (i : Nat) (e : Nat × T) : Nat × T :=
  if e.1 = i then (e.1, 1 - e.2) else (e.1, -e.2)

/-- The state of `SparseMatrix<int>(2, 2, 2)` after `addNextValue(1, 0, 5)`. -/
def exampleBuilding : SparseMatrix Int :=
  { rowCount := 2, columnCount := 2, entryCount := 2, storagePreallocated := true,
    valueStorage := [5, 0], columnIndications := [0, 0], rowIndications := [0, 0, 0],
    internalStatus := .UNINITIALIZED, currentEntryCount := 1, lastRow := 1, lastColumn := 0 }

/-- The finalized 2x2 matrix with the entries `(0, 0, 5)`, `(0, 1, 3)`, `(1, 1, 7)`. -/
def exampleSquare : SparseMatrix Int :=
  { rowCount := 2, columnCount := 2, entryCount := 3, storagePreallocated := true,
    valueStorage := [5, 3, 7], columnIndications := [0, 1, 1], rowIndications := [0, 2, 3],
    internalStatus := .INITIALIZED, currentEntryCount := 3, lastRow := 1, lastColumn := 1 }

/-- The state of a preallocated matrix under construction after the calls
`done` have been accepted: the entries fill the first `done.length` slots in
insertion order, and the row start of every row up to `lastRow` is the number
of entries inserted with a smaller row. -/
structure Filled {T : Type} (m : SparseMatrix T) (done : List (Entry T)) : Prop where
  pre : m.storagePreallocated = true
  notFinal : m.internalStatus ≠ .INITIALIZED
  cur : m.currentEntryCount = done.length
  lenV : m.valueStorage.length = m.entryCount
  lenC : m.columnIndications.length = m.entryCount
  lenR : m.rowIndications.length = m.rowCount + 1
  vals : m.valueStorage.take done.length = done.map (fun e => e.2.2)
  cols : m.columnIndications.take done.length = done.map (fun e => e.2.1)
  lastRow_le : m.lastRow ≤ m.rowCount
  rows_le : ∀ e, e ∈ done → e.1 ≤ m.lastRow
  sorted : done.Pairwise (fun a b => a.1 ≤ b.1)
  starts : ∀ r, r ≤ m.lastRow →
    nth m.rowIndications r = (done.filter (fun e => e.1 < r)).length

/-- The entries of the rows `i, ..., i + count - 1`, each as
`(row, column, value)`, in the order in which the loops of `transpose` visit
them; `rows i` is the list of `(column, value)` pairs of row `i`. -/
def taggedEntries {T : Type} (rows : Nat → List (Nat × T)) (i : Nat) : Nat → List (Entry T)
  | 0 => []
  | count + 1 => (rows i).map (fun e => (i, e.1, e.2)) ++ taggedEntries rows (i + 1) count

/-- The invariant of the filling pass of `transpose`: `P` is the list of all
entries the pass will store, `Q` the part already stored.  The entries of `Q`
with column `j` occupy, in order, the slots that start at the number of entries
of `P` with a smaller column, and `nextIndices[j]` is the slot after them. -/
structure FillInv {T : Type} (P : List (Entry T)) (V nlen : Nat) (Q : List (Entry T))
    (st : TransposeState T) : Prop where
  lenV : st.values.length = V
  lenC : st.columnIndications.length = V
  lenN : st.nextIndices.length = nlen
  next : ∀ j, j < nlen → nth st.nextIndices j =
    (P.filter (fun e => e.2.1 < j)).length + (Q.filter (fun e => e.2.1 = j)).length
  stored : ∀ j t e, (Q.filter (fun e => e.2.1 = j))[t]? = some e →
    st.values[(P.filter (fun e => e.2.1 < j)).length + t]? = some e.2.2 ∧
    st.columnIndications[(P.filter (fun e => e.2.1 < j)).length + t]? = some e.1

/-- The `(row, column, value)` triples a matrix stores in the rows
`row, ..., row + count - 1`, row by row, as `getRow` yields them. -/
def SparseMatrix.triples {T : Type} (m : SparseMatrix T) (row : Nat) :
    Nat → Except Exception (List (Entry T))
  | 0 => .ok []
  | count + 1 =>
    match m.getRow row with
    | .error e => .error e
    | .ok es =>
      match SparseMatrix.triples m (row + 1) count with
      | .error e => .error e
      | .ok rest => .ok (es.map (fun e => (row, e.1, e.2)) ++ rest)

/-- The triple `(row, column, value)` with row and column exchanged. -/
def swapEntry {T : Type} (e : Entry T) : Entry T := (e.2.1, e.1, e.2.2)

/-- The inner loop of `multiplyWithVector` (lines 700-702) over the entries of
one row: `*resultIt += elementIt.value() * vector[elementIt.column()]`. -/
def multiplyWithVector_row {T : Type} [Add T] [Mul T] (vector : List T) :
    T → List (Nat × T) → Option T
  | acc, [] => some acc
  | acc, (column, value) :: rest =>
    match readAt vector column with
    | none => none
    | some x => multiplyWithVector_row vector (acc + value * x) rest

/-- The outer loop of `multiplyWithVector` (lines 697-703): one step for every
element of `result`, with the row iterator advancing along; the element is
overwritten with zero before the row is added up.

Modelled from the spec: the row iterator `ConstRowIterator` that `begin()`
returns (lines 739-742) is declared in SparseMatrix.h, which is not part of the
sources.  It starts at row 0; positioned at row `r` it ranges over the row view
`(values[rowStart[r]:rowStart[r+1]], columnIndex[rowStart[r]:rowStart[r+1]])`,
the entries that `getRow(r)` yields. -/
def multiplyWithVector_rows {T : Type} [Zero T] [Add T] [Mul T] (m : SparseMatrix T)
    (vector : List T) (row : Nat) : List T → Except Exception (List T)
  | [] => .ok []
  | _ :: result =>
    match m.getRow row with
    | .error e => .error e
    | .ok es =>
      match multiplyWithVector_row vector 0 es with
      | none => .error .OutOfBoundsAccess
      | some s =>
        match multiplyWithVector_rows m vector (row + 1) result with
        | .error e => .error e
        | .ok rest => .ok (s :: rest)

/-- Lines 690-705, `SparseMatrix::multiplyWithVector(vector, result)`, the
sequential branch (the other branch hands the same row loop to a parallel
library); yields the content of `result` after the call. -/
def SparseMatrix.multiplyWithVector {T : Type} [Zero T] [Add T] [Mul T] (m : SparseMatrix T)
    (vector result : List T) : Except Exception (List T) :=
  multiplyWithVector_rows m vector 0 result

/-- The scalar product of a row with a vector: the sum of `v * x[c]` over the
entries `(c, v)` of the row. -/
def rowTimesVector {T : Type} [Zero T] [Add T] [Mul T] (es : List (Nat × T)) (x : List T) : T :=
  (es.map (fun e => e.2 * (x[e.1]?).getD 0)).sum

/-- The finalized 1x1 matrix whose only entry is a stored zero on the diagonal. -/
def exampleZeroDiagonal : SparseMatrix Int :=
  { rowCount := 1, columnCount := 1, entryCount := 1, storagePreallocated := true,
    valueStorage := [0], columnIndications := [0], rowIndications := [0, 1],
    internalStatus := .INITIALIZED, currentEntryCount := 1, lastRow := 0, lastColumn := 0 }

/-- The finalized 2x2 matrix with the entries `(0, 0, 5)`, `(1, 0, 3)`: row 1
stores no diagonal entry. -/
def exampleMissingDiagonal : SparseMatrix Int :=
  { rowCount := 2, columnCount := 2, entryCount := 2, storagePreallocated := true,
    valueStorage := [5, 3], columnIndications := [0, 0], rowIndications := [0, 1, 2],
    internalStatus := .INITIALIZED, currentEntryCount := 2, lastRow := 1, lastColumn := 0 }

/-- Modelled from the spec: `storm::utility::vector::addVectors(firstOperand,
secondOperand, target)` of src/utility/vector.h, which is not part of the
sources: `target[i] = firstOperand[i] + secondOperand[i]`, the `(+ b)` of the
specification's `x ← A x (+ b)`.  It is defined for three vectors of one
length; the result is the content of `target` after the call. -/
def addVectors {T : Type} [Add T] (firstOperand secondOperand target : List T) :
    Option (List T) :=
  if firstOperand.length = secondOperand.length ∧ target.length = firstOperand.length then
    some (List.zipWith (fun a b => a + b) firstOperand secondOperand)
  else none

/-- The loop of lines 118-126 of `performMatrixVectorMultiplication`, run for
the given number of iterations.  The two buffers are the caller's `x` and the
vector `*copyX` (the scratch memory); `currentIsX` tells whether `currentX`
points to `x` (then `nextX` points to `*copyX`) or the other way round.  Each
iteration multiplies `*currentX` into `*nextX`, swaps the two pointers and adds
the offset `b`, when there is one, to the new `*currentX` in place. -/
def performMatrixVectorMultiplication_loop {T : Type} [Zero T] [Add T] [Mul T]
    (A : SparseMatrix T) (b : Option (List T)) :
    Nat → List T → List T → Bool → Except Exception (List T × List T × Bool)
  | 0, x, copyX, currentIsX => .ok (x, copyX, currentIsX)
  | n + 1, x, copyX, currentIsX =>
    match A.multiplyWithVector (if currentIsX then x else copyX)
        (if currentIsX then copyX else x) with
    | .error e => .error e
    | .ok product =>
      match b with
      | none =>
        if currentIsX then performMatrixVectorMultiplication_loop A b n x product false
        else performMatrixVectorMultiplication_loop A b n product copyX true
      | some offset =>
        match addVectors product offset product with
        | none => .error .OutOfBoundsAccess
        | some sum =>
          if currentIsX then performMatrixVectorMultiplication_loop A b n x sum false
          else performMatrixVectorMultiplication_loop A b n sum copyX true

/-- Lines 103-138, `EliminationLinearEquationSolver::performMatrixVectorMultiplication(x,
b, n, multiplyResult)` for a solver that works on the matrix `A`.  A null
pointer `b` or `multiplyResult` is `none`; without scratch memory the function
allocates `std::vector<ValueType>(x.size())`.  After the loop, `if (currentX ==
copyX) std::swap(x, *currentX)`.  The result is the content of `x` after the
call, and that of the caller's scratch memory when there is one. -/
def performMatrixVectorMultiplication {T : Type} [Zero T] [Add T] [Mul T]
    (A : SparseMatrix T) (x : List T) (b : Option (List T)) (n : Nat)
    (multiplyResult : Option (List T)) : Except Exception (List T × Option (List T)) :=
  match performMatrixVectorMultiplication_loop A b n x
      (match multiplyResult with
       | none => List.replicate x.length 0
       | some scratch => scratch) true with
  | .error e => .error e
  | .ok (x1, copyX1, currentIsX) =>
    if currentIsX then .ok (x1, multiplyResult.map (fun _ => copyX1))
    else .ok (copyX1, multiplyResult.map (fun _ => x1))

/-- Lines 140-155, the overload `performMatrixVectorMultiplication(x, result,
b)`.  The argument `result` is `none` when `x` and `result` are one vector
(`&x == &result`); the value is the content of `result` after the call. -/
def performMatrixVectorMultiplicationStep {T : Type} [Zero T] [Add T] [Mul T]
    (A : SparseMatrix T) (x : List T) (result : Option (List T)) (b : Option (List T)) :
    Except Exception (List T) :=
  match result with
  | some result =>
    match A.multiplyWithVector x result with
    | .error e => .error e
    | .ok product =>
      match b with
      | none => .ok product
      | some offset =>
        match addVectors product offset product with
        | none => .error .OutOfBoundsAccess
        | some sum => .ok sum
  | none =>
    match A.multiplyWithVector x (List.replicate x.length 0) with
    | .error e => .error e
    | .ok tmp =>
      match b with
      | none => .ok x
      | some offset =>
        match addVectors tmp offset x with
        | none => .error .OutOfBoundsAccess
        | some sum => .ok sum

/-- The product `A * y` of a matrix with a vector: element `r` is the scalar
product of row `r`, as `getRow` yields it, with `y`. -/
def SparseMatrix.timesVector {T : Type} [Zero T] [Add T] [Mul T] (A : SparseMatrix T)
    (y : List T) : List T :=
  (List.range A.rowCount).map (fun r =>
    match A.getRow r with
    | .ok es => rowTimesVector es y
    | .error _ => 0)

/-- The map `y -> A * y + b`, and `y -> A * y` when there is no offset `b`. -/
def affineMap {T : Type} [Zero T] [Add T] [Mul T] (A : SparseMatrix T) (b : Option (List T))
    (y : List T) : List T :=
  match b with
  | none => A.timesVector y
  | some offset => List.zipWith (fun a b => a + b) (A.timesVector y) offset

/-- Modelled from the spec: `storm::storage::BitVector` (src/storage/BitVector.h,
not part of the sources), "a fixed-size bitset over row indices" that supports
`get`, `size` and iteration over the set bits.  Bit `i` is `bits[i]`. -/
structure BitVector where
  bits : List Bool
  deriving DecidableEq

/-- Modelled from the spec: `BitVector::get(index)`, defined for the indices
below the size of the bitset. -/
def BitVector.get (b : BitVector) (index : Nat) : Option Bool := b.bits[index]?

/-- Modelled from the spec: the indices that `for (auto index : bitVector)`
visits, the set bits in increasing order. -/
def BitVector.setBits (b : BitVector) : List Nat :=
  (List.range b.bits.length).filter (fun i => b.bits[i]? = some true)

/-- Modelled from the spec: `BitVector::getNumberOfSetBits()`. -/
def BitVector.getNumberOfSetBits (b : BitVector) : Nat := b.setBits.length

/-- The inner loop of lines 347-351 of `getSubmatrix(constraint)` over the
positions `i, ..., i + count - 1`: count the entries whose column is selected. -/
def getSubmatrix_countRow (columnIndications : List Nat) (constraint : BitVector) :
    Nat → Nat → Nat → Option Nat
  | _, 0, subEntries => some subEntries
  | i, count + 1, subEntries =>
    match readAt columnIndications i with
    | none => none
    | some column =>
      match constraint.get column with
      | none => none
      | some bit =>
        getSubmatrix_countRow columnIndications constraint (i + 1) count
          (if bit then subEntries + 1 else subEntries)

/-- The loop of lines 346-352 over the selected rows; the inner loop
`for (i = rowIndications[rowIndex]; i < rowIndications[rowIndex + 1]; ++i)` runs
`rowIndications[rowIndex + 1] - rowIndications[rowIndex]` times. -/
def getSubmatrix_count {T : Type} (m : SparseMatrix T) (constraint : BitVector) :
    List Nat → Nat → Option Nat
  | [], subEntries => some subEntries
  | rowIndex :: rest, subEntries =>
    match readAt m.rowIndications rowIndex, readAt m.rowIndications (rowIndex + 1) with
    | some s, some e =>
      match getSubmatrix_countRow m.columnIndications constraint s (e - s) subEntries with
      | none => none
      | some n => getSubmatrix_count m constraint rest n
    | _, _ => none

/-- The loop of lines 363-371 that fills `bitsSetBeforeIndex`: for every set
bit, `while (lastIndex <= index)` pushes the number of bits seen so far
(`index + 1 - lastIndex` times), then the bit is counted. -/
def getSubmatrix_bitsSetBeforeIndex :
    List Nat → List Nat → Nat → Nat → List Nat
  | [], bitsSetBeforeIndex, _, _ => bitsSetBeforeIndex
  | index :: rest, bitsSetBeforeIndex, lastIndex, currentNumberOfSetBits =>
    getSubmatrix_bitsSetBeforeIndex rest
      (bitsSetBeforeIndex ++ List.replicate (index + 1 - lastIndex) currentNumberOfSetBits)
      (if lastIndex ≤ index then index + 1 else lastIndex) (currentNumberOfSetBits + 1)

/-- The inner loop of lines 376-380 over the positions `i, ..., i + count - 1`
of one selected row: every entry whose column is selected is added to `result`
in row `rowCount`, at the column `bitsSetBeforeIndex` gives.  An exception of
`addNextValue` leaves the function. -/
def getSubmatrix_copyRow {T : Type} (m : SparseMatrix T) (constraint : BitVector)
    (bitsSetBeforeIndex : List Nat) (rowCount : Nat) :
    Nat → Nat → SparseMatrix T → Except Exception (SparseMatrix T)
  | _, 0, result => .ok result
  | i, count + 1, result =>
    match readAt m.columnIndications i with
    | none => .error .OutOfBoundsAccess
    | some column =>
      match constraint.get column with
      | none => .error .OutOfBoundsAccess
      | some false => getSubmatrix_copyRow m constraint bitsSetBeforeIndex rowCount (i + 1) count result
      | some true =>
        match readAt bitsSetBeforeIndex column, readAt m.valueStorage i with
        | some newColumn, some value =>
          match result.addNextValue rowCount newColumn value with
          | .error (e, _) => .error e
          | .ok result1 =>
            getSubmatrix_copyRow m constraint bitsSetBeforeIndex rowCount (i + 1) count result1
        | _, _ => .error .OutOfBoundsAccess

/-- The loop of lines 375-383 over the selected rows, with the local counter
`rowCount` of the rows copied so far. -/
def getSubmatrix_copy {T : Type} (m : SparseMatrix T) (constraint : BitVector)
    (bitsSetBeforeIndex : List Nat) :
    List Nat → Nat → SparseMatrix T → Except Exception (SparseMatrix T)
  | [], _, result => .ok result
  | rowIndex :: rest, rowCount, result =>
    match readAt m.rowIndications rowIndex, readAt m.rowIndications (rowIndex + 1) with
    | some s, some e =>
      match getSubmatrix_copyRow m constraint bitsSetBeforeIndex rowCount s (e - s) result with
      | .error e => .error e
      | .ok result1 => getSubmatrix_copy m constraint bitsSetBeforeIndex rest (rowCount + 1) result1
    | _, _ => .error .OutOfBoundsAccess

/-- Lines 337-388, `SparseMatrix::getSubmatrix(constraint)`.  The result is
created by the constructor `SparseMatrix(size, entries)` of lines 109-112, which
is `SparseMatrix(size, size, entries)`. -/
def SparseMatrix.getSubmatrix {T : Type} [Zero T] (m : SparseMatrix T) (constraint : BitVector) :
    Except Exception (SparseMatrix T) :=
  if constraint.getNumberOfSetBits = 0 then .error .InvalidArgumentException
  else
    match getSubmatrix_count m constraint constraint.setBits 0 with
    | none => .error .OutOfBoundsAccess
    | some subEntries =>
      match getSubmatrix_copy m constraint
          (getSubmatrix_bitsSetBeforeIndex constraint.setBits [] 0 0) constraint.setBits 0
          (SparseMatrix.create constraint.getNumberOfSetBits constraint.getNumberOfSetBits
            subEntries) with
      | .error e => .error e
      | .ok result =>
        match result.finalize with
        | .error (e, _) => .error e
        | .ok result1 => .ok result1

/-- The number of members of a mask below `k`: the new index of `k`. -/
def BitVector.rank (b : BitVector) (k : Nat) : Nat := (b.setBits.filter (fun i => i < k)).length

/-- The order the construction protocol asks for: position `(r, c)` does not
come after `(r', c')`. -/
def PositionLE (p q : Nat × Nat) : Prop := p.1 < q.1 ∨ (p.1 = q.1 ∧ p.2 ≤ q.2)

/-- What a caller of a throwing member function sees when it lets the exception
pass: the exception without the state of the object that threw. -/
def dropState {T : Type} (r : Result T) : Except Exception (SparseMatrix T) :=
  match r with
  | .ok m => .ok m
  | .error (e, _) => .error e

/-- The calls of `addNextValue` that the copy loop of `getSubmatrix(constraint)`
makes for one row of the source: an entry `(c, v)` with `c` in the mask becomes
the call `(newRow, rank(c), v)`. -/
def selectedEntries {T : Type} (constraint : BitVector) (newRow : Nat) (es : List (Nat × T)) :
    List (Entry T) :=
  (es.filter (fun e => constraint.bits[e.1]? = some true)).map
    (fun e => (newRow, constraint.rank e.1, e.2))

/-- The calls of `addNextValue` that the copy loop makes for the source rows
`rowIndices`, which become the rows `newRow, newRow + 1, ...` of the result. -/
def copiedEntries {T : Type} (constraint : BitVector) (rows : Nat → List (Nat × T)) :
    List Nat → Nat → List (Entry T)
  | [], _ => []
  | rowIndex :: rest, newRow =>
    selectedEntries constraint newRow (rows rowIndex) ++
      copiedEntries constraint rows rest (newRow + 1)

/-- Modelled from the spec: the EliminationGraph (the classes
`FlexibleSparseMatrix` and `PrioritizedStateEliminator` that
`solveEquationSystem` uses are not part of the sources), "per-row forward
adjacency (successor column → weight) and, in the transpose copy, backward
adjacency (predecessor row → weight)", built once from a finalized matrix and
its transpose. -/
structure EliminationGraph (T : Type) where
  forward : List (List (Nat × T))
  backward : List (List (Nat × T))

/-- The rows `0, ..., rowCount - 1` of a matrix as adjacency lists. -/
def SparseMatrix.adjacency {T : Type} (m : SparseMatrix T) :
    Except Exception (List (List (Nat × T))) :=
  (List.range m.rowCount).mapM (fun r => m.getRow r)

/-- Modelled from the spec: the weight of the edge to `t` in an adjacency list,
"possibly absent ⇒ 0". -/
def edgeWeight {T : Type} [Zero T] (row : List (Nat × T)) (t : Nat) : T :=
  match row.find? (fun e => e.1 = t) with
  | some e => e.2
  | none => 0

/-- Modelled from the spec: `mergeEdge` on one adjacency list, "creates or
adds": the weight is added to the edge to `t` when there is one ("summing if
(u,t) already exists"), otherwise the edge is created. -/
def mergeInto {T : Type} [Add T] (row : List (Nat × T)) (t : Nat) (weight : T) :
    List (Nat × T) :=
  match row with
  | [] => [(t, weight)]
  | (c, w) :: rest =>
    if c = t then (c, w + weight) :: rest else (c, w) :: mergeInto rest t weight

/-- Modelled from the spec: `mergeEdge(u, t, Δweight)`, in the forward list of
`u` and in the backward list of `t`. -/
def EliminationGraph.mergeEdge {T : Type} [Add T] (g : EliminationGraph T) (u t : Nat)
    (weight : T) : EliminationGraph T :=
  { forward := g.forward.modify (fun row => mergeInto row t weight) u
    backward := g.backward.modify (fun row => mergeInto row u weight) t }

/-- Modelled from the spec: `removeState(state)`, "remove s and all its incident
edges from both the forward and backward adjacency". -/
def EliminationGraph.removeState {T : Type} (g : EliminationGraph T) (s : Nat) :
    EliminationGraph T :=
  { forward := (g.forward.map (fun row => row.filter (fun e => e.1 ≠ s))).modify (fun _ => []) s
    backward := (g.backward.map (fun row => row.filter (fun e => e.1 ≠ s))).modify
      (fun _ => []) s }

/-- Modelled from the spec: the state-elimination step of section 4.2, step 6.
With `p = weight(s→s)` and `scale = 1/(1−p)`, for every predecessor `u` of `s`
with weight `w_us` and every successor `t ≠ s` with weight `w_st` the weight
`w_us · scale · w_st` is merged into the edge `(u, t)`, and `x[u]` grows by
`w_us · scale · x[s]`; then `s` and its edges are removed.  A state with a
self-loop is one of its own predecessors.  For `p = 1` the scale is undefined
and the step yields nothing. -/
def EliminationGraph.eliminateState {T : Type} [Field T] [DecidableEq T]
    (g : EliminationGraph T) (x : List T) (s : Nat) : Option (EliminationGraph T × List T) :=
  if 1 - edgeWeight (g.forward.getD s []) s = 0 then none
  else
    some
      (((g.backward.getD s []).foldl
          (fun g1 pred =>
            ((g.forward.getD s []).filter (fun e => e.1 ≠ s)).foldl
              (fun g2 succ =>
                g2.mergeEdge pred.1 succ.1
                  (pred.2 * (1 / (1 - edgeWeight (g.forward.getD s []) s)) * succ.2))
              g1)
          g).removeState s,
        (g.backward.getD s []).foldl
          (fun x1 pred =>
            x1.modify
              (fun v => v + pred.2 * (1 / (1 - edgeWeight (g.forward.getD s []) s)) *
                x.getD s 0) pred.1)
          x)

/-- The elimination loop of lines 92-95: `order` is the sequence in which the
priority queue pops the states.  The first state whose elimination is undefined
ends the loop. -/
def eliminateStates {T : Type} [Field T] [DecidableEq T] :
    EliminationGraph T → List T → List Nat → Except Nat (List T)
  | _, x, [] => .ok x
  | g, x, state :: rest =>
    match g.eliminateState x state with
    | none => .error state
    | some (g1, x1) => eliminateStates g1 x1 rest

/-- How a call of `solveEquationSystem` can fail: with an exception or an access
outside a vector in one of the matrix operations, or at the elimination of a
state whose scale factor is undefined. -/
inductive SolverFailure where
  | matrix (e : Exception)
  | undefinedScale (state : Nat)
  deriving DecidableEq

/-- Lines 46-101, `EliminationLinearEquationSolver::solveEquationSystem(x, b)`
for a solver on the matrix `A`: `hasLocalA` tells whether the solver owns its
matrix (`localA`) or borrows the caller's.  The matrix is converted back to the
probability matrix (in place when owned, in a copy otherwise), transposed, `x`
is set to `b`, the graph is built, the states are eliminated in the order the
priority queue pops them, and an owned matrix is converted again.

Modelled from the spec: the EliminationOrder (the priority queue and the
functions that compute its priorities are not part of the sources) "produces the
sequence in which states are removed", each state once; that sequence is the
argument `order`.

The result is `x` and the matrix the solver holds after the call. -/
def solveEquationSystem {T : Type} [Field T] [DecidableEq T] [LT T]
    [DecidableRel (fun (a b : T) => a < b)] (A : SparseMatrix T) (hasLocalA : Bool)
    (b : List T) (order : List Nat) : Except SolverFailure (List T × SparseMatrix T) :=
  match A.convertToEquationSystem with
  | .error (e, _) => .error (.matrix e)
  | .ok transitionMatrix =>
    match transitionMatrix.transpose with
    | .error e => .error (.matrix e)
    | .ok backwardTransitions =>
      match transitionMatrix.adjacency, backwardTransitions.adjacency with
      | .ok forward, .ok backward =>
        match eliminateStates { forward := forward, backward := backward } b order with
        | .error state => .error (.undefinedScale state)
        | .ok x =>
          if hasLocalA then
            match transitionMatrix.convertToEquationSystem with
            | .error (e, _) => .error (.matrix e)
            | .ok restored => .ok (x, restored)
          else .ok (x, A)
      | .error e, _ => .error (.matrix e)
      | _, .error e => .error (.matrix e)

/-- The equation matrix `A = I - P` of the chain `P = [[1/2, 1/2], [0, 1]]`, as
`convertToEquationSystem()` produces it from the stored entries `(0, 0, 1/2)`,
`(0, 1, 1/2)`, `(1, 1, 1)` of `P`: the diagonal of row 1 is a stored zero. -/
def exampleAbsorbingChain : SparseMatrix ℚ :=
  { rowCount := 2, columnCount := 2, entryCount := 3, storagePreallocated := true,
    valueStorage := [1/2, -1/2, 0], columnIndications := [0, 1, 1],
    rowIndications := [0, 2, 3], internalStatus := .INITIALIZED, currentEntryCount := 3,
    lastRow := 1, lastColumn := 1 }

/-- The equation matrix `A = I - P` of the transient part `P = [[1/2]]` of the
chain. -/
def exampleTransientPart : SparseMatrix ℚ :=
  { rowCount := 1, columnCount := 1, entryCount := 1, storagePreallocated := true,
    valueStorage := [1/2], columnIndications := [0], rowIndications := [0, 1],
    internalStatus := .INITIALIZED, currentEntryCount := 1, lastRow := 0, lastColumn := 0 }

/-- The matrix `I - P` of the chain `P = [[1/2, 1/2], [0, 1]]` without the zero on
the diagonal of row 1: only the non-zero entries are stored. -/
def exampleAbsorbingChainSparse : SparseMatrix ℚ :=
  { rowCount := 2, columnCount := 2, entryCount := 2, storagePreallocated := true,
    valueStorage := [1/2, -1/2], columnIndications := [0, 1],
    rowIndications := [0, 2, 2], internalStatus := .INITIALIZED, currentEntryCount := 2,
    lastRow := 0, lastColumn := 1 }

/-- The probability matrix `P = [[1/2, 1/2], [0, 1]]` with the stored entries
`(0, 0, 1/2)`, `(0, 1, 1/2)`, `(1, 1, 1)`. -/
def exampleAbsorbingChainP : SparseMatrix ℚ :=
  { exampleAbsorbingChain with valueStorage := [1/2, 1/2, 1] }

/-- The equation matrix `[[1/2, -1/2], [0, 1]]`: the chain of
`exampleAbsorbingChain` with the absorbing state given by the equation
`x[1] = b[1]` (no self-loop in the probability matrix). -/
def exampleIdentityRow : SparseMatrix ℚ :=
  { exampleAbsorbingChain with valueStorage := [1/2, -1/2, 1] }

/-- The graph and the vector after the states of a list have been eliminated one
after the other with `eliminateState`; nothing when one of these steps is
undefined. -/
def eliminatePrefix {T : Type} [Field T] [DecidableEq T] :
    EliminationGraph T → List T → List Nat → Option (EliminationGraph T × List T)
  | g, x, [] => some (g, x)
  | g, x, state :: rest =>
    match g.eliminateState x state with
    | none => none
    | some (g1, x1) => eliminatePrefix g1 x1 rest
/-- The graph of the chain `P = [[1/2, 1/2], [0, 1]]`: the rows of `P` and of its
transpose as adjacency lists. -/
def exampleAbsorbingChainGraph : EliminationGraph ℚ :=
  { forward := [[(0, 1/2), (1, 1/2)], [(1, 1)]],
    backward := [[(0, 1/2)], [(0, 1/2), (1, 1)]] }

/-- The state of `SparseMatrix<int>(2, 2, 2)` after `addNextValue(0, 0, 5)` and
`addNextValue(1, 1, 7)`, before `finalize()`: the start of row 1 is written, the
sentinel is not. -/
def exampleUnfinalized : SparseMatrix Int :=
  { rowCount := 2, columnCount := 2, entryCount := 2, storagePreallocated := true,
    valueStorage := [5, 7], columnIndications := [0, 1], rowIndications := [0, 1, 0],
    internalStatus := .UNINITIALIZED, currentEntryCount := 2, lastRow := 1, lastColumn := 1 }

/-- Modelled from the spec: `initialize(entries)`, which line 649 of
`getJacobiDecomposition` calls on a matrix under construction and which the
sources do not define (SparseMatrix.h is not part of them).  The comment of
line 648, "no entries apart from those on the diagonal (rowCount)", gives its
meaning: it declares the number of entries, for which the three arrays are
"sized up front".  (The name of the definition has a suffix because the plain
word is a keyword of Lean.) -/
def SparseMatrix.initializeEntries {T : Type} [Zero T] (m : SparseMatrix T) (entries : Nat) :
    SparseMatrix T :=
  prepareInternalStorage { m with entryCount := entries } initializeElementsDefault

/-- Modelled from the spec: `getValue(row, column)`, which lines 656-657 of
`getJacobiDecomposition` call and which the sources do not define.  Line 657
assigns to its result, so it yields a reference to a stored value: the model
yields the storage position of the value of the first entry of the row ("matrix
entry: (value, column)") at that column.  Without such an entry there is no
value to refer to, which the model reports as an access outside the storage. -/
def SparseMatrix.getValue {T : Type} (m : SparseMatrix T) (row column : Nat) :
    Except Exception Nat :=
  match readAt m.rowIndications row, readAt m.rowIndications (row + 1) with
  | some rowStart, some rowEnd =>
    match findDiagonal m.columnIndications column rowStart (rowEnd - rowStart) with
    | some position => .ok position
    | none => .error .OutOfBoundsAccess
  | _, _ => .error .OutOfBoundsAccess

/-- How a call of `getJacobiDecomposition` can fail: with an exception or an
access outside a vector in one of the matrix operations, or at the division
`constOne / value` by a diagonal value zero, which exact arithmetic leaves
undefined. -/
inductive DecompositionFailure where
  | matrix (e : Exception)
  | divisionByZero (row : Nat)
  deriving DecidableEq

/-- The loop of lines 655-658 of `getJacobiDecomposition` over the rows
`i, ..., i + count - 1`:
`resultDinv.addNextValue(i, i, constOne / resultLU.getValue(i, i));
resultLU.getValue(i, i) = 0`. -/
def getJacobiDecomposition_loop {T : Type} [Field T] [DecidableEq T]
    (resultLU resultDinv : SparseMatrix T) (i : Nat) :
    Nat → Except DecompositionFailure (SparseMatrix T × SparseMatrix T)
  | 0 => .ok (resultLU, resultDinv)
  | count + 1 =>
    match resultLU.getValue i i with
    | .error e => .error (.matrix e)
    | .ok position =>
      match readAt resultLU.valueStorage position with
      | none => .error (.matrix .OutOfBoundsAccess)
      | some value =>
        if value = 0 then .error (.divisionByZero i)
        else
          match resultDinv.addNextValue i i (1 / value) with
          | .error (e, _) => .error (.matrix e)
          | .ok resultDinv1 =>
            match resultLU.getValue i i with
            | .error e => .error (.matrix e)
            | .ok position1 =>
              match writeAt resultLU.valueStorage position1 0 with
              | none => .error (.matrix .OutOfBoundsAccess)
              | some values =>
                getJacobiDecomposition_loop { resultLU with valueStorage := values }
                  resultDinv1 (i + 1) count

/-- Lines 639-662, `SparseMatrix::getJacobiDecomposition()`, a `const` member
function: it yields the pair `(resultLU, resultDinv)` and leaves the matrix it
is called on as it is.  `resultLU` starts as a copy of the matrix.  The
declaration `SparseMatrix<T> resultDinv(rowCount, colCount)` of line 646 has two
arguments, so it is the constructor `SparseMatrix(size, entries)` of lines
109-112: a matrix with `rowCount` rows and columns and `colCount` declared
entries. -/
def SparseMatrix.getJacobiDecomposition {T : Type} [Field T] [DecidableEq T]
    (m : SparseMatrix T) : Except DecompositionFailure (SparseMatrix T × SparseMatrix T) :=
  if m.rowCount ≠ m.columnCount then .error (.matrix .InvalidArgumentException)
  else
    match getJacobiDecomposition_loop m
        ((SparseMatrix.create m.rowCount m.rowCount m.columnCount).initializeEntries m.rowCount)
        0 m.rowCount with
    | .error e => .error e
    | .ok (resultLU, resultDinv) =>
      match resultDinv.finalize with
      | .error (e, _) => .error (.matrix e)
      | .ok resultDinv1 => .ok (resultLU, resultDinv1)

/-- The finalized 1x2 matrix with the entries `(0, 0, 1/2)`, `(0, 1, 1/2)`. -/
def exampleRectangular : SparseMatrix ℚ :=
  { rowCount := 1, columnCount := 2, entryCount := 2, storagePreallocated := true,
    valueStorage := [1/2, 1/2], columnIndications := [0, 1], rowIndications := [0, 2],
    internalStatus := .INITIALIZED, currentEntryCount := 2, lastRow := 0, lastColumn := 1 }

/-- The finalized 2x2 matrix with the entries `(0, 0, 2)`, `(0, 1, 3)`,
`(1, 0, 5)`, `(1, 1, 4)`. -/
def exampleJacobi : SparseMatrix ℚ :=
  { rowCount := 2, columnCount := 2, entryCount := 4, storagePreallocated := true,
    valueStorage := [2, 3, 5, 4], columnIndications := [0, 1, 0, 1],
    rowIndications := [0, 2, 4], internalStatus := .INITIALIZED, currentEntryCount := 4,
    lastRow := 1, lastColumn := 1 }

/-- The finalized 1x1 matrix with the two entries `(0, 0, 2)`, `(0, 0, 3)` at the
same position. -/
def exampleDuplicateDiagonal : SparseMatrix ℚ :=
  { rowCount := 1, columnCount := 1, entryCount := 2, storagePreallocated := true,
    valueStorage := [2, 3], columnIndications := [0, 0], rowIndications := [0, 2],
    internalStatus := .INITIALIZED, currentEntryCount := 2, lastRow := 0, lastColumn := 0 }

/-- The entry of row `i` of `resultLU` that stems from the entry `e` of the
source row: a diagonal value becomes zero, every other entry stays. -/
def zeroDiagonalEntry {T : Type} [Zero T] (i : Nat) (e : Nat × T) : Nat × T :=
  if e.1 = i then (e.1, 0) else e

/-- Modelled from the spec: `BitVector::operator|=` (src/storage/BitVector.h, not
part of the sources), the bitwise or of two bitsets of the same size. -/
def BitVector.or (a b : BitVector) : BitVector :=
  { bits := List.zipWith (fun x y => x || y) a.bits b.bits }

/-- The difference `a - b` of two `uint_fast64_t` values, which wraps around
below zero. -/
def difference64 (a b : Nat) : Nat := if b ≤ a then a - b else a + 2 ^ 64 - b

/-- The innermost loop of lines 405-413 of the row-group `getSubmatrix`, over the
positions `j, ..., j + count - 1` of one row: count the entries whose column is
selected and note whether one of them has the column `index`. -/
def getSubmatrix_rowGroups_countRow (columnIndications : List Nat) (columnConstraint : BitVector)
    (index : Nat) : Nat → Nat → Nat → Bool → Option (Nat × Bool)
  | _, 0, subEntries, foundDiagonalElement => some (subEntries, foundDiagonalElement)
  | j, count + 1, subEntries, foundDiagonalElement =>
    match readAt columnIndications j with
    | none => none
    | some column =>
      match columnConstraint.get column with
      | none => none
      | some false =>
        getSubmatrix_rowGroups_countRow columnIndications columnConstraint index (j + 1) count
          subEntries foundDiagonalElement
      | some true =>
        getSubmatrix_rowGroups_countRow columnIndications columnConstraint index (j + 1) count
          (subEntries + 1) (if index = column then true else foundDiagonalElement)

/-- The loop of lines 402-419 over the rows `i, ..., i + count - 1` of the row
group `index`: the selected entries of every row are counted, and one more for
a row without a diagonal entry if these are to be inserted. -/
def getSubmatrix_rowGroups_countGroup {T : Type} (m : SparseMatrix T)
    (columnConstraint : BitVector) (insertDiagonalEntries : Bool) (index : Nat) :
    Nat → Nat → Nat → Option Nat
  | _, 0, subEntries => some subEntries
  | i, count + 1, subEntries =>
    match readAt m.rowIndications i, readAt m.rowIndications (i + 1) with
    | some s, some e =>
      match getSubmatrix_rowGroups_countRow m.columnIndications columnConstraint index s (e - s)
          subEntries false with
      | none => none
      | some (n, foundDiagonalElement) =>
        getSubmatrix_rowGroups_countGroup m columnConstraint insertDiagonalEntries index (i + 1)
          count (if insertDiagonalEntries && !foundDiagonalElement then n + 1 else n)
    | _, _ => none

/-- The loop of lines 400-420 over the selected row groups; yields `subEntries`
and `subRows`. -/
def getSubmatrix_rowGroups_count {T : Type} (m : SparseMatrix T) (columnConstraint : BitVector)
    (rowGroupIndices : List Nat) (insertDiagonalEntries : Bool) :
    List Nat → Nat → Nat → Option (Nat × Nat)
  | [], subEntries, subRows => some (subEntries, subRows)
  | index :: rest, subEntries, subRows =>
    match readAt rowGroupIndices (index + 1), readAt rowGroupIndices index with
    | some groupEnd, some groupStart =>
      match getSubmatrix_rowGroups_countGroup m columnConstraint insertDiagonalEntries index
          groupStart (groupEnd - groupStart) subEntries with
      | none => none
      | some n =>
        getSubmatrix_rowGroups_count m columnConstraint rowGroupIndices insertDiagonalEntries
          rest n ((subRows + difference64 groupEnd groupStart) % 2 ^ 64)
    | _, _ => none

/-- Lines 456-461 of the copy loop, for a selected entry with the column
`column`: an entry on the diagonal sets the flag; the first entry beyond the
diagonal, when none has been seen or inserted, is preceded by an inserted
zero at the diagonal. -/
def getSubmatrix_rowGroups_insertDiagonal {T : Type} [Zero T] (bitsSetBeforeIndex : List Nat)
    (insertDiagonalEntries : Bool) (index rowCount column : Nat) (result : SparseMatrix T)
    (insertedDiagonalElement : Bool) : Except Exception (SparseMatrix T × Bool) :=
  if index = column then .ok (result, true)
  else if insertDiagonalEntries && !insertedDiagonalElement && decide (column > index) then
    match readAt bitsSetBeforeIndex index with
    | none => .error .OutOfBoundsAccess
    | some newColumn =>
      match result.addNextValue rowCount newColumn 0 with
      | .error (e, _) => .error e
      | .ok result1 => .ok (result1, true)
  else .ok (result, insertedDiagonalElement)

/-- The innermost loop of lines 454-464 over the positions `j, ..., j + count - 1`
of one row of the row group `index`, which becomes row `rowCount` of the
result. -/
def getSubmatrix_rowGroups_copyRow {T : Type} [Zero T] (m : SparseMatrix T)
    (columnConstraint : BitVector) (bitsSetBeforeIndex : List Nat) (insertDiagonalEntries : Bool)
    (index rowCount : Nat) :
    Nat → Nat → SparseMatrix T → Bool → Except Exception (SparseMatrix T × Bool)
  | _, 0, result, insertedDiagonalElement => .ok (result, insertedDiagonalElement)
  | j, count + 1, result, insertedDiagonalElement =>
    match readAt m.columnIndications j with
    | none => .error .OutOfBoundsAccess
    | some column =>
      match columnConstraint.get column with
      | none => .error .OutOfBoundsAccess
      | some false =>
        getSubmatrix_rowGroups_copyRow m columnConstraint bitsSetBeforeIndex
          insertDiagonalEntries index rowCount (j + 1) count result insertedDiagonalElement
      | some true =>
        match getSubmatrix_rowGroups_insertDiagonal bitsSetBeforeIndex insertDiagonalEntries
            index rowCount column result insertedDiagonalElement with
        | .error e => .error e
        | .ok (result1, inserted1) =>
          match readAt bitsSetBeforeIndex column, readAt m.valueStorage j with
          | some newColumn, some value =>
            match result1.addNextValue rowCount newColumn value with
            | .error (e, _) => .error e
            | .ok result2 =>
              getSubmatrix_rowGroups_copyRow m columnConstraint bitsSetBeforeIndex
                insertDiagonalEntries index rowCount (j + 1) count result2 inserted1
          | _, _ => .error .OutOfBoundsAccess

/-- Lines 465-467 of the copy loop, after the entries of a row: a zero is added
at the diagonal when the row has not received its diagonal entry. -/
def getSubmatrix_rowGroups_finishRow {T : Type} [Zero T] (bitsSetBeforeIndex : List Nat)
    (insertDiagonalEntries : Bool) (index rowCount : Nat) (result : SparseMatrix T)
    (insertedDiagonalElement : Bool) : Except Exception (SparseMatrix T) :=
  if insertDiagonalEntries && !insertedDiagonalElement then
    match readAt bitsSetBeforeIndex index with
    | none => .error .OutOfBoundsAccess
    | some newColumn =>
      match result.addNextValue rowCount newColumn 0 with
      | .error (e, _) => .error e
      | .ok result1 => .ok result1
  else .ok result

/-- The loop of lines 451-470 over the rows `i, ..., i + count - 1` of the row
group `index`: every row is copied and finished, and the row counter of the
result advances. -/
def getSubmatrix_rowGroups_copyGroup {T : Type} [Zero T] (m : SparseMatrix T)
    (columnConstraint : BitVector) (bitsSetBeforeIndex : List Nat) (insertDiagonalEntries : Bool)
    (index : Nat) :
    Nat → Nat → Nat → SparseMatrix T → Except Exception (SparseMatrix T × Nat)
  | _, 0, rowCount, result => .ok (result, rowCount)
  | i, count + 1, rowCount, result =>
    match readAt m.rowIndications i, readAt m.rowIndications (i + 1) with
    | some s, some e =>
      match getSubmatrix_rowGroups_copyRow m columnConstraint bitsSetBeforeIndex
          insertDiagonalEntries index rowCount s (e - s) result false with
      | .error e => .error e
      | .ok (result1, insertedDiagonalElement) =>
        match getSubmatrix_rowGroups_finishRow bitsSetBeforeIndex insertDiagonalEntries index
            rowCount result1 insertedDiagonalElement with
        | .error e => .error e
        | .ok result2 =>
          getSubmatrix_rowGroups_copyGroup m columnConstraint bitsSetBeforeIndex
            insertDiagonalEntries index (i + 1) count (rowCount + 1) result2
    | _, _ => .error .OutOfBoundsAccess

/-- The loop of lines 450-471 over the selected row groups. -/
def getSubmatrix_rowGroups_copy {T : Type} [Zero T] (m : SparseMatrix T)
    (columnConstraint : BitVector) (bitsSetBeforeIndex rowGroupIndices : List Nat)
    (insertDiagonalEntries : Bool) :
    List Nat → Nat → SparseMatrix T → Except Exception (SparseMatrix T)
  | [], _, result => .ok result
  | index :: rest, rowCount, result =>
    match readAt rowGroupIndices index, readAt rowGroupIndices (index + 1) with
    | some groupStart, some groupEnd =>
      match getSubmatrix_rowGroups_copyGroup m columnConstraint bitsSetBeforeIndex
          insertDiagonalEntries index groupStart (groupEnd - groupStart) rowCount result with
      | .error e => .error e
      | .ok (result1, rowCount1) =>
        getSubmatrix_rowGroups_copy m columnConstraint bitsSetBeforeIndex rowGroupIndices
          insertDiagonalEntries rest rowCount1 result1
    | _, _ => .error .OutOfBoundsAccess

/-- Lines 395-475, `SparseMatrix::getSubmatrix(rowGroupConstraint,
columnConstraint, rowGroupIndices, insertDiagonalEntries)`.  The function has no
check of the masks; the result is created by the constructor
`SparseMatrix(rows, columns, entries)`. -/
def SparseMatrix.getSubmatrix_columnConstraint {T : Type} [Zero T] (m : SparseMatrix T)
    (rowGroupConstraint columnConstraint : BitVector) (rowGroupIndices : List Nat)
    (insertDiagonalEntries : Bool) : Except Exception (SparseMatrix T) :=
  match getSubmatrix_rowGroups_count m columnConstraint rowGroupIndices insertDiagonalEntries
      rowGroupConstraint.setBits 0 0 with
  | none => .error .OutOfBoundsAccess
  | some (subEntries, subRows) =>
    match getSubmatrix_rowGroups_copy m columnConstraint
        (getSubmatrix_bitsSetBeforeIndex
          (if insertDiagonalEntries then columnConstraint.or rowGroupConstraint
            else columnConstraint).setBits [] 0 0)
        rowGroupIndices insertDiagonalEntries rowGroupConstraint.setBits 0
        (SparseMatrix.create subRows columnConstraint.getNumberOfSetBits subEntries) with
    | .error e => .error e
    | .ok result =>
      match result.finalize with
      | .error (e, _) => .error e
      | .ok result1 => .ok result1

/-- Lines 390-393, `SparseMatrix::getSubmatrix(rowGroupConstraint,
rowGroupIndices, insertDiagonalEntries)`: the row-group mask is the column mask
as well. -/
def SparseMatrix.getSubmatrix_rowGroups {T : Type} [Zero T] (m : SparseMatrix T)
    (rowGroupConstraint : BitVector) (rowGroupIndices : List Nat)
    (insertDiagonalEntries : Bool) : Except Exception (SparseMatrix T) :=
  m.getSubmatrix_columnConstraint rowGroupConstraint rowGroupConstraint rowGroupIndices
    insertDiagonalEntries

/-- The pairs `(group, row)` of the rows `i, ..., i + count - 1` of the row group
`index`. -/
def groupRows (index i count : Nat) : List (Nat × Nat) :=
  (List.range' i count).map (fun r => (index, r))

/-- The rows of the row groups of a list, as pairs `(group, row)` in the order in
which the loops of the row-group `getSubmatrix` visit them: group `index` holds
the rows `rowGroupIndices[index], ..., rowGroupIndices[index + 1] - 1`. -/
def selectedRows (rowGroupIndices : List Nat) : List Nat → List (Nat × Nat)
  | [] => []
  | index :: rest =>
    groupRows index (nth rowGroupIndices index)
      (nth rowGroupIndices (index + 1) - nth rowGroupIndices index) ++
      selectedRows rowGroupIndices rest

/-- The `(column, value)` pairs that the copy loop of the row-group
`getSubmatrix` with diagonal insertion adds to the result for one row of the row
group `index`, entry by entry as the loop runs; `inserted` is the flag
`insertedDiagonalElement`. -/
def diagonalRowCalls {T : Type} [Zero T] (constraint : BitVector) (index : Nat) :
    Bool → List (Nat × T) → List (Nat × T)
  | inserted, [] => if inserted then [] else [(constraint.rank index, 0)]
  | inserted, e :: rest =>
    if constraint.bits[e.1]? = some true then
      if index = e.1 then
        (constraint.rank e.1, e.2) :: diagonalRowCalls constraint index true rest
      else if inserted = false ∧ index < e.1 then
        (constraint.rank index, 0) :: (constraint.rank e.1, e.2) ::
          diagonalRowCalls constraint index true rest
      else (constraint.rank e.1, e.2) :: diagonalRowCalls constraint index inserted rest
    else diagonalRowCalls constraint index inserted rest

/-- The row of the submatrix with diagonal insertion that stems from a row `es`
of the row group `index`: the entries of `es` with column in the mask, remapped;
when none of them is on the diagonal, a zero at the diagonal is put between
those before and those after the diagonal. -/
def diagonalRow {T : Type} [Zero T] (constraint : BitVector) (index : Nat)
    (es : List (Nat × T)) : List (Nat × T) :=
  if (es.filter (fun e => constraint.bits[e.1]? = some true)).any (fun e => e.1 = index) then
    (es.filter (fun e => constraint.bits[e.1]? = some true)).map
      (fun e => (constraint.rank e.1, e.2))
  else
    ((es.filter (fun e => constraint.bits[e.1]? = some true)).filter
        (fun e => e.1 < index)).map (fun e => (constraint.rank e.1, e.2)) ++
      (constraint.rank index, 0) ::
      ((es.filter (fun e => constraint.bits[e.1]? = some true)).filter
        (fun e => index < e.1)).map (fun e => (constraint.rank e.1, e.2))

/-- The calls of `addNextValue` that the copy loop with diagonal insertion makes
for the rows `pairs` of the source, which become the rows `newRow, newRow + 1,
...` of the result. -/
def diagonalCalls {T : Type} [Zero T] (constraint : BitVector) (rows : Nat → List (Nat × T)) :
    List (Nat × Nat) → Nat → List (Entry T)
  | [], _ => []
  | p :: rest, newRow =>
    (diagonalRow constraint p.1 (rows p.2)).map (fun e => (newRow, e.1, e.2)) ++
      diagonalCalls constraint rows rest (newRow + 1)

/-- The equation matrix `A = I - P` of the matrix `P = [[1, 1], [1, 0]]`, all four
entries stored: state 0 has the self-loop 1. -/
def exampleSelfLoop : SparseMatrix ℚ :=
  { rowCount := 2, columnCount := 2, entryCount := 4, storagePreallocated := true,
    valueStorage := [0, -1, -1, 1], columnIndications := [0, 1, 0, 1],
    rowIndications := [0, 2, 4], internalStatus := .INITIALIZED, currentEntryCount := 4,
    lastRow := 1, lastColumn := 1 }

/-- The concatenation `rows i ++ rows (i + 1) ++ ... ++ rows (i + count - 1)`. -/
def joinRows {α : Type} (rows : Nat → List α) (i : Nat) : Nat → List α
  | 0 => []
  | count + 1 => rows i ++ joinRows rows (i + 1) count

/-- Lines 35-37 of stormpy/src/storage/matrix.cpp, the Python binding `get_row`
of `SparseMatrix<double>`, registered with the documentation string "Get row":
`return matrix.getRows(row, row+1);`.  The binding does not compute with the
values, so the value type stays a parameter. -/
def SparseMatrix.get_row {T : Type} (m : SparseMatrix T) (row : Nat) :
    Except Exception (List (Nat × T)) :=
  m.getRows row (row + 1)

/-- The loop of lines 814-816 of `isSubmatrixOf`,
`while (elem2 < matrix.rowIndications[row + 1] &&
matrix.columnIndications[elem2] < columnIndications[elem]) ++elem2;`, which
yields the final `elem2`.  `rowEnd2` is `matrix.rowIndications[row + 1]` and
`column` is `columnIndications[elem]`; the loop ends at `elem2 = rowEnd2` at the
latest, so it is run for at most `count = rowEnd2 - elem2` increments. -/
def isSubmatrixOf_skip (columnIndications2 : List Nat) (rowEnd2 column : Nat) :
    Nat → Nat → Option Nat
  | 0, elem2 => some elem2
  | count + 1, elem2 =>
    if elem2 < rowEnd2 then
      match readAt columnIndications2 elem2 with
      | none => none
      | some column2 =>
        if column2 < column then
          isSubmatrixOf_skip columnIndications2 rowEnd2 column count (elem2 + 1)
        else some elem2
    else some elem2

/-- The loop of lines 811-820 of `isSubmatrixOf` over the entries of one row,
run for `count` iterations from `elem` and `elem2`: skip the entries of the other
matrix with a smaller column, then `return false` (here `some false`) when that
row is exhausted or the columns differ.  `some true` stands for the normal end of
the loop. -/
def isSubmatrixOf_row (columnIndications columnIndications2 : List Nat) (rowEnd2 : Nat) :
    Nat → Nat → Nat → Option Bool
  | 0, _, _ => some true
  | count + 1, elem, elem2 =>
    if elem2 < rowEnd2 then
      match readAt columnIndications elem with
      | none => none
      | some column =>
        match isSubmatrixOf_skip columnIndications2 rowEnd2 column (rowEnd2 - elem2) elem2 with
        | none => none
        | some elem3 =>
          if elem3 < rowEnd2 then
            match readAt columnIndications2 elem3 with
            | none => none
            | some column2 =>
              if column ≠ column2 then some false
              else isSubmatrixOf_row columnIndications columnIndications2 rowEnd2 count
                (elem + 1) elem3
          else some false
    else some false

/-- The loop of lines 810-821 of `isSubmatrixOf` over the rows
`row, ..., row + count - 1`.  The inner loop runs while
`elem < rowIndications[row + 1] && elem < matrix.rowIndications[row + 1]`, that
is `min(rowIndications[row + 1], matrix.rowIndications[row + 1]) - elem` times;
the second row start is read only when the first comparison holds. -/
def isSubmatrixOf_rows {T : Type} (m matrix : SparseMatrix T) : Nat → Nat → Except Exception Bool
  | 0, _ => .ok true
  | count + 1, row =>
    match readAt m.rowIndications row, readAt matrix.rowIndications row,
        readAt m.rowIndications (row + 1) with
    | some elem, some elem2, some rowEnd =>
      if elem < rowEnd then
        match readAt matrix.rowIndications (row + 1) with
        | none => .error .OutOfBoundsAccess
        | some rowEnd2 =>
          match isSubmatrixOf_row m.columnIndications matrix.columnIndications rowEnd2
              (min rowEnd rowEnd2 - elem) elem elem2 with
          | none => .error .OutOfBoundsAccess
          | some false => .ok false
          | some true => isSubmatrixOf_rows m matrix count (row + 1)
      else isSubmatrixOf_rows m matrix count (row + 1)
    | _, _, _ => .error .OutOfBoundsAccess

/-- Lines 803-823, `SparseMatrix::isSubmatrixOf(matrix)`. -/
def SparseMatrix.isSubmatrixOf {T : Type} (m matrix : SparseMatrix T) : Except Exception Bool :=
  if m.rowCount ≠ matrix.rowCount then .ok false
  else if m.columnCount ≠ matrix.columnCount then .ok false
  else isSubmatrixOf_rows m matrix m.rowCount 0

/-- The test the inner loops of `isSubmatrixOf` perform on the columns `as` of a
row and the columns `bs` of the row of the other matrix: for each column of `as`
in turn, drop the smaller columns from the front of what is left of `bs`, and
ask for the column at the front. -/
def includedSorted : List Nat → List Nat → Bool
  | [], _ => true
  | c :: as, bs =>
    match bs.dropWhile (fun c2 => c2 < c) with
    | [] => false
    | c2 :: rest => if c ≠ c2 then false else includedSorted as (c2 :: rest)

/-- The inner loop of lines 673-683 of `getPointwiseProductRowSumVector` over
the entries of row `row`, run for `count` iterations from `element` and
`nextOtherElement`; `otherRowEnd` is `otherMatrix.rowIndications[row + 1]`.  An
entry of `this` whose column is smaller than the column of the next entry of the
other matrix is passed over; otherwise the product of the two values is added to
`result[row]` and the other matrix moves on. -/
def getPointwiseProductRowSumVector_row {T : Type} [Add T] [Mul T]
    (m otherMatrix : SparseMatrix T) (row otherRowEnd : Nat) :
    Nat → Nat → Nat → List T → Option (List T)
  | 0, _, _, result => some result
  | count + 1, element, nextOtherElement, result =>
    if nextOtherElement < otherRowEnd then
      match readAt m.columnIndications element,
          readAt otherMatrix.columnIndications nextOtherElement with
      | some column, some otherColumn =>
        if column < otherColumn then
          getPointwiseProductRowSumVector_row m otherMatrix row otherRowEnd count (element + 1)
            nextOtherElement result
        else
          match readAt otherMatrix.valueStorage nextOtherElement, readAt m.valueStorage element,
              readAt result row with
          | some otherValue, some value, some sum =>
            match writeAt result row (sum + otherValue * value) with
            | some result1 =>
              getPointwiseProductRowSumVector_row m otherMatrix row otherRowEnd count
                (element + 1) (nextOtherElement + 1) result1
            | none => none
          | _, _, _ => none
      | _, _ => none
    else some result

/-- The loop of lines 672-684 of `getPointwiseProductRowSumVector` over the rows
`row, ..., row + count - 1`.  The inner loop runs while
`element < rowIndications[row + 1]` and the other row is not exhausted, at most
`rowIndications[row + 1] - element` times; the row start
`otherMatrix.rowIndications[row + 1]` is read only when the first comparison
holds. -/
def getPointwiseProductRowSumVector_rows {T : Type} [Add T] [Mul T]
    (m otherMatrix : SparseMatrix T) : Nat → Nat → List T → Except Exception (List T)
  | 0, _, result => .ok result
  | count + 1, row, result =>
    match readAt m.rowIndications row, readAt otherMatrix.rowIndications row,
        readAt m.rowIndications (row + 1) with
    | some element, some nextOtherElement, some rowEnd =>
      if element < rowEnd then
        match readAt otherMatrix.rowIndications (row + 1) with
        | none => .error .OutOfBoundsAccess
        | some otherRowEnd =>
          match getPointwiseProductRowSumVector_row m otherMatrix row otherRowEnd
              (rowEnd - element) element nextOtherElement result with
          | none => .error .OutOfBoundsAccess
          | some result1 => getPointwiseProductRowSumVector_rows m otherMatrix count (row + 1) result1
      else getPointwiseProductRowSumVector_rows m otherMatrix count (row + 1) result
    | _, _, _ => .error .OutOfBoundsAccess

/-- Lines 664-687, `SparseMatrix::getPointwiseProductRowSumVector(otherMatrix)`:
the result vector has `rowCount` zeros, and the loop
`for (row = 0; row < rowCount && row < otherMatrix.rowCount; ++row)` runs
`min(rowCount, otherMatrix.rowCount)` times. -/
def SparseMatrix.getPointwiseProductRowSumVector {T : Type} [Zero T] [Add T] [Mul T]
    (m otherMatrix : SparseMatrix T) : Except Exception (List T) :=
  getPointwiseProductRowSumVector_rows m otherMatrix (min m.rowCount otherMatrix.rowCount) 0
    (List.replicate m.rowCount 0)

/-- What the inner loop of `getPointwiseProductRowSumVector` adds up for a row
`as` of `this` and a row `bs` of the other matrix, both given as lists of
`(column, value)` pairs, starting from `acc`. -/
def pointwiseProductSum {T : Type} [Add T] [Mul T] : T → List (Nat × T) → List (Nat × T) → T
  | acc, [], _ => acc
  | acc, _ :: _, [] => acc
  | acc, (c, v) :: as, (c2, v2) :: bs =>
    if c < c2 then pointwiseProductSum acc as ((c2, v2) :: bs)
    else pointwiseProductSum (acc + v2 * v) as bs

/-- The value a row, given as a list of `(column, value)` pairs, has at column
`j`: the sum of the values stored at that column. -/
def rowValue {T : Type} [Zero T] [Add T] (es : List (Nat × T)) (j : Nat) : T :=
  ((es.filter (fun e => e.1 = j)).map (fun e => e.2)).sum

/-- The finalized 2x2 matrix with the entries `(0, 1, 2)`, `(1, 1, 4)`. -/
def exampleSubPattern : SparseMatrix Int :=
  { rowCount := 2, columnCount := 2, entryCount := 2, storagePreallocated := true,
    valueStorage := [2, 4], columnIndications := [1, 1], rowIndications := [0, 1, 2],
    internalStatus := .INITIALIZED, currentEntryCount := 2, lastRow := 1, lastColumn := 1 }

/-! ## Theorems -/

theorem writeAt_eq_some {α : Type} {v v1 : List α} {i : Nat} {x : α} :
    writeAt v i x = some v1 ↔ i < v.length ∧ v1 = v.set i x := by
  unfold writeAt
  split_ifs with h
  · simp [h, eq_comm]
  · simp [h]

theorem writeAt_of_lt {α : Type} {v : List α} {i : Nat} (x : α) (h : i < v.length) :
    writeAt v i x = some (v.set i x) := by
  simp [writeAt, h]

theorem nth_of_getElem? {v : List Nat} {i s : Nat} (h : v[i]? = some s) : nth v i = s := by
  simp [nth, h]

theorem getElem?_eq_nth {v : List Nat} {i : Nat} (h : i < v.length) : v[i]? = some (nth v i) := by
  simp [nth, h]

theorem nth_set (v : List Nat) (i k x : Nat) :
    nth (v.set i x) k = if i = k ∧ k < v.length then x else nth v k := by
  unfold nth
  rw [List.getElem?_set]
  by_cases h : i = k
  · subst h
    by_cases h2 : i < v.length
    · simp [h2]
    · have h3 : v[i]? = none := List.getElem?_eq_none (by omega)
      simp [h2, h3]
  · simp [h]

theorem nth_append_of_lt (v w : List Nat) {k : Nat} (h : k < v.length) :
    nth (v ++ w) k = nth v k := by
  unfold nth
  rw [List.getElem?_append_left h]

theorem nth_replicate_zero (n k : Nat) : nth (List.replicate n 0) k = 0 := by
  unfold nth
  rw [List.getElem?_replicate]
  split_ifs <;> simp

theorem fillRowIndications_spec : ∀ (count : Nat) (ri : List Nat) (i x : Nat) (ri1 : List Nat),
    fillRowIndications ri i count x = some ri1 →
      ri1.length = ri.length ∧ (count ≠ 0 → i + count ≤ ri.length) ∧
      ∀ k, nth ri1 k = if i ≤ k ∧ k < i + count then x else nth ri k := by
  intro count
  induction count with
  | zero =>
    intro ri i x ri1 h
    simp only [fillRowIndications, Option.some.injEq] at h
    subst h
    refine ⟨rfl, by simp, ?_⟩
    intro k
    have : ¬ (i ≤ k ∧ k < i) := by omega
    simp [this]
  | succ n ih =>
    intro ri i x ri1 h
    simp only [fillRowIndications] at h
    cases hw : writeAt ri i x with
    | none => simp [hw] at h
    | some v =>
      simp only [hw] at h
      obtain ⟨hlt, rfl⟩ := writeAt_eq_some.1 hw
      obtain ⟨h1, h2, h3⟩ := ih _ _ _ _ h
      simp only [List.length_set] at h1 h2
      refine ⟨h1, ?_, ?_⟩
      · intro _
        by_cases hn : n = 0
        · subst hn; omega
        · have := h2 hn; omega
      · intro k
        rw [h3 k, nth_set]
        by_cases hk : i = k
        · subst hk
          simp [hlt]
        · by_cases hk2 : i + 1 ≤ k ∧ k < i + 1 + n
          · have : i ≤ k ∧ k < i + (n + 1) := by omega
            simp [hk2, this]
          · have : ¬ (i ≤ k ∧ k < i + (n + 1)) := by omega
            simp [hk2, this, hk]

theorem fillRowIndications_of_le : ∀ (count : Nat) (ri : List Nat) (i x : Nat),
    i + count ≤ ri.length → ∃ ri1, fillRowIndications ri i count x = some ri1 := by
  intro count
  induction count with
  | zero => intro ri i x _; exact ⟨ri, rfl⟩
  | succ n ih =>
    intro ri i x h
    simp only [fillRowIndications]
    rw [writeAt_of_lt x (by omega)]
    exact ih _ _ _ (by simp; omega)

theorem pushRowIndications_eq : ∀ (count : Nat) (ri : List Nat) (x : Nat),
    pushRowIndications ri count x = ri ++ List.replicate count x := by
  intro count
  induction count with
  | zero => intro ri x; simp [pushRowIndications]
  | succ n ih =>
    intro ri x
    simp only [pushRowIndications]
    rw [ih, List.append_assoc, List.replicate_succ]
    rfl

theorem addNextValue_switchRow_frame {T : Type} {m m1 : SparseMatrix T} {row : Nat}
    (h : addNextValue_switchRow m row = some m1) :
    m1.lastRow = row ∧ m1.rowCount = m.rowCount ∧ m1.columnCount = m.columnCount ∧
    m1.entryCount = m.entryCount ∧ m1.storagePreallocated = m.storagePreallocated ∧
    m1.valueStorage = m.valueStorage ∧ m1.columnIndications = m.columnIndications ∧
    m1.internalStatus = m.internalStatus ∧ m1.currentEntryCount = m.currentEntryCount ∧
    m1.lastColumn = m.lastColumn := by
  unfold addNextValue_switchRow at h
  split_ifs at h with h1 h2
  · split at h
    · cases h; simp
    · cases h
  · cases h; simp
  · cases h; simp at h1; simp [h1]

theorem addNextValue_store_frame {T : Type} {m m2 : SparseMatrix T} {column : Nat} {value : T}
    (h : addNextValue_store m column value = some m2) :
    m2.lastColumn = column ∧ m2.lastRow = m.lastRow ∧ m2.rowCount = m.rowCount ∧
    m2.columnCount = m.columnCount ∧ m2.entryCount = m.entryCount ∧
    m2.storagePreallocated = m.storagePreallocated ∧
    m2.rowIndications = m.rowIndications ∧ m2.internalStatus = m.internalStatus := by
  unfold addNextValue_store at h
  split_ifs at h with h1
  · split at h
    · cases h
    · split at h
      · cases h
      · cases h; simp
  · cases h; simp

theorem addNextValue_eq_ok_iff {T : Type} {m m2 : SparseMatrix T} {row column : Nat} {value : T} :
    m.addNextValue row column value = .ok m2 ↔
      ¬(m.storagePreallocated = true ∧ (row > m.rowCount ∨ column > m.columnCount)) ∧
      ¬row < m.lastRow ∧ ¬(row = m.lastRow ∧ column < m.lastColumn) ∧
      ∃ m1, addNextValue_switchRow m row = some m1 ∧ addNextValue_store m1 column value = some m2 := by
  unfold SparseMatrix.addNextValue
  split_ifs with h1 h2 h3
  · simp [h1]
  · simp [h2]
  · simp [h3]
  · cases hs : addNextValue_switchRow m row with
    | none => simp [h1, h2, h3]
    | some m1 =>
      cases hst : addNextValue_store m1 column value with
      | none => simp [h1, h2, h3, hst]
      | some m3 => simp [h1, h2, h3, hst]

theorem addNextValue_ok_fields {T : Type} {m0 m : SparseMatrix T} {r c : Nat} {v : T}
    (h : m0.addNextValue r c v = .ok m) :
    m.lastRow = r ∧ m.lastColumn = c ∧ m.rowCount = m0.rowCount ∧
    m.columnCount = m0.columnCount ∧ m.entryCount = m0.entryCount ∧
    m.storagePreallocated = m0.storagePreallocated ∧ m.internalStatus = m0.internalStatus ∧
    (m0.storagePreallocated = true → r ≤ m0.rowCount ∧ c ≤ m0.columnCount) := by
  obtain ⟨h1, -, -, m1, hs, hst⟩ := addNextValue_eq_ok_iff.1 h
  have a := addNextValue_switchRow_frame hs
  have b := addNextValue_store_frame hst
  obtain ⟨a1, a2, a3, a4, a5, a6, a7, a8, a9, a10⟩ := a
  obtain ⟨b1, b2, b3, b4, b5, b6, b7, b8⟩ := b
  refine ⟨by omega, b1, by omega, by omega, by omega, by rw [b6, a5], by rw [b8, a8], ?_⟩
  intro hp
  simp only [hp, true_and, not_or, not_lt, gt_iff_lt] at h1
  exact h1

theorem findDiagonal_some : ∀ (count : Nat) (cols : List Nat) (row s p : Nat),
    findDiagonal cols row s count = some p →
      s ≤ p ∧ p < s + count ∧ cols[p]? = some row ∧ ∀ k, s ≤ k → k < p → cols[k]? ≠ some row := by
  intro count
  induction count with
  | zero => intro cols row s p h; simp [findDiagonal] at h
  | succ n ih =>
    intro cols row s p h
    simp only [findDiagonal] at h
    split_ifs at h with hc
    · cases h
      exact ⟨le_refl _, by omega, hc, fun k h1 h2 => by omega⟩
    · obtain ⟨h1, h2, h3, h4⟩ := ih _ _ _ _ h
      refine ⟨by omega, by omega, h3, ?_⟩
      intro k hk1 hk2
      by_cases hks : k = s
      · subst hks; exact hc
      · exact h4 k (by omega) hk2

theorem findDiagonal_none : ∀ (count : Nat) (cols : List Nat) (row s : Nat),
    findDiagonal cols row s count = none → ∀ k, s ≤ k → k < s + count → cols[k]? ≠ some row := by
  intro count
  induction count with
  | zero => intro cols row s _ k h1 h2; omega
  | succ n ih =>
    intro cols row s h k hk1 hk2
    simp only [findDiagonal] at h
    split_ifs at h with hc
    by_cases hks : k = s
    · subst hks; exact hc
    · exact ih _ _ _ h k (by omega) (by omega)

theorem negateAllNonDiagonalElements_row_length {T : Type} [Neg T] :
    ∀ (count : Nat) (cols : List Nat) (vals : List T) (row s : Nat) (vals1 : List T),
      negateAllNonDiagonalElements_row cols vals row s count = some vals1 →
        vals1.length = vals.length := by
  intro count
  induction count with
  | zero => intro cols vals row s vals1 h; simp [negateAllNonDiagonalElements_row] at h; simp [h]
  | succ n ih =>
    intro cols vals row s vals1 h
    simp only [negateAllNonDiagonalElements_row] at h
    split at h
    · cases h
    · split_ifs at h with hc
      · split at h
        · cases h
        · split at h
          · cases h
          · rename_i vs hw
            obtain ⟨-, rfl⟩ := writeAt_eq_some.1 hw
            rw [ih _ _ _ _ _ h, List.length_set]
      · exact ih _ _ _ _ _ h

theorem negateAllNonDiagonalElements_row_spec {T : Type} [Neg T] :
    ∀ (count : Nat) (cols : List Nat) (vals : List T) (row s : Nat),
      s + count ≤ vals.length → s + count ≤ cols.length →
      ∃ vals1, negateAllNonDiagonalElements_row cols vals row s count = some vals1 ∧
        ∀ k, vals1[k]? = (vals[k]?).map
          (fun v => if s ≤ k ∧ k < s + count ∧ cols[k]? ≠ some row then -v else v) := by
  intro count
  induction count with
  | zero =>
    intro cols vals row s _ _
    refine ⟨vals, rfl, fun k => ?_⟩
    have : ¬ (s ≤ k ∧ k < s ∧ ¬ cols[k]? = some row) := by omega
    simp [this]
  | succ n ih =>
    intro cols vals row s hv hc
    have hsc : s < cols.length := by omega
    have hsv : s < vals.length := by omega
    simp only [negateAllNonDiagonalElements_row, readAt, List.getElem?_eq_getElem hsc,
      List.getElem?_eq_getElem hsv]
    by_cases hd : cols[s] ≠ row
    · simp only [hd, ne_eq, not_false_eq_true, if_true, writeAt_of_lt _ hsv]
      obtain ⟨vals1, h1, h2⟩ := ih cols (vals.set s (-vals[s])) row (s + 1)
        (by simp; omega) (by omega)
      refine ⟨vals1, h1, fun k => ?_⟩
      rw [h2 k, List.getElem?_set]
      by_cases hk : s = k
      · subst hk
        simp [hsv, hsc, hd]
      · have e1 : (s + 1 ≤ k ∧ k < s + 1 + n ∧ cols[k]? ≠ some row) ↔
            (s ≤ k ∧ k < s + (n + 1) ∧ cols[k]? ≠ some row) := by
          constructor <;> rintro ⟨a, b, c⟩ <;> exact ⟨by omega, by omega, c⟩
        simp only [hk, if_false, e1]
    · simp only [hd, if_false]
      obtain ⟨vals1, h1, h2⟩ := ih cols vals row (s + 1) (by omega) (by omega)
      refine ⟨vals1, h1, fun k => ?_⟩
      rw [h2 k]
      by_cases hk : s = k
      · subst hk
        have hd2 : cols[s]? = some row := by
          rw [List.getElem?_eq_getElem hsc]; simp only [ne_eq, not_not] at hd; rw [hd]
        have a1 : ¬ (s + 1 ≤ s ∧ s < s + 1 + n ∧ cols[s]? ≠ some row) := by omega
        have a2 : ¬ (s ≤ s ∧ s < s + (n + 1) ∧ cols[s]? ≠ some row) := by
          rintro ⟨-, -, c⟩; exact c hd2
        simp only [a1, a2, if_false]
      · have e1 : (s + 1 ≤ k ∧ k < s + 1 + n ∧ cols[k]? ≠ some row) ↔
            (s ≤ k ∧ k < s + (n + 1) ∧ cols[k]? ≠ some row) := by
          constructor <;> rintro ⟨a, b, c⟩ <;> exact ⟨by omega, by omega, c⟩
        simp only [e1]

theorem option_map_if_pos {α : Type} {p : Prop} [Decidable p] (hp : p) (f : α → α)
    (o : Option α) : o.map (fun v => if p then f v else v) = o.map f := by
  simp [hp]

theorem option_map_if_neg {α : Type} {p : Prop} [Decidable p] (hp : ¬p) (f : α → α)
    (o : Option α) : o.map (fun v => if p then f v else v) = o := by
  simp [hp]

theorem RowStartsOK.mono {ri : List Nat} {rowCount bound : Nat} (h : RowStartsOK ri rowCount bound) :
    ∀ j i, i ≤ j → j ≤ rowCount → nth ri i ≤ nth ri j := by
  intro j
  induction j with
  | zero => intro i hi _; have : i = 0 := by omega
            subst this; exact le_refl _
  | succ n ih =>
    intro i hi hj
    by_cases hin : i = n + 1
    · subst hin; exact le_refl _
    · exact le_trans (ih i (by omega) (by omega)) (h.2.1 n (by omega))

theorem RowStartsOK.readAt {ri : List Nat} {rowCount bound : Nat} (h : RowStartsOK ri rowCount bound)
    {i : Nat} (hi : i ≤ rowCount) : readAt ri i = some (nth ri i) := by
  unfold storm.storage.readAt
  exact getElem?_eq_nth (by have := h.1; omega)

theorem RowStartsOK.le_bound {ri : List Nat} {rowCount bound : Nat}
    (h : RowStartsOK ri rowCount bound) {i : Nat} (hi : i ≤ rowCount) : nth ri i ≤ bound :=
  le_trans (h.mono rowCount i hi (le_refl _)) h.2.2

theorem negateAllNonDiagonalElements_rows_length {T : Type} [Neg T] (ri cols : List Nat) :
    ∀ (count row : Nat) (vals vals1 : List T),
      negateAllNonDiagonalElements_rows ri cols vals row count = some vals1 →
        vals1.length = vals.length := by
  intro count
  induction count with
  | zero => intro row vals vals1 h; simp [negateAllNonDiagonalElements_rows] at h; simp [h]
  | succ n ih =>
    intro row vals vals1 h
    simp only [negateAllNonDiagonalElements_rows] at h
    split at h
    · split at h
      · cases h
      · rename_i vs hr
        rw [ih _ _ _ h, negateAllNonDiagonalElements_row_length _ _ _ _ _ _ hr]
    · cases h

theorem negateAllNonDiagonalElements_rows_spec {T : Type} [Neg T] (ri cols : List Nat)
    (rowCount : Nat) (hri : RowStartsOK ri rowCount cols.length) :
    ∀ (count r0 : Nat) (vals : List T), r0 + count ≤ rowCount → nth ri rowCount ≤ vals.length →
      ∃ vals1, negateAllNonDiagonalElements_rows ri cols vals r0 count = some vals1 ∧
        ∀ k, (NegatedAt ri cols r0 (r0 + count) k → vals1[k]? = (vals[k]?).map Neg.neg) ∧
          (¬ NegatedAt ri cols r0 (r0 + count) k → vals1[k]? = vals[k]?) := by
  intro count
  induction count with
  | zero =>
    intro r0 vals _ _
    refine ⟨vals, rfl, fun k => ⟨?_, fun _ => rfl⟩⟩
    rintro ⟨row, h1, h2, -⟩
    omega
  | succ n ih =>
    intro r0 vals hr hv
    have hs := hri.readAt (i := r0) (by omega)
    have he := hri.readAt (i := r0 + 1) (by omega)
    have hse : nth ri r0 ≤ nth ri (r0 + 1) := hri.2.1 r0 (by omega)
    have hec : nth ri (r0 + 1) ≤ cols.length := hri.le_bound (by omega)
    have hev : nth ri (r0 + 1) ≤ vals.length :=
      le_trans (hri.mono rowCount (r0 + 1) (by omega) (le_refl _)) hv
    obtain ⟨vs, hvs, hpt⟩ := negateAllNonDiagonalElements_row_spec
      (nth ri (r0 + 1) - nth ri r0) cols vals r0 (nth ri r0) (by omega) (by omega)
    have hlen := negateAllNonDiagonalElements_row_length _ _ _ _ _ _ hvs
    obtain ⟨vals1, h1, h2⟩ := ih (r0 + 1) vs (by omega) (by omega)
    refine ⟨vals1, ?_, fun k => ?_⟩
    · simp only [negateAllNonDiagonalElements_rows, hs, he, hvs, h1]
    · have hstep : ∀ row, r0 + 1 ≤ row → row < r0 + 1 + n → nth ri (r0 + 1) ≤ nth ri row :=
        fun row a b => hri.mono row (r0 + 1) a (by omega)
      by_cases hin : nth ri r0 ≤ k ∧ k < nth ri (r0 + 1)
      · -- position k lies in row r0, hence in no later row
        have hnot : ¬ NegatedAt ri cols (r0 + 1) (r0 + 1 + n) k := by
          rintro ⟨row, a, b, c, -⟩
          have := hstep row a b
          omega
        rw [(h2 k).2 hnot, hpt k]
        by_cases hc : cols[k]? ≠ some r0
        · have c1 : nth ri r0 ≤ k ∧ k < nth ri r0 + (nth ri (r0 + 1) - nth ri r0) ∧
              cols[k]? ≠ some r0 := ⟨hin.1, by omega, hc⟩
          have c2 : NegatedAt ri cols r0 (r0 + (n + 1)) k :=
            ⟨r0, le_refl _, by omega, hin.1, hin.2, hc⟩
          rw [option_map_if_pos c1]
          exact ⟨fun _ => rfl, fun h => absurd c2 h⟩
        · have c1 : ¬ (nth ri r0 ≤ k ∧ k < nth ri r0 + (nth ri (r0 + 1) - nth ri r0) ∧
              cols[k]? ≠ some r0) := fun h => hc h.2.2
          have c2 : ¬ NegatedAt ri cols r0 (r0 + (n + 1)) k := by
            rintro ⟨row, a, b, c, d, e⟩
            by_cases hrow : row = r0
            · subst hrow; exact hc e
            · have := hstep row (by omega) (by omega)
              omega
          rw [option_map_if_neg c1]
          exact ⟨fun h => absurd h c2, fun _ => rfl⟩
      · have c1 : ¬ (nth ri r0 ≤ k ∧ k < nth ri r0 + (nth ri (r0 + 1) - nth ri r0) ∧
            cols[k]? ≠ some r0) := fun h => hin ⟨h.1, by omega⟩
        have hvk : vs[k]? = vals[k]? := by
          rw [hpt k, option_map_if_neg c1]
        have hiff : NegatedAt ri cols r0 (r0 + (n + 1)) k ↔ NegatedAt ri cols (r0 + 1) (r0 + 1 + n) k := by
          constructor
          · rintro ⟨row, a, b, c, d, e⟩
            have : row ≠ r0 := by rintro rfl; exact hin ⟨c, d⟩
            exact ⟨row, by omega, by omega, c, d, e⟩
          · rintro ⟨row, a, b, c, d, e⟩
            exact ⟨row, by omega, by omega, c, d, e⟩
        rw [hiff, ← hvk]
        exact h2 k

theorem invertDiagonal_row_length {T : Type} [One T] [Sub T] :
    ∀ (count : Nat) (cols : List Nat) (vals : List T) (row s : Nat),
      (∀ vals1, invertDiagonal_row cols vals row s count = .ok vals1 →
        vals1.length = vals.length) ∧
      (∀ e vals1, invertDiagonal_row cols vals row s count = .error (e, vals1) →
        vals1 = vals) := by
  intro count
  induction count with
  | zero =>
    intro cols vals row s
    constructor
    · intro vals1 h; simp [invertDiagonal_row] at h
    · intro e vals1 h; simp [invertDiagonal_row] at h; exact h.2.symm
  | succ n ih =>
    intro cols vals row s
    simp only [invertDiagonal_row]
    split
    · simp
    · split_ifs with hc
      · split
        · simp
        · split
          · simp
          · rename_i vs hw
            obtain ⟨-, rfl⟩ := writeAt_eq_some.1 hw
            simp
      · exact ih cols vals row (s + 1)

theorem invertDiagonal_row_spec {T : Type} [One T] [Sub T] :
    ∀ (count : Nat) (cols : List Nat) (vals : List T) (row s : Nat),
      s + count ≤ vals.length → s + count ≤ cols.length →
      (findDiagonal cols row s count = none →
        invertDiagonal_row cols vals row s count = .error (.InvalidArgumentException, vals)) ∧
      (∀ p, findDiagonal cols row s count = some p →
        ∃ h : p < vals.length,
          invertDiagonal_row cols vals row s count = .ok (vals.set p (1 - vals[p]))) := by
  intro count
  induction count with
  | zero =>
    intro cols vals row s _ _
    simp [findDiagonal, invertDiagonal_row]
  | succ n ih =>
    intro cols vals row s hv hc
    have hsc : s < cols.length := by omega
    have hsv : s < vals.length := by omega
    simp only [findDiagonal, invertDiagonal_row, readAt, List.getElem?_eq_getElem hsc,
      List.getElem?_eq_getElem hsv, Option.some.injEq]
    by_cases hd : cols[s] = row
    · simp only [hd, if_true, writeAt_of_lt _ hsv]
      constructor
      · intro h; cases h
      · intro p hp
        cases hp
        exact ⟨hsv, rfl⟩
    · simp only [hd, if_false]
      exact ih cols vals row (s + 1) (by omega) (by omega)

theorem invertDiagonal_rows_length {T : Type} [One T] [Sub T] (ri cols : List Nat) :
    ∀ (count row : Nat) (vals : List T),
      (∀ vals1, invertDiagonal_rows ri cols vals row count = .ok vals1 →
        vals1.length = vals.length) ∧
      (∀ e vals1, invertDiagonal_rows ri cols vals row count = .error (e, vals1) →
        vals1.length = vals.length) := by
  intro count
  induction count with
  | zero => intro row vals; simp [invertDiagonal_rows]
  | succ n ih =>
    intro row vals
    simp only [invertDiagonal_rows]
    split
    · split
      · rename_i e he
        obtain ⟨ex, vs⟩ := e
        have := (invertDiagonal_row_length _ _ _ _ _).2 _ _ he
        subst this
        simp
      · rename_i vs hvs
        have hl := (invertDiagonal_row_length _ _ _ _ _).1 _ hvs
        obtain ⟨a, b⟩ := ih (row + 1) vs
        constructor
        · intro vals1 h; rw [a _ h, hl]
        · intro e vals1 h; rw [b _ _ h, hl]
    · simp

theorem invertDiagonal_rows_spec {T : Type} [One T] [Sub T] (ri cols : List Nat)
    (rowCount : Nat) (hri : RowStartsOK ri rowCount cols.length) :
    ∀ (count r0 : Nat) (vals : List T), r0 + count ≤ rowCount → nth ri rowCount ≤ vals.length →
      (∀ row, r0 ≤ row → row < r0 + count →
        findDiagonal cols row (nth ri row) (nth ri (row + 1) - nth ri row) ≠ none) →
      ∃ vals1, invertDiagonal_rows ri cols vals r0 count = .ok vals1 ∧
        ∀ k, (InvertedAt ri cols r0 (r0 + count) k →
            vals1[k]? = (vals[k]?).map (fun v => 1 - v)) ∧
          (¬ InvertedAt ri cols r0 (r0 + count) k → vals1[k]? = vals[k]?) := by
  intro count
  induction count with
  | zero =>
    intro r0 vals _ _ _
    refine ⟨vals, rfl, fun k => ⟨?_, fun _ => rfl⟩⟩
    rintro ⟨row, h1, h2, -⟩
    omega
  | succ n ih =>
    intro r0 vals hr hv hd
    have hs := hri.readAt (i := r0) (by omega)
    have he := hri.readAt (i := r0 + 1) (by omega)
    have hse : nth ri r0 ≤ nth ri (r0 + 1) := hri.2.1 r0 (by omega)
    have hec : nth ri (r0 + 1) ≤ cols.length := hri.le_bound (by omega)
    have hev : nth ri (r0 + 1) ≤ vals.length :=
      le_trans (hri.mono rowCount (r0 + 1) (by omega) (le_refl _)) hv
    have hd0 := hd r0 (le_refl _) (by omega)
    obtain ⟨p, hp⟩ := Option.ne_none_iff_exists'.1 hd0
    obtain ⟨hpv, hrow⟩ := (invertDiagonal_row_spec (nth ri (r0 + 1) - nth ri r0) cols vals r0
      (nth ri r0) (by omega) (by omega)).2 p hp
    obtain ⟨hp1, hp2, hp3, -⟩ := findDiagonal_some _ _ _ _ _ hp
    obtain ⟨vals1, h1, h2⟩ := ih (r0 + 1) (vals.set p (1 - vals[p])) (by omega)
      (by simpa using hv) (fun row a b => hd row (by omega) (by omega))
    refine ⟨vals1, ?_, fun k => ?_⟩
    · simp only [invertDiagonal_rows, hs, he, hrow, h1]
    · have hstep : ∀ row, r0 + 1 ≤ row → row < r0 + 1 + n → nth ri (r0 + 1) ≤ nth ri row :=
        fun row a b => hri.mono row (r0 + 1) a (by omega)
      by_cases hk : k = p
      · subst hk
        have hnot : ¬ InvertedAt ri cols (r0 + 1) (r0 + 1 + n) k := by
          rintro ⟨row, a, b, c⟩
          obtain ⟨c1, -, -, -⟩ := findDiagonal_some _ _ _ _ _ c
          have := hstep row a b
          omega
        have hyes : InvertedAt ri cols r0 (r0 + (n + 1)) k := ⟨r0, le_refl _, by omega, hp⟩
        rw [(h2 k).2 hnot]
        refine ⟨fun _ => ?_, fun h => absurd hyes h⟩
        simp [hpv]
      · have hvk : (vals.set p (1 - vals[p]))[k]? = vals[k]? := by
          rw [List.getElem?_set_ne (Ne.symm hk)]
        have hiff : InvertedAt ri cols r0 (r0 + (n + 1)) k ↔
            InvertedAt ri cols (r0 + 1) (r0 + 1 + n) k := by
          constructor
          · rintro ⟨row, a, b, c⟩
            have : row ≠ r0 := by
              rintro rfl
              rw [hp] at c
              exact hk (Option.some.inj c).symm
            exact ⟨row, by omega, by omega, c⟩
          · rintro ⟨row, a, b, c⟩
            exact ⟨row, by omega, by omega, c⟩
        rw [hiff, ← hvk]
        exact h2 k

theorem InvertedAt.not_negatedAt {ri cols : List Nat} {rowCount bound k : Nat}
    (hri : RowStartsOK ri rowCount bound) (h : InvertedAt ri cols 0 rowCount k) :
    ¬ NegatedAt ri cols 0 rowCount k := by
  obtain ⟨r, -, hr, hfd⟩ := h
  obtain ⟨a1, a2, a3, -⟩ := findDiagonal_some _ _ _ _ _ hfd
  rintro ⟨r', -, hr', b1, b2, b3⟩
  have hse : nth ri r ≤ nth ri (r + 1) := hri.2.1 r hr
  rcases Nat.lt_trichotomy r r' with hlt | heq | hgt
  · have := hri.mono r' (r + 1) (by omega) (by omega)
    omega
  · subst heq; exact b3 a3
  · have := hri.mono r (r' + 1) (by omega) (by omega)
    omega

theorem invertDiagonal_spec {T : Type} [One T] [Sub T] (m : SparseMatrix T) (hm : m.RowsOK)
    (hsq : m.rowCount = m.columnCount) (hd : m.HasDiagonal) :
    ∃ vals1, m.invertDiagonal = .ok { m with valueStorage := vals1 } ∧
      vals1.length = m.valueStorage.length ∧
      ∀ k, (InvertedAt m.rowIndications m.columnIndications 0 m.rowCount k →
          vals1[k]? = (m.valueStorage[k]?).map (fun v => 1 - v)) ∧
        (¬ InvertedAt m.rowIndications m.columnIndications 0 m.rowCount k →
          vals1[k]? = m.valueStorage[k]?) := by
  obtain ⟨vals1, h1, h2⟩ := invertDiagonal_rows_spec m.rowIndications m.columnIndications
    m.rowCount hm.1 m.rowCount 0 m.valueStorage (by omega) hm.2
    (fun row _ b => hd row (by omega))
  refine ⟨vals1, ?_, (invertDiagonal_rows_length _ _ _ _ _).1 _ h1, ?_⟩
  · unfold SparseMatrix.invertDiagonal
    simp only [hsq, ne_eq, not_true_eq_false, if_false]
    rw [← hsq, h1]
  · simpa using h2

theorem negateAllNonDiagonalElements_spec {T : Type} [Neg T] (m : SparseMatrix T)
    (hm : m.RowsOK) (hsq : m.rowCount = m.columnCount) :
    ∃ vals1, m.negateAllNonDiagonalElements = .ok { m with valueStorage := vals1 } ∧
      vals1.length = m.valueStorage.length ∧
      ∀ k, (NegatedAt m.rowIndications m.columnIndications 0 m.rowCount k →
          vals1[k]? = (m.valueStorage[k]?).map Neg.neg) ∧
        (¬ NegatedAt m.rowIndications m.columnIndications 0 m.rowCount k →
          vals1[k]? = m.valueStorage[k]?) := by
  obtain ⟨vals1, h1, h2⟩ := negateAllNonDiagonalElements_rows_spec m.rowIndications
    m.columnIndications m.rowCount hm.1 m.rowCount 0 m.valueStorage (by omega) hm.2
  refine ⟨vals1, ?_, negateAllNonDiagonalElements_rows_length _ _ _ _ _ _ h1, ?_⟩
  · unfold SparseMatrix.negateAllNonDiagonalElements
    simp only [hsq, ne_eq, not_true_eq_false, if_false]
    rw [← hsq, h1]
  · simpa using h2

theorem convertToEquationSystem_spec {T : Type} [One T] [Sub T] [Neg T] (m : SparseMatrix T)
    (hm : m.RowsOK) (hsq : m.rowCount = m.columnCount) (hd : m.HasDiagonal) :
    ∃ vals2, m.convertToEquationSystem = .ok { m with valueStorage := vals2 } ∧
      vals2.length = m.valueStorage.length ∧
      ∀ k, (InvertedAt m.rowIndications m.columnIndications 0 m.rowCount k →
          vals2[k]? = (m.valueStorage[k]?).map (fun v => 1 - v)) ∧
        (NegatedAt m.rowIndications m.columnIndications 0 m.rowCount k →
          vals2[k]? = (m.valueStorage[k]?).map Neg.neg) ∧
        (¬ InvertedAt m.rowIndications m.columnIndications 0 m.rowCount k →
          ¬ NegatedAt m.rowIndications m.columnIndications 0 m.rowCount k →
          vals2[k]? = m.valueStorage[k]?) := by
  obtain ⟨vals1, h1, hl1, hp1⟩ := invertDiagonal_spec m hm hsq hd
  have hm1 : ({ m with valueStorage := vals1 } : SparseMatrix T).RowsOK := by
    refine ⟨hm.1, ?_⟩
    show nth m.rowIndications m.rowCount ≤ vals1.length
    rw [hl1]; exact hm.2
  obtain ⟨vals2, h2, hl2, hp2⟩ := negateAllNonDiagonalElements_spec
    ({ m with valueStorage := vals1 } : SparseMatrix T) hm1 hsq
  refine ⟨vals2, ?_, by rw [hl2]; exact hl1, fun k => ⟨?_, ?_, ?_⟩⟩
  · unfold SparseMatrix.convertToEquationSystem
    rw [h1]
    exact h2
  · intro hi
    have hn := hi.not_negatedAt hm.1
    rw [(hp2 k).2 hn, (hp1 k).1 hi]
  · intro hn
    have hi : ¬ InvertedAt m.rowIndications m.columnIndications 0 m.rowCount k :=
      fun hi => hi.not_negatedAt hm.1 hn
    rw [(hp2 k).1 hn, (hp1 k).2 hi]
  · intro hi hn
    rw [(hp2 k).2 hn, (hp1 k).2 hi]

theorem convertToEquationSystem_twice_of_rowsOK {T : Type} [Ring T] (m : SparseMatrix T)
    (hm : m.RowsOK) (hsq : m.rowCount = m.columnCount) (hd : m.HasDiagonal) :
    ∃ m1, m.convertToEquationSystem = .ok m1 ∧ m1.convertToEquationSystem = .ok m := by
  obtain ⟨vals2, h1, hl1, hp1⟩ := convertToEquationSystem_spec m hm hsq hd
  have hm1 : ({ m with valueStorage := vals2 } : SparseMatrix T).RowsOK := by
    refine ⟨hm.1, ?_⟩
    show nth m.rowIndications m.rowCount ≤ vals2.length
    rw [hl1]; exact hm.2
  obtain ⟨vals4, h2, -, hp2⟩ := convertToEquationSystem_spec
    ({ m with valueStorage := vals2 } : SparseMatrix T) hm1 hsq hd
  refine ⟨_, h1, ?_⟩
  rw [h2]
  have hv : vals4 = m.valueStorage := by
    apply List.ext_getElem?
    intro k
    by_cases hi : InvertedAt m.rowIndications m.columnIndications 0 m.rowCount k
    · have a := (hp2 k).1 hi
      have b := (hp1 k).1 hi
      simp only at a
      rw [a, b]
      cases m.valueStorage[k]? <;> simp
    · by_cases hn : NegatedAt m.rowIndications m.columnIndications 0 m.rowCount k
      · have a := (hp2 k).2.1 hn
        have b := (hp1 k).2.1 hn
        simp only at a
        rw [a, b]
        cases m.valueStorage[k]? <;> simp
      · have a := (hp2 k).2.2 hi hn
        have b := (hp1 k).2.2 hi hn
        simp only at a
        rw [a, b]
  rw [hv]

theorem makeRowAbsorbing_loop_length {T : Type} [Zero T] :
    ∀ (count : Nat) (vs : List T) (cs : List Nat) (valuePtr columnPtr : Nat) (vs1 : List T)
      (cs1 : List Nat), makeRowAbsorbing_loop vs cs valuePtr columnPtr count = some (vs1, cs1) →
        vs1.length = vs.length ∧ cs1.length = cs.length := by
  intro count
  induction count with
  | zero =>
    intro vs cs vp cp vs1 cs1 h
    simp only [makeRowAbsorbing_loop, Option.some.injEq, Prod.mk.injEq] at h
    rw [h.1, h.2]; exact ⟨rfl, rfl⟩
  | succ n ih =>
    intro vs cs vp cp vs1 cs1 h
    simp only [makeRowAbsorbing_loop] at h
    split at h
    · rename_i a b ha hb
      obtain ⟨-, rfl⟩ := writeAt_eq_some.1 ha
      obtain ⟨-, rfl⟩ := writeAt_eq_some.1 hb
      have := ih _ _ _ _ _ _ h
      simpa using this
    · cases h

theorem makeRowAbsorbing_sameShape {T : Type} [Zero T] [One T] {m m1 : SparseMatrix T}
    {row column : Nat} (h : m.makeRowAbsorbing row column = .ok m1) : SameShape m m1 := by
  unfold SparseMatrix.makeRowAbsorbing at h
  split_ifs at h with h1
  split at h
  · split_ifs at h with h2
    split at h
    · rename_i vs cs hvs hcs
      obtain ⟨-, rfl⟩ := writeAt_eq_some.1 hvs
      obtain ⟨-, rfl⟩ := writeAt_eq_some.1 hcs
      split at h
      · rename_i vs1 cs1 hl
        have := makeRowAbsorbing_loop_length _ _ _ _ _ _ _ hl
        cases h
        simpa [SameShape] using this
      · cases h
    · cases h
  · cases h

theorem invertDiagonal_sameShape {T : Type} [One T] [Sub T] {m m1 : SparseMatrix T} :
    (m.invertDiagonal = .ok m1 → SameShape m m1) ∧
    (∀ e, m.invertDiagonal = .error (e, m1) → SameShape m m1) := by
  unfold SparseMatrix.invertDiagonal
  split_ifs with h1
  · simp only [reduceCtorEq, false_implies, Except.error.injEq, Prod.mk.injEq, true_and]
    intro e h
    rw [← h.2]
    simp [SameShape]
  · split
    · rename_i e vs he
      have := (invertDiagonal_rows_length _ _ _ _ _).2 _ _ he
      simp only [reduceCtorEq, false_implies, Except.error.injEq, Prod.mk.injEq, true_and]
      intro e' h
      rw [← h.2]
      simpa [SameShape] using this
    · rename_i vs he
      have := (invertDiagonal_rows_length _ _ _ _ _).1 _ he
      simp only [Except.ok.injEq, reduceCtorEq, false_implies, implies_true, and_true]
      intro h
      rw [← h]
      simpa [SameShape] using this

theorem negateAllNonDiagonalElements_sameShape {T : Type} [Neg T] {m m1 : SparseMatrix T}
    (h : m.negateAllNonDiagonalElements = .ok m1) : SameShape m m1 := by
  unfold SparseMatrix.negateAllNonDiagonalElements at h
  split_ifs at h with h1
  split at h
  · cases h
  · rename_i vs hvs
    have := negateAllNonDiagonalElements_rows_length _ _ _ _ _ _ hvs
    cases h
    simpa [SameShape] using this

theorem Inv.of_sameShape {T : Type} {m m1 : SparseMatrix T} (h : Inv m) (hs : SameShape m m1) :
    Inv m1 := by
  obtain ⟨a1, a2, a3, a4, a5, a6, a7, a8, a9, a10, a11⟩ := hs
  constructor
  · rw [a1, a3, a4, a5, a6, a7]; exact h.sizes
  · rw [a1, a4, a7, a8, a9, a10]; exact h.building
  · rw [a1, a3, a4, a7, a8, a9]; exact h.finalized
  · rw [a1, a4, a7]; exact h.dynamic

theorem create_fields {T : Type} [Zero T] (rows columns entries : Nat) :
    let m : SparseMatrix T := SparseMatrix.create rows columns entries
    m.rowCount = rows ∧ m.columnCount = columns ∧ m.entryCount = entries ∧
    m.storagePreallocated = (rows != 0 && columns != 0 && entries != 0) ∧
    m.valueStorage = List.replicate entries 0 ∧ m.columnIndications = List.replicate entries 0 ∧
    m.rowIndications = List.replicate (rows + 1) 0 ∧ m.internalStatus = .UNINITIALIZED ∧
    m.currentEntryCount = 0 ∧ m.lastRow = 0 ∧ m.lastColumn = 0 := by
  simp [SparseMatrix.create, SparseMatrix.createWith, prepareInternalStorage,
    initializeElementsDefault, resize]

theorem Inv.create {T : Type} [Zero T] (rows columns entries : Nat) :
    Inv (SparseMatrix.create rows columns entries : SparseMatrix T) := by
  obtain ⟨a1, a2, a3, a4, a5, a6, a7, a8, a9, a10, a11⟩ :=
    create_fields (T := T) rows columns entries
  constructor
  · intro _
    rw [a1, a3, a5, a6, a7]
    simp
  · intro _ _
    rw [a1, a7, a9, a10]
    refine ⟨Nat.zero_le _, fun i j _ _ => ?_, fun i _ => ?_⟩
    · rw [nth_replicate_zero, nth_replicate_zero]
    · rw [nth_replicate_zero]
  · intro _ h
    rw [a8] at h
    cases h
  · intro _
    rw [a1, a7]
    refine ⟨by simp, fun i _ => nth_replicate_zero _ _⟩

theorem addNextValue_switchRow_spec {T : Type} {m m1 : SparseMatrix T} {row : Nat}
    (h : addNextValue_switchRow m row = some m1) (hrow : ¬ row < m.lastRow) :
    (m.storagePreallocated = true →
      m1.rowIndications.length = m.rowIndications.length ∧
      ∀ k, nth m1.rowIndications k =
        if m.lastRow < k ∧ k ≤ row then m.currentEntryCount else nth m.rowIndications k) ∧
    (m.storagePreallocated = false →
      ∃ n, m1.rowIndications = m.rowIndications ++ List.replicate n m.currentEntryCount) := by
  unfold addNextValue_switchRow at h
  split_ifs at h with h1 h2
  · split at h
    · rename_i ri hri
      cases h
      obtain ⟨b1, -, b3⟩ := fillRowIndications_spec _ _ _ _ _ hri
      refine ⟨fun _ => ⟨b1, fun k => ?_⟩, fun hp => by rw [h2] at hp; cases hp⟩
      show nth ri k = _
      rw [b3 k]
      have : (m.lastRow + 1 ≤ k ∧ k < m.lastRow + 1 + (row + 1 - (m.lastRow + 1))) ↔
          (m.lastRow < k ∧ k ≤ row) := by omega
      simp only [this]
    · cases h
  · cases h
    refine ⟨fun hp => absurd hp h2, fun _ => ⟨_, pushRowIndications_eq _ _ _⟩⟩
  · cases h
    simp only [ne_eq, not_not] at h1
    refine ⟨fun _ => ⟨rfl, fun k => ?_⟩, fun _ => ⟨0, by simp⟩⟩
    have : ¬ (m.lastRow < k ∧ k ≤ row) := by omega
    simp only [this, if_false]

theorem addNextValue_store_spec {T : Type} {m m2 : SparseMatrix T} {column : Nat} {value : T}
    (h : addNextValue_store m column value = some m2) :
    (m.storagePreallocated = true →
      m.currentEntryCount < m.valueStorage.length ∧
      m.currentEntryCount < m.columnIndications.length ∧
      m2.valueStorage = m.valueStorage.set m.currentEntryCount value ∧
      m2.columnIndications = m.columnIndications.set m.currentEntryCount column ∧
      m2.currentEntryCount = m.currentEntryCount + 1) ∧
    (m.storagePreallocated = false →
      m2.valueStorage = m.valueStorage ++ [value] ∧
      m2.columnIndications = m.columnIndications ++ [column] ∧
      m2.currentEntryCount = m.currentEntryCount) := by
  unfold addNextValue_store at h
  split_ifs at h with h1
  · split at h
    · cases h
    · rename_i vs hvs
      split at h
      · cases h
      · rename_i cs hcs
        obtain ⟨c1, rfl⟩ := writeAt_eq_some.1 hvs
        obtain ⟨c2, rfl⟩ := writeAt_eq_some.1 hcs
        cases h
        exact ⟨fun _ => ⟨c1, c2, rfl, rfl, rfl⟩, fun hp => by rw [h1] at hp; cases hp⟩
  · cases h
    exact ⟨fun hp => absurd hp h1, fun _ => ⟨rfl, rfl, rfl⟩⟩

theorem Inv.addNextValue {T : Type} {m m2 : SparseMatrix T} {row column : Nat} {value : T}
    (hm : Inv m) (h : m.addNextValue row column value = .ok m2) : Inv m2 := by
  obtain ⟨hrange, hrow, -, m1, hs, hst⟩ := addNextValue_eq_ok_iff.1 h
  obtain ⟨a1, a2, a3, a4, a5, a6, a7, a8, a9, a10⟩ := addNextValue_switchRow_frame hs
  obtain ⟨b1, b2, b3, b4, b5, b6, b7, b8⟩ := addNextValue_store_frame hst
  obtain ⟨s1, s2⟩ := addNextValue_switchRow_spec hs hrow
  obtain ⟨t1, t2⟩ := addNextValue_store_spec hst
  have hpre : m2.storagePreallocated = m.storagePreallocated := by rw [b6, a5]
  have hstat : m2.internalStatus = m.internalStatus := by rw [b8, a8]
  cases hp : m.storagePreallocated with
  | true =>
    obtain ⟨l1, l2, l3⟩ := hm.sizes hp
    obtain ⟨u1, u2, u3, u4, u5⟩ := t1 (by rw [a5]; exact hp)
    obtain ⟨v1, v2⟩ := s1 hp
    have hrc : row ≤ m.rowCount := by
      by_contra hc
      exact hrange ⟨hp, Or.inl (by omega)⟩
    -- the matrix cannot be finalized: its value vector is full
    have hnotfin : m.internalStatus ≠ .INITIALIZED := by
      intro hfin
      obtain ⟨f1, -, -⟩ := hm.finalized hp hfin
      rw [a6, a9] at u1
      omega
    obtain ⟨g1, g2, g3⟩ := hm.building hp hnotfin
    constructor
    · intro _
      rw [b7, v1, b3, a2, b5, a4, u3, u4]
      simp only [List.length_set]
      rw [a6, a7]
      exact ⟨l1, l2, l3⟩
    · intro _ _
      rw [b2, a1, b3, a2, b7, u5, a9]
      refine ⟨hrc, fun i j hij hj => ?_, fun i hi => ?_⟩
      · rw [v2 i, v2 j]
        by_cases hj2 : m.lastRow < j
        · have cj : m.lastRow < j ∧ j ≤ row := ⟨hj2, hj⟩
          simp only [cj, and_self, if_true]
          split_ifs
          · exact le_refl _
          · exact g3 i (by omega)
        · have cj : ¬ (m.lastRow < j ∧ j ≤ row) := fun c => hj2 c.1
          have ci : ¬ (m.lastRow < i ∧ i ≤ row) := fun c => hj2 (by omega)
          simp only [cj, ci, if_false]
          exact g2 i j hij (by omega)
      · rw [v2 i]
        split_ifs
        · omega
        · have := g3 i (by omega)
          omega
    · intro _ hfin
      rw [hstat] at hfin
      exact absurd hfin hnotfin
    · intro hd
      rw [hpre, hp] at hd
      cases hd
  | false =>
    obtain ⟨d1, d2⟩ := hm.dynamic hp
    obtain ⟨n, hn⟩ := s2 hp
    constructor
    · intro h1; rw [hpre, hp] at h1; cases h1
    · intro h1; rw [hpre, hp] at h1; cases h1
    · intro h1; rw [hpre, hp] at h1; cases h1
    · intro _
      rw [b3, a2, b7, hn]
      refine ⟨by simp; omega, fun i hi => ?_⟩
      rw [nth_append_of_lt _ _ (by omega)]
      exact d2 i hi

theorem finalize_eq_ok {T : Type} {m m1 : SparseMatrix T} (h : m.finalize = .ok m1) :
    m.internalStatus ≠ .INITIALIZED ∧
    (m.storagePreallocated = true →
      m.currentEntryCount = m.entryCount ∧
      ∃ ri, fillRowIndications m.rowIndications (m.lastRow + 1)
          (m.rowCount - (m.lastRow + 1)) m.currentEntryCount = some ri ∧
        m.rowCount < ri.length ∧
        m1 = { m with rowIndications := ri.set m.rowCount m.entryCount,
                      internalStatus := .INITIALIZED }) ∧
    (m.storagePreallocated = false →
      m1 = { m with
             rowIndications := m.rowIndications ++
               List.replicate (m.rowCount - (m.lastRow + 1)) m.currentEntryCount ++ [m.entryCount]
             internalStatus := .INITIALIZED }) := by
  unfold SparseMatrix.finalize at h
  split_ifs at h with h1 h2 h3
  · split at h
    · cases h
    · rename_i ri hri
      split at h
      · cases h
      · rename_i ri1 hri1
        obtain ⟨c1, rfl⟩ := writeAt_eq_some.1 hri1
        cases h
        refine ⟨h1, fun _ => ⟨?_, ri, hri, c1, rfl⟩, fun hp => by rw [h3] at hp; cases hp⟩
        by_contra hc
        exact h2 ⟨h3, hc⟩
  · cases h
    refine ⟨h1, fun hp => absurd hp h3, fun _ => ?_⟩
    rw [pushRowIndications_eq]

theorem Inv.finalize {T : Type} {m m1 : SparseMatrix T} (hm : Inv m) (h : m.finalize = .ok m1) :
    Inv m1 := by
  obtain ⟨hst, f1, f2⟩ := finalize_eq_ok h
  cases hp : m.storagePreallocated with
  | true =>
    obtain ⟨hcur, ri, hri, hlen, rfl⟩ := f1 hp
    obtain ⟨l1, l2, l3⟩ := hm.sizes hp
    obtain ⟨g1, g2, g3⟩ := hm.building hp hst
    obtain ⟨b1, -, b3⟩ := fillRowIndications_spec _ _ _ _ _ hri
    have key : ∀ k, nth (ri.set m.rowCount m.entryCount) k =
        if k = m.rowCount then m.entryCount
        else if m.lastRow < k ∧ k < m.rowCount then m.currentEntryCount
        else nth m.rowIndications k := by
      intro k
      rw [nth_set, b3 k]
      by_cases hk : k = m.rowCount
      · subst hk
        simp [hlen]
      · have e1 : ¬ (m.rowCount = k ∧ k < ri.length) := fun c => hk c.1.symm
        have e2 : (m.lastRow + 1 ≤ k ∧ k < m.lastRow + 1 + (m.rowCount - (m.lastRow + 1))) ↔
            (m.lastRow < k ∧ k < m.rowCount) := by omega
        simp only [e1, hk, if_false, e2]
    constructor
    · intro _
      simp only [List.length_set]
      rw [b1]
      exact ⟨l1, l2, l3⟩
    · intro _ hne
      exact absurd rfl hne
    · intro _ _
      refine ⟨hcur, fun i hi => ?_, ?_⟩
      · show nth (ri.set m.rowCount m.entryCount) i ≤ nth (ri.set m.rowCount m.entryCount) (i + 1)
        replace hi : i < m.rowCount := hi
        rw [key i, key (i + 1)]
        have hi1 : i ≠ m.rowCount := by omega
        simp only [hi1, if_false]
        by_cases hlast : i + 1 = m.rowCount
        · simp only [hlast, if_true]
          split_ifs
          · omega
          · have := g3 i (by omega)
            omega
        · simp only [hlast, if_false]
          by_cases hb : m.lastRow < i + 1
          · have c1 : m.lastRow < i + 1 ∧ i + 1 < m.rowCount := ⟨hb, by omega⟩
            simp only [c1, and_self, if_true]
            split_ifs
            · exact le_refl _
            · exact g3 i (by omega)
          · have c1 : ¬ (m.lastRow < i + 1 ∧ i + 1 < m.rowCount) := fun c => hb c.1
            have c2 : ¬ (m.lastRow < i ∧ i < m.rowCount) := fun c => hb (by omega)
            simp only [c1, c2, if_false]
            exact g2 i (i + 1) (by omega) (by omega)
      · show nth (ri.set m.rowCount m.entryCount) m.rowCount = m.entryCount
        rw [key]
        simp
    · intro hd
      rw [hp] at hd
      cases hd
  | false =>
    have h1 := f2 hp
    subst h1
    obtain ⟨d1, d2⟩ := hm.dynamic hp
    constructor
    · intro h1; rw [hp] at h1; cases h1
    · intro h1; rw [hp] at h1; cases h1
    · intro h1; rw [hp] at h1; cases h1
    · intro _
      refine ⟨by simp; omega, fun i hi => ?_⟩
      replace hi : i ≤ m.rowCount := hi
      show nth (m.rowIndications ++ _ ++ _) i = 0
      rw [List.append_assoc, nth_append_of_lt _ _ (by omega)]
      exact d2 i hi

theorem Reachable.inv {T : Type} [Zero T] [One T] [Sub T] [Neg T] {m : SparseMatrix T}
    (h : Reachable m) : Inv m := by
  induction h with
  | create rows columns entries => exact Inv.create rows columns entries
  | addNextValue row column value _ h ih => exact ih.addNextValue h
  | finalize _ h ih => exact ih.finalize h
  | makeRowAbsorbing row column _ h ih => exact ih.of_sameShape (makeRowAbsorbing_sameShape h)
  | invertDiagonal _ h ih => exact ih.of_sameShape (invertDiagonal_sameShape.1 h)
  | invertDiagonal_throws _ h ih => exact ih.of_sameShape (invertDiagonal_sameShape.2 _ h)
  | negateAllNonDiagonalElements _ h ih =>
    exact ih.of_sameShape (negateAllNonDiagonalElements_sameShape h)

theorem Inv.toRowsOK {T : Type} {m : SparseMatrix T} (hm : Inv m)
    (hfin : m.internalStatus = .INITIALIZED) : m.RowsOK := by
  cases hp : m.storagePreallocated with
  | true =>
    obtain ⟨l1, l2, l3⟩ := hm.sizes hp
    obtain ⟨f1, f2, f3⟩ := hm.finalized hp hfin
    exact ⟨⟨by omega, f2, by omega⟩, by omega⟩
  | false =>
    obtain ⟨d1, d2⟩ := hm.dynamic hp
    refine ⟨⟨d1, fun i hi => ?_, ?_⟩, ?_⟩
    · rw [d2 i (by omega), d2 (i + 1) (by omega)]
    · rw [d2 _ (le_refl _)]; exact Nat.zero_le _
    · rw [d2 _ (le_refl _)]; exact Nat.zero_le _

theorem Finalized.rowsOK {T : Type} [Zero T] [One T] [Sub T] [Neg T] {m : SparseMatrix T}
    (h : Finalized m) : m.RowsOK :=
  h.1.inv.toRowsOK h.2

theorem finalize_of_inv {T : Type} {m : SparseMatrix T} (hm : Inv m)
    (hst : m.internalStatus ≠ .INITIALIZED)
    (hcnt : ¬ (m.storagePreallocated = true ∧ m.currentEntryCount ≠ m.entryCount)) :
    ∃ m1, m.finalize = .ok m1 ∧ m1.internalStatus = .INITIALIZED := by
  unfold SparseMatrix.finalize
  simp only [hst, hcnt, if_false]
  cases hp : m.storagePreallocated with
  | true =>
    obtain ⟨l1, -, -⟩ := hm.sizes hp
    obtain ⟨g1, -, -⟩ := hm.building hp hst
    obtain ⟨ri, hri⟩ := fillRowIndications_of_le (m.rowCount - (m.lastRow + 1)) m.rowIndications
      (m.lastRow + 1) m.currentEntryCount (by omega)
    obtain ⟨b1, -, -⟩ := fillRowIndications_spec _ _ _ _ _ hri
    simp only [if_true, hri, writeAt_of_lt m.entryCount (show m.rowCount < ri.length by omega)]
    exact ⟨_, rfl, rfl⟩
  | false =>
    simp only [Bool.false_eq_true, if_false]
    exact ⟨_, rfl, rfl⟩

theorem getElem?_slice {α : Type} (v : List α) (s e t : Nat) :
    (slice v s e)[t]? = if t < e - s then v[s + t]? else none := by
  unfold slice
  rw [List.getElem?_take]
  split_ifs with h
  · rw [List.getElem?_drop]
  · rfl

theorem length_slice {α : Type} (v : List α) (s e : Nat) (h : e ≤ v.length) :
    (slice v s e).length = e - s := by
  unfold slice
  simp only [List.length_take, List.length_drop]
  omega

theorem getRow_eq {T : Type} {m : SparseMatrix T} (hm : m.RowsOK) {i : Nat}
    (hi : i < m.rowCount) :
    m.getRow i = .ok (List.zip
      (slice m.columnIndications (nth m.rowIndications i) (nth m.rowIndications (i + 1)))
      (slice m.valueStorage (nth m.rowIndications i) (nth m.rowIndications (i + 1)))) := by
  have hs := hm.1.readAt (i := i) (by omega)
  have he := hm.1.readAt (i := i + 1) (by omega)
  have hse : nth m.rowIndications i ≤ nth m.rowIndications (i + 1) := hm.1.2.1 i hi
  have hec : nth m.rowIndications (i + 1) ≤ m.columnIndications.length :=
    hm.1.le_bound (by omega)
  have hev : nth m.rowIndications (i + 1) ≤ m.valueStorage.length :=
    le_trans (hm.1.mono m.rowCount (i + 1) (by omega) (le_refl _)) hm.2
  unfold SparseMatrix.getRow SparseMatrix.getRows
  simp only [hs, he, hse, hec, hev, and_self, if_true]

theorem getElem?_zip_slice {α β : Type} (a : List α) (b : List β) (s e t : Nat)
    (ha : e ≤ a.length) (hb : e ≤ b.length) (ht : s + t < e) :
    ∃ (h1 : s + t < a.length) (h2 : s + t < b.length),
      (List.zip (slice a s e) (slice b s e))[t]? = some (a[s + t], b[s + t]) := by
  refine ⟨by omega, by omega, ?_⟩
  rw [List.getElem?_zip_eq_some]
  simp only [getElem?_slice]
  have : t < e - s := by omega
  simp only [this, if_true]
  exact ⟨List.getElem?_eq_getElem _, List.getElem?_eq_getElem _⟩

theorem mem_slice {α : Type} {v : List α} {s e : Nat} {x : α} (h : x ∈ slice v s e) :
    ∃ k, s ≤ k ∧ k < s + (e - s) ∧ v[k]? = some x := by
  obtain ⟨t, ht⟩ := List.mem_iff_getElem?.1 h
  rw [getElem?_slice] at ht
  split_ifs at ht with h1
  exact ⟨s + t, by omega, by omega, ht⟩

theorem hasDiagonal_of_getRow {T : Type} {m : SparseMatrix T} (hm : m.RowsOK)
    (hdiag : ∀ i, i < m.rowCount → ∃ es v, m.getRow i = .ok es ∧ (i, v) ∈ es) :
    m.HasDiagonal := by
  intro row hrow hnone
  obtain ⟨es, v, hes, hmem⟩ := hdiag row hrow
  rw [getRow_eq hm hrow] at hes
  cases hes
  obtain ⟨k, h1, h2, h3⟩ := mem_slice (List.of_mem_zip hmem).1
  exact findDiagonal_none _ _ _ _ hnone k h1 h2 h3

theorem convertEntry_fst {T : Type} [One T] [Sub T] [Neg T] (i : Nat) (e : Nat × T) :
    (convertEntry i e).1 = e.1 := by
  unfold convertEntry
  split_ifs <;> rfl

theorem position_of_single {α : Type} (p : α → Prop) (l₁ l₂ : List α) (a : α)
    (h1 : ∀ x, x ∈ l₁ → ¬ p x) (h2 : ∀ x, x ∈ l₂ → ¬ p x) {t : Nat} {x : α}
    (h : (l₁ ++ a :: l₂)[t]? = some x) (hp : p x) : t = l₁.length := by
  rcases Nat.lt_trichotomy t l₁.length with hlt | heq | hgt
  · rw [List.getElem?_append_left hlt] at h
    exact absurd hp (h1 x (List.mem_iff_getElem?.2 ⟨t, h⟩))
  · exact heq
  · rw [List.getElem?_append_right (by omega)] at h
    obtain ⟨n, hn⟩ : ∃ n, t - l₁.length = n + 1 := ⟨t - l₁.length - 1, by omega⟩
    rw [hn, List.getElem?_cons_succ] at h
    exact absurd hp (h2 x (List.mem_iff_getElem?.2 ⟨n, h⟩))

theorem position_unique_of_filter_length_one {T : Type} {es : List (Nat × T)} {i : Nat}
    (h : (es.filter (fun e => e.1 = i)).length = 1) {t1 t2 : Nat} {x y : Nat × T}
    (h1 : es[t1]? = some x) (h2 : es[t2]? = some y) (hx : x.1 = i) (hy : y.1 = i) : t1 = t2 := by
  obtain ⟨a, ha⟩ := List.length_eq_one.1 h
  obtain ⟨l₁, l₂, rfl, hl₁, -, hl₂⟩ := List.filter_eq_cons_iff.1 ha
  have g1 : ∀ x, x ∈ l₁ → ¬ (x.1 = i) := fun x hx => by simpa using hl₁ x hx
  have g2 : ∀ x, x ∈ l₂ → ¬ (x.1 = i) := fun x hx => by
    simpa using (List.filter_eq_nil_iff.1 hl₂) x hx
  rw [position_of_single (fun e : Nat × T => e.1 = i) l₁ l₂ a g1 g2 h1 hx,
    position_of_single (fun e : Nat × T => e.1 = i) l₁ l₂ a g1 g2 h2 hy]

theorem sum_map_convertEntry_offDiagonal {T : Type} [Ring T] (i : Nat) :
    ∀ (l : List (Nat × T)), (∀ e, e ∈ l → e.1 ≠ i) →
      ((l.map (convertEntry i)).map (fun e => e.2)).sum = 0 - (l.map (fun e => e.2)).sum := by
  intro l
  induction l with
  | nil => intro _; simp
  | cons a l ih =>
    intro h
    have ha : a.1 ≠ i := h a (List.mem_cons_self _ _)
    have := ih (fun e he => h e (List.mem_cons_of_mem _ he))
    simp only [List.map_cons, List.sum_cons, this]
    simp only [convertEntry, ha, if_false]
    abel

theorem sum_filter_convertEntry {T : Type} [Ring T] (i j : Nat) (es : List (Nat × T))
    (h : (es.filter (fun e => e.1 = i)).length = 1) :
    (((es.map (convertEntry i)).filter (fun e => e.1 = j)).map (fun e => e.2)).sum =
      (if i = j then 1 else 0) - ((es.filter (fun e => e.1 = j)).map (fun e => e.2)).sum := by
  have hfm : (es.map (convertEntry i)).filter (fun e => e.1 = j) =
      (es.filter (fun e => e.1 = j)).map (convertEntry i) := by
    rw [List.filter_map]
    congr 1
    apply List.filter_congr
    intro x _
    simp [convertEntry_fst]
  rw [hfm]
  by_cases hij : i = j
  · subst hij
    obtain ⟨a, ha⟩ := List.length_eq_one.1 h
    have hai : a.1 = i := by
      have : a ∈ es.filter (fun e => e.1 = i) := by rw [ha]; exact List.mem_singleton_self a
      simpa using (List.mem_filter.1 this).2
    rw [ha]
    simp [convertEntry, hai]
  · simp only [hij, if_false]
    apply sum_map_convertEntry_offDiagonal
    intro e he
    have : e.1 = j := by simpa using (List.mem_filter.1 he).2
    omega

theorem getRow_convertToEquationSystem {T : Type} [One T] [Sub T] [Neg T] (m : SparseMatrix T)
    (hm : m.RowsOK) (hsq : m.rowCount = m.columnCount) (hd : m.HasDiagonal) :
    ∃ m1, m.convertToEquationSystem = .ok m1 ∧
      ∀ i, i < m.rowCount → ∀ es, m.getRow i = .ok es →
        (es.filter (fun e => e.1 = i)).length = 1 →
        m1.getRow i = .ok (es.map (convertEntry i)) := by
  obtain ⟨vals2, h1, hl, hp⟩ := convertToEquationSystem_spec m hm hsq hd
  have hm1 : ({ m with valueStorage := vals2 } : SparseMatrix T).RowsOK := by
    refine ⟨hm.1, ?_⟩
    show nth m.rowIndications m.rowCount ≤ vals2.length
    rw [hl]; exact hm.2
  refine ⟨_, h1, ?_⟩
  intro i hi es hes huniq
  rw [getRow_eq hm hi] at hes
  rw [getRow_eq hm1 hi]
  cases hes
  show Except.ok (List.zip (slice m.columnIndications _ _) (slice vals2 _ _)) = _
  congr 1
  have hse : nth m.rowIndications i ≤ nth m.rowIndications (i + 1) := hm.1.2.1 i hi
  have hec : nth m.rowIndications (i + 1) ≤ m.columnIndications.length :=
    hm.1.le_bound (by omega)
  have hev : nth m.rowIndications (i + 1) ≤ m.valueStorage.length :=
    le_trans (hm.1.mono m.rowCount (i + 1) (by omega) (le_refl _)) hm.2
  apply List.ext_getElem?
  intro t
  rw [List.getElem?_map]
  by_cases ht : nth m.rowIndications i + t < nth m.rowIndications (i + 1)
  · obtain ⟨a1, a2, a3⟩ := getElem?_zip_slice m.columnIndications m.valueStorage _ _ t hec hev ht
    obtain ⟨b1, b2, b3⟩ := getElem?_zip_slice m.columnIndications vals2 _ _ t hec
      (by rw [hl]; exact hev) ht
    rw [a3, b3]
    simp only [Option.map_some', Option.some.injEq]
    have hv2 : ∀ w, vals2[nth m.rowIndications i + t]? = some w →
        vals2[nth m.rowIndications i + t] = w := by
      intro w hw
      rw [List.getElem?_eq_getElem b2] at hw
      exact Option.some.inj hw
    by_cases hc : m.columnIndications[nth m.rowIndications i + t] = i
    · -- a diagonal entry: it is the first one of the row, because it is the only one
      obtain ⟨p, hpd⟩ := Option.ne_none_iff_exists'.1 (hd i hi)
      obtain ⟨p1, p2, p3, -⟩ := findDiagonal_some _ _ _ _ _ hpd
      obtain ⟨c1, c2, c3⟩ := getElem?_zip_slice m.columnIndications m.valueStorage
        (nth m.rowIndications i) (nth m.rowIndications (i + 1))
        (p - nth m.rowIndications i) hec hev (by omega)
      have hpc : m.columnIndications[nth m.rowIndications i + (p - nth m.rowIndications i)] = i := by
        have : nth m.rowIndications i + (p - nth m.rowIndications i) = p := by omega
        simp only [this]
        rw [List.getElem?_eq_getElem (by omega)] at p3
        exact Option.some.inj p3
      have htp := position_unique_of_filter_length_one huniq a3 c3 hc hpc
      have hpk : p = nth m.rowIndications i + t := by omega
      have hinv : InvertedAt m.rowIndications m.columnIndications 0 m.rowCount
          (nth m.rowIndications i + t) := ⟨i, Nat.zero_le _, hi, by rw [← hpk]; exact hpd⟩
      have := (hp _).1 hinv
      rw [List.getElem?_eq_getElem a2] at this
      rw [hv2 _ this]
      simp [convertEntry, hc]
    · have hneg : NegatedAt m.rowIndications m.columnIndications 0 m.rowCount
          (nth m.rowIndications i + t) := by
        refine ⟨i, Nat.zero_le _, hi, by omega, ht, ?_⟩
        rw [List.getElem?_eq_getElem a1]
        intro h
        exact hc (Option.some.inj h)
      have := (hp _).2.1 hneg
      rw [List.getElem?_eq_getElem a2] at this
      rw [hv2 _ this]
      simp [convertEntry, hc]
  · have l1 : (List.zip (slice m.columnIndications (nth m.rowIndications i)
        (nth m.rowIndications (i + 1))) (slice vals2 (nth m.rowIndications i)
        (nth m.rowIndications (i + 1))))[t]? = none := by
      apply List.getElem?_eq_none
      rw [List.length_zip, length_slice _ _ _ hec, length_slice _ _ _ (by rw [hl]; exact hev)]
      omega
    have l2 : (List.zip (slice m.columnIndications (nth m.rowIndications i)
        (nth m.rowIndications (i + 1))) (slice m.valueStorage (nth m.rowIndications i)
        (nth m.rowIndications (i + 1))))[t]? = none := by
      apply List.getElem?_eq_none
      rw [List.length_zip, length_slice _ _ _ hec, length_slice _ _ _ hev]
      omega
    rw [l1, l2]
    rfl

theorem take_succ_set {α : Type} : ∀ (v : List α) (n : Nat) (x : α), n < v.length →
    (v.set n x).take (n + 1) = v.take n ++ [x] := by
  intro v
  induction v with
  | nil => intro n x h; simp at h
  | cons a t ih =>
    intro n x h
    cases n with
    | zero => simp
    | succ k =>
      simp only [List.set_cons_succ, List.take_succ_cons, List.cons_append, List.cons.injEq,
        true_and]
      exact ih k x (by simpa using h)

theorem slice_map {α β : Type} (f : α → β) (l : List α) (s e : Nat) :
    slice (l.map f) s e = (slice l s e).map f := by
  unfold slice
  rw [List.map_take, List.map_drop]

theorem zip_map_map {α β γ : Type} (f : α → β) (g : α → γ) :
    ∀ l : List α, List.zip (l.map f) (l.map g) = l.map (fun x => (f x, g x)) := by
  intro l
  induction l with
  | nil => rfl
  | cons a t ih => simp [ih]

theorem sorted_rows_split {T : Type} (r : Nat) :
    ∀ l : List (Entry T), l.Pairwise (fun a b => a.1 ≤ b.1) →
      l = l.filter (fun e => e.1 < r) ++ l.filter (fun e => e.1 = r) ++
        l.filter (fun e => r < e.1) := by
  intro l
  induction l with
  | nil => intro _; rfl
  | cons a t ih =>
    intro h
    obtain ⟨h1, h2⟩ := List.pairwise_cons.1 h
    have iht := ih h2
    rcases Nat.lt_trichotomy a.1 r with hlt | heq | hgt
    · have e1 : ¬ a.1 = r := by omega
      have e2 : ¬ r < a.1 := by omega
      simp only [List.filter_cons, hlt, e1, e2, decide_True, decide_False, if_true,
        Bool.false_eq_true, if_false, List.cons_append]
      exact congrArg _ iht
    · have e1 : ¬ a.1 < r := by omega
      have e2 : ¬ r < a.1 := by omega
      have hnil : t.filter (fun e => e.1 < r) = [] := by
        rw [List.filter_eq_nil_iff]
        intro b hb
        have := h1 b hb
        simp only [decide_eq_true_eq]
        omega
      rw [hnil] at iht
      simp only [List.filter_cons, heq, e1, e2, decide_True, decide_False, if_true,
        Bool.false_eq_true, if_false, List.cons_append, hnil, List.nil_append, lt_self_iff_false]
      exact congrArg _ iht
    · have e1 : ¬ a.1 < r := by omega
      have e2 : ¬ a.1 = r := by omega
      have hnil1 : t.filter (fun e => e.1 < r) = [] := by
        rw [List.filter_eq_nil_iff]
        intro b hb
        have := h1 b hb
        simp only [decide_eq_true_eq]
        omega
      have hnil2 : t.filter (fun e => e.1 = r) = [] := by
        rw [List.filter_eq_nil_iff]
        intro b hb
        have := h1 b hb
        simp only [decide_eq_true_eq]
        omega
      rw [hnil1, hnil2] at iht
      simp only [List.filter_cons, hgt, e1, e2, decide_True, decide_False, if_true,
        Bool.false_eq_true, if_false, hnil1, hnil2, List.nil_append]
      exact congrArg _ iht

theorem length_filter_lt_succ {T : Type} (r : Nat) :
    ∀ l : List (Entry T), (l.filter (fun e => e.1 < r + 1)).length =
      (l.filter (fun e => e.1 < r)).length + (l.filter (fun e => e.1 = r)).length := by
  intro l
  induction l with
  | nil => rfl
  | cons a t ih =>
    rcases Nat.lt_trichotomy a.1 r with hlt | heq | hgt
    · have e0 : a.1 < r + 1 := by omega
      have e1 : ¬ a.1 = r := by omega
      rw [List.filter_cons_of_pos (by simpa using e0), List.filter_cons_of_pos (by simpa using hlt),
        List.filter_cons_of_neg (by simpa using e1)]
      simp only [List.length_cons, ih]
      omega
    · have e0 : a.1 < r + 1 := by omega
      have e1 : ¬ a.1 < r := by omega
      rw [List.filter_cons_of_pos (by simpa using e0), List.filter_cons_of_neg (by simpa using e1),
        List.filter_cons_of_pos (by simpa using heq)]
      simp only [List.length_cons, ih]
      omega
    · have e0 : ¬ a.1 < r + 1 := by omega
      have e1 : ¬ a.1 < r := by omega
      have e2 : ¬ a.1 = r := by omega
      rw [List.filter_cons_of_neg (by simpa using e0), List.filter_cons_of_neg (by simpa using e1),
        List.filter_cons_of_neg (by simpa using e2)]
      exact ih

theorem slice_sorted_rows {T : Type} (r : Nat) (l : List (Entry T))
    (h : l.Pairwise (fun a b => a.1 ≤ b.1)) :
    slice l (l.filter (fun e => e.1 < r)).length (l.filter (fun e => e.1 < r + 1)).length =
      l.filter (fun e => e.1 = r) := by
  have hs := sorted_rows_split r l h
  unfold slice
  rw [length_filter_lt_succ, Nat.add_sub_cancel_left]
  have key : List.take (l.filter (fun e => e.1 = r)).length
      (List.drop (l.filter (fun e => e.1 < r)).length
        (l.filter (fun e => e.1 < r) ++ l.filter (fun e => e.1 = r) ++
          l.filter (fun e => r < e.1))) = l.filter (fun e => e.1 = r) := by
    rw [List.append_assoc, List.drop_left, List.take_left]
  rwa [← hs] at key

theorem Filled.of_create {T : Type} [Zero T] (rows columns entries : Nat) (hr : rows ≠ 0)
    (hc : columns ≠ 0) (he : entries ≠ 0) :
    Filled (SparseMatrix.create rows columns entries : SparseMatrix T) [] := by
  obtain ⟨a1, a2, a3, a4, a5, a6, a7, a8, a9, a10, a11⟩ :=
    create_fields (T := T) rows columns entries
  constructor
  · rw [a4]; simp [hr, hc, he]
  · rw [a8]; simp
  · rw [a9]; rfl
  · rw [a5, a3]; simp
  · rw [a6, a3]; simp
  · rw [a7, a1]; simp
  · simp
  · simp
  · rw [a10]; exact Nat.zero_le _
  · intro e he; cases he
  · exact List.Pairwise.nil
  · intro r _
    rw [a7, nth_replicate_zero]
    rfl

theorem Filled.after_addNextValue {T : Type} {m m2 : SparseMatrix T} {done : List (Entry T)}
    {row column : Nat} {value : T} (hm : Filled m done)
    (h : m.addNextValue row column value = .ok m2) :
    Filled m2 (done ++ [(row, column, value)]) := by
  obtain ⟨hrange, hrow, -, m1, hs, hst⟩ := addNextValue_eq_ok_iff.1 h
  obtain ⟨a1, a2, a3, a4, a5, a6, a7, a8, a9, a10⟩ := addNextValue_switchRow_frame hs
  obtain ⟨b1, b2, b3, b4, b5, b6, b7, b8⟩ := addNextValue_store_frame hst
  obtain ⟨s1, -⟩ := addNextValue_switchRow_spec hs hrow
  obtain ⟨t1, -⟩ := addNextValue_store_spec hst
  obtain ⟨u1, u2, u3, u4, u5⟩ := t1 (by rw [a5]; exact hm.pre)
  obtain ⟨v1, v2⟩ := s1 hm.pre
  have hcur : m.currentEntryCount = done.length := hm.cur
  have hrc : row ≤ m.rowCount := by
    by_contra hc
    exact hrange ⟨hm.pre, Or.inl (by omega)⟩
  rw [a6, a9] at u1
  rw [a7, a9] at u2
  constructor
  · rw [b6, a5]; exact hm.pre
  · rw [b8, a8]; exact hm.notFinal
  · rw [u5, a9, hcur]; simp
  · rw [u3, b5, a4]; simp only [List.length_set]; rw [a6]; exact hm.lenV
  · rw [u4, b5, a4]; simp only [List.length_set]; rw [a7]; exact hm.lenC
  · rw [b7, v1, b3, a2]; exact hm.lenR
  · rw [u3, a6, a9, hcur, List.length_append, List.length_singleton,
      take_succ_set _ _ _ (by omega), hm.vals]
    simp
  · rw [u4, a7, a9, hcur, List.length_append, List.length_singleton,
      take_succ_set _ _ _ (by omega), hm.cols]
    simp
  · rw [b2, a1, b3, a2]; exact hrc
  · intro e he
    rw [b2, a1]
    rcases List.mem_append.1 he with he | he
    · have := hm.rows_le e he
      omega
    · rw [List.mem_singleton.1 he]
  · rw [List.pairwise_append]
    refine ⟨hm.sorted, List.pairwise_singleton _ _, ?_⟩
    intro a ha b hb
    rw [List.mem_singleton.1 hb]
    have := hm.rows_le a ha
    show a.1 ≤ row
    omega
  · intro r hr
    rw [b2, a1] at hr
    rw [b7, v2 r, List.filter_append, List.length_append]
    have hnew : (List.filter (fun e : Entry T => e.1 < r) [(row, column, value)]).length = 0 := by
      rw [List.filter_cons_of_neg (by simpa using hr)]
      rfl
    rw [hnew, Nat.add_zero]
    by_cases hlast : m.lastRow < r
    · have c1 : m.lastRow < r ∧ r ≤ row := ⟨hlast, hr⟩
      simp only [c1, and_self, if_true]
      rw [hcur]
      have hall : done.filter (fun e => e.1 < r) = done := by
        rw [List.filter_eq_self]
        intro a ha
        have := hm.rows_le a ha
        simp only [decide_eq_true_eq]
        omega
      rw [hall]
    · have c1 : ¬ (m.lastRow < r ∧ r ≤ row) := fun c => hlast c.1
      simp only [c1, if_false]
      exact hm.starts r (by omega)

theorem Filled.after_addAll {T : Type} : ∀ (es : List (Entry T)) (m m2 : SparseMatrix T)
    (done : List (Entry T)), Filled m done → addAll m es = .ok m2 → Filled m2 (done ++ es) := by
  intro es
  induction es with
  | nil =>
    intro m m2 done hm h
    simp only [addAll, Except.ok.injEq] at h
    subst h
    simpa using hm
  | cons e rest ih =>
    intro m m2 done hm h
    obtain ⟨row, column, value⟩ := e
    simp only [addAll] at h
    split at h
    · cases h
    · rename_i m1 h1
      have := ih m1 m2 _ (hm.after_addNextValue h1) h
      simpa using this

theorem addAll_frame {T : Type} : ∀ (es : List (Entry T)) (m m2 : SparseMatrix T),
    addAll m es = .ok m2 →
      m2.rowCount = m.rowCount ∧ m2.columnCount = m.columnCount ∧ m2.entryCount = m.entryCount := by
  intro es
  induction es with
  | nil =>
    intro m m2 h
    rw [addAll] at h
    cases h
    exact ⟨rfl, rfl, rfl⟩
  | cons e rest ih =>
    intro m m2 h
    obtain ⟨row, column, value⟩ := e
    rw [addAll] at h
    split at h
    · cases h
    · rename_i m1 h1
      obtain ⟨-, -, f3, f4, f5, -⟩ := addNextValue_ok_fields h1
      obtain ⟨g1, g2, g3⟩ := ih m1 m2 h
      exact ⟨by rw [g1, f3], by rw [g2, f4], by rw [g3, f5]⟩

theorem sum_length_filter_row {T : Type} (es : List (Entry T)) :
    ∀ n, (∑ r in Finset.range n, (es.filter (fun e => e.1 = r)).length) =
      (es.filter (fun e => e.1 < n)).length := by
  intro n
  induction n with
  | zero => simp
  | succ k ih => rw [Finset.sum_range_succ, ih, length_filter_lt_succ]

theorem filter_lt_eq_self {T : Type} (es : List (Entry T)) (n : Nat)
    (h : ∀ e, e ∈ es → e.1 < n) : es.filter (fun e => e.1 < n) = es := by
  rw [List.filter_eq_self]
  intro a ha
  simpa using h a ha

/-- The construction round trip of a preallocated matrix, for call sequences
that stay inside the declared rows: after `entries` accepted calls with
`row < rows`, `finalize()` returns normally, `getRow(r)` yields for every
`r < rows` exactly the `(column, value)` pairs inserted with row `r`, in
insertion order, and the row lengths add up to `entries`. -/
theorem roundTrip_preallocated_in_range {T : Type} [Zero T] (rows columns entries : Nat)
    (hr : rows ≠ 0) (hc : columns ≠ 0) (he : entries ≠ 0) (es : List (Entry T))
    (m : SparseMatrix T) (hadd : addAll (SparseMatrix.create rows columns entries) es = .ok m)
    (hlen : es.length = entries) (hrows : ∀ e, e ∈ es → e.1 < rows) :
    ∃ m1, m.finalize = .ok m1 ∧ m1.rowCount = rows ∧
      (∀ r, r < rows → m1.getRow r = .ok (insertedInRow es r)) ∧
      (∑ r in Finset.range rows, (insertedInRow es r).length) = entries := by
  have hF : Filled m es := by
    simpa using Filled.after_addAll es _ _ [] (Filled.of_create (T := T) rows columns entries hr hc he)
      hadd
  obtain ⟨g1, -, g3⟩ := addAll_frame es _ _ hadd
  obtain ⟨a1, -, a3, -⟩ := create_fields (T := T) rows columns entries
  rw [a1] at g1
  rw [a3] at g3
  have hcur : m.currentEntryCount = m.entryCount := by rw [hF.cur, g3, hlen]
  -- finalize succeeds
  obtain ⟨ri, hri⟩ := fillRowIndications_of_le (m.rowCount - (m.lastRow + 1)) m.rowIndications
    (m.lastRow + 1) m.currentEntryCount (by have := hF.lenR; have := hF.lastRow_le; omega)
  obtain ⟨b1, -, b3⟩ := fillRowIndications_spec _ _ _ _ _ hri
  have hlenri : m.rowCount < ri.length := by rw [b1, hF.lenR]; omega
  have hfin : m.finalize = .ok { m with rowIndications := ri.set m.rowCount m.entryCount,
                                        internalStatus := .INITIALIZED } := by
    unfold SparseMatrix.finalize
    have h2 : ¬ (m.storagePreallocated = true ∧ m.currentEntryCount ≠ m.entryCount) :=
      fun h => h.2 hcur
    rw [if_neg hF.notFinal, if_neg h2, if_pos hF.pre]
    simp only [hri, writeAt_of_lt m.entryCount hlenri]
  -- the row starts count the entries of the smaller rows
  have key : ∀ r, r ≤ m.rowCount →
      nth (ri.set m.rowCount m.entryCount) r = (es.filter (fun e => e.1 < r)).length := by
    intro r hrle
    rw [nth_set, b3 r]
    by_cases hk : r = m.rowCount
    · subst hk
      simp only [hlenri, and_self, if_true]
      rw [filter_lt_eq_self es _ (by rw [g1]; exact hrows), g3, hlen]
    · have e1 : ¬ (m.rowCount = r ∧ r < ri.length) := fun c => hk c.1.symm
      simp only [e1, if_false]
      by_cases hlast : m.lastRow < r
      · have e2 : m.lastRow + 1 ≤ r ∧ r < m.lastRow + 1 + (m.rowCount - (m.lastRow + 1)) := by
          omega
        simp only [e2, and_self, if_true]
        rw [hF.cur, filter_lt_eq_self es r (fun e he => by have := hF.rows_le e he; omega)]
      · have e2 : ¬ (m.lastRow + 1 ≤ r ∧ r < m.lastRow + 1 + (m.rowCount - (m.lastRow + 1))) := by
          omega
        simp only [e2, if_false]
        exact hF.starts r (by omega)
  have hvals : m.valueStorage = es.map (fun e => e.2.2) := by
    have := hF.vals
    rwa [List.take_of_length_le (by rw [hF.lenV, g3, hlen])] at this
  have hcols : m.columnIndications = es.map (fun e => e.2.1) := by
    have := hF.cols
    rwa [List.take_of_length_le (by rw [hF.lenC, g3, hlen])] at this
  have hok : ({ m with rowIndications := ri.set m.rowCount m.entryCount,
                       internalStatus := .INITIALIZED } : SparseMatrix T).RowsOK := by
    refine ⟨⟨?_, ?_, ?_⟩, ?_⟩
    · show m.rowCount + 1 ≤ (ri.set m.rowCount m.entryCount).length
      simp only [List.length_set]; omega
    · intro i hi
      replace hi : i < m.rowCount := hi
      show nth (ri.set m.rowCount m.entryCount) i ≤ nth (ri.set m.rowCount m.entryCount) (i + 1)
      rw [key i (by omega), key (i + 1) (by omega), length_filter_lt_succ]
      omega
    · show nth (ri.set m.rowCount m.entryCount) m.rowCount ≤ m.columnIndications.length
      rw [key _ (le_refl _), hF.lenC, g3, ← hlen]
      exact List.length_filter_le _ _
    · show nth (ri.set m.rowCount m.entryCount) m.rowCount ≤ m.valueStorage.length
      rw [key _ (le_refl _), hF.lenV, g3, ← hlen]
      exact List.length_filter_le _ _
  refine ⟨_, hfin, g1, ?_, ?_⟩
  · intro r hrlt
    have hrlt2 : r < m.rowCount := by rw [g1]; exact hrlt
    rw [getRow_eq hok hrlt2]
    show Except.ok (List.zip
      (slice m.columnIndications (nth (ri.set m.rowCount m.entryCount) r)
        (nth (ri.set m.rowCount m.entryCount) (r + 1)))
      (slice m.valueStorage (nth (ri.set m.rowCount m.entryCount) r)
        (nth (ri.set m.rowCount m.entryCount) (r + 1)))) = _
    rw [key r (by omega), key (r + 1) (by omega), hvals, hcols, slice_map, slice_map,
      zip_map_map, slice_sorted_rows r es hF.sorted]
    rfl
  · unfold insertedInRow
    simp only [List.length_map]
    rw [sum_length_filter_row, filter_lt_eq_self es rows hrows, hlen]

/-- The storage invariant of a finalized preallocated matrix: the row-start
vector has `rowCount + 1` elements that do not decrease, its last element (the
sentinel) is `entryCount`, and both storage vectors hold `entryCount` entries. -/
theorem finalize_storage_invariant_preallocated {T : Type} [Zero T] [One T] [Sub T] [Neg T]
    (m : SparseMatrix T) (hm : Finalized m) (hp : m.storagePreallocated = true) :
    m.rowIndications.length = m.rowCount + 1 ∧
    (∀ i, i < m.rowCount → nth m.rowIndications i ≤ nth m.rowIndications (i + 1)) ∧
    nth m.rowIndications m.rowCount = m.entryCount ∧
    m.valueStorage.length = m.entryCount ∧ m.columnIndications.length = m.entryCount := by
  obtain ⟨l1, l2, l3⟩ := hm.1.inv.sizes hp
  obtain ⟨-, f2, f3⟩ := hm.1.inv.finalized hp hm.2
  exact ⟨l1, f2, f3, l2, l3⟩

theorem transpose_countRow_spec {T : Type} [Zero T] [LT T]
    [DecidableRel (fun (a b : T) => a < b)] :
    ∀ (es : List (Nat × T)) (ri : List Nat),
      (∀ e, e ∈ es → 0 < e.2 → e.1 + 1 < ri.length) →
      ∃ ri1, transpose_countRow ri es = some ri1 ∧ ri1.length = ri.length ∧
        ∀ k, nth ri1 k = nth ri k + (es.filter (fun e => 0 < e.2 ∧ e.1 + 1 = k)).length := by
  intro es
  induction es with
  | nil => intro ri _; exact ⟨ri, rfl, rfl, fun k => by simp⟩
  | cons a rest ih =>
    intro ri h
    obtain ⟨c, v⟩ := a
    have hrest : ∀ ri1 : List Nat, ri1.length = ri.length →
        ∀ e, e ∈ rest → 0 < e.2 → e.1 + 1 < ri1.length := by
      intro ri1 hl e he hpos
      rw [hl]
      exact h e (List.mem_cons_of_mem _ he) hpos
    by_cases hv : 0 < v
    · have hc : c + 1 < ri.length := h (c, v) (List.mem_cons_self _ _) hv
      obtain ⟨ri1, h1, h2, h3⟩ := ih (ri.set (c + 1) (nth ri (c + 1) + 1))
        (hrest _ (List.length_set _ _ _))
      refine ⟨ri1, ?_, by rw [h2, List.length_set], fun k => ?_⟩
      · simp only [transpose_countRow, hv, if_true, readAt, getElem?_eq_nth hc,
          writeAt_of_lt _ hc, h1]
      · rw [h3 k, nth_set]
        by_cases hk : c + 1 = k
        · have : (0 < v ∧ c + 1 = k) := ⟨hv, hk⟩
          rw [List.filter_cons_of_pos (by simpa using this)]
          simp only [hk, true_and, List.length_cons]
          have : k < ri.length := by omega
          simp only [this, if_true]
          omega
        · have : ¬ (0 < v ∧ c + 1 = k) := fun h => hk h.2
          rw [List.filter_cons_of_neg (by simpa using this)]
          have : ¬ (c + 1 = k ∧ k < ri.length) := fun h => hk h.1
          simp only [this, if_false]
    · obtain ⟨ri1, h1, h2, h3⟩ := ih ri (hrest _ rfl)
      refine ⟨ri1, ?_, h2, fun k => ?_⟩
      · simp only [transpose_countRow, hv, if_false, h1]
      · rw [h3 k]
        have : ¬ (0 < v ∧ c + 1 = k) := fun h => hv h.1
        rw [List.filter_cons_of_neg (by simpa using this)]

theorem transpose_count_spec {T : Type} [Zero T] [LT T] [DecidableRel (fun (a b : T) => a < b)]
    (m : SparseMatrix T) (rows : Nat → List (Nat × T))
    (hrows : ∀ i, i < m.rowCount → m.getRow i = .ok (rows i)) :
    ∀ (count i : Nat) (ri : List Nat), i + count ≤ m.rowCount →
      (∀ e, e ∈ taggedEntries rows i count → 0 < e.2.2 → e.2.1 + 1 < ri.length) →
      ∃ ri1, transpose_count m ri i count = some ri1 ∧ ri1.length = ri.length ∧
        ∀ k, nth ri1 k = nth ri k +
          ((taggedEntries rows i count).filter (fun e => 0 < e.2.2 ∧ e.2.1 + 1 = k)).length := by
  intro count
  induction count with
  | zero => intro i ri _ _; exact ⟨ri, rfl, rfl, fun k => by simp [taggedEntries]⟩
  | succ n ih =>
    intro i ri hi h
    have hrow : ∀ e, e ∈ rows i → 0 < e.2 → e.1 + 1 < ri.length := by
      intro e he hpos
      have : (i, e.1, e.2) ∈ taggedEntries rows i (n + 1) := by
        simp only [taggedEntries, List.mem_append, List.mem_map]
        exact Or.inl ⟨e, he, rfl⟩
      exact h _ this hpos
    obtain ⟨ri1, h1, h2, h3⟩ := transpose_countRow_spec (rows i) ri hrow
    obtain ⟨ri2, g1, g2, g3⟩ := ih (i + 1) ri1 (by omega) (by
      intro e he hpos
      rw [h2]
      apply h e _ hpos
      simp only [taggedEntries, List.mem_append]
      exact Or.inr he)
    refine ⟨ri2, ?_, by rw [g2, h2], fun k => ?_⟩
    · simp only [transpose_count, hrows i (by omega), h1, g1]
    · rw [g3 k, h3 k]
      simp only [taggedEntries, List.filter_append, List.length_append, List.filter_map,
        List.length_map]
      rw [Nat.add_assoc]
      rfl

theorem length_filter_key_lt_succ {α : Type} (key : α → Nat) (r : Nat) :
    ∀ l : List α, (l.filter (fun e => key e < r + 1)).length =
      (l.filter (fun e => key e < r)).length + (l.filter (fun e => key e = r)).length := by
  intro l
  induction l with
  | nil => rfl
  | cons a t ih =>
    rcases Nat.lt_trichotomy (key a) r with hlt | heq | hgt
    · have e0 : key a < r + 1 := by omega
      have e1 : ¬ key a = r := by omega
      rw [List.filter_cons_of_pos (by simpa using e0), List.filter_cons_of_pos (by simpa using hlt),
        List.filter_cons_of_neg (by simpa using e1)]
      simp only [List.length_cons, ih]
      omega
    · have e0 : key a < r + 1 := by omega
      have e1 : ¬ key a < r := by omega
      rw [List.filter_cons_of_pos (by simpa using e0), List.filter_cons_of_neg (by simpa using e1),
        List.filter_cons_of_pos (by simpa using heq)]
      simp only [List.length_cons, ih]
      omega
    · have e0 : ¬ key a < r + 1 := by omega
      have e1 : ¬ key a < r := by omega
      have e2 : ¬ key a = r := by omega
      rw [List.filter_cons_of_neg (by simpa using e0), List.filter_cons_of_neg (by simpa using e1),
        List.filter_cons_of_neg (by simpa using e2)]
      exact ih

theorem length_filter_key_lt_mono {α : Type} (key : α → Nat) (l : List α) :
    ∀ b a, a ≤ b → (l.filter (fun e => key e < a)).length ≤ (l.filter (fun e => key e < b)).length := by
  intro b
  induction b with
  | zero => intro a ha; have : a = 0 := by omega
            subst this; exact le_refl _
  | succ n ih =>
    intro a ha
    by_cases h : a = n + 1
    · subst h; exact le_refl _
    · have := ih a (by omega)
      rw [length_filter_key_lt_succ]
      omega

theorem transpose_accumulate_spec (S cnt : Nat → Nat) (hS : ∀ k, S (k + 1) = S k + cnt (k + 1)) :
    ∀ (count i : Nat) (ri : List Nat), 1 ≤ i → i + count ≤ ri.length →
      (∀ k, k < ri.length → nth ri k = if k < i then S k else cnt k) →
      ∃ ri1, transpose_accumulate ri i count = some ri1 ∧ ri1.length = ri.length ∧
        ∀ k, k < ri.length → nth ri1 k = if k < i + count then S k else cnt k := by
  intro count
  induction count with
  | zero => intro i ri _ _ h; exact ⟨ri, rfl, rfl, fun k hk => by simpa using h k hk⟩
  | succ n ih =>
    intro i ri hi hlen h
    have h1 : i - 1 < ri.length := by omega
    have h2 : i < ri.length := by omega
    have v1 : nth ri (i - 1) = S (i - 1) := by
      rw [h _ h1]; simp only [show i - 1 < i by omega, if_true]
    have v2 : nth ri i = cnt i := by
      rw [h _ h2]; simp only [lt_self_iff_false, if_false]
    have hSi : S i = S (i - 1) + cnt i := by
      have := hS (i - 1)
      rwa [show i - 1 + 1 = i by omega] at this
    obtain ⟨ri1, g1, g2, g3⟩ := ih (i + 1) (ri.set i (nth ri (i - 1) + nth ri i)) (by omega)
      (by rw [List.length_set]; omega) (by
        intro k hk
        rw [List.length_set] at hk
        rw [nth_set]
        by_cases hki : i = k
        · subst hki
          simp only [hk, and_self, if_true, show i < i + 1 by omega, v1, v2, hSi]
        · have : ¬ (i = k ∧ k < ri.length) := fun c => hki c.1
          simp only [this, if_false]
          rw [h k hk]
          by_cases hlt : k < i
          · simp only [hlt, if_true, show k < i + 1 by omega]
          · simp only [hlt, if_false, show ¬ k < i + 1 by omega])
    refine ⟨ri1, ?_, by rw [g2, List.length_set], fun k hk => ?_⟩
    · simp only [transpose_accumulate, readAt, getElem?_eq_nth h1, getElem?_eq_nth h2,
        writeAt_of_lt _ h2, g1]
    · have := g3 k (by rw [List.length_set]; exact hk)
      rw [this]
      have : i + 1 + n = i + (n + 1) := by omega
      rw [this]

theorem FillInv.step {T : Type} {P Q R : List (Entry T)} {V nlen : Nat} {st : TransposeState T}
    (hinv : FillInv P V nlen Q st) (e : Entry T) (hP : P = Q ++ e :: R) (hc : e.2.1 < nlen)
    (hV : P.length ≤ V) :
    (P.filter (fun x => x.2.1 < e.2.1)).length + (Q.filter (fun x => x.2.1 = e.2.1)).length < V ∧
    FillInv P V nlen (Q ++ [e])
      { values := st.values.set ((P.filter (fun x => x.2.1 < e.2.1)).length +
          (Q.filter (fun x => x.2.1 = e.2.1)).length) e.2.2
        columnIndications := st.columnIndications.set
          ((P.filter (fun x => x.2.1 < e.2.1)).length +
            (Q.filter (fun x => x.2.1 = e.2.1)).length) e.1
        nextIndices := st.nextIndices.set e.2.1
          ((P.filter (fun x => x.2.1 < e.2.1)).length +
            (Q.filter (fun x => x.2.1 = e.2.1)).length + 1) } := by
  -- the number of entries of `P` with column `j`, split along `P = Q ++ e :: R`
  have hsplit : ∀ j, (P.filter (fun x => x.2.1 = j)).length =
      (Q.filter (fun x => x.2.1 = j)).length + (if e.2.1 = j then 1 else 0) +
        (R.filter (fun x => x.2.1 = j)).length := by
    intro j
    rw [hP, List.filter_append, List.length_append]
    by_cases hj : e.2.1 = j
    · rw [List.filter_cons_of_pos (by simpa using hj)]
      simp only [hj, if_true, List.length_cons]
      omega
    · rw [List.filter_cons_of_neg (by simpa using hj)]
      simp only [hj, if_false]
      omega
  have hsucc := fun j => length_filter_key_lt_succ (fun x : Entry T => x.2.1) j P
  have hmono := length_filter_key_lt_mono (fun x : Entry T => x.2.1) P
  have htotal : ∀ j, (P.filter (fun x => x.2.1 < j)).length ≤ P.length :=
    fun j => List.length_filter_le _ _
  have hp : (P.filter (fun x => x.2.1 < e.2.1)).length +
      (Q.filter (fun x => x.2.1 = e.2.1)).length < V := by
    have h1 := hsplit e.2.1
    have h2 := hsucc e.2.1
    have h3 := htotal (e.2.1 + 1)
    simp only [if_true] at h1
    omega
  refine ⟨hp, ?_⟩
  constructor
  · simp only [List.length_set]; exact hinv.lenV
  · simp only [List.length_set]; exact hinv.lenC
  · simp only [List.length_set]; exact hinv.lenN
  · intro j hj
    show nth (st.nextIndices.set e.2.1 _) j = _
    rw [nth_set, List.filter_append, List.length_append]
    by_cases hje : e.2.1 = j
    · subst hje
      rw [List.filter_cons_of_pos (by simp)]
      simp only [hinv.lenN, hc, and_self, if_true, List.filter_nil, List.length_cons,
        List.length_nil]
      omega
    · rw [List.filter_cons_of_neg (by simpa using hje)]
      have : ¬ (e.2.1 = j ∧ j < st.nextIndices.length) := fun c => hje c.1
      simp only [this, if_false, List.filter_nil, List.length_nil, Nat.add_zero]
      exact hinv.next j hj
  · intro j t x hx
    show (st.values.set _ e.2.2)[_]? = some x.2.2 ∧ (st.columnIndications.set _ e.1)[_]? = some x.1
    rw [List.filter_append] at hx
    by_cases hje : e.2.1 = j
    · subst hje
      rw [List.filter_cons_of_pos (by simp), List.filter_nil] at hx
      rcases Nat.lt_trichotomy t (Q.filter (fun x => x.2.1 = e.2.1)).length with hlt | heq | hgt
      · rw [List.getElem?_append_left hlt] at hx
        obtain ⟨s1, s2⟩ := hinv.stored _ t x hx
        rw [List.getElem?_set_ne (by omega), List.getElem?_set_ne (by omega)]
        exact ⟨s1, s2⟩
      · subst heq
        rw [List.getElem?_append_right (le_refl _), Nat.sub_self] at hx
        simp only [List.getElem?_cons_zero, Option.some.injEq] at hx
        subst hx
        rw [List.getElem?_set_self (by rw [hinv.lenV]; exact hp),
          List.getElem?_set_self (by rw [hinv.lenC]; exact hp)]
        exact ⟨rfl, rfl⟩
      · rw [List.getElem?_append_right (by omega)] at hx
        have : t - (Q.filter (fun x => x.2.1 = e.2.1)).length ≠ 0 := by omega
        obtain ⟨n, hn⟩ := Nat.exists_eq_succ_of_ne_zero this
        rw [hn] at hx
        simp at hx
    · rw [List.filter_cons_of_neg (by simpa using hje), List.filter_nil, List.append_nil] at hx
      obtain ⟨s1, s2⟩ := hinv.stored _ t x hx
      have ht : t < (Q.filter (fun x => x.2.1 = j)).length := by
        by_contra hcon
        rw [List.getElem?_eq_none (by omega)] at hx
        cases hx
      have hne : (P.filter (fun x => x.2.1 < e.2.1)).length +
          (Q.filter (fun x => x.2.1 = e.2.1)).length ≠
          (P.filter (fun x => x.2.1 < j)).length + t := by
        have a1 := hsplit j
        have a2 := hsplit e.2.1
        simp only [if_true] at a2
        rcases Nat.lt_or_gt_of_ne hje with hlt | hgt
        · have b1 := hsucc e.2.1
          have b2 := hmono j (e.2.1 + 1) (by omega)
          omega
        · have b1 := hsucc j
          have b2 := hmono e.2.1 (j + 1) (by omega)
          omega
      rw [List.getElem?_set_ne hne, List.getElem?_set_ne hne]
      exact ⟨s1, s2⟩

theorem transpose_fillRow_spec {T : Type} [Zero T] [LT T]
    [DecidableRel (fun (a b : T) => a < b)] {P : List (Entry T)} {V nlen : Nat} (i : Nat)
    (hV : P.length ≤ V) :
    ∀ (es : List (Nat × T)) (Q R : List (Entry T)) (st : TransposeState T),
      FillInv P V nlen Q st →
      P = Q ++ (es.map (fun e => (i, e.1, e.2))).filter (fun e => 0 < e.2.2) ++ R →
      (∀ e, e ∈ es → 0 < e.2 → e.1 < nlen) →
      ∃ st1, transpose_fillRow st i es = some st1 ∧
        FillInv P V nlen (Q ++ (es.map (fun e => (i, e.1, e.2))).filter (fun e => 0 < e.2.2))
          st1 := by
  intro es
  induction es with
  | nil =>
    intro Q R st hinv _ _
    exact ⟨st, rfl, by simpa using hinv⟩
  | cons a rest ih =>
    intro Q R st hinv hP hcols
    obtain ⟨c, v⟩ := a
    have hrest : ∀ e, e ∈ rest → 0 < e.2 → e.1 < nlen :=
      fun e he => hcols e (List.mem_cons_of_mem _ he)
    by_cases hv : 0 < v
    · have hc : c < nlen := hcols (c, v) (List.mem_cons_self _ _) hv
      rw [List.map_cons, List.filter_cons_of_pos (by simpa using hv)] at hP ⊢
      obtain ⟨hp, hstep⟩ := hinv.step (R := (rest.map (fun e => (i, e.1, e.2))).filter
        (fun e => 0 < e.2.2) ++ R) (i, c, v) (by rw [hP]; simp) hc hV
      obtain ⟨st1, h1, h2⟩ := ih (Q ++ [(i, c, v)]) R _ hstep (by rw [hP]; simp) hrest
      refine ⟨st1, ?_, by simpa using h2⟩
      have hread : readAt st.nextIndices c = some
          ((P.filter (fun x => x.2.1 < c)).length + (Q.filter (fun x => x.2.1 = c)).length) := by
        unfold readAt
        rw [getElem?_eq_nth (by rw [hinv.lenN]; exact hc), hinv.next c hc]
      simp only [transpose_fillRow, hv, if_true, hread,
        writeAt_of_lt v (show _ < st.values.length by rw [hinv.lenV]; exact hp),
        writeAt_of_lt i (show _ < st.columnIndications.length by rw [hinv.lenC]; exact hp),
        writeAt_of_lt _ (show c < st.nextIndices.length by rw [hinv.lenN]; exact hc)]
      exact h1
    · rw [List.map_cons, List.filter_cons_of_neg (by simpa using hv)] at hP ⊢
      obtain ⟨st1, h1, h2⟩ := ih Q R st hinv hP hrest
      refine ⟨st1, ?_, h2⟩
      simp only [transpose_fillRow, hv, if_false]
      exact h1

theorem transpose_fill_spec {T : Type} [Zero T] [LT T] [DecidableRel (fun (a b : T) => a < b)]
    (m : SparseMatrix T) (rows : Nat → List (Nat × T))
    (hrows : ∀ i, i < m.rowCount → m.getRow i = .ok (rows i))
    {P : List (Entry T)} {V nlen : Nat} (hV : P.length ≤ V) :
    ∀ (count i : Nat) (Q R : List (Entry T)) (st : TransposeState T), i + count ≤ m.rowCount →
      FillInv P V nlen Q st →
      P = Q ++ (taggedEntries rows i count).filter (fun e => 0 < e.2.2) ++ R →
      (∀ e, e ∈ taggedEntries rows i count → 0 < e.2.2 → e.2.1 < nlen) →
      ∃ st1, transpose_fill m st i count = some st1 ∧
        FillInv P V nlen (Q ++ (taggedEntries rows i count).filter (fun e => 0 < e.2.2)) st1 := by
  intro count
  induction count with
  | zero =>
    intro i Q R st _ hinv _ _
    exact ⟨st, rfl, by simpa [taggedEntries] using hinv⟩
  | succ n ih =>
    intro i Q R st hi hinv hP hcols
    simp only [taggedEntries, List.filter_append] at hP ⊢
    have hrow : ∀ e, e ∈ rows i → 0 < e.2 → e.1 < nlen := by
      intro e he hpos
      have : (i, e.1, e.2) ∈ taggedEntries rows i (n + 1) := by
        simp only [taggedEntries, List.mem_append, List.mem_map]
        exact Or.inl ⟨e, he, rfl⟩
      exact hcols _ this hpos
    obtain ⟨st1, h1, h2⟩ := transpose_fillRow_spec i hV (rows i) Q
      ((taggedEntries rows (i + 1) n).filter (fun e => 0 < e.2.2) ++ R) st hinv
      (by rw [hP]; simp) hrow
    obtain ⟨st2, g1, g2⟩ := ih (i + 1) _ R st1 (by omega) h2 (by rw [hP]; simp) (by
      intro e he hpos
      apply hcols e _ hpos
      simp only [taggedEntries, List.mem_append]
      exact Or.inr he)
    refine ⟨st2, ?_, by simpa using g2⟩
    simp only [transpose_fill, hrows i (by omega), h1, g1]

theorem mem_taggedEntries {T : Type} (rows : Nat → List (Nat × T)) :
    ∀ (count i : Nat) (e : Entry T), e ∈ taggedEntries rows i count →
      i ≤ e.1 ∧ e.1 < i + count ∧ (e.2.1, e.2.2) ∈ rows e.1 := by
  intro count
  induction count with
  | zero => intro i e h; simp [taggedEntries] at h
  | succ n ih =>
    intro i e h
    simp only [taggedEntries, List.mem_append, List.mem_map] at h
    rcases h with ⟨a, ha, rfl⟩ | h
    · exact ⟨le_refl _, by omega, ha⟩
    · obtain ⟨h1, h2, h3⟩ := ih (i + 1) e h
      exact ⟨by omega, by omega, h3⟩

theorem length_taggedEntries {T : Type} (rows : Nat → List (Nat × T)) (ri : List Nat)
    (rowCount bound : Nat) (hri : RowStartsOK ri rowCount bound)
    (hlen : ∀ i, i < rowCount → (rows i).length = nth ri (i + 1) - nth ri i) :
    ∀ (count i : Nat), i + count ≤ rowCount →
      (taggedEntries rows i count).length = nth ri (i + count) - nth ri i := by
  intro count
  induction count with
  | zero => intro i _; simp [taggedEntries]
  | succ n ih =>
    intro i hi
    simp only [taggedEntries, List.length_append, List.length_map]
    rw [hlen i (by omega), ih (i + 1) (by omega)]
    have h1 := hri.2.1 i (by omega)
    have h2 := hri.mono (i + 1 + n) (i + 1) (by omega) (by omega)
    have : i + 1 + n = i + (n + 1) := by omega
    rw [this] at h2 ⊢
    omega

theorem getRow_length {T : Type} {m : SparseMatrix T} (hm : m.RowsOK) {i : Nat}
    (hi : i < m.rowCount) {es : List (Nat × T)} (h : m.getRow i = .ok es) :
    es.length = nth m.rowIndications (i + 1) - nth m.rowIndications i := by
  rw [getRow_eq hm hi] at h
  cases h
  have hec : nth m.rowIndications (i + 1) ≤ m.columnIndications.length :=
    hm.1.le_bound (by omega)
  have hev : nth m.rowIndications (i + 1) ≤ m.valueStorage.length :=
    le_trans (hm.1.mono m.rowCount (i + 1) (by omega) (le_refl _)) hm.2
  rw [List.length_zip, length_slice _ _ _ hec, length_slice _ _ _ hev, Nat.min_self]

/-- The result of `transpose()` for a matrix whose rows are well formed, whose
stored entries fit the declared entry count and whose stored columns lie below
`columnCount`: the call returns a matrix with the row and column counts swapped
whose row `j` lists, in the order of the source rows, the pairs `(i, v)` of the
entries `(j, v)` with `v > 0` that row `i` of the source stores. -/
theorem transpose_spec {T : Type} [Zero T] [LT T] [DecidableRel (fun (a b : T) => a < b)]
    (m : SparseMatrix T) (hm : m.RowsOK)
    (hcap : nth m.rowIndications m.rowCount ≤ m.entryCount)
    (rows : Nat → List (Nat × T)) (hrows : ∀ i, i < m.rowCount → m.getRow i = .ok (rows i))
    (hcols : ∀ i, i < m.rowCount → ∀ e, e ∈ rows i → e.1 < m.columnCount) :
    ∃ mT, m.transpose = .ok mT ∧ mT.rowCount = m.columnCount ∧ mT.columnCount = m.rowCount ∧
      mT.entryCount = m.entryCount ∧ mT.RowsOK ∧
      ∀ j, j < m.columnCount →
        mT.getRow j = .ok (((taggedEntries rows 0 m.rowCount).filter
          (fun e => 0 < e.2.2 ∧ e.2.1 = j)).map (fun e => (e.1, e.2.2))) := by
  have hEcol : ∀ e, e ∈ taggedEntries rows 0 m.rowCount → e.2.1 < m.columnCount := by
    intro e he
    obtain ⟨-, h2, h3⟩ := mem_taggedEntries rows _ _ e he
    exact hcols e.1 (by omega) _ h3
  have hsucc := fun j => length_filter_key_lt_succ (fun x : Entry T => x.2.1) j
    ((taggedEntries rows 0 m.rowCount).filter (fun e => 0 < e.2.2))
  have hmono := length_filter_key_lt_mono (fun x : Entry T => x.2.1)
    ((taggedEntries rows 0 m.rowCount).filter (fun e => 0 < e.2.2))
  have hPlen : ((taggedEntries rows 0 m.rowCount).filter (fun e => 0 < e.2.2)).length ≤
      m.entryCount := by
    have h1 := length_taggedEntries rows m.rowIndications m.rowCount _ hm.1
      (fun i hi => getRow_length hm hi (hrows i hi)) m.rowCount 0 (by omega)
    have h2 : ((taggedEntries rows 0 m.rowCount).filter (fun e => 0 < e.2.2)).length ≤
        (taggedEntries rows 0 m.rowCount).length := List.length_filter_le _ _
    rw [Nat.zero_add] at h1
    omega
  -- counting pass
  obtain ⟨counted, c1, c2, c3⟩ := transpose_count_spec m rows hrows m.rowCount 0
    (List.replicate (m.columnCount + 1) 0) (by omega) (by
      intro e he _
      have := hEcol e he
      simp only [List.length_replicate]
      omega)
  simp only [List.length_replicate] at c2
  -- accumulation
  have hfilt : ∀ (q : Entry T → Bool),
      ((taggedEntries rows 0 m.rowCount).filter (fun e => 0 < e.2.2)).filter q =
        (taggedEntries rows 0 m.rowCount).filter (fun e => decide (0 < e.2.2) && q e) := by
    intro q
    rw [List.filter_filter]
    apply List.filter_congr
    intro x _
    rw [Bool.and_comm]
  obtain ⟨ri, a1, a2, a3⟩ := transpose_accumulate_spec
    (fun k => (((taggedEntries rows 0 m.rowCount).filter (fun e => 0 < e.2.2)).filter
      (fun e => e.2.1 < k)).length)
    (fun k => (((taggedEntries rows 0 m.rowCount).filter (fun e => 0 < e.2.2)).filter
      (fun e => e.2.1 + 1 = k)).length)
    (by
      intro k
      simp only
      rw [hsucc k]
      congr 2
      apply List.filter_congr
      intro x _
      simp)
    (m.columnCount + 1 - 1) 1 counted (le_refl _) (by rw [c2]; omega) (by
      intro k hk
      rw [c3 k, nth_replicate_zero, Nat.zero_add]
      by_cases hk0 : k < 1
      · have : k = 0 := by omega
        subst this
        simp
      · simp only [hk0, if_false]
        rw [hfilt]
        congr 1
        apply List.filter_congr
        intro x _
        simp)
  have hri : ∀ k, k ≤ m.columnCount → nth ri k =
      (((taggedEntries rows 0 m.rowCount).filter (fun e => 0 < e.2.2)).filter
        (fun e => e.2.1 < k)).length := by
    intro k hk
    rw [a3 k (by rw [c2]; omega)]
    simp only [show k < 1 + (m.columnCount + 1 - 1) by omega, if_true]
  -- filling pass
  have hinit : FillInv ((taggedEntries rows 0 m.rowCount).filter (fun e => 0 < e.2.2))
      m.entryCount (m.columnCount + 1) []
      { values := List.replicate m.entryCount (0 : T)
        columnIndications := List.replicate m.entryCount 0
        nextIndices := ri } := by
    constructor
    · simp
    · simp
    · show ri.length = _
      rw [a2, c2]
    · intro j hj
      show nth ri j = _
      rw [hri j (by omega)]
      simp
    · intro j t e he
      simp at he
  obtain ⟨st, f1, f2⟩ := transpose_fill_spec m rows hrows hPlen m.rowCount 0 [] []
    _ (by omega) hinit (by simp) (by
      intro e he _
      have := hEcol e he
      omega)
  simp only [List.nil_append] at f2
  have hok : ({ rowCount := m.columnCount, columnCount := m.rowCount,
                entryCount := m.entryCount, storagePreallocated := false,
                valueStorage := st.values, columnIndications := st.columnIndications,
                rowIndications := ri, internalStatus := .INITIALIZED, currentEntryCount := 0,
                lastRow := 0, lastColumn := 0 } : SparseMatrix T).RowsOK := by
    refine ⟨⟨?_, ?_, ?_⟩, ?_⟩
    · show m.columnCount + 1 ≤ ri.length
      rw [a2, c2]
    · intro i hi
      replace hi : i < m.columnCount := hi
      show nth ri i ≤ nth ri (i + 1)
      rw [hri i (by omega), hri (i + 1) (by omega)]
      exact hmono (i + 1) i (by omega)
    · show nth ri m.columnCount ≤ st.columnIndications.length
      rw [hri _ (le_refl _), f2.lenC]
      exact le_trans (List.length_filter_le _ _) hPlen
    · show nth ri m.columnCount ≤ st.values.length
      rw [hri _ (le_refl _), f2.lenV]
      exact le_trans (List.length_filter_le _ _) hPlen
  refine ⟨{ rowCount := m.columnCount, columnCount := m.rowCount,
            entryCount := m.entryCount, storagePreallocated := false,
            valueStorage := st.values, columnIndications := st.columnIndications,
            rowIndications := ri, internalStatus := .INITIALIZED, currentEntryCount := 0,
            lastRow := 0, lastColumn := 0 }, ?_, rfl, rfl, rfl, hok, ?_⟩
  · unfold SparseMatrix.transpose
    simp only [c1, a1, f1, SparseMatrix.fromVectors]
  · intro j hj
    rw [getRow_eq hok hj]
    show Except.ok (List.zip (slice st.columnIndications (nth ri j) (nth ri (j + 1)))
      (slice st.values (nth ri j) (nth ri (j + 1)))) = _
    congr 1
    have hSj := hri j (by omega)
    have hSj1 := hri (j + 1) (by omega)
    have hcnt := hsucc j
    have hbound : nth ri (j + 1) ≤ m.entryCount := by
      rw [hSj1]
      exact le_trans (List.length_filter_le _ _) hPlen
    have hrhs : (taggedEntries rows 0 m.rowCount).filter (fun e => 0 < e.2.2 ∧ e.2.1 = j) =
        ((taggedEntries rows 0 m.rowCount).filter (fun e => 0 < e.2.2)).filter
          (fun e => e.2.1 = j) := by
      rw [hfilt]
      apply List.filter_congr
      intro x _
      simp
    rw [hrhs]
    apply List.ext_getElem?
    intro t
    rw [List.getElem?_map]
    by_cases ht : nth ri j + t < nth ri (j + 1)
    · obtain ⟨b1, b2, b3⟩ := getElem?_zip_slice st.columnIndications st.values _ _ t
        (by rw [f2.lenC]; exact hbound) (by rw [f2.lenV]; exact hbound) ht
      rw [b3]
      have htl : t < (((taggedEntries rows 0 m.rowCount).filter (fun e => 0 < e.2.2)).filter
          (fun e => e.2.1 = j)).length := by omega
      have hget := List.getElem?_eq_getElem htl
      obtain ⟨s1, s2⟩ := f2.stored j t _ hget
      rw [hget]
      simp only [Option.map_some', Option.some.injEq]
      rw [← hSj] at s1 s2
      rw [List.getElem?_eq_getElem b2] at s1
      rw [List.getElem?_eq_getElem b1] at s2
      rw [Option.some.inj s1, Option.some.inj s2]
    · have l1 : (List.zip (slice st.columnIndications (nth ri j) (nth ri (j + 1)))
          (slice st.values (nth ri j) (nth ri (j + 1))))[t]? = none := by
        apply List.getElem?_eq_none
        rw [List.length_zip, length_slice _ _ _ (by rw [f2.lenC]; exact hbound),
          length_slice _ _ _ (by rw [f2.lenV]; exact hbound)]
        omega
      have l2 : (((taggedEntries rows 0 m.rowCount).filter (fun e => 0 < e.2.2)).filter
          (fun e => e.2.1 = j))[t]? = none := by
        apply List.getElem?_eq_none
        omega
      rw [l1, l2]
      rfl

theorem Finalized.capacity {T : Type} [Zero T] [One T] [Sub T] [Neg T] {m : SparseMatrix T}
    (h : Finalized m) : nth m.rowIndications m.rowCount ≤ m.entryCount := by
  cases hp : m.storagePreallocated with
  | true =>
    obtain ⟨-, -, f3⟩ := h.1.inv.finalized hp h.2
    omega
  | false =>
    obtain ⟨-, d2⟩ := h.1.inv.dynamic hp
    rw [d2 _ (le_refl _)]
    exact Nat.zero_le _

/-- Every row of a matrix built in dynamic mode is empty: the row starts
`rowIndications[0 .. rowCount]` are the zeros the constructor created. -/
theorem getRow_dynamic {T : Type} [Zero T] [One T] [Sub T] [Neg T] (m : SparseMatrix T)
    (hm : Reachable m) (hp : m.storagePreallocated = false) (r : Nat) (hr : r < m.rowCount) :
    m.getRow r = .ok [] := by
  obtain ⟨d1, d2⟩ := hm.inv.dynamic hp
  unfold SparseMatrix.getRow SparseMatrix.getRows readAt
  rw [getElem?_eq_nth (by omega), getElem?_eq_nth (by omega), d2 r (by omega),
    d2 (r + 1) (by omega)]
  simp [slice]

/-- The transpose of a finalized matrix whose stored columns all lie below
`columnCount`: `transpose()` returns a matrix with `columnCount` rows and
`rowCount` columns whose row `j` lists, in the order of the source rows, the
pairs `(i, v)` of the entries `(j, v)` with `v > 0` that row `i` stores; entries
with a value that is not positive do not appear. -/
theorem transpose_of_finalized {T : Type} [Zero T] [One T] [Sub T] [Neg T] [LT T]
    [DecidableRel (fun (a b : T) => a < b)] (m : SparseMatrix T) (hm : Finalized m)
    (rows : Nat → List (Nat × T)) (hrows : ∀ i, i < m.rowCount → m.getRow i = .ok (rows i))
    (hcols : ∀ i, i < m.rowCount → ∀ e, e ∈ rows i → e.1 < m.columnCount) :
    ∃ mT, m.transpose = .ok mT ∧ mT.rowCount = m.columnCount ∧ mT.columnCount = m.rowCount ∧
      ∀ j, j < m.columnCount →
        mT.getRow j = .ok (((taggedEntries rows 0 m.rowCount).filter
          (fun e => 0 < e.2.2 ∧ e.2.1 = j)).map (fun e => (e.1, e.2.2))) := by
  obtain ⟨mT, h1, h2, h3, -, -, h6⟩ := transpose_spec m hm.rowsOK hm.capacity rows hrows hcols
  exact ⟨mT, h1, h2, h3, h6⟩

theorem triples_eq_taggedEntries {T : Type} (m : SparseMatrix T) (rows : Nat → List (Nat × T)) :
    ∀ (count i : Nat), (∀ k, i ≤ k → k < i + count → m.getRow k = .ok (rows k)) →
      m.triples i count = .ok (taggedEntries rows i count) := by
  intro count
  induction count with
  | zero => intro i _; rfl
  | succ n ih =>
    intro i h
    unfold SparseMatrix.triples
    rw [h i (le_refl _) (by omega), ih (i + 1) (fun k h1 h2 => h k (by omega) (by omega))]
    rfl

theorem filter_or_perm {α : Type} (p q : α → Bool) (hpq : ∀ a, p a = true → q a = true → False) :
    ∀ l : List α, (l.filter (fun a => p a || q a)).Perm (l.filter p ++ l.filter q) := by
  intro l
  induction l with
  | nil => simp
  | cons a l ih =>
    cases hp : p a with
    | true =>
      have hq : q a = false := by
        cases hq : q a with
        | true => exact (hpq a hp hq).elim
        | false => rfl
      simp only [List.filter_cons, hp, hq, Bool.or_false, if_true, Bool.false_eq_true, if_false,
        List.cons_append]
      exact ih.cons a
    | false =>
      cases hq : q a with
      | true =>
        simp only [List.filter_cons, hp, hq, Bool.or_true, if_true, Bool.false_eq_true, if_false]
        exact (ih.cons a).trans List.perm_middle.symm
      | false =>
        simp only [List.filter_cons, hp, hq, Bool.or_false, Bool.false_eq_true, if_false]
        exact ih

/-- The buckets of a counting sort, read bucket by bucket, are a permutation of
the sorted list: when row `j` of the result lists the entries of `L` with column
`j`, the triples of the rows `i, ..., i + count - 1` are the exchanged entries of
`L` with a column in that range. -/
theorem taggedEntries_buckets_perm {T : Type} [Zero T] [LT T]
    [DecidableRel (fun (a b : T) => a < b)] (L : List (Entry T))
    (hpos : ∀ e, e ∈ L → 0 < e.2.2) (rowsT : Nat → List (Nat × T)) :
    ∀ (count i : Nat),
      (∀ j, i ≤ j → j < i + count → rowsT j =
        (L.filter (fun e => 0 < e.2.2 ∧ e.2.1 = j)).map (fun e => (e.1, e.2.2))) →
      (taggedEntries rowsT i count).Perm
        ((L.filter (fun e => i ≤ e.2.1 ∧ e.2.1 < i + count)).map swapEntry) := by
  intro count
  induction count with
  | zero =>
    intro i _
    have : L.filter (fun e => i ≤ e.2.1 ∧ e.2.1 < i + 0) = [] := by
      rw [List.filter_eq_nil_iff]
      intro a _
      simp
    rw [this]
    exact List.Perm.refl _
  | succ n ih =>
    intro i h
    have h1 := ih (i + 1) (fun j a b => h j (by omega) (by omega))
    simp only [taggedEntries]
    rw [h i (le_refl _) (by omega)]
    have e1 : (L.filter (fun e => 0 < e.2.2 ∧ e.2.1 = i)) = L.filter (fun e => e.2.1 = i) := by
      apply List.filter_congr
      intro a ha
      have := hpos a ha
      simp [this]
    rw [e1, List.map_map]
    have e2 : ((fun e : Nat × T => (i, e.1, e.2)) ∘ fun e : Entry T => (e.1, e.2.2)) = 
        fun e : Entry T => (i, e.1, e.2.2) := rfl
    rw [e2]
    have e3 : (L.filter (fun e => e.2.1 = i)).map (fun e : Entry T => (i, e.1, e.2.2)) =
        (L.filter (fun e => e.2.1 = i)).map swapEntry := by
      apply List.map_congr_left
      intro a ha
      have := (List.mem_filter.1 ha).2
      simp only [decide_eq_true_eq] at this
      simp [swapEntry, this]
    rw [e3]
    have e4 : L.filter (fun e => i ≤ e.2.1 ∧ e.2.1 < i + (n + 1)) =
        L.filter (fun e => decide (e.2.1 = i) || decide (i + 1 ≤ e.2.1 ∧ e.2.1 < i + 1 + n)) := by
      apply List.filter_congr
      intro a _
      by_cases c1 : a.2.1 = i
      · simp [c1]
      · have : (i ≤ a.2.1 ∧ a.2.1 < i + (n + 1)) ↔ (i + 1 ≤ a.2.1 ∧ a.2.1 < i + 1 + n) := by omega
        simp [c1, this]
    rw [e4]
    have e5 := filter_or_perm (fun e : Entry T => decide (e.2.1 = i))
      (fun e => decide (i + 1 ≤ e.2.1 ∧ e.2.1 < i + 1 + n))
      (fun a ha hb => by simp only [decide_eq_true_eq] at ha hb; omega) L
    refine List.Perm.trans ?_ (e5.map swapEntry).symm
    rw [List.map_append]
    exact List.Perm.append_left _ h1

theorem transpose_fillRow_values_length {T : Type} [Zero T] [LT T]
    [DecidableRel (fun (a b : T) => a < b)] (i : Nat) :
    ∀ (es : List (Nat × T)) (st st1 : TransposeState T),
      transpose_fillRow st i es = some st1 → st1.values.length = st.values.length := by
  intro es
  induction es with
  | nil => intro st st1 h; simp only [transpose_fillRow, Option.some.injEq] at h; rw [← h]
  | cons e rest ih =>
    intro st st1 h
    obtain ⟨column, value⟩ := e
    unfold transpose_fillRow at h
    split_ifs at h with hv
    · cases hp : readAt st.nextIndices column with
      | none => rw [hp] at h; cases h
      | some p =>
        rw [hp] at h
        simp only at h
        split at h
        · rename_i vs cs ni h1 h2 h3
          have := ih _ _ h
          rw [this]
          obtain ⟨-, rfl⟩ := writeAt_eq_some.1 h1
          simp
        · cases h
    · exact ih _ _ h

theorem transpose_fill_values_length {T : Type} [Zero T] [LT T]
    [DecidableRel (fun (a b : T) => a < b)] (m : SparseMatrix T) :
    ∀ (count i : Nat) (st st1 : TransposeState T),
      transpose_fill m st i count = some st1 → st1.values.length = st.values.length := by
  intro count
  induction count with
  | zero => intro i st st1 h; simp only [transpose_fill, Option.some.injEq] at h; rw [← h]
  | succ n ih =>
    intro i st st1 h
    unfold transpose_fill at h
    cases hr : m.getRow i with
    | error e => rw [hr] at h; cases h
    | ok row =>
      rw [hr] at h
      simp only at h
      cases hf : transpose_fillRow st i row with
      | none => rw [hf] at h; cases h
      | some st2 =>
        rw [hf] at h
        simp only at h
        rw [ih _ _ _ h, transpose_fillRow_values_length i _ _ _ hf]

/-- The value vector of the transposed matrix has the `entryCount` slots that
`transpose` allocates. -/
theorem transpose_valueStorage_length {T : Type} [Zero T] [LT T]
    [DecidableRel (fun (a b : T) => a < b)] {m mT : SparseMatrix T}
    (h : m.transpose = .ok mT) : mT.valueStorage.length = m.entryCount := by
  unfold SparseMatrix.transpose at h
  split at h
  · cases h
  · split at h
    · cases h
    · split at h
      · cases h
      · rename_i st hst
        cases h
        simp only [SparseMatrix.fromVectors]
        rw [transpose_fill_values_length m _ _ _ _ hst]
        simp

theorem swapEntry_swapEntry {T : Type} (e : Entry T) : swapEntry (swapEntry e) = e := rfl

/-- Transposing twice: for a finalized matrix whose stored entries are all
positive and lie in columns below `columnCount`, both calls of `transpose()`
return normally, the second result has the dimensions of the original, and its
`(row, column, value)` triples are a permutation of the original ones. -/
theorem transpose_transpose_of_finalized {T : Type} [Zero T] [One T] [Sub T] [Neg T] [LT T]
    [DecidableRel (fun (a b : T) => a < b)] (m : SparseMatrix T) (hm : Finalized m)
    (rows : Nat → List (Nat × T)) (hrows : ∀ i, i < m.rowCount → m.getRow i = .ok (rows i))
    (hpos : ∀ i, i < m.rowCount → ∀ e, e ∈ rows i → 0 < e.2)
    (hcols : ∀ i, i < m.rowCount → ∀ e, e ∈ rows i → e.1 < m.columnCount) :
    ∃ mT mTT es es2, m.transpose = .ok mT ∧ mT.transpose = .ok mTT ∧
      mTT.rowCount = m.rowCount ∧ mTT.columnCount = m.columnCount ∧
      m.triples 0 m.rowCount = .ok es ∧ mTT.triples 0 mTT.rowCount = .ok es2 ∧
      es2.Perm es := by
  obtain ⟨mT, t1, t2, t3, t4, t5, t6⟩ :=
    transpose_spec m hm.rowsOK hm.capacity rows hrows hcols
  have hP : ∀ e, e ∈ taggedEntries rows 0 m.rowCount →
      e.1 < m.rowCount ∧ e.2.1 < m.columnCount ∧ 0 < e.2.2 := by
    intro e he
    obtain ⟨-, h2, h3⟩ := mem_taggedEntries rows _ _ e he
    have h4 : e.1 < m.rowCount := by omega
    exact ⟨h4, hcols e.1 h4 _ h3, hpos e.1 h4 _ h3⟩
  have hcapT : nth mT.rowIndications mT.rowCount ≤ mT.entryCount := by
    rw [t4, ← transpose_valueStorage_length t1]
    exact t5.2
  have hrowsT : ∀ j, j < mT.rowCount → mT.getRow j = .ok
      (((taggedEntries rows 0 m.rowCount).filter
        (fun e => 0 < e.2.2 ∧ e.2.1 = j)).map (fun e => (e.1, e.2.2))) := by
    intro j hj
    exact t6 j (by rw [← t2]; exact hj)
  have hQ0 : ∀ j (e : Nat × T), e ∈ ((taggedEntries rows 0 m.rowCount).filter
        (fun e => 0 < e.2.2 ∧ e.2.1 = j)).map (fun e => (e.1, e.2.2)) →
      e.1 < m.rowCount ∧ 0 < e.2 := by
    intro j e he
    obtain ⟨a, ha, rfl⟩ := List.mem_map.1 he
    have ha1 := (List.mem_filter.1 ha).1
    exact ⟨(hP a ha1).1, (hP a ha1).2.2⟩
  obtain ⟨mTT, u1, u2, u3, -, -, u6⟩ := transpose_spec mT t5 hcapT _ hrowsT
    (fun j _ e he => by rw [t3]; exact (hQ0 j e he).1)
  have hQ : ∀ e, e ∈ taggedEntries (fun j => ((taggedEntries rows 0 m.rowCount).filter
        (fun e => 0 < e.2.2 ∧ e.2.1 = j)).map (fun e => (e.1, e.2.2))) 0 mT.rowCount →
      e.2.1 < m.rowCount ∧ 0 < e.2.2 := by
    intro e he
    obtain ⟨-, -, h3⟩ := mem_taggedEntries _ _ _ e he
    exact hQ0 _ _ h3
  refine ⟨mT, mTT, _, _, t1, u1, by rw [u2, t3], by rw [u3, t2],
    triples_eq_taggedEntries m rows _ _ (fun k _ hk => hrows k (by omega)),
    triples_eq_taggedEntries mTT _ _ _ (fun k _ hk => u6 k (by rw [u2] at hk; omega)), ?_⟩
  -- the second transpose, read row by row
  have p2 := taggedEntries_buckets_perm _ (fun e he => (hQ e he).2) _ mTT.rowCount 0
    (fun j _ _ => rfl)
  rw [List.filter_eq_self.2 (fun a ha => by
    have := (hQ a ha).1
    rw [u2, t3]
    simp only [Nat.zero_le, true_and, Nat.zero_add, decide_eq_true_eq]
    exact this)] at p2
  -- the first transpose, read row by row
  have p1 := taggedEntries_buckets_perm _ (fun e he => (hP e he).2.2) _ mT.rowCount 0
    (fun j _ _ => rfl)
  rw [List.filter_eq_self.2 (fun a ha => by
    have := (hP a ha).2.1
    rw [t2]
    simp only [Nat.zero_le, true_and, Nat.zero_add, decide_eq_true_eq]
    exact this)] at p1
  refine p2.trans ((p1.map swapEntry).trans ?_)
  rw [List.map_map]
  have : (swapEntry ∘ swapEntry : Entry T → Entry T) = id := by
    funext e
    exact swapEntry_swapEntry e
  rw [this, List.map_id]

theorem multiplyWithVector_row_spec {T : Type} [Ring T] (x : List T) :
    ∀ (es : List (Nat × T)) (acc : T), (∀ e, e ∈ es → e.1 < x.length) →
      multiplyWithVector_row x acc es = some (acc + rowTimesVector es x) := by
  intro es
  induction es with
  | nil => intro acc _; simp [multiplyWithVector_row, rowTimesVector]
  | cons e rest ih =>
    intro acc h
    obtain ⟨column, value⟩ := e
    have hc : column < x.length := h (column, value) (List.mem_cons_self _ _)
    unfold multiplyWithVector_row readAt
    rw [List.getElem?_eq_getElem hc]
    simp only
    rw [ih _ (fun e he => h e (List.mem_cons_of_mem _ he))]
    simp only [rowTimesVector, List.map_cons, List.sum_cons, List.getElem?_eq_getElem hc,
      Option.getD_some, add_assoc]

theorem multiplyWithVector_rows_spec {T : Type} [Ring T] (m : SparseMatrix T) (x : List T)
    (rows : Nat → List (Nat × T)) :
    ∀ (result : List T) (row : Nat),
      (∀ i, row ≤ i → i < row + result.length → m.getRow i = .ok (rows i)) →
      (∀ i, row ≤ i → i < row + result.length → ∀ e, e ∈ rows i → e.1 < x.length) →
      ∃ res, multiplyWithVector_rows m x row result = .ok res ∧ res.length = result.length ∧
        ∀ k, k < result.length → res[k]? = some (rowTimesVector (rows (row + k)) x) := by
  intro result
  induction result with
  | nil => intro row _ _; exact ⟨[], rfl, rfl, fun k hk => by simp at hk⟩
  | cons a result ih =>
    intro row h1 h2
    simp only [List.length_cons] at h1 h2
    obtain ⟨res, r1, r2, r3⟩ := ih (row + 1) (fun i a b => h1 i (by omega) (by omega))
      (fun i a b => h2 i (by omega) (by omega))
    refine ⟨rowTimesVector (rows row) x :: res, ?_, by simp [r2], ?_⟩
    · unfold multiplyWithVector_rows
      rw [h1 row (le_refl _) (by omega)]
      simp only
      rw [multiplyWithVector_row_spec x _ 0 (h2 row (le_refl _) (by omega)), r1]
      simp
    · intro k hk
      cases k with
      | zero => simp
      | succ k =>
        simp only [List.length_cons] at hk
        rw [List.getElem?_cons_succ, r3 k (by omega)]
        congr 3
        omega

/-- The matrix-vector product of a finalized matrix whose stored columns lie
below `columnCount`: for an input vector with at least `columnCount` elements
and a result vector of length `rowCount`, `multiplyWithVector` returns normally
and `result[r]` is the scalar product of row `r` with the input, whatever
`result` held before. -/
theorem multiplyWithVector_of_finalized {T : Type} [Ring T] (m : SparseMatrix T)
    (hm : Finalized m)
    (hcols : ∀ i es, i < m.rowCount → m.getRow i = .ok es → ∀ e, e ∈ es → e.1 < m.columnCount)
    (x result : List T) (hx : m.columnCount ≤ x.length) (hres : result.length = m.rowCount) :
    ∃ res, m.multiplyWithVector x result = .ok res ∧ res.length = m.rowCount ∧
      ∀ r, r < m.rowCount →
        ∃ es, m.getRow r = .ok es ∧ res[r]? = some (rowTimesVector es x) := by
  have hrows := fun i (hi : i < m.rowCount) => getRow_eq hm.rowsOK hi
  obtain ⟨res, r1, r2, r3⟩ := multiplyWithVector_rows_spec m x _ result 0
    (fun i _ hi => hrows i (by omega))
    (fun i _ hi e he => lt_of_lt_of_le (hcols i _ (by omega) (hrows i (by omega)) e he) hx)
  refine ⟨res, r1, by rw [r2, hres], fun r hr => ⟨_, hrows r hr, ?_⟩⟩
  have := r3 r (by omega)
  rwa [Nat.zero_add] at this

theorem invertDiagonal_rows_append {T : Type} [One T] [Sub T] (ri cols : List Nat) :
    ∀ (a r0 : Nat) (vals : List T) (b : Nat),
      invertDiagonal_rows ri cols vals r0 (a + b) =
        match invertDiagonal_rows ri cols vals r0 a with
        | .error e => .error e
        | .ok v => invertDiagonal_rows ri cols v (r0 + a) b := by
  intro a
  induction a with
  | zero => intro r0 vals b; simp [invertDiagonal_rows]
  | succ n ih =>
    intro r0 vals b
    have e1 : n + 1 + b = (n + b) + 1 := by omega
    rw [e1]
    simp only [invertDiagonal_rows]
    split
    · split
      · rfl
      · rename_i vs _
        rw [ih (r0 + 1) vs b]
        have e2 : r0 + 1 + n = r0 + (n + 1) := by omega
        rw [e2]
    · rfl

theorem invertDiagonal_rows_missing {T : Type} [One T] [Sub T] {ri cols : List Nat}
    {rowCount : Nat} (hri : RowStartsOK ri rowCount cols.length) (k count : Nat) (vals : List T)
    (hk : k + (count + 1) ≤ rowCount) (hv : nth ri rowCount ≤ vals.length)
    (hnone : findDiagonal cols k (nth ri k) (nth ri (k + 1) - nth ri k) = none) :
    invertDiagonal_rows ri cols vals k (count + 1) = .error (.InvalidArgumentException, vals) := by
  have hs := hri.readAt (i := k) (by omega)
  have he := hri.readAt (i := k + 1) (by omega)
  have hse : nth ri k ≤ nth ri (k + 1) := hri.2.1 k (by omega)
  have hec : nth ri (k + 1) ≤ cols.length := hri.le_bound (by omega)
  have hev : nth ri (k + 1) ≤ vals.length :=
    le_trans (hri.mono rowCount (k + 1) (by omega) (le_refl _)) hv
  have := (invertDiagonal_row_spec (nth ri (k + 1) - nth ri k) cols vals k
      (nth ri k) (by omega) (by omega)).1 hnone
  simp only [invertDiagonal_rows, hs, he, this]

/-- A failing run of the row loop of `invertDiagonal`: when row `k` is the first
row without a diagonal entry, the loop has processed the rows before `k` as a
successful run over them does, and throws with the values that run leaves. -/
theorem invertDiagonal_rows_fails {T : Type} [One T] [Sub T] {ri cols : List Nat}
    {rowCount : Nat} (hri : RowStartsOK ri rowCount cols.length) (count r0 : Nat)
    (vals : List T) (k : Nat) (h1 : r0 ≤ k) (h2 : k < r0 + count) (h3 : r0 + count ≤ rowCount)
    (hv : nth ri rowCount ≤ vals.length)
    (hfirst : ∀ row, r0 ≤ row → row < k →
      findDiagonal cols row (nth ri row) (nth ri (row + 1) - nth ri row) ≠ none)
    (hnone : findDiagonal cols k (nth ri k) (nth ri (k + 1) - nth ri k) = none) :
    ∃ vals1, invertDiagonal_rows ri cols vals r0 (k - r0) = .ok vals1 ∧
      invertDiagonal_rows ri cols vals r0 count = .error (.InvalidArgumentException, vals1) := by
  obtain ⟨vals1, p1, -⟩ := invertDiagonal_rows_spec ri cols rowCount hri (k - r0) r0 vals
    (by omega) hv (fun row a b => hfirst row a (by omega))
  refine ⟨vals1, p1, ?_⟩
  have e1 : count = (k - r0) + ((count - (k - r0) - 1) + 1) := by omega
  rw [e1, invertDiagonal_rows_append, p1]
  simp only
  have e2 : r0 + (k - r0) = k := by omega
  rw [e2]
  exact invertDiagonal_rows_missing hri k _ vals1 (by omega)
    (by rw [(invertDiagonal_rows_length _ _ _ _ _).1 _ p1]; exact hv) hnone

/-- What a failing `invertDiagonal()` leaves behind.  On a matrix that is not
square it throws before it writes.  On a square matrix whose first row without a
diagonal entry is row `k`, it throws after the first diagonal value `v` of every
row before `k` has become `1 - v`; all other values are as before. -/
theorem invertDiagonal_fails_of_missing {T : Type} [One T] [Sub T] (m : SparseMatrix T)
    (hm : m.RowsOK) (hsq : m.rowCount = m.columnCount) (k : Nat) (hk : k < m.rowCount)
    (hfirst : ∀ row, row < k → findDiagonal m.columnIndications row (nth m.rowIndications row)
      (nth m.rowIndications (row + 1) - nth m.rowIndications row) ≠ none)
    (hnone : findDiagonal m.columnIndications k (nth m.rowIndications k)
      (nth m.rowIndications (k + 1) - nth m.rowIndications k) = none) :
    ∃ vals1, m.invertDiagonal =
        .error (.InvalidArgumentException, { m with valueStorage := vals1 }) ∧
      vals1.length = m.valueStorage.length ∧
      ∀ p, (InvertedAt m.rowIndications m.columnIndications 0 k p →
          vals1[p]? = (m.valueStorage[p]?).map (fun v => 1 - v)) ∧
        (¬ InvertedAt m.rowIndications m.columnIndications 0 k p →
          vals1[p]? = m.valueStorage[p]?) := by
  obtain ⟨vals1, p1, p2⟩ := invertDiagonal_rows_fails hm.1 m.rowCount 0 m.valueStorage k
    (Nat.zero_le _) (by omega) (by omega) hm.2 (fun row _ b => hfirst row b) hnone
  obtain ⟨vals2, q1, q2⟩ := invertDiagonal_rows_spec m.rowIndications m.columnIndications
    m.rowCount hm.1 (k - 0) 0 m.valueStorage (by omega) hm.2 (fun row _ b => hfirst row (by omega))
  rw [p1] at q1
  cases q1
  refine ⟨vals1, ?_, (invertDiagonal_rows_length _ _ _ _ _).1 _ p1, ?_⟩
  · unfold SparseMatrix.invertDiagonal
    simp only [hsq, ne_eq, not_true_eq_false, if_false]
    rw [← hsq, p2]
  · simpa using q2

theorem getRow_of_findDiagonal {T : Type} {m : SparseMatrix T} (hm : m.RowsOK) {i p : Nat}
    (hi : i < m.rowCount)
    (h : findDiagonal m.columnIndications i (nth m.rowIndications i)
      (nth m.rowIndications (i + 1) - nth m.rowIndications i) = some p) :
    ∃ es v, m.getRow i = .ok es ∧ (i, v) ∈ es := by
  obtain ⟨h1, h2, h3, -⟩ := findDiagonal_some _ _ _ _ _ h
  have hse : nth m.rowIndications i ≤ nth m.rowIndications (i + 1) := hm.1.2.1 i hi
  have hec : nth m.rowIndications (i + 1) ≤ m.columnIndications.length :=
    hm.1.le_bound (by omega)
  have hev : nth m.rowIndications (i + 1) ≤ m.valueStorage.length :=
    le_trans (hm.1.mono m.rowCount (i + 1) (by omega) (le_refl _)) hm.2
  obtain ⟨a, b, c⟩ := getElem?_zip_slice m.columnIndications m.valueStorage
    (nth m.rowIndications i) (nth m.rowIndications (i + 1)) (p - nth m.rowIndications i)
    hec hev (by omega)
  have e1 : nth m.rowIndications i + (p - nth m.rowIndications i) = p := by omega
  simp only [e1] at a b c
  rw [List.getElem?_eq_getElem a] at h3
  cases h3
  exact ⟨_, m.valueStorage[p], getRow_eq hm hi, List.getElem?_mem c⟩

/-- The rows without a diagonal entry, in terms of what `getRow` yields: some
row `i` stores no entry with column `i` exactly when the diagonal search of
`invertDiagonal` comes up empty in some row. -/
theorem not_hasDiagonal_iff {T : Type} {m : SparseMatrix T} (hm : m.RowsOK) :
    ¬ m.HasDiagonal ↔
      ∃ i, i < m.rowCount ∧ ∃ es, m.getRow i = .ok es ∧ ∀ e, e ∈ es → e.1 ≠ i := by
  constructor
  · intro h
    unfold SparseMatrix.HasDiagonal at h
    push_neg at h
    obtain ⟨i, hi, hnone⟩ := h
    refine ⟨i, hi, _, getRow_eq hm hi, ?_⟩
    intro e he hei
    obtain ⟨k, k1, k2, k3⟩ := mem_slice (List.of_mem_zip (a := e.1) (b := e.2) he).1
    rw [hei] at k3
    exact findDiagonal_none _ _ _ _ hnone k k1 k2 k3
  · rintro ⟨i, hi, es, hes, hall⟩ hd
    obtain ⟨p, hp⟩ := Option.ne_none_iff_exists'.1 (hd i hi)
    obtain ⟨es1, v, h1, h2⟩ := getRow_of_findDiagonal hm hi hp
    rw [hes] at h1
    cases h1
    exact hall _ h2 rfl

theorem exists_first_missing {T : Type} {m : SparseMatrix T} (h : ¬ m.HasDiagonal) :
    ∃ k, k < m.rowCount ∧
      (∀ row, row < k → findDiagonal m.columnIndications row (nth m.rowIndications row)
        (nth m.rowIndications (row + 1) - nth m.rowIndications row) ≠ none) ∧
      findDiagonal m.columnIndications k (nth m.rowIndications k)
        (nth m.rowIndications (k + 1) - nth m.rowIndications k) = none := by
  classical
  unfold SparseMatrix.HasDiagonal at h
  push_neg at h
  have hex : ∃ k, k < m.rowCount ∧ findDiagonal m.columnIndications k (nth m.rowIndications k)
        (nth m.rowIndications (k + 1) - nth m.rowIndications k) = none := h
  refine ⟨Nat.find hex, (Nat.find_spec hex).1, ?_, (Nat.find_spec hex).2⟩
  intro row hrow hnone
  exact Nat.find_min hex hrow ⟨lt_trans hrow (Nat.find_spec hex).1, hnone⟩

theorem exampleZeroDiagonal_finalized : Finalized exampleZeroDiagonal :=
  ⟨Reachable.finalize (m := _) (Reachable.addNextValue 0 0 0 (Reachable.create 1 1 1) rfl) rfl,
    rfl⟩

theorem exampleMissingDiagonal_finalized : Finalized exampleMissingDiagonal :=
  ⟨Reachable.finalize (m := _)
    (Reachable.addNextValue 1 0 3
      (Reachable.addNextValue 0 0 5 (Reachable.create 2 2 2) rfl) rfl) rfl, rfl⟩

theorem invertDiagonal_not_square {T : Type} [One T] [Sub T] (m : SparseMatrix T)
    (h : m.rowCount ≠ m.columnCount) :
    m.invertDiagonal = .error (.InvalidArgumentException, m) := by
  unfold SparseMatrix.invertDiagonal
  rw [if_pos h]

theorem convertToEquationSystem_of_invertDiagonal_error {T : Type} [One T] [Sub T] [Neg T]
    {m : SparseMatrix T} {e : Exception × SparseMatrix T} (h : m.invertDiagonal = .error e) :
    m.convertToEquationSystem = .error e := by
  unfold SparseMatrix.convertToEquationSystem
  rw [h]

theorem getRow_eq_nil_iff {T : Type} {m : SparseMatrix T} (hm : m.RowsOK) {i : Nat}
    (hi : i < m.rowCount) :
    m.getRow i = .ok [] ↔ nth m.rowIndications i ≥ nth m.rowIndications (i + 1) := by
  have hlen := getRow_length hm hi (getRow_eq hm hi)
  constructor
  · intro h
    have h2 := getRow_length hm hi h
    simp only [List.length_nil] at h2
    omega
  · intro h
    rw [getRow_eq hm hi]
    have : (List.zip
      (slice m.columnIndications (nth m.rowIndications i) (nth m.rowIndications (i + 1)))
      (slice m.valueStorage (nth m.rowIndications i) (nth m.rowIndications (i + 1)))).length
        = 0 := by
      rw [hlen]; omega
    rw [List.length_eq_zero] at this
    rw [this]

/-- The empty-row error of `makeRowAbsorbing` for the rows a finalized matrix
has, and for the rows beyond `rowCount`: the call throws `InvalidStateException`
exactly when the row is in range and stores nothing, and then leaves the matrix
as it was.  The row index `rowCount` itself is not covered. -/
theorem makeRowAbsorbing_invalidState_iff {T : Type} [Zero T] [One T] [Sub T] [Neg T]
    (m : SparseMatrix T) (hm : Finalized m) (row column : Nat) (hrow : row ≠ m.rowCount) :
    ((∃ s, m.makeRowAbsorbing row column = .error (.InvalidStateException, s)) ↔
      (row < m.rowCount ∧ m.getRow row = .ok [])) ∧
    (∀ s, m.makeRowAbsorbing row column = .error (.InvalidStateException, s) → s = m) := by
  have hr := hm.rowsOK
  by_cases hgt : row > m.rowCount
  · have h1 : m.makeRowAbsorbing row column = .error (.OutOfRangeException, m) := by
      unfold SparseMatrix.makeRowAbsorbing
      rw [if_pos hgt]
    rw [h1]
    refine ⟨⟨?_, fun h => by omega⟩, ?_⟩
    · rintro ⟨s, hs⟩
      cases hs
    · intro s hs
      cases hs
  · have hlt : row < m.rowCount := by omega
    have hs := hr.1.readAt (i := row) (by omega)
    have he := hr.1.readAt (i := row + 1) (by omega)
    by_cases hemp : nth m.rowIndications row ≥ nth m.rowIndications (row + 1)
    · have h1 : m.makeRowAbsorbing row column = .error (.InvalidStateException, m) := by
        unfold SparseMatrix.makeRowAbsorbing
        rw [if_neg hgt, hs, he]
        simp only [hemp, if_true]
      rw [h1]
      refine ⟨⟨fun _ => ⟨hlt, (getRow_eq_nil_iff hr hlt).2 hemp⟩, fun _ => ⟨m, rfl⟩⟩, ?_⟩
      intro s hs
      cases hs
      rfl
    · have h1 : ∀ s, m.makeRowAbsorbing row column ≠ .error (.InvalidStateException, s) := by
        intro s
        unfold SparseMatrix.makeRowAbsorbing
        rw [if_neg hgt, hs, he]
        simp only [hemp, if_false]
        split
        · split
          · simp
          · simp
        · simp
      refine ⟨⟨?_, ?_⟩, fun s hs => absurd hs (h1 s)⟩
      · rintro ⟨s, hs⟩
        exact absurd hs (h1 s)
      · rintro ⟨-, h2⟩
        exact absurd ((getRow_eq_nil_iff hr hlt).1 h2) hemp

theorem length_timesVector {T : Type} [Zero T] [Add T] [Mul T] (A : SparseMatrix T)
    (y : List T) : (A.timesVector y).length = A.rowCount := by
  simp [SparseMatrix.timesVector]

theorem length_affineMap {T : Type} [Zero T] [Add T] [Mul T] (A : SparseMatrix T)
    (b : Option (List T)) (hb : ∀ v, b = some v → v.length = A.rowCount) (y : List T) :
    (affineMap A b y).length = A.rowCount := by
  cases b with
  | none => exact length_timesVector A y
  | some v =>
    simp only [affineMap, List.length_zipWith, length_timesVector, hb v rfl, Nat.min_self]

/-- The single multiplication as a list: for a finalized matrix whose stored
columns lie below `columnCount`, `multiplyWithVector` overwrites a result vector
of length `rowCount` with `A * y`. -/
theorem multiplyWithVector_eq_timesVector {T : Type} [Ring T] (A : SparseMatrix T)
    (hA : Finalized A)
    (hcols : ∀ i es, i < A.rowCount → A.getRow i = .ok es → ∀ e, e ∈ es → e.1 < A.columnCount)
    (y result : List T) (hy : A.columnCount ≤ y.length) (hres : result.length = A.rowCount) :
    A.multiplyWithVector y result = .ok (A.timesVector y) := by
  obtain ⟨res, r1, r2, r3⟩ := multiplyWithVector_of_finalized A hA hcols y result hy hres
  rw [r1]
  congr 1
  apply List.ext_getElem?
  intro k
  by_cases hk : k < A.rowCount
  · obtain ⟨es, e1, e2⟩ := r3 k hk
    rw [e2]
    simp only [SparseMatrix.timesVector, List.getElem?_map, List.getElem?_range hk,
      Option.map_some', e1]
  · rw [List.getElem?_eq_none (by omega), List.getElem?_eq_none (by
      rw [length_timesVector]; omega)]

theorem addVectors_self {T : Type} [Add T] (a b : List T) (h : a.length = b.length) :
    addVectors a b a = some (List.zipWith (fun a b => a + b) a b) := by
  unfold addVectors
  rw [if_pos ⟨h, rfl⟩]

theorem performMatrixVectorMultiplication_loop_spec {T : Type} [Ring T] (A : SparseMatrix T)
    (hA : Finalized A) (hsq : A.rowCount = A.columnCount)
    (hcols : ∀ i es, i < A.rowCount → A.getRow i = .ok es → ∀ e, e ∈ es → e.1 < A.columnCount)
    (b : Option (List T)) (hb : ∀ v, b = some v → v.length = A.rowCount) :
    ∀ (n : Nat) (x copyX : List T) (c : Bool), x.length = A.rowCount →
      copyX.length = A.rowCount →
      ∃ x1 copyX1 c1, performMatrixVectorMultiplication_loop A b n x copyX c =
          .ok (x1, copyX1, c1) ∧
        (if c1 then x1 else copyX1) = (affineMap A b)^[n] (if c then x else copyX) := by
  intro n
  induction n with
  | zero => intro x copyX c _ _; exact ⟨x, copyX, c, rfl, rfl⟩
  | succ n ih =>
    intro x copyX c hx hc
    have hcur : A.columnCount ≤ (if c then x else copyX).length := by
      cases c <;> simp [hx, hc, hsq]
    have hnext : (if c then copyX else x).length = A.rowCount := by
      cases c <;> simp [hx, hc]
    have hm := multiplyWithVector_eq_timesVector A hA hcols _ _ hcur hnext
    rw [Function.iterate_succ_apply]
    unfold performMatrixVectorMultiplication_loop
    rw [hm]
    cases b with
    | none =>
      simp only [affineMap]
      cases c with
      | true =>
        obtain ⟨x1, y1, c1, h1, h2⟩ := ih x (A.timesVector x) false hx (length_timesVector _ _)
        exact ⟨x1, y1, c1, by simpa using h1, by simpa using h2⟩
      | false =>
        obtain ⟨x1, y1, c1, h1, h2⟩ := ih (A.timesVector copyX) copyX true
          (length_timesVector _ _) hc
        exact ⟨x1, y1, c1, by simpa using h1, by simpa using h2⟩
    | some v =>
      have hv := hb v rfl
      simp only [affineMap]
      rw [addVectors_self _ _ (by rw [length_timesVector, hv])]
      have hl : (List.zipWith (fun a b => a + b) (A.timesVector (if c then x else copyX)) v).length
          = A.rowCount := by
        simp only [List.length_zipWith, length_timesVector, hv, Nat.min_self]
      cases c with
      | true =>
        obtain ⟨x1, y1, c1, h1, h2⟩ := ih x _ false hx hl
        exact ⟨x1, y1, c1, by simpa using h1, by simpa using h2⟩
      | false =>
        obtain ⟨x1, y1, c1, h1, h2⟩ := ih _ copyX true hl hc
        exact ⟨x1, y1, c1, by simpa using h1, by simpa using h2⟩

/-- Repeated multiplication for a finalized square matrix whose stored columns
lie below `columnCount`: with `x` of length `rowCount`, an offset of that length
or none, and scratch memory of that length or none, the call returns normally
and `x` holds the `n`-fold iterate of `y -> A * y + b` on the initial `x`, for
even and for odd `n`. -/
theorem performMatrixVectorMultiplication_spec {T : Type} [Ring T] (A : SparseMatrix T)
    (hA : Finalized A) (hsq : A.rowCount = A.columnCount)
    (hcols : ∀ i es, i < A.rowCount → A.getRow i = .ok es → ∀ e, e ∈ es → e.1 < A.columnCount)
    (x : List T) (hx : x.length = A.rowCount)
    (b : Option (List T)) (hb : ∀ v, b = some v → v.length = A.rowCount) (n : Nat)
    (multiplyResult : Option (List T))
    (hs : ∀ v, multiplyResult = some v → v.length = x.length) :
    ∃ s, performMatrixVectorMultiplication A x b n multiplyResult =
      .ok ((affineMap A b)^[n] x, s) := by
  have hlen : (match multiplyResult with
       | none => List.replicate x.length 0
       | some scratch => scratch).length = A.rowCount := by
    cases multiplyResult with
    | none => simp [hx]
    | some v => simp only; rw [hs v rfl, hx]
  obtain ⟨x1, y1, c1, h1, h2⟩ := performMatrixVectorMultiplication_loop_spec A hA hsq hcols b hb
    n x _ true hx hlen
  unfold performMatrixVectorMultiplication
  rw [h1]
  simp only [if_true] at h2
  cases c1 with
  | true => exact ⟨_, by simp only [if_true] at h2 ⊢; rw [h2]⟩
  | false => exact ⟨_, by simp only [Bool.false_eq_true, if_false] at h2 ⊢; rw [h2]⟩

/-- The single-step overload where it works: for a finalized matrix whose stored
columns lie below `columnCount`, `result` holds `A * x + b` after the call when
`result` is another vector than `x` (with or without an offset), and when it is
the same vector and there is an offset. -/
theorem performMatrixVectorMultiplicationStep_spec {T : Type} [Ring T] (A : SparseMatrix T)
    (hA : Finalized A) (hsq : A.rowCount = A.columnCount)
    (hcols : ∀ i es, i < A.rowCount → A.getRow i = .ok es → ∀ e, e ∈ es → e.1 < A.columnCount)
    (x : List T) (hx : x.length = A.rowCount)
    (b : Option (List T)) (hb : ∀ v, b = some v → v.length = A.rowCount) :
    (∀ result : List T, result.length = A.rowCount →
      performMatrixVectorMultiplicationStep A x (some result) b = .ok (affineMap A b x)) ∧
    (∀ v, b = some v →
      performMatrixVectorMultiplicationStep A x none b = .ok (affineMap A b x)) := by
  constructor
  · intro result hres
    unfold performMatrixVectorMultiplicationStep
    simp only
    rw [multiplyWithVector_eq_timesVector A hA hcols x result (by omega) hres]
    cases b with
    | none => rfl
    | some v =>
      simp only
      rw [addVectors_self _ _ (by rw [length_timesVector, hb v rfl])]
      rfl
  · intro v hv
    subst hv
    unfold performMatrixVectorMultiplicationStep
    simp only
    rw [multiplyWithVector_eq_timesVector A hA hcols x _ (by omega) (by simp [hx])]
    simp only
    have : addVectors (A.timesVector x) v x =
        some (List.zipWith (fun a b => a + b) (A.timesVector x) v) := by
      unfold addVectors
      rw [if_pos ⟨by rw [length_timesVector, hb v rfl], by rw [length_timesVector, hx]⟩]
    rw [this]
    rfl

/-- A call of `addNextValue` on a preallocated matrix under construction is
accepted when a slot is free, the position is not beyond the declared
dimensions and does not come before the last one. -/
theorem addNextValue_accepts {T : Type} {m : SparseMatrix T} {done : List (Entry T)}
    (hm : Filled m done) (hlen : done.length < m.entryCount) (r c : Nat) (v : T)
    (hr : r ≤ m.rowCount) (hc : c ≤ m.columnCount)
    (hord : PositionLE (m.lastRow, m.lastColumn) (r, c)) :
    ∃ m2, m.addNextValue r c v = .ok m2 := by
  have hsw : ∃ m1, addNextValue_switchRow m r = some m1 := by
    unfold addNextValue_switchRow
    split_ifs with h1 h2
    · obtain ⟨ri, hri⟩ := fillRowIndications_of_le (r + 1 - (m.lastRow + 1)) m.rowIndications
        (m.lastRow + 1) m.currentEntryCount (by
          have := hm.lenR
          rcases hord with h | h
          · simp only at h; omega
          · simp only at h; omega)
      rw [hri]
      exact ⟨_, rfl⟩
    · exact ⟨_, rfl⟩
    · exact ⟨_, rfl⟩
  obtain ⟨m1, h1⟩ := hsw
  obtain ⟨-, -, -, -, a5, a6, a7, -, a9, -⟩ := addNextValue_switchRow_frame h1
  have hst : ∃ m2, addNextValue_store m1 c v = some m2 := by
    unfold addNextValue_store
    rw [a5, hm.pre]
    simp only [if_true]
    rw [writeAt_of_lt v (by rw [a6, a9, hm.lenV, hm.cur]; exact hlen),
      writeAt_of_lt c (by rw [a7, a9, hm.lenC, hm.cur]; exact hlen)]
    exact ⟨_, rfl⟩
  obtain ⟨m2, h2⟩ := hst
  refine ⟨m2, addNextValue_eq_ok_iff.2 ⟨?_, ?_, ?_, m1, h1, h2⟩⟩
  · rintro ⟨-, h | h⟩ <;> omega
  · rcases hord with h | h <;> simp only at h <;> omega
  · rcases hord with h | h <;> simp only at h <;> omega

/-- A sequence of calls of `addNextValue` on a preallocated matrix under
construction is accepted as a whole when the slots suffice, the positions are
not beyond the declared dimensions and each one does not come before its
predecessor. -/
theorem addAll_accepts {T : Type} : ∀ (es : List (Entry T)) (m : SparseMatrix T)
    (done : List (Entry T)), Filled m done → done.length + es.length ≤ m.entryCount →
    (∀ e, e ∈ es → e.1 ≤ m.rowCount ∧ e.2.1 ≤ m.columnCount) →
    List.Chain PositionLE (m.lastRow, m.lastColumn) (es.map (fun e => (e.1, e.2.1))) →
    ∃ m2, addAll m es = .ok m2 := by
  intro es
  induction es with
  | nil => intro m done _ _ _ _; exact ⟨m, rfl⟩
  | cons e rest ih =>
    intro m done hm hlen hin hch
    obtain ⟨r, c, v⟩ := e
    simp only [List.map_cons, List.chain_cons] at hch
    simp only [List.length_cons] at hlen
    obtain ⟨h1, h2⟩ := hin (r, c, v) (List.mem_cons_self _ _)
    obtain ⟨m1, hm1⟩ := addNextValue_accepts hm (by omega) r c v h1 h2 hch.1
    have hF := hm.after_addNextValue hm1
    obtain ⟨f1, f2, f3, f4, f5, -⟩ := addNextValue_ok_fields hm1
    obtain ⟨m2, hm2⟩ := ih m1 (done ++ [(r, c, v)]) hF
      (by rw [f5]; simp only [List.length_append, List.length_singleton]; omega)
      (fun e he => by rw [f3, f4]; exact hin e (List.mem_cons_of_mem _ he))
      (by rw [f1, f2]; exact hch.2)
    refine ⟨m2, ?_⟩
    simp only [addAll, hm1]
    exact hm2

theorem addAll_append {T : Type} : ∀ (a b : List (Entry T)) (m : SparseMatrix T),
    addAll m (a ++ b) =
      match addAll m a with
      | .error e => .error e
      | .ok m1 => addAll m1 b := by
  intro a
  induction a with
  | nil => intro b m; rfl
  | cons e rest ih =>
    intro b m
    obtain ⟨r, c, v⟩ := e
    simp only [List.cons_append, addAll]
    cases m.addNextValue r c v with
    | error e => rfl
    | ok m1 => exact ih b m1

theorem slice_succ {α : Type} (v : List α) (i count : Nat) (h : i < v.length) :
    slice v i (i + (count + 1)) = v[i] :: slice v (i + 1) (i + 1 + count) := by
  unfold slice
  rw [List.drop_eq_getElem_cons h]
  have e1 : i + (count + 1) - i = count + 1 := by omega
  have e2 : i + 1 + count - (i + 1) = count := by omega
  rw [e1, e2, List.take_succ_cons]

theorem slice_self {α : Type} (v : List α) (i : Nat) : slice v i (i + 0) = [] := by
  simp [slice]

theorem getSubmatrix_copyRow_eq {T : Type} (m : SparseMatrix T) (constraint : BitVector)
    (table : List Nat) (newRow : Nat)
    (htable : ∀ c, constraint.bits[c]? = some true → table[c]? = some (constraint.rank c)) :
    ∀ (count i : Nat) (result : SparseMatrix T), i + count ≤ m.columnIndications.length →
      i + count ≤ m.valueStorage.length →
      (∀ k (h : k < m.columnIndications.length), i ≤ k → k < i + count →
        m.columnIndications[k] < constraint.bits.length) →
      getSubmatrix_copyRow m constraint table newRow i count result =
        dropState (addAll result (selectedEntries constraint newRow
          (List.zip (slice m.columnIndications i (i + count))
            (slice m.valueStorage i (i + count))))) := by
  intro count
  induction count with
  | zero =>
    intro i result _ _ _
    simp [getSubmatrix_copyRow, slice, selectedEntries, addAll, dropState]
  | succ n ih =>
    intro i result hc hv hin
    have hic : i < m.columnIndications.length := by omega
    have hiv : i < m.valueStorage.length := by omega
    have hcol := hin i hic (le_refl _) (by omega)
    rw [slice_succ _ _ _ hic, slice_succ _ _ _ hiv, List.zip_cons_cons]
    have ih1 := fun r => ih (i + 1) r (by omega) (by omega)
      (fun k h a b => hin k h (by omega) (by omega))
    have r1 : readAt m.columnIndications i = some m.columnIndications[i] :=
      List.getElem?_eq_getElem hic
    have r2 : readAt m.valueStorage i = some m.valueStorage[i] := List.getElem?_eq_getElem hiv
    have r3 : constraint.get m.columnIndications[i] =
        some constraint.bits[m.columnIndications[i]] := List.getElem?_eq_getElem hcol
    cases hbit : constraint.bits[m.columnIndications[i]] with
    | false =>
      simp only [getSubmatrix_copyRow, r1, r3, hbit]
      rw [ih1 result]
      simp [selectedEntries, List.filter_cons, List.getElem?_eq_getElem hcol, hbit]
    | true =>
      have hb2 : constraint.bits[m.columnIndications[i]]? = some true := by
        rw [List.getElem?_eq_getElem hcol, hbit]
      have r4 : readAt table m.columnIndications[i] =
          some (constraint.rank m.columnIndications[i]) := htable _ hb2
      simp only [getSubmatrix_copyRow, r1, r3, hbit, r4, r2, selectedEntries, List.filter_cons,
        hb2, decide_True, if_true, List.map_cons, addAll]
      cases result.addNextValue newRow (constraint.rank m.columnIndications[i])
          m.valueStorage[i] with
      | error e => rfl
      | ok result1 => exact ih1 result1

theorem getSubmatrix_bitsSetBeforeIndex_spec : ∀ (bs pre table : List Nat) (lastIndex : Nat),
    table.length = lastIndex → (∀ p, p ∈ pre → p < lastIndex) →
    bs.Pairwise (fun a b => a < b) → (∀ b, b ∈ bs → lastIndex ≤ b) →
    (∀ k, k < lastIndex → table[k]? = some ((pre.filter (fun i => i < k)).length)) →
    ∀ k, (k < lastIndex ∨ ∃ b, b ∈ bs ∧ k ≤ b) →
      (getSubmatrix_bitsSetBeforeIndex bs table lastIndex pre.length)[k]? =
        some (((pre ++ bs).filter (fun i => i < k)).length) := by
  intro bs
  induction bs with
  | nil =>
    intro pre table lastIndex _ _ _ _ htab k hk
    rcases hk with hk | ⟨b, hb, -⟩
    · simpa [getSubmatrix_bitsSetBeforeIndex] using htab k hk
    · cases hb
  | cons index rest ih =>
    intro pre table lastIndex hlen hpre hsorted hge htab k hk
    have hle : lastIndex ≤ index := hge index (List.mem_cons_self _ _)
    rw [List.pairwise_cons] at hsorted
    have key := ih (pre ++ [index])
      (table ++ List.replicate (index + 1 - lastIndex) pre.length) (index + 1)
      (by simp only [List.length_append, List.length_replicate]; omega)
      (by
        intro p hp
        rcases List.mem_append.1 hp with h | h
        · have := hpre p h; omega
        · simp only [List.mem_singleton] at h; omega)
      hsorted.2
      (fun b hb => by have := hsorted.1 b hb; omega)
      (by
        intro j hj
        have hnot : ¬ index < j := by omega
        by_cases hj2 : j < lastIndex
        · rw [List.getElem?_append_left (by omega), htab j hj2]
          simp [List.filter_append, List.filter_cons, hnot]
        · rw [List.getElem?_append_right (by omega), List.getElem?_replicate]
          have : j - table.length < index + 1 - lastIndex := by omega
          simp only [this, if_true, List.filter_append, List.filter_cons, hnot, decide_False,
            Bool.false_eq_true, if_false, List.filter_nil, List.append_nil]
          rw [List.filter_eq_self.2 (fun a ha => by
            have := hpre a ha
            simp only [decide_eq_true_eq]; omega)])
      k (by
        rcases hk with hk | ⟨b, hb, hkb⟩
        · left; omega
        · rcases List.mem_cons.1 hb with rfl | hb
          · left; omega
          · right; exact ⟨b, hb, hkb⟩)
    simp only [getSubmatrix_bitsSetBeforeIndex, if_pos hle]
    simp only [List.length_append, List.length_singleton, List.append_assoc,
      List.singleton_append] at key
    exact key

theorem setBits_pairwise (constraint : BitVector) :
    constraint.setBits.Pairwise (fun a b => a < b) :=
  List.Pairwise.filter _ (List.pairwise_lt_range _)

theorem mem_setBits {constraint : BitVector} {i : Nat} :
    i ∈ constraint.setBits ↔ constraint.bits[i]? = some true := by
  unfold BitVector.setBits
  rw [List.mem_filter, List.mem_range]
  simp only [decide_eq_true_eq]
  constructor
  · exact fun h => h.2
  · intro h
    refine ⟨?_, h⟩
    by_contra hn
    rw [List.getElem?_eq_none (by omega)] at h
    cases h

/-- The table `bitsSetBeforeIndex` holds the rank of every member of the mask. -/
theorem bitsSetBeforeIndex_eq_rank (constraint : BitVector) (c : Nat)
    (h : constraint.bits[c]? = some true) :
    (getSubmatrix_bitsSetBeforeIndex constraint.setBits [] 0 0)[c]? =
      some (constraint.rank c) := by
  have := getSubmatrix_bitsSetBeforeIndex_spec constraint.setBits [] [] 0 rfl
    (fun p hp => by cases hp) (setBits_pairwise constraint) (fun b _ => Nat.zero_le b)
    (fun k hk => by omega) c (Or.inr ⟨c, mem_setBits.2 h, le_refl _⟩)
  simpa [BitVector.rank] using this

theorem zip_slice_mem {T : Type} (cols : List Nat) (vals : List T) (s e k : Nat)
    (hc : e ≤ cols.length) (hv : e ≤ vals.length) (h1 : s ≤ k) (h2 : k < e) :
    ∃ (a : k < cols.length) (b : k < vals.length),
      (cols[k], vals[k]) ∈ List.zip (slice cols s e) (slice vals s e) := by
  obtain ⟨a, b, c⟩ := getElem?_zip_slice cols vals s e (k - s) hc hv (by omega)
  have e1 : s + (k - s) = k := by omega
  simp only [e1] at a b c
  exact ⟨a, b, List.getElem?_mem c⟩

theorem getSubmatrix_copy_eq {T : Type} (m : SparseMatrix T) (hm : m.RowsOK)
    (constraint : BitVector) (table : List Nat)
    (htable : ∀ c, constraint.bits[c]? = some true → table[c]? = some (constraint.rank c))
    (rows : Nat → List (Nat × T)) (hrows : ∀ i, i < m.rowCount → m.getRow i = .ok (rows i))
    (hcols : ∀ i, i < m.rowCount → ∀ e, e ∈ rows i → e.1 < constraint.bits.length) :
    ∀ (rowIndices : List Nat) (newRow : Nat) (result : SparseMatrix T),
      (∀ r, r ∈ rowIndices → r < m.rowCount) →
      getSubmatrix_copy m constraint table rowIndices newRow result =
        dropState (addAll result (copiedEntries constraint rows rowIndices newRow)) := by
  intro rowIndices
  induction rowIndices with
  | nil => intro newRow result _; rfl
  | cons r rest ih =>
    intro newRow result hin
    have hr : r < m.rowCount := hin r (List.mem_cons_self _ _)
    have hs := hm.1.readAt (i := r) (by omega)
    have he := hm.1.readAt (i := r + 1) (by omega)
    have hse : nth m.rowIndications r ≤ nth m.rowIndications (r + 1) := hm.1.2.1 r hr
    have hec : nth m.rowIndications (r + 1) ≤ m.columnIndications.length :=
      hm.1.le_bound (by omega)
    have hev : nth m.rowIndications (r + 1) ≤ m.valueStorage.length :=
      le_trans (hm.1.mono m.rowCount (r + 1) (by omega) (le_refl _)) hm.2
    have hrow : rows r = List.zip
        (slice m.columnIndications (nth m.rowIndications r) (nth m.rowIndications (r + 1)))
        (slice m.valueStorage (nth m.rowIndications r) (nth m.rowIndications (r + 1))) := by
      have := hrows r hr
      rw [getRow_eq hm hr] at this
      exact (Except.ok.inj this).symm
    have e1 : nth m.rowIndications r + (nth m.rowIndications (r + 1) - nth m.rowIndications r)
        = nth m.rowIndications (r + 1) := by omega
    have hcr := getSubmatrix_copyRow_eq m constraint table newRow htable
      (nth m.rowIndications (r + 1) - nth m.rowIndications r) (nth m.rowIndications r) result
      (by omega) (by omega) (by
        intro k hk h1 h2
        obtain ⟨a, b, c⟩ := zip_slice_mem m.columnIndications m.valueStorage
          (nth m.rowIndications r) (nth m.rowIndications (r + 1)) k hec hev h1 (by omega)
        rw [← hrow] at c
        exact hcols r hr _ c)
    rw [e1, ← hrow] at hcr
    simp only [getSubmatrix_copy, hs, he, hcr, copiedEntries, addAll_append]
    cases addAll result (selectedEntries constraint newRow (rows r)) with
    | error e => rfl
    | ok result1 =>
      simp only [dropState]
      exact ih (newRow + 1) result1 (fun r hr => hin r (List.mem_cons_of_mem _ hr))

theorem getSubmatrix_countRow_eq {T : Type} (m : SparseMatrix T) (constraint : BitVector) :
    ∀ (count i subEntries : Nat), i + count ≤ m.columnIndications.length →
      i + count ≤ m.valueStorage.length →
      (∀ k (h : k < m.columnIndications.length), i ≤ k → k < i + count →
        m.columnIndications[k] < constraint.bits.length) →
      getSubmatrix_countRow m.columnIndications constraint i count subEntries =
        some (subEntries + (selectedEntries constraint 0
          (List.zip (slice m.columnIndications i (i + count))
            (slice m.valueStorage i (i + count)))).length) := by
  intro count
  induction count with
  | zero =>
    intro i subEntries _ _ _
    simp [getSubmatrix_countRow, slice, selectedEntries]
  | succ n ih =>
    intro i subEntries hc hv hin
    have hic : i < m.columnIndications.length := by omega
    have hiv : i < m.valueStorage.length := by omega
    have hcol := hin i hic (le_refl _) (by omega)
    rw [slice_succ _ _ _ hic, slice_succ _ _ _ hiv, List.zip_cons_cons]
    have r1 : readAt m.columnIndications i = some m.columnIndications[i] :=
      List.getElem?_eq_getElem hic
    have r3 : constraint.get m.columnIndications[i] =
        some constraint.bits[m.columnIndications[i]] := List.getElem?_eq_getElem hcol
    simp only [getSubmatrix_countRow, r1, r3]
    rw [ih (i + 1) _ (by omega) (by omega) (fun k h a b => hin k h (by omega) (by omega))]
    cases hbit : constraint.bits[m.columnIndications[i]] with
    | false =>
      simp [selectedEntries, List.filter_cons, List.getElem?_eq_getElem hcol, hbit]
    | true =>
      simp [selectedEntries, List.filter_cons, List.getElem?_eq_getElem hcol, hbit]
      omega

theorem length_selectedEntries {T : Type} (constraint : BitVector) (a b : Nat)
    (es : List (Nat × T)) :
    (selectedEntries constraint a es).length = (selectedEntries constraint b es).length := by
  simp [selectedEntries]

theorem length_copiedEntries {T : Type} (constraint : BitVector) (rows : Nat → List (Nat × T)) :
    ∀ (rowIndices : List Nat) (a b : Nat),
      (copiedEntries constraint rows rowIndices a).length =
        (copiedEntries constraint rows rowIndices b).length := by
  intro rowIndices
  induction rowIndices with
  | nil => intro a b; rfl
  | cons r rest ih =>
    intro a b
    simp only [copiedEntries, List.length_append]
    rw [ih (a + 1) (b + 1), length_selectedEntries constraint a b]

theorem getSubmatrix_count_eq {T : Type} (m : SparseMatrix T) (hm : m.RowsOK)
    (constraint : BitVector)
    (rows : Nat → List (Nat × T)) (hrows : ∀ i, i < m.rowCount → m.getRow i = .ok (rows i))
    (hcols : ∀ i, i < m.rowCount → ∀ e, e ∈ rows i → e.1 < constraint.bits.length) :
    ∀ (rowIndices : List Nat) (subEntries : Nat),
      (∀ r, r ∈ rowIndices → r < m.rowCount) →
      getSubmatrix_count m constraint rowIndices subEntries =
        some (subEntries + (copiedEntries constraint rows rowIndices 0).length) := by
  intro rowIndices
  induction rowIndices with
  | nil => intro subEntries _; rfl
  | cons r rest ih =>
    intro subEntries hin
    have hr : r < m.rowCount := hin r (List.mem_cons_self _ _)
    have hs := hm.1.readAt (i := r) (by omega)
    have he := hm.1.readAt (i := r + 1) (by omega)
    have hse : nth m.rowIndications r ≤ nth m.rowIndications (r + 1) := hm.1.2.1 r hr
    have hec : nth m.rowIndications (r + 1) ≤ m.columnIndications.length :=
      hm.1.le_bound (by omega)
    have hev : nth m.rowIndications (r + 1) ≤ m.valueStorage.length :=
      le_trans (hm.1.mono m.rowCount (r + 1) (by omega) (le_refl _)) hm.2
    have hrow : rows r = List.zip
        (slice m.columnIndications (nth m.rowIndications r) (nth m.rowIndications (r + 1)))
        (slice m.valueStorage (nth m.rowIndications r) (nth m.rowIndications (r + 1))) := by
      have := hrows r hr
      rw [getRow_eq hm hr] at this
      exact (Except.ok.inj this).symm
    have e1 : nth m.rowIndications r + (nth m.rowIndications (r + 1) - nth m.rowIndications r)
        = nth m.rowIndications (r + 1) := by omega
    have hcr := getSubmatrix_countRow_eq m constraint
      (nth m.rowIndications (r + 1) - nth m.rowIndications r) (nth m.rowIndications r)
      subEntries (by omega) (by omega) (by
        intro k hk h1 h2
        obtain ⟨a, b, c⟩ := zip_slice_mem m.columnIndications m.valueStorage
          (nth m.rowIndications r) (nth m.rowIndications (r + 1)) k hec hev h1 (by omega)
        rw [← hrow] at c
        exact hcols r hr _ c)
    rw [e1, ← hrow] at hcr
    simp only [getSubmatrix_count, hs, he, hcr, copiedEntries, List.length_append]
    rw [ih _ (fun r hr => hin r (List.mem_cons_of_mem _ hr)),
      length_copiedEntries constraint rows rest 1 0, Nat.add_assoc]

theorem mem_selectedEntries {T : Type} {constraint : BitVector} {newRow : Nat}
    {es : List (Nat × T)} {e : Entry T} (h : e ∈ selectedEntries constraint newRow es) :
    e.1 = newRow ∧ ∃ a, a ∈ es ∧ constraint.bits[a.1]? = some true ∧
      e.2.1 = constraint.rank a.1 ∧ e.2.2 = a.2 := by
  obtain ⟨a, ha, rfl⟩ := List.mem_map.1 h
  obtain ⟨h1, h2⟩ := List.mem_filter.1 ha
  exact ⟨rfl, a, h1, by simpa using h2, rfl, rfl⟩

theorem mem_copiedEntries {T : Type} {constraint : BitVector} {rows : Nat → List (Nat × T)} :
    ∀ (rowIndices : List Nat) (newRow : Nat) (e : Entry T),
      e ∈ copiedEntries constraint rows rowIndices newRow →
      newRow ≤ e.1 ∧ e.1 < newRow + rowIndices.length ∧
      ∃ c, constraint.bits[c]? = some true ∧ e.2.1 = constraint.rank c := by
  intro rowIndices
  induction rowIndices with
  | nil => intro newRow e h; cases h
  | cons r rest ih =>
    intro newRow e h
    simp only [copiedEntries, List.mem_append] at h
    rcases h with h | h
    · obtain ⟨h1, a, -, h3, h4, -⟩ := mem_selectedEntries h
      exact ⟨by omega, by simp only [List.length_cons]; omega, a.1, h3, h4⟩
    · obtain ⟨h1, h2, h3⟩ := ih (newRow + 1) e h
      exact ⟨by omega, by simp only [List.length_cons]; omega, h3⟩

theorem rank_lt {constraint : BitVector} {c : Nat} (h : constraint.bits[c]? = some true) :
    constraint.rank c < constraint.getNumberOfSetBits := by
  unfold BitVector.rank BitVector.getNumberOfSetBits
  have hmem := mem_setBits.2 h
  have h1 := List.length_filter_lt_length_iff_exists (p := fun i => decide (i < c))
    (l := constraint.setBits)
  exact h1.2 ⟨c, hmem, by simp⟩

theorem rank_mono (constraint : BitVector) {a b : Nat} (h : a ≤ b) :
    constraint.rank a ≤ constraint.rank b :=
  length_filter_key_lt_mono (fun i => i) constraint.setBits b a h

theorem rank_getElem : ∀ (l : List Nat), l.Pairwise (fun a b => a < b) →
    ∀ t (h : t < l.length), (l.filter (fun i => i < l[t])).length = t := by
  intro l
  induction l with
  | nil => intro _ t h; simp at h
  | cons a l ih =>
    intro hp t h
    rw [List.pairwise_cons] at hp
    cases t with
    | zero =>
      simp only [List.getElem_cons_zero, List.filter_cons, lt_self_iff_false, decide_False,
        Bool.false_eq_true, if_false, List.length_eq_zero, List.filter_eq_nil_iff,
        decide_eq_true_eq]
      intro b hb
      have := hp.1 b hb
      omega
    | succ t =>
      simp only [List.length_cons] at h
      have hlt : a < l[t] := hp.1 _ (List.getElem_mem _)
      simp only [List.getElem_cons_succ, List.filter_cons, hlt, decide_True, if_true,
        List.length_cons]
      rw [ih hp.2 t (by omega)]

theorem selectedEntries_pairwise {T : Type} (constraint : BitVector) (newRow : Nat)
    (es : List (Nat × T)) (hs : es.Pairwise (fun a b => a.1 ≤ b.1)) :
    ((selectedEntries constraint newRow es).map (fun e => (e.1, e.2.1))).Pairwise
      PositionLE := by
  unfold selectedEntries
  rw [List.map_map, List.pairwise_map]
  refine List.Pairwise.imp ?_ (List.Pairwise.filter _ hs)
  intro a b hab
  exact Or.inr ⟨rfl, rank_mono constraint hab⟩

theorem copiedEntries_pairwise {T : Type} (constraint : BitVector)
    (rows : Nat → List (Nat × T)) :
    ∀ (rowIndices : List Nat) (newRow : Nat),
      (∀ r, r ∈ rowIndices → (rows r).Pairwise (fun a b => a.1 ≤ b.1)) →
      ((copiedEntries constraint rows rowIndices newRow).map
        (fun e => (e.1, e.2.1))).Pairwise PositionLE := by
  intro rowIndices
  induction rowIndices with
  | nil => intro newRow _; exact List.Pairwise.nil
  | cons r rest ih =>
    intro newRow hs
    simp only [copiedEntries, List.map_append]
    rw [List.pairwise_append]
    refine ⟨selectedEntries_pairwise constraint newRow _ (hs r (List.mem_cons_self _ _)),
      ih (newRow + 1) (fun r hr => hs r (List.mem_cons_of_mem _ hr)), ?_⟩
    intro a ha b hb
    obtain ⟨a1, ha1, rfl⟩ := List.mem_map.1 ha
    obtain ⟨b1, hb1, rfl⟩ := List.mem_map.1 hb
    have h1 := (mem_selectedEntries ha1).1
    have h2 := (mem_copiedEntries rest (newRow + 1) b1 hb1).1
    exact Or.inl (by simp only; omega)

theorem insertedInRow_append {T : Type} (a b : List (Entry T)) (r : Nat) :
    insertedInRow (a ++ b) r = insertedInRow a r ++ insertedInRow b r := by
  simp [insertedInRow]

theorem insertedInRow_eq_nil {T : Type} (es : List (Entry T)) (r : Nat)
    (h : ∀ e, e ∈ es → e.1 ≠ r) : insertedInRow es r = [] := by
  unfold insertedInRow
  rw [List.map_eq_nil_iff, List.filter_eq_nil_iff]
  intro a ha
  simpa using h a ha

theorem insertedInRow_selectedEntries {T : Type} (constraint : BitVector) (newRow : Nat)
    (es : List (Nat × T)) :
    insertedInRow (selectedEntries constraint newRow es) newRow =
      (es.filter (fun e => constraint.bits[e.1]? = some true)).map
        (fun e => (constraint.rank e.1, e.2)) := by
  unfold insertedInRow selectedEntries
  rw [List.filter_eq_self.2 (fun a ha => by
    obtain ⟨b, -, rfl⟩ := List.mem_map.1 ha
    simp), List.map_map]
  rfl

theorem insertedInRow_copiedEntries {T : Type} (constraint : BitVector)
    (rows : Nat → List (Nat × T)) :
    ∀ (rowIndices : List Nat) (newRow t : Nat) (h : t < rowIndices.length),
      insertedInRow (copiedEntries constraint rows rowIndices newRow) (newRow + t) =
        ((rows rowIndices[t]).filter (fun e => constraint.bits[e.1]? = some true)).map
          (fun e => (constraint.rank e.1, e.2)) := by
  intro rowIndices
  induction rowIndices with
  | nil => intro newRow t h; simp at h
  | cons r rest ih =>
    intro newRow t h
    simp only [copiedEntries, insertedInRow_append]
    cases t with
    | zero =>
      rw [Nat.add_zero, insertedInRow_selectedEntries, insertedInRow_eq_nil _ _ (fun e he => by
        have := (mem_copiedEntries rest (newRow + 1) e he).1
        omega)]
      simp
    | succ t =>
      simp only [List.length_cons] at h
      rw [insertedInRow_eq_nil _ _ (fun e he => by
        have := (mem_selectedEntries he).1
        omega)]
      have := ih (newRow + 1) t (by omega)
      have e1 : newRow + 1 + t = newRow + (t + 1) := by omega
      rw [e1] at this
      simpa using this

theorem finalize_frame {T : Type} {m m1 : SparseMatrix T} (h : m.finalize = .ok m1) :
    m1.rowCount = m.rowCount ∧ m1.columnCount = m.columnCount ∧
    m1.storagePreallocated = m.storagePreallocated := by
  obtain ⟨-, h2, h3⟩ := finalize_eq_ok h
  cases hp : m.storagePreallocated with
  | true =>
    obtain ⟨-, ri, -, -, rfl⟩ := h2 hp
    exact ⟨rfl, rfl, hp⟩
  | false =>
    have := h3 hp
    subst this
    exact ⟨rfl, rfl, hp⟩

/-- The row-mask submatrix of a matrix with well-formed rows whose columns are
sorted within each row and covered by the mask: for a mask with a set bit,
`getSubmatrix` returns a matrix with as many rows and columns as the mask has
members, and for every member `i` its row `rank(i)` lists, in order, the pairs
`(rank(j), v)` of the entries `(j, v)` of row `i` with `j` in the mask. -/
theorem getSubmatrix_spec {T : Type} [Zero T] [One T] [Sub T] [Neg T] (m : SparseMatrix T)
    (hm : m.RowsOK) (constraint : BitVector) (hsize : constraint.bits.length ≤ m.rowCount)
    (hne : constraint.getNumberOfSetBits ≠ 0)
    (rows : Nat → List (Nat × T)) (hrows : ∀ i, i < m.rowCount → m.getRow i = .ok (rows i))
    (hcols : ∀ i, i < m.rowCount → ∀ e, e ∈ rows i → e.1 < constraint.bits.length)
    (hsorted : ∀ i, i < m.rowCount → (rows i).Pairwise (fun a b => a.1 ≤ b.1)) :
    ∃ sub, m.getSubmatrix constraint = .ok sub ∧
      sub.rowCount = constraint.getNumberOfSetBits ∧
      sub.columnCount = constraint.getNumberOfSetBits ∧
      ∀ i, constraint.bits[i]? = some true →
        sub.getRow (constraint.rank i) = .ok
          (((rows i).filter (fun e => constraint.bits[e.1]? = some true)).map
            (fun e => (constraint.rank e.1, e.2))) := by
  have hin : ∀ r, r ∈ constraint.setBits → r < m.rowCount := by
    intro r hr
    have h1 := mem_setBits.1 hr
    have : r < constraint.bits.length := by
      by_contra hn
      rw [List.getElem?_eq_none (by omega)] at h1
      cases h1
    omega
  have hcount := getSubmatrix_count_eq m hm constraint rows hrows hcols constraint.setBits 0 hin
  rw [Nat.zero_add] at hcount
  have hcopy := fun result => getSubmatrix_copy_eq m hm constraint
    (getSubmatrix_bitsSetBeforeIndex constraint.setBits [] 0 0)
    (bitsSetBeforeIndex_eq_rank constraint) rows hrows hcols constraint.setBits 0 result hin
  -- the rows of the result, once it is known to hold the copied entries
  have hfinal : ∀ sub : SparseMatrix T,
      (∀ r, r < constraint.getNumberOfSetBits → sub.getRow r =
        .ok (insertedInRow (copiedEntries constraint rows constraint.setBits 0) r)) →
      ∀ i, constraint.bits[i]? = some true →
        sub.getRow (constraint.rank i) = .ok
          (((rows i).filter (fun e => constraint.bits[e.1]? = some true)).map
            (fun e => (constraint.rank e.1, e.2))) := by
    intro sub hsub i hi
    obtain ⟨t, ht, hti⟩ := List.getElem_of_mem (mem_setBits.2 hi)
    have hrank : constraint.rank i = t := by
      rw [← hti]
      exact rank_getElem _ (setBits_pairwise constraint) t ht
    rw [hrank, hsub t ht]
    have := insertedInRow_copiedEntries constraint rows constraint.setBits 0 t ht
    rw [Nat.zero_add, hti] at this
    rw [this]
  unfold SparseMatrix.getSubmatrix
  rw [if_neg hne, hcount]
  simp only
  rw [hcopy]
  by_cases hlen : (copiedEntries constraint rows constraint.setBits 0).length = 0
  · -- nothing is selected: the result is built in dynamic mode
    have hnil := List.length_eq_zero.1 hlen
    rw [hnil]
    simp only [List.length_nil, addAll, dropState]
    obtain ⟨a1, a2, -, a4, -, -, -, a8, -⟩ := create_fields (T := T)
      constraint.getNumberOfSetBits constraint.getNumberOfSetBits 0
    have hdyn : (SparseMatrix.create constraint.getNumberOfSetBits
        constraint.getNumberOfSetBits 0 : SparseMatrix T).storagePreallocated = false := by
      rw [a4]; simp
    obtain ⟨m1, f1, f2⟩ := finalize_of_inv
      (Inv.create (T := T) constraint.getNumberOfSetBits constraint.getNumberOfSetBits 0)
      (by rw [a8]; simp) (by rw [hdyn]; simp)
    obtain ⟨g1, g2, g3⟩ := finalize_frame f1
    rw [f1]
    refine ⟨m1, rfl, by rw [g1, a1], by rw [g2, a2], hfinal m1 ?_⟩
    intro r hr
    rw [hnil]
    exact getRow_dynamic m1 (Reachable.finalize (Reachable.create _ _ _) f1)
      (by rw [g3, hdyn]) r (by rw [g1, a1]; exact hr)
  · -- the result is preallocated and receives the copied entries in order
    have hF := Filled.of_create (T := T) constraint.getNumberOfSetBits
      constraint.getNumberOfSetBits (copiedEntries constraint rows constraint.setBits 0).length
      hne hne hlen
    obtain ⟨a1, a2, a3, -, -, -, -, -, -, a10, a11⟩ := create_fields (T := T)
      constraint.getNumberOfSetBits constraint.getNumberOfSetBits
      (copiedEntries constraint rows constraint.setBits 0).length
    have hrange : ∀ e, e ∈ copiedEntries constraint rows constraint.setBits 0 →
        e.1 < constraint.getNumberOfSetBits ∧ e.2.1 < constraint.getNumberOfSetBits := by
      intro e he
      obtain ⟨-, h2, c, hc1, hc2⟩ := mem_copiedEntries _ _ e he
      refine ⟨by simpa [BitVector.getNumberOfSetBits] using h2, ?_⟩
      rw [hc2]
      exact rank_lt hc1
    obtain ⟨m2, hadd⟩ := addAll_accepts (copiedEntries constraint rows constraint.setBits 0)
      _ [] hF (by rw [a3]; simp)
      (fun e he => by
        rw [a1, a2]
        exact ⟨le_of_lt (hrange e he).1, le_of_lt (hrange e he).2⟩)
      (by
        rw [a10, a11]
        apply List.Pairwise.chain
        rw [List.pairwise_cons]
        refine ⟨?_, copiedEntries_pairwise constraint rows _ 0
          (fun r hr => hsorted r (hin r hr))⟩
        intro b _
        rcases Nat.eq_zero_or_pos b.1 with h | h
        · exact Or.inr ⟨h.symm, Nat.zero_le _⟩
        · exact Or.inl h)
    obtain ⟨m1, f1, f2, f3, -⟩ := roundTrip_preallocated_in_range
      constraint.getNumberOfSetBits constraint.getNumberOfSetBits _ hne hne hlen _ m2 hadd rfl
      (fun e he => (hrange e he).1)
    obtain ⟨-, g2, -⟩ := finalize_frame f1
    obtain ⟨-, k2, -⟩ := addAll_frame _ _ _ hadd
    rw [hadd]
    simp only [dropState]
    rw [f1]
    exact ⟨m1, rfl, f2, by rw [g2, k2, a2], hfinal m1 f3⟩

theorem PositionLE.trans {p q r : Nat × Nat} (h1 : PositionLE p q) (h2 : PositionLE q r) :
    PositionLE p r := by
  unfold PositionLE at *
  omega

/-- The calls of an accepted sequence are in the order of the construction
protocol: no call comes before its predecessor. -/
theorem addAll_chain {T : Type} : ∀ (es : List (Entry T)) (m m2 : SparseMatrix T),
    addAll m es = .ok m2 →
    List.Chain PositionLE (m.lastRow, m.lastColumn) (es.map (fun e => (e.1, e.2.1))) := by
  intro es
  induction es with
  | nil => intro m m2 _; exact List.Chain.nil
  | cons e rest ih =>
    intro m m2 h
    obtain ⟨r, c, v⟩ := e
    simp only [addAll] at h
    cases h1 : m.addNextValue r c v with
    | error e => rw [h1] at h; cases h
    | ok m1 =>
      rw [h1] at h
      obtain ⟨-, g2, g3, -⟩ := addNextValue_eq_ok_iff.1 h1
      obtain ⟨f1, f2, -⟩ := addNextValue_ok_fields h1
      have := ih m1 m2 h
      rw [f1, f2] at this
      refine List.Chain.cons ?_ this
      unfold PositionLE
      simp only
      omega

theorem addAll_pairwise {T : Type} (es : List (Entry T)) (m m2 : SparseMatrix T)
    (h : addAll m es = .ok m2) :
    es.Pairwise (fun a b => PositionLE (a.1, a.2.1) (b.1, b.2.1)) := by
  have h1 := addAll_chain es m m2 h
  have h2 : List.Chain' PositionLE (es.map (fun e => (e.1, e.2.1))) := by
    cases es with
    | nil => exact List.chain'_nil
    | cons e rest =>
      simp only [List.map_cons, List.chain_cons] at h1
      exact h1.2
  have h3 : (es.map (fun e => (e.1, e.2.1))).Pairwise PositionLE := by
    haveI : IsTrans (Nat × Nat) PositionLE := ⟨fun _ _ _ => PositionLE.trans⟩
    exact List.chain'_iff_pairwise.1 h2
  exact List.pairwise_map.1 h3

theorem insertedInRow_sorted {T : Type} (es : List (Entry T))
    (h : es.Pairwise (fun a b => PositionLE (a.1, a.2.1) (b.1, b.2.1))) (r : Nat) :
    (insertedInRow es r).Pairwise (fun a b => a.1 ≤ b.1) := by
  unfold insertedInRow
  rw [List.pairwise_map]
  refine List.Pairwise.imp_of_mem ?_ (List.Pairwise.filter _ h)
  intro a b ha hb hab
  have h1 := (List.mem_filter.1 ha).2
  have h2 := (List.mem_filter.1 hb).2
  simp only [decide_eq_true_eq] at h1 h2
  unfold PositionLE at hab
  simp only at hab
  omega

theorem Reachable.of_addAll {T : Type} [Zero T] [One T] [Sub T] [Neg T] :
    ∀ (es : List (Entry T)) (m m2 : SparseMatrix T), Reachable m → addAll m es = .ok m2 →
      Reachable m2 := by
  intro es
  induction es with
  | nil =>
    intro m m2 hm h
    simp only [addAll, Except.ok.injEq] at h
    rw [← h]
    exact hm
  | cons e rest ih =>
    intro m m2 hm h
    obtain ⟨r, c, v⟩ := e
    simp only [addAll] at h
    cases h1 : m.addNextValue r c v with
    | error e => rw [h1] at h; cases h
    | ok m1 =>
      rw [h1] at h
      exact ih m1 m2 (Reachable.addNextValue r c v hm h1) h

theorem build_eq_ok {T : Type} [Zero T] {rows columns entries : Nat} {es : List (Entry T)}
    {m : SparseMatrix T} (h : build rows columns entries es = .ok m) :
    ∃ m0, addAll (SparseMatrix.create rows columns entries) es = .ok m0 ∧
      m0.finalize = .ok m := by
  unfold build buildWith at h
  cases h1 : addAll (SparseMatrix.createWith initializeElementsDefault rows columns entries) es with
  | error e => rw [h1] at h; cases h
  | ok m0 =>
    rw [h1] at h
    exact ⟨m0, h1, h⟩

/-- What the construction protocol yields for a preallocated matrix when every
call stays inside the declared dimensions: a finalized matrix whose row `r`
lists the entries inserted with row `r`, with columns that do not decrease and
lie below `columnCount`. -/
theorem build_in_range {T : Type} [Zero T] [One T] [Sub T] [Neg T] (rows columns entries : Nat)
    (hr : rows ≠ 0) (hc : columns ≠ 0) (he : entries ≠ 0) (es : List (Entry T))
    (m : SparseMatrix T) (hb : build rows columns entries es = .ok m)
    (hin : ∀ e, e ∈ es → e.1 < rows ∧ e.2.1 < columns) :
    Finalized m ∧ m.rowCount = rows ∧ m.columnCount = columns ∧
    ∀ r, r < rows → m.getRow r = .ok (insertedInRow es r) ∧
      (insertedInRow es r).Pairwise (fun a b => a.1 ≤ b.1) ∧
      ∀ e, e ∈ insertedInRow es r → e.1 < columns := by
  obtain ⟨m0, hadd, hfin⟩ := build_eq_ok hb
  have hF : Filled m0 es := by
    simpa using Filled.after_addAll es _ _ [] (Filled.of_create (T := T) rows columns entries
      hr hc he) hadd
  obtain ⟨-, g2, g3⟩ := addAll_frame es _ _ hadd
  obtain ⟨-, a2, a3, -⟩ := create_fields (T := T) rows columns entries
  obtain ⟨q1, q2, -⟩ := finalize_eq_ok hfin
  have hlen : es.length = entries := by
    have := (q2 hF.pre).1
    rw [hF.cur, g3, a3] at this
    exact this
  obtain ⟨m1, f1, f2, f3, -⟩ := roundTrip_preallocated_in_range rows columns entries hr hc he
    es m0 hadd hlen (fun e he => (hin e he).1)
  rw [hfin] at f1
  cases f1
  obtain ⟨-, k2, -⟩ := finalize_frame hfin
  have hreach : Reachable m := Reachable.finalize
    (Reachable.of_addAll es _ _ (Reachable.create rows columns entries) hadd) hfin
  have hinit : m.internalStatus = .INITIALIZED := by
    obtain ⟨-, ri, -, -, rfl⟩ := q2 hF.pre
    rfl
  refine ⟨⟨hreach, hinit⟩, f2, by rw [k2, g2, a2], fun r hr => ⟨f3 r hr,
    insertedInRow_sorted es (addAll_pairwise es _ _ hadd) r, ?_⟩⟩
  intro e he
  unfold insertedInRow at he
  obtain ⟨a, ha, rfl⟩ := List.mem_map.1 he
  exact (hin a (List.mem_filter.1 ha).1).2

/-- The row-mask submatrix of a preallocated matrix built by the construction
protocol with every call inside the declared dimensions, for a mask over the
rows that also covers the columns: `getSubmatrix` returns a matrix with as many
rows and columns as the mask has members, and for every member `i` its row
`rank(i)` lists, in order, the pairs `(rank(j), v)` of the entries `(j, v)`
inserted with row `i` and `j` in the mask. -/
theorem getSubmatrix_of_build {T : Type} [Zero T] [One T] [Sub T] [Neg T]
    (rows columns entries : Nat) (hr : rows ≠ 0) (hc : columns ≠ 0) (he : entries ≠ 0)
    (es : List (Entry T)) (m : SparseMatrix T) (hb : build rows columns entries es = .ok m)
    (hin : ∀ e, e ∈ es → e.1 < rows ∧ e.2.1 < columns)
    (constraint : BitVector) (hsize : constraint.bits.length = rows) (hcr : columns ≤ rows)
    (hne : constraint.getNumberOfSetBits ≠ 0) :
    ∃ sub, m.getSubmatrix constraint = .ok sub ∧
      sub.rowCount = constraint.getNumberOfSetBits ∧
      sub.columnCount = constraint.getNumberOfSetBits ∧
      ∀ i, constraint.bits[i]? = some true →
        sub.getRow (constraint.rank i) = .ok
          (((insertedInRow es i).filter (fun e => constraint.bits[e.1]? = some true)).map
            (fun e => (constraint.rank e.1, e.2))) := by
  obtain ⟨b1, b2, -, b4⟩ := build_in_range rows columns entries hr hc he es m hb hin
  exact getSubmatrix_spec m b1.rowsOK constraint (by omega) hne (insertedInRow es)
    (fun i hi => (b4 i (by omega)).1)
    (fun i hi e he => by have := (b4 i (by omega)).2.2 e he; omega)
    (fun i hi => (b4 i (by omega)).2.1)

/-- Elimination where it is defined: on the transient part of the chain,
`P = [[1/2]]`, `A = I - P = [[1/2]]`, `b = [1/2]`, the elimination of state 0 has
the scale 2 and `solveEquationSystem` returns `x = [1]`, the matrix unchanged. -/
theorem solveEquationSystem_transient_part :
    solveEquationSystem exampleTransientPart false [1/2] [0] =
      .ok ([1], exampleTransientPart) ∧
    solveEquationSystem exampleTransientPart true [1/2] [0] =
      .ok ([1], exampleTransientPart) := by
  constructor <;> with_unfolding_all rfl

/-- On the elimination step as the specification words it, the result can
depend on the order in which the states are eliminated: for
`A = [[1/2, -1/2], [0, 1]]` and `b = [0, 1]` the order `0, 1` yields
`x = [0, 1]` and the order `1, 0` yields `x = [1, 1]`.  A state that is
eliminated is removed with its edges, so a state eliminated later no longer
contributes to its value. -/
theorem solveEquationSystem_order_dependent :
    solveEquationSystem exampleIdentityRow false [0, 1] [0, 1] =
      .ok ([0, 1], exampleIdentityRow) ∧
    solveEquationSystem exampleIdentityRow false [0, 1] [1, 0] =
      .ok ([1, 1], exampleIdentityRow) := by
  constructor <;> with_unfolding_all rfl

/-- The range check of `makeRowAbsorbing` (line 279): the call throws
`OutOfRangeException` exactly for `row > rowCount`, and then the matrix is as
before the call. -/
theorem makeRowAbsorbing_outOfRange_iff {T : Type} [Zero T] [One T] (m : SparseMatrix T)
    (row column : Nat) :
    ((∃ s, m.makeRowAbsorbing row column = .error (.OutOfRangeException, s)) ↔
      row > m.rowCount) ∧
    (row > m.rowCount → m.makeRowAbsorbing row column = .error (.OutOfRangeException, m)) := by
  have h2 : row > m.rowCount →
      m.makeRowAbsorbing row column = .error (.OutOfRangeException, m) := by
    intro h
    simp [SparseMatrix.makeRowAbsorbing, h]
  refine ⟨⟨?_, fun h => ⟨m, h2 h⟩⟩, h2⟩
  rintro ⟨s, hs⟩
  by_contra hn
  unfold SparseMatrix.makeRowAbsorbing at hs
  rw [if_neg hn] at hs
  split at hs
  · split at hs
    · cases hs
    · split at hs
      · split at hs
        · cases hs
        · cases hs
      · cases hs
  · cases hs

/-- When the row-mask `getSubmatrix` throws `InvalidArgumentException`: on a
matrix with well-formed rows whose columns are sorted within each row and
covered by the mask, exactly for the masks without a set bit. -/
theorem getSubmatrix_invalidArgument_iff {T : Type} [Zero T] [One T] [Sub T] [Neg T]
    (m : SparseMatrix T) (hm : m.RowsOK) (constraint : BitVector)
    (hsize : constraint.bits.length ≤ m.rowCount)
    (rows : Nat → List (Nat × T)) (hrows : ∀ i, i < m.rowCount → m.getRow i = .ok (rows i))
    (hcols : ∀ i, i < m.rowCount → ∀ e, e ∈ rows i → e.1 < constraint.bits.length)
    (hsorted : ∀ i, i < m.rowCount → (rows i).Pairwise (fun a b => a.1 ≤ b.1)) :
    m.getSubmatrix constraint = .error .InvalidArgumentException ↔
      constraint.getNumberOfSetBits = 0 := by
  constructor
  · intro h
    by_contra hne
    obtain ⟨sub, hsub, -⟩ := getSubmatrix_spec m hm constraint hsize hne rows hrows hcols hsorted
    rw [hsub] at h
    cases h
  · intro h
    unfold SparseMatrix.getSubmatrix
    rw [if_pos h]
/-- The same for a preallocated matrix built by the construction protocol with
every call inside the declared dimensions, and a mask over the rows that also
covers the columns. -/
theorem getSubmatrix_invalidArgument_iff_of_build {T : Type} [Zero T] [One T] [Sub T] [Neg T]
    (rows columns entries : Nat) (hr : rows ≠ 0) (hc : columns ≠ 0) (he : entries ≠ 0)
    (es : List (Entry T)) (m : SparseMatrix T) (hb : build rows columns entries es = .ok m)
    (hin : ∀ e, e ∈ es → e.1 < rows ∧ e.2.1 < columns)
    (constraint : BitVector) (hsize : constraint.bits.length = rows) (hcr : columns ≤ rows) :
    m.getSubmatrix constraint = .error .InvalidArgumentException ↔
      constraint.getNumberOfSetBits = 0 := by
  obtain ⟨b1, b2, -, b4⟩ := build_in_range rows columns entries hr hc he es m hb hin
  exact getSubmatrix_invalidArgument_iff m b1.rowsOK constraint (by omega) (insertedInRow es)
    (fun i hi => (b4 i (by omega)).1)
    (fun i hi e he => by have := (b4 i (by omega)).2.2 e he; omega)
    (fun i hi => (b4 i (by omega)).2.1)

theorem exampleIdentityRow_finalized : Finalized exampleIdentityRow := by
  have h : build 2 2 3 [(0, 0, (1/2 : ℚ)), (0, 1, -1/2), (1, 1, 1)] = .ok exampleIdentityRow := by
    with_unfolding_all rfl
  exact (build_in_range 2 2 3 (by decide) (by decide) (by decide) _ _ h (by
    intro e he
    simp only [List.mem_cons, List.mem_singleton, List.not_mem_nil, or_false] at he
    rcases he with rfl | rfl | rfl <;> exact ⟨by decide, by decide⟩)).1

theorem eliminateState_eq_none_iff {T : Type} [Field T] [DecidableEq T]
    (g : EliminationGraph T) (x : List T) (s : Nat) :
    g.eliminateState x s = none ↔ edgeWeight (g.forward.getD s []) s = 1 := by
  unfold EliminationGraph.eliminateState
  split_ifs with h
  · simp only [true_iff]
    exact (sub_eq_zero.1 h).symm
  · simp only [false_iff]
    intro h1
    exact h (by rw [h1, sub_self])

/-- The elimination loop fails at a state `s` exactly when the states popped
before `s` have been eliminated and the elimination of `s` is then undefined. -/
theorem eliminateStates_error_iff {T : Type} [Field T] [DecidableEq T] :
    ∀ (order : List Nat) (g : EliminationGraph T) (x : List T) (s : Nat),
      eliminateStates g x order = .error s ↔
        ∃ pre post g1 x1, order = pre ++ s :: post ∧
          eliminatePrefix g x pre = some (g1, x1) ∧ g1.eliminateState x1 s = none := by
  intro order
  induction order with
  | nil =>
    intro g x s
    constructor
    · intro h
      cases h
    · rintro ⟨pre, post, g1, x1, h, -⟩
      cases pre <;> cases h
  | cons t rest ih =>
    intro g x s
    constructor
    · intro h
      simp only [eliminateStates] at h
      cases he : g.eliminateState x t with
      | none =>
        rw [he] at h
        simp only [Except.error.injEq] at h
        subst h
        exact ⟨[], rest, g, x, rfl, rfl, he⟩
      | some p =>
        obtain ⟨g1, x1⟩ := p
        rw [he] at h
        obtain ⟨pre, post, g2, x2, h1, h2, h3⟩ := (ih g1 x1 s).1 h
        refine ⟨t :: pre, post, g2, x2, by rw [h1]; rfl, ?_, h3⟩
        simp only [eliminatePrefix, he]
        exact h2
    · rintro ⟨pre, post, g1, x1, h1, h2, h3⟩
      cases pre with
      | nil =>
        simp only [List.nil_append, List.cons.injEq] at h1
        obtain ⟨rfl, rfl⟩ := h1
        simp only [eliminatePrefix, Option.some.injEq, Prod.mk.injEq] at h2
        obtain ⟨rfl, rfl⟩ := h2
        simp only [eliminateStates, h3]
      | cons u pre =>
        simp only [List.cons_append, List.cons.injEq] at h1
        obtain ⟨rfl, rfl⟩ := h1
        simp only [eliminatePrefix] at h2
        cases he : g.eliminateState x t with
        | none => rw [he] at h2; cases h2
        | some p =>
          obtain ⟨g2, x2⟩ := p
          rw [he] at h2
          simp only [eliminateStates, he]
          exact (ih g2 x2 s).2 ⟨pre, post, g1, x1, rfl, h2, h3⟩

theorem getRows_ne_invalidState {T : Type} (m : SparseMatrix T) (startRow endRow : Nat) :
    m.getRows startRow endRow ≠ .error .InvalidStateException := by
  unfold SparseMatrix.getRows
  intro h
  split at h
  · split at h <;> cases h
  · cases h

theorem multiplyWithVector_rows_ne_invalidState {T : Type} [Zero T] [Add T] [Mul T]
    (m : SparseMatrix T) (vector : List T) :
    ∀ (result : List T) (row : Nat),
      multiplyWithVector_rows m vector row result ≠ .error .InvalidStateException := by
  intro result
  induction result with
  | nil => intro row h; cases h
  | cons a rest ih =>
    intro row h
    unfold multiplyWithVector_rows at h
    split at h
    · rename_i e he
      cases h
      exact getRows_ne_invalidState m row row he
    · split at h
      · cases h
      · split at h
        · rename_i e he
          cases h
          exact ih (row + 1) he
        · cases h

theorem transpose_ne_invalidState {T : Type} [Zero T] [LT T]
    [DecidableRel (fun (a b : T) => a < b)] (m : SparseMatrix T) :
    m.transpose ≠ .error .InvalidStateException := by
  unfold SparseMatrix.transpose
  intro h
  split at h
  · cases h
  · split at h
    · cases h
    · split at h <;> cases h

theorem invertDiagonal_row_error {T : Type} [One T] [Sub T] (cs : List Nat) :
    ∀ (count : Nat) (vs : List T) (row rowStart : Nat) (e : Exception) (s : List T),
      invertDiagonal_row cs vs row rowStart count = .error (e, s) →
      e ≠ .InvalidStateException := by
  intro count
  induction count with
  | zero =>
    intro vs row rowStart e s h
    simp only [invertDiagonal_row, Except.error.injEq, Prod.mk.injEq] at h
    rw [← h.1]
    decide
  | succ n ih =>
    intro vs row rowStart e s h
    unfold invertDiagonal_row at h
    split at h
    · simp only [Except.error.injEq, Prod.mk.injEq] at h
      rw [← h.1]
      decide
    · split at h
      · split at h
        · simp only [Except.error.injEq, Prod.mk.injEq] at h
          rw [← h.1]
          decide
        · split at h
          · simp only [Except.error.injEq, Prod.mk.injEq] at h
            rw [← h.1]
            decide
          · cases h
      · exact ih vs row (rowStart + 1) e s h

theorem invertDiagonal_rows_error {T : Type} [One T] [Sub T] (ri cs : List Nat) :
    ∀ (count : Nat) (vs : List T) (row : Nat) (e : Exception) (s : List T),
      invertDiagonal_rows ri cs vs row count = .error (e, s) →
      e ≠ .InvalidStateException := by
  intro count
  induction count with
  | zero =>
    intro vs row e s h
    cases h
  | succ n ih =>
    intro vs row e s h
    unfold invertDiagonal_rows at h
    split at h
    · split at h
      · rename_i e1 he
        cases h
        exact invertDiagonal_row_error cs _ vs row _ e s he
      · exact ih _ (row + 1) e s h
    · simp only [Except.error.injEq, Prod.mk.injEq] at h
      rw [← h.1]
      decide

theorem convertToEquationSystem_ne_invalidState {T : Type} [One T] [Sub T] [Neg T]
    (m s : SparseMatrix T) :
    m.convertToEquationSystem ≠ .error (.InvalidStateException, s) := by
  intro h
  unfold SparseMatrix.convertToEquationSystem at h
  split at h
  · rename_i e he
    cases h
    unfold SparseMatrix.invertDiagonal at he
    split at he
    · cases he
    · split at he
      · rename_i e1 vs h1
        simp only [Except.error.injEq, Prod.mk.injEq] at he
        exact invertDiagonal_rows_error _ _ _ _ _ _ _ h1 he.1
      · cases he
  · unfold SparseMatrix.negateAllNonDiagonalElements at h
    split at h
    · cases h
    · split at h <;> cases h

theorem makeRowAbsorbing_invalidState_iff_reads {T : Type} [Zero T] [One T] (m : SparseMatrix T)
    (row column : Nat) :
    (∃ s, m.makeRowAbsorbing row column = .error (.InvalidStateException, s)) ↔
      row ≤ m.rowCount ∧ ∃ a b, readAt m.rowIndications row = some a ∧
        readAt m.rowIndications (row + 1) = some b ∧ b ≤ a := by
  constructor
  · rintro ⟨s, hs⟩
    unfold SparseMatrix.makeRowAbsorbing at hs
    split at hs
    · cases hs
    · rename_i hrow
      split at hs
      · rename_i a b ha hb
        split at hs
        · rename_i hab
          exact ⟨by omega, a, b, ha, hb, hab⟩
        · split at hs
          · split at hs <;> cases hs
          · cases hs
      · cases hs
  · rintro ⟨hrow, a, b, ha, hb, hab⟩
    refine ⟨m, ?_⟩
    unfold SparseMatrix.makeRowAbsorbing
    rw [if_neg (by omega), ha, hb]
    simp only
    rw [if_pos hab]

theorem addNextValue_currentEntryCount {T : Type} {m m2 : SparseMatrix T} {r c : Nat} {v : T}
    (h : m.addNextValue r c v = .ok m2) (hp : m.storagePreallocated = true) :
    m2.currentEntryCount = m.currentEntryCount + 1 := by
  obtain ⟨-, -, -, m1, h1, h2⟩ := addNextValue_eq_ok_iff.1 h
  obtain ⟨-, -, -, -, a5, -, -, -, a9, -⟩ := addNextValue_switchRow_frame h1
  unfold addNextValue_store at h2
  rw [a5, hp] at h2
  simp only [if_true] at h2
  split at h2
  · cases h2
  · split at h2
    · cases h2
    · simp only [Option.some.injEq] at h2
      rw [← h2]
      exact congrArg (· + 1) a9

/-- The counting loop and the copying loop of `getSubmatrix(constraint)` visit the
same entries of a row: when both complete, a preallocated result has received
as many entries as were counted. -/
theorem getSubmatrix_copyRow_count {T : Type} (m : SparseMatrix T) (constraint : BitVector)
    (table : List Nat) (newRow : Nat) :
    ∀ (count i acc n : Nat) (result result1 : SparseMatrix T),
      getSubmatrix_countRow m.columnIndications constraint i count acc = some n →
      getSubmatrix_copyRow m constraint table newRow i count result = .ok result1 →
      result1.storagePreallocated = result.storagePreallocated ∧
      result1.entryCount = result.entryCount ∧
      result1.internalStatus = result.internalStatus ∧
      (result.storagePreallocated = true →
        result1.currentEntryCount + acc = result.currentEntryCount + n) := by
  intro count
  induction count with
  | zero =>
    intro i acc n result result1 h1 h2
    simp only [getSubmatrix_countRow, Option.some.injEq] at h1
    simp only [getSubmatrix_copyRow, Except.ok.injEq] at h2
    subst h1 h2
    exact ⟨rfl, rfl, rfl, fun _ => rfl⟩
  | succ k ih =>
    intro i acc n result result1 h1 h2
    unfold getSubmatrix_countRow at h1
    unfold getSubmatrix_copyRow at h2
    cases hc : readAt m.columnIndications i with
    | none => rw [hc] at h1; cases h1
    | some column =>
      rw [hc] at h1 h2
      simp only at h1 h2
      split at h2
      · cases h2
      · rename_i hb
        rw [hb] at h1
        simp only [Bool.false_eq_true, if_false] at h1
        exact ih (i + 1) acc n result result1 h1 h2
      · rename_i hb
        rw [hb] at h1
        simp only [if_true] at h1
        split at h2
        · rename_i newColumn value hn hv
          split at h2
          · cases h2
          · rename_i result2 hadd
            obtain ⟨b1, b2, b3, b4⟩ := ih (i + 1) (acc + 1) n result2 result1 h1 h2
            obtain ⟨-, -, -, -, f5, f6, f7, -⟩ := addNextValue_ok_fields hadd
            refine ⟨by rw [b1, f6], by rw [b2, f5], by rw [b3, f7], fun hp => ?_⟩
            have := b4 (by rw [f6, hp])
            rw [addNextValue_currentEntryCount hadd hp] at this
            omega
        · cases h2

theorem addNextValue_error_ne_invalidState {T : Type} {m s : SparseMatrix T} {r c : Nat} {v : T}
    {e : Exception} (h : m.addNextValue r c v = .error (e, s)) :
    e ≠ .InvalidStateException := by
  unfold SparseMatrix.addNextValue at h
  split_ifs at h
  · cases h; decide
  · cases h; decide
  · cases h; decide
  · split at h
    · cases h; decide
    · split at h
      · cases h; decide
      · cases h

theorem getSubmatrix_copyRow_error {T : Type} (m : SparseMatrix T) (constraint : BitVector)
    (table : List Nat) (newRow : Nat) :
    ∀ (count i : Nat) (result : SparseMatrix T),
      getSubmatrix_copyRow m constraint table newRow i count result ≠
        .error .InvalidStateException := by
  intro count
  induction count with
  | zero => intro i result h; cases h
  | succ k ih =>
    intro i result h
    unfold getSubmatrix_copyRow at h
    split at h
    · cases h
    · split at h
      · cases h
      · exact ih _ _ h
      · split at h
        · split at h
          · rename_i e s hadd
            cases h
            exact addNextValue_error_ne_invalidState hadd rfl
          · exact ih _ _ h
        · cases h

theorem getSubmatrix_copy_error {T : Type} (m : SparseMatrix T) (constraint : BitVector)
    (table : List Nat) :
    ∀ (rowIndices : List Nat) (newRow : Nat) (result : SparseMatrix T),
      getSubmatrix_copy m constraint table rowIndices newRow result ≠
        .error .InvalidStateException := by
  intro rowIndices
  induction rowIndices with
  | nil => intro newRow result h; cases h
  | cons r rest ih =>
    intro newRow result h
    unfold getSubmatrix_copy at h
    split at h
    · split at h
      · rename_i e he
        cases h
        exact getSubmatrix_copyRow_error m constraint table newRow _ _ _ he
      · exact ih _ _ h
    · cases h

theorem getSubmatrix_copy_count {T : Type} (m : SparseMatrix T) (constraint : BitVector)
    (table : List Nat) :
    ∀ (rowIndices : List Nat) (newRow acc n : Nat) (result result1 : SparseMatrix T),
      getSubmatrix_count m constraint rowIndices acc = some n →
      getSubmatrix_copy m constraint table rowIndices newRow result = .ok result1 →
      result1.storagePreallocated = result.storagePreallocated ∧
      result1.entryCount = result.entryCount ∧
      result1.internalStatus = result.internalStatus ∧
      (result.storagePreallocated = true →
        result1.currentEntryCount + acc = result.currentEntryCount + n) := by
  intro rowIndices
  induction rowIndices with
  | nil =>
    intro newRow acc n result result1 h1 h2
    simp only [getSubmatrix_count, Option.some.injEq] at h1
    simp only [getSubmatrix_copy, Except.ok.injEq] at h2
    subst h1 h2
    exact ⟨rfl, rfl, rfl, fun _ => rfl⟩
  | cons r rest ih =>
    intro newRow acc n result result1 h1 h2
    unfold getSubmatrix_count at h1
    unfold getSubmatrix_copy at h2
    split at h1
    · rename_i s e hs he
      rw [hs, he] at h2
      simp only at h2
      split at h1
      · cases h1
      · rename_i n1 hn1
        split at h2
        · cases h2
        · rename_i result2 hcopy
          obtain ⟨a1, a2, a3, a4⟩ := getSubmatrix_copyRow_count m constraint table newRow
            (e - s) s acc n1 result result2 hn1 hcopy
          obtain ⟨b1, b2, b3, b4⟩ := ih (newRow + 1) n1 n result2 result1 h1 h2
          refine ⟨by rw [b1, a1], by rw [b2, a2], by rw [b3, a3], fun hp => ?_⟩
          have := a4 hp
          have := b4 (by rw [a1, hp])
          omega
    · cases h1

theorem getSubmatrix_ne_invalidState {T : Type} [Zero T] (m : SparseMatrix T)
    (constraint : BitVector) :
    m.getSubmatrix constraint ≠ .error .InvalidStateException := by
  intro h
  unfold SparseMatrix.getSubmatrix at h
  split at h
  · cases h
  · split at h
    · cases h
    · rename_i subEntries hcount
      split at h
      · rename_i e hcopy
        cases h
        exact getSubmatrix_copy_error m constraint _ _ _ _ hcopy
      · rename_i result hcopy
        split at h
        · rename_i e s hfin
          cases h
          obtain ⟨c1, c2, c3, c4⟩ := getSubmatrix_copy_count m constraint _ _ 0 0 subEntries _
            result hcount hcopy
          obtain ⟨-, -, a3, -, -, -, -, a8, a9, -⟩ := create_fields (T := T)
            constraint.getNumberOfSetBits constraint.getNumberOfSetBits subEntries
          unfold SparseMatrix.finalize at hfin
          rw [if_neg (by rw [c3, a8]; decide)] at hfin
          split at hfin
          · rename_i hpc
            apply hpc.2
            have := c4 (by rw [← c1]; exact hpc.1)
            rw [c2, a3]
            rw [a9] at this
            omega
          · split at hfin
            · split at hfin
              · cases hfin
              · split at hfin <;> cases hfin
            · cases hfin
        · cases h

theorem resize_length_self {α : Type} (v : List α) (x : α) : resize v v.length x = v := by
  simp [resize]

/-- On the matrix that line 646 constructs, `initialize(rowCount)` of line 649
declares the number of entries the constructor has already received (the matrix
is square), so the object stays as constructed. -/
theorem initializeEntries_create {T : Type} [Zero T] (n : Nat) :
    (SparseMatrix.create n n n : SparseMatrix T).initializeEntries n = SparseMatrix.create n n n := by
  simp [SparseMatrix.initializeEntries, SparseMatrix.create, SparseMatrix.createWith,
    prepareInternalStorage, initializeElementsDefault, resize]

theorem getValue_eq {T : Type} (m : SparseMatrix T) {bound : Nat}
    (hri : RowStartsOK m.rowIndications m.rowCount bound) {row : Nat} (hrow : row < m.rowCount)
    (column : Nat) :
    m.getValue row column =
      match findDiagonal m.columnIndications column (nth m.rowIndications row)
          (nth m.rowIndications (row + 1) - nth m.rowIndications row) with
      | some position => .ok position
      | none => .error .OutOfBoundsAccess := by
  simp only [SparseMatrix.getValue, hri.readAt (i := row) (by omega),
    hri.readAt (i := row + 1) (by omega)]

/-- The loop of `getJacobiDecomposition` on a matrix with well-formed rows in
which every row from `r0` on stores a diagonal entry whose first occurrence has
a non-zero value: the values of these first occurrences are replaced by zero,
all other values stay, and `resultDinv` receives the calls
`addNextValue(r, r, 1 / value)` in the order of the rows. -/
theorem getJacobiDecomposition_loop_spec {T : Type} [Field T] [DecidableEq T]
    (m : SparseMatrix T)
    (hri : RowStartsOK m.rowIndications m.rowCount m.columnIndications.length) :
    ∀ (count r0 : Nat) (vals : List T), r0 + count ≤ m.rowCount →
      nth m.rowIndications m.rowCount ≤ vals.length →
      (∀ row, r0 ≤ row → row < r0 + count →
        ∃ p v, findDiagonal m.columnIndications row (nth m.rowIndications row)
            (nth m.rowIndications (row + 1) - nth m.rowIndications row) = some p ∧
          vals[p]? = some v ∧ v ≠ 0) →
      ∃ (vals1 : List T) (ds : List (Entry T)),
        vals1.length = vals.length ∧
        (∀ k, (InvertedAt m.rowIndications m.columnIndications r0 (r0 + count) k →
            vals1[k]? = (vals[k]?).map (fun _ => 0)) ∧
          (¬ InvertedAt m.rowIndications m.columnIndications r0 (r0 + count) k →
            vals1[k]? = vals[k]?)) ∧
        ds.length = count ∧
        (∀ t, t < count →
          ∃ p v, findDiagonal m.columnIndications (r0 + t) (nth m.rowIndications (r0 + t))
              (nth m.rowIndications (r0 + t + 1) - nth m.rowIndications (r0 + t)) = some p ∧
            vals[p]? = some v ∧ ds[t]? = some (r0 + t, r0 + t, 1 / v)) ∧
        ∀ dinv, getJacobiDecomposition_loop { m with valueStorage := vals } dinv r0 count =
          match addAll dinv ds with
          | .error (e, _) => .error (.matrix e)
          | .ok dinv1 => .ok ({ m with valueStorage := vals1 }, dinv1) := by
  intro count
  induction count with
  | zero =>
    intro r0 vals _ _ _
    refine ⟨vals, [], rfl, fun k => ⟨?_, fun _ => rfl⟩, rfl, fun t ht => by omega,
      fun dinv => rfl⟩
    rintro ⟨row, h1, h2, -⟩
    omega
  | succ n ih =>
    intro r0 vals hr hv hd
    obtain ⟨p, v, hp, hpv, hv0⟩ := hd r0 (le_refl _) (by omega)
    obtain ⟨hp1, hp2, hp3, -⟩ := findDiagonal_some _ _ _ _ _ hp
    have hse : nth m.rowIndications r0 ≤ nth m.rowIndications (r0 + 1) :=
      hri.2.1 r0 (by omega)
    have hpl : p < vals.length := by
      by_contra hn
      rw [List.getElem?_eq_none (by omega)] at hpv
      cases hpv
    have hstep : ∀ row, r0 + 1 ≤ row → row < r0 + 1 + n →
        nth m.rowIndications (r0 + 1) ≤ nth m.rowIndications row :=
      fun row a b => hri.mono row (r0 + 1) a (by omega)
    obtain ⟨vals1, ds, g1, g2, g3, g4, g5⟩ := ih (r0 + 1) (vals.set p 0) (by omega)
      (by simpa using hv) (by
        intro row a b
        obtain ⟨q, w, hq, hqw, hw0⟩ := hd row (by omega) (by omega)
        refine ⟨q, w, hq, ?_, hw0⟩
        obtain ⟨c1, -, -, -⟩ := findDiagonal_some _ _ _ _ _ hq
        have := hstep row a b
        rw [List.getElem?_set_ne (by omega)]
        exact hqw)
    refine ⟨vals1, (r0, r0, 1 / v) :: ds, by simpa using g1, fun k => ?_, by simp [g3],
      fun t ht => ?_, fun dinv => ?_⟩
    · by_cases hk : k = p
      · subst hk
        have hnot : ¬ InvertedAt m.rowIndications m.columnIndications (r0 + 1) (r0 + 1 + n) k := by
          rintro ⟨row, a, b, c⟩
          obtain ⟨c1, -, -, -⟩ := findDiagonal_some _ _ _ _ _ c
          have := hstep row a b
          omega
        have hyes : InvertedAt m.rowIndications m.columnIndications r0 (r0 + (n + 1)) k :=
          ⟨r0, le_refl _, by omega, hp⟩
        rw [(g2 k).2 hnot]
        refine ⟨fun _ => ?_, fun h => absurd hyes h⟩
        simp [hpl]
      · have hvk : (vals.set p 0)[k]? = vals[k]? := by
          rw [List.getElem?_set_ne (Ne.symm hk)]
        have hiff : InvertedAt m.rowIndications m.columnIndications r0 (r0 + (n + 1)) k ↔
            InvertedAt m.rowIndications m.columnIndications (r0 + 1) (r0 + 1 + n) k := by
          constructor
          · rintro ⟨row, a, b, c⟩
            have : row ≠ r0 := by
              rintro rfl
              rw [hp] at c
              exact hk (Option.some.inj c).symm
            exact ⟨row, by omega, by omega, c⟩
          · rintro ⟨row, a, b, c⟩
            exact ⟨row, by omega, by omega, c⟩
        rw [hiff, ← hvk]
        exact g2 k
    · cases t with
      | zero => exact ⟨p, v, hp, hpv, by simp⟩
      | succ t =>
        obtain ⟨q, w, hq, hqw, hds⟩ := g4 t (by omega)
        have e1 : r0 + 1 + t = r0 + (t + 1) := by omega
        rw [e1] at hq hds
        refine ⟨q, w, hq, ?_, by simpa using hds⟩
        obtain ⟨c1, -, -, -⟩ := findDiagonal_some _ _ _ _ _ hq
        have := hstep (r0 + (t + 1)) (by omega) (by omega)
        rw [List.getElem?_set_ne (by omega)] at hqw
        exact hqw
    · have hget : ({ m with valueStorage := vals } : SparseMatrix T).getValue r0 r0 = .ok p := by
        have hr0 : r0 < ({ m with valueStorage := vals } : SparseMatrix T).rowCount := by
          show r0 < m.rowCount
          omega
        have := getValue_eq ({ m with valueStorage := vals } : SparseMatrix T) hri hr0 r0
        rw [this]
        show (match findDiagonal m.columnIndications r0 (nth m.rowIndications r0)
          (nth m.rowIndications (r0 + 1) - nth m.rowIndications r0) with
          | some position => Except.ok position
          | none => Except.error Exception.OutOfBoundsAccess) = _
        rw [hp]
      unfold getJacobiDecomposition_loop
      rw [hget]
      simp only [readAt, hpv, hv0, if_false, addAll, writeAt_of_lt _ hpl]
      cases dinv.addNextValue r0 r0 (1 / v) with
      | error e => rfl
      | ok dinv1 => exact g5 dinv1

/-- A call sequence that puts one entry on the diagonal of each of the rows
`r0, r0 + 1, ...`: the calls are in range and in order, and each row receives
its one entry. -/
theorem diagonal_calls {T : Type} : ∀ (ds : List (Entry T)) (r0 : Nat),
    (∀ t, t < ds.length → ∃ x, ds[t]? = some (r0 + t, r0 + t, x)) →
    (∀ e, e ∈ ds → r0 ≤ e.1 ∧ e.1 < r0 + ds.length ∧ e.2.1 = e.1) ∧
    (ds.map (fun e => (e.1, e.2.1))).Pairwise PositionLE ∧
    (∀ t x, ds[t]? = some (r0 + t, r0 + t, x) → insertedInRow ds (r0 + t) = [(r0 + t, x)]) := by
  intro ds
  induction ds with
  | nil =>
    intro r0 _
    refine ⟨?_, ?_, ?_⟩
    · intro e he
      cases he
    · exact List.Pairwise.nil
    · intro t x h
      simp at h
  | cons d rest ih =>
    intro r0 h
    obtain ⟨x0, hx0⟩ := h 0 (by simp)
    simp only [List.getElem?_cons_zero, Option.some.injEq, Nat.add_zero] at hx0
    subst hx0
    have hrest : ∀ t, t < rest.length → ∃ x, rest[t]? = some (r0 + 1 + t, r0 + 1 + t, x) := by
      intro t ht
      obtain ⟨x, hx⟩ := h (t + 1) (by simp only [List.length_cons]; omega)
      simp only [List.getElem?_cons_succ] at hx
      have e1 : r0 + (t + 1) = r0 + 1 + t := by omega
      rw [e1] at hx
      exact ⟨x, hx⟩
    obtain ⟨i1, i2, i3⟩ := ih (r0 + 1) hrest
    refine ⟨?_, ?_, ?_⟩
    · intro e he
      simp only [List.mem_cons] at he
      rcases he with rfl | he
      · refine ⟨le_refl _, ?_, rfl⟩
        simp only [List.length_cons]
        omega
      · obtain ⟨a, b, c⟩ := i1 e he
        simp only [List.length_cons]
        exact ⟨by omega, by omega, c⟩
    · simp only [List.map_cons, List.pairwise_cons]
      refine ⟨?_, i2⟩
      intro b hb
      obtain ⟨e, he, rfl⟩ := List.mem_map.1 hb
      obtain ⟨a, -, -⟩ := i1 e he
      exact Or.inl (by simp only; omega)
    · intro t x hx
      cases t with
      | zero =>
        simp only [List.getElem?_cons_zero, Option.some.injEq, Nat.add_zero, Prod.mk.injEq,
          true_and] at hx
        subst hx
        have hnil : insertedInRow rest r0 = [] :=
          insertedInRow_eq_nil rest r0 (fun e he => by
            obtain ⟨a, -, -⟩ := i1 e he
            omega)
        have := insertedInRow_append [(r0, r0, x0)] rest r0
        simp only [List.singleton_append] at this
        rw [Nat.add_zero, this, hnil]
        simp [insertedInRow]
      | succ t =>
        simp only [List.getElem?_cons_succ] at hx
        have e1 : r0 + (t + 1) = r0 + 1 + t := by omega
        rw [e1] at hx ⊢
        have := insertedInRow_append [(r0, r0, x0)] rest (r0 + 1 + t)
        simp only [List.singleton_append] at this
        rw [this, i3 t x hx]
        have hnil : insertedInRow [(r0, r0, x0)] (r0 + 1 + t) = [] :=
          insertedInRow_eq_nil _ _ (fun e he => by
            simp only [List.mem_singleton] at he
            subst he
            simp only
            omega)
        rw [hnil]
        rfl

/-- The Jacobi decomposition of a square matrix with well-formed rows in which
every row stores a diagonal entry whose first occurrence has a non-zero value:
`getJacobiDecomposition()` returns `(resultLU, resultDinv)`; `resultLU` is the
matrix with the value of the first diagonal entry of every row replaced by zero
and every other stored value as it is, and row `r` of `resultDinv` holds the one
entry `(r, 1 / value)` for the value of the first diagonal entry of row `r`. -/
theorem getJacobiDecomposition_spec {T : Type} [Field T] [DecidableEq T] (m : SparseMatrix T)
    (hm : m.RowsOK) (hsq : m.rowCount = m.columnCount)
    (hd : ∀ row, row < m.rowCount →
      ∃ p v, findDiagonal m.columnIndications row (nth m.rowIndications row)
          (nth m.rowIndications (row + 1) - nth m.rowIndications row) = some p ∧
        m.valueStorage[p]? = some v ∧ v ≠ 0) :
    ∃ vals1 resultDinv,
      m.getJacobiDecomposition = .ok ({ m with valueStorage := vals1 }, resultDinv) ∧
      vals1.length = m.valueStorage.length ∧
      (∀ k, (InvertedAt m.rowIndications m.columnIndications 0 m.rowCount k →
          vals1[k]? = (m.valueStorage[k]?).map (fun _ => 0)) ∧
        (¬ InvertedAt m.rowIndications m.columnIndications 0 m.rowCount k →
          vals1[k]? = m.valueStorage[k]?)) ∧
      resultDinv.rowCount = m.rowCount ∧ resultDinv.columnCount = m.rowCount ∧
      ∀ r, r < m.rowCount →
        ∃ p v, findDiagonal m.columnIndications r (nth m.rowIndications r)
            (nth m.rowIndications (r + 1) - nth m.rowIndications r) = some p ∧
          m.valueStorage[p]? = some v ∧ resultDinv.getRow r = .ok [(r, 1 / v)] := by
  obtain ⟨vals1, ds, g1, g2, g3, g4, g5⟩ := getJacobiDecomposition_loop_spec m hm.1 m.rowCount 0
    m.valueStorage (by omega) hm.2 (fun row _ h => hd row (by omega))
  simp only [Nat.zero_add] at g2 g4
  have hloop : ∀ dinv, getJacobiDecomposition_loop m dinv 0 m.rowCount =
      match addAll dinv ds with
      | .error (e, _) => .error (.matrix e)
      | .ok dinv1 => .ok ({ m with valueStorage := vals1 }, dinv1) := g5
  have hdiag : ∀ t, t < ds.length → ∃ x, ds[t]? = some (0 + t, 0 + t, x) := by
    intro t ht
    obtain ⟨p, v, -, -, h3⟩ := g4 t (by omega)
    exact ⟨1 / v, by simpa using h3⟩
  obtain ⟨d1, d2, d3⟩ := diagonal_calls ds 0 hdiag
  have hc : (SparseMatrix.create m.rowCount m.rowCount m.columnCount : SparseMatrix T) =
      SparseMatrix.create m.rowCount m.rowCount m.rowCount := by rw [← hsq]
  unfold SparseMatrix.getJacobiDecomposition
  rw [if_neg (by simpa using hsq), hc, initializeEntries_create, hloop]
  by_cases hn : m.rowCount = 0
  · have hds : ds = [] := List.length_eq_zero.1 (by omega)
    subst hds
    simp only [addAll]
    obtain ⟨a1, a2, -, a4, -, -, -, a8, -⟩ := create_fields (T := T) m.rowCount m.rowCount
      m.rowCount
    obtain ⟨m1, f1, -⟩ := finalize_of_inv (Inv.create (T := T) m.rowCount m.rowCount m.rowCount)
      (by rw [a8]; decide) (by rw [a4, hn]; simp)
    obtain ⟨k1, k2, -⟩ := finalize_frame f1
    rw [f1]
    exact ⟨vals1, m1, rfl, g1, g2, by rw [k1, a1], by rw [k2, a2], fun r hr => by omega⟩
  · have hF := Filled.of_create (T := T) m.rowCount m.rowCount m.rowCount hn hn hn
    obtain ⟨a1, a2, a3, -, -, -, -, -, -, a10, a11⟩ := create_fields (T := T) m.rowCount
      m.rowCount m.rowCount
    obtain ⟨m2, hadd⟩ := addAll_accepts ds _ [] hF (by rw [a3]; simp [g3])
      (fun e he => by
        obtain ⟨-, b, c⟩ := d1 e he
        rw [a1, a2, c]
        exact ⟨by omega, by omega⟩)
      (by
        rw [a10, a11]
        apply List.Pairwise.chain
        rw [List.pairwise_cons]
        refine ⟨?_, d2⟩
        intro b _
        rcases Nat.eq_zero_or_pos b.1 with h | h
        · exact Or.inr ⟨h.symm, Nat.zero_le _⟩
        · exact Or.inl h)
    obtain ⟨m1, f1, f2, f3, -⟩ := roundTrip_preallocated_in_range m.rowCount m.rowCount
      m.rowCount hn hn hn ds m2 hadd g3 (fun e he => by
        obtain ⟨-, b, -⟩ := d1 e he
        omega)
    obtain ⟨-, k2, -⟩ := finalize_frame f1
    obtain ⟨-, j2, -⟩ := addAll_frame _ _ _ hadd
    rw [hadd]
    simp only
    rw [f1]
    refine ⟨vals1, m1, rfl, g1, g2, f2, by rw [k2, j2, a2], fun r hr => ?_⟩
    obtain ⟨p, v, h1, h2, h3⟩ := g4 r hr
    refine ⟨p, v, h1, h2, ?_⟩
    rw [f3 r hr]
    have := d3 r (1 / v) (by simpa using h3)
    simpa using this

/-- In a row that stores exactly one diagonal entry, the first diagonal entry is
that entry. -/
theorem first_diagonal_of_unique {T : Type} {m : SparseMatrix T} (hm : m.RowsOK) {i : Nat}
    (hi : i < m.rowCount) {es : List (Nat × T)} (hes : m.getRow i = .ok es)
    (huniq : (es.filter (fun e => e.1 = i)).length = 1) {v : T} (hv : (i, v) ∈ es) :
    ∃ p, findDiagonal m.columnIndications i (nth m.rowIndications i)
        (nth m.rowIndications (i + 1) - nth m.rowIndications i) = some p ∧
      m.valueStorage[p]? = some v := by
  have hd : findDiagonal m.columnIndications i (nth m.rowIndications i)
      (nth m.rowIndications (i + 1) - nth m.rowIndications i) ≠ none := by
    intro hnone
    rw [getRow_eq hm hi] at hes
    cases hes
    obtain ⟨k, h1, h2, h3⟩ := mem_slice (List.of_mem_zip hv).1
    exact findDiagonal_none _ _ _ _ hnone k h1 h2 h3
  obtain ⟨p, hpd⟩ := Option.ne_none_iff_exists'.1 hd
  obtain ⟨p1, p2, p3, -⟩ := findDiagonal_some _ _ _ _ _ hpd
  refine ⟨p, hpd, ?_⟩
  have hse : nth m.rowIndications i ≤ nth m.rowIndications (i + 1) := hm.1.2.1 i hi
  have hec : nth m.rowIndications (i + 1) ≤ m.columnIndications.length :=
    hm.1.le_bound (by omega)
  have hev : nth m.rowIndications (i + 1) ≤ m.valueStorage.length :=
    le_trans (hm.1.mono m.rowCount (i + 1) (by omega) (le_refl _)) hm.2
  rw [getRow_eq hm hi] at hes
  cases hes
  obtain ⟨t, ht⟩ := List.mem_iff_getElem?.1 hv
  obtain ⟨c1, c2, c3⟩ := getElem?_zip_slice m.columnIndications m.valueStorage
    (nth m.rowIndications i) (nth m.rowIndications (i + 1))
    (p - nth m.rowIndications i) hec hev (by omega)
  have e1 : nth m.rowIndications i + (p - nth m.rowIndications i) = p := by omega
  have hpc : m.columnIndications[nth m.rowIndications i + (p - nth m.rowIndications i)] = i := by
    simp only [e1]
    rw [List.getElem?_eq_getElem (by omega)] at p3
    exact Option.some.inj p3
  have htp := position_unique_of_filter_length_one huniq ht c3 rfl hpc
  subst htp
  rw [ht] at c3
  simp only [Option.some.injEq, Prod.mk.injEq, e1] at c3
  rw [List.getElem?_eq_getElem (by omega)]
  exact congrArg some c3.2.symm

/-- The rows of the Jacobi decomposition of a square matrix with well-formed
rows in which every row stores exactly one entry on the diagonal, of non-zero
value. -/
theorem getJacobiDecomposition_of_rowsOK {T : Type} [Field T] [DecidableEq T]
    (m : SparseMatrix T) (hm : m.RowsOK) (hsq : m.rowCount = m.columnCount)
    (hdiag : ∀ i, i < m.rowCount → ∃ es v, m.getRow i = .ok es ∧
      es.filter (fun e => e.1 = i) = [(i, v)] ∧ v ≠ 0) :
    ∃ resultLU resultDinv, m.getJacobiDecomposition = .ok (resultLU, resultDinv) ∧
      SameShape m resultLU ∧ resultLU.columnIndications = m.columnIndications ∧
      resultDinv.rowCount = m.rowCount ∧ resultDinv.columnCount = m.rowCount ∧
      ∀ i, i < m.rowCount → ∀ es v, m.getRow i = .ok es → (i, v) ∈ es →
        resultLU.getRow i = .ok (es.map (zeroDiagonalEntry i)) ∧
        resultDinv.getRow i = .ok [(i, 1 / v)] := by
  have hfirst : ∀ i, i < m.rowCount → ∀ es v, m.getRow i = .ok es → (i, v) ∈ es →
      (es.filter (fun e => e.1 = i)).length = 1 ∧ v ≠ 0 ∧
      ∃ p, findDiagonal m.columnIndications i (nth m.rowIndications i)
          (nth m.rowIndications (i + 1) - nth m.rowIndications i) = some p ∧
        m.valueStorage[p]? = some v := by
    intro i hi es v hes hv
    obtain ⟨es1, v1, h1, h2, h3⟩ := hdiag i hi
    rw [hes] at h1
    cases h1
    have hmem : (i, v) ∈ es.filter (fun e => e.1 = i) :=
      List.mem_filter.2 ⟨hv, by simp⟩
    rw [h2, List.mem_singleton] at hmem
    have hvv : v = v1 := (Prod.mk.inj hmem).2
    have huniq : (es.filter (fun e => e.1 = i)).length = 1 := by rw [h2]; rfl
    exact ⟨huniq, by rw [hvv]; exact h3, first_diagonal_of_unique hm hi hes huniq hv⟩
  have hd : ∀ row, row < m.rowCount →
      ∃ p v, findDiagonal m.columnIndications row (nth m.rowIndications row)
          (nth m.rowIndications (row + 1) - nth m.rowIndications row) = some p ∧
        m.valueStorage[p]? = some v ∧ v ≠ 0 := by
    intro row hrow
    obtain ⟨es, v, h1, h2, h3⟩ := hdiag row hrow
    have hmem : (row, v) ∈ es := by
      have : (row, v) ∈ es.filter (fun e => e.1 = row) := by
        rw [h2]; exact List.mem_singleton_self _
      exact (List.mem_filter.1 this).1
    obtain ⟨-, -, p, hp, hpv⟩ := hfirst row hrow es v h1 hmem
    exact ⟨p, v, hp, hpv, h3⟩
  obtain ⟨vals1, dinv, g1, g2, g3, g4, g5, g6⟩ := getJacobiDecomposition_spec m hm hsq hd
  have hm1 : ({ m with valueStorage := vals1 } : SparseMatrix T).RowsOK := by
    refine ⟨hm.1, ?_⟩
    show nth m.rowIndications m.rowCount ≤ vals1.length
    rw [g2]; exact hm.2
  refine ⟨_, dinv, g1, ⟨rfl, rfl, rfl, rfl, g2, rfl, rfl, rfl, rfl, rfl, rfl⟩, rfl, g4, g5, ?_⟩
  intro i hi es v hes hv
  obtain ⟨huniq, hv0, p, hp, hpv⟩ := hfirst i hi es v hes hv
  constructor
  · rw [getRow_eq hm hi] at hes
    rw [getRow_eq hm1 hi]
    cases hes
    show Except.ok (List.zip (slice m.columnIndications _ _) (slice vals1 _ _)) = _
    congr 1
    have hse : nth m.rowIndications i ≤ nth m.rowIndications (i + 1) := hm.1.2.1 i hi
    have hec : nth m.rowIndications (i + 1) ≤ m.columnIndications.length :=
      hm.1.le_bound (by omega)
    have hev : nth m.rowIndications (i + 1) ≤ m.valueStorage.length :=
      le_trans (hm.1.mono m.rowCount (i + 1) (by omega) (le_refl _)) hm.2
    obtain ⟨p1, p2, p3, -⟩ := findDiagonal_some _ _ _ _ _ hp
    apply List.ext_getElem?
    intro t
    rw [List.getElem?_map]
    by_cases ht : nth m.rowIndications i + t < nth m.rowIndications (i + 1)
    · obtain ⟨a1, a2, a3⟩ := getElem?_zip_slice m.columnIndications m.valueStorage _ _ t hec hev ht
      obtain ⟨b1, b2, b3⟩ := getElem?_zip_slice m.columnIndications vals1 _ _ t hec
        (by rw [g2]; exact hev) ht
      rw [a3, b3]
      simp only [Option.map_some', Option.some.injEq]
      have hv2 : ∀ w, vals1[nth m.rowIndications i + t]? = some w →
          vals1[nth m.rowIndications i + t] = w := by
        intro w hw
        rw [List.getElem?_eq_getElem b2] at hw
        exact Option.some.inj hw
      by_cases hc : m.columnIndications[nth m.rowIndications i + t] = i
      · obtain ⟨c1, c2, c3⟩ := getElem?_zip_slice m.columnIndications m.valueStorage
          (nth m.rowIndications i) (nth m.rowIndications (i + 1))
          (p - nth m.rowIndications i) hec hev (by omega)
        have hpc : m.columnIndications[nth m.rowIndications i + (p - nth m.rowIndications i)]
            = i := by
          have : nth m.rowIndications i + (p - nth m.rowIndications i) = p := by omega
          simp only [this]
          rw [List.getElem?_eq_getElem (by omega)] at p3
          exact Option.some.inj p3
        have htp := position_unique_of_filter_length_one huniq a3 c3 hc hpc
        have hpk : p = nth m.rowIndications i + t := by omega
        have hinv : InvertedAt m.rowIndications m.columnIndications 0 m.rowCount
            (nth m.rowIndications i + t) := ⟨i, Nat.zero_le _, hi, by rw [← hpk]; exact hp⟩
        have := (g3 _).1 hinv
        rw [List.getElem?_eq_getElem a2] at this
        rw [hv2 _ this]
        simp [zeroDiagonalEntry, hc]
      · have hneg : NegatedAt m.rowIndications m.columnIndications 0 m.rowCount
            (nth m.rowIndications i + t) := by
          refine ⟨i, Nat.zero_le _, hi, by omega, ht, ?_⟩
          rw [List.getElem?_eq_getElem a1]
          intro h
          exact hc (Option.some.inj h)
        have hnot : ¬ InvertedAt m.rowIndications m.columnIndications 0 m.rowCount
            (nth m.rowIndications i + t) := fun h => InvertedAt.not_negatedAt hm.1 h hneg
        have := (g3 _).2 hnot
        rw [List.getElem?_eq_getElem a2] at this
        rw [hv2 _ this]
        simp [zeroDiagonalEntry, hc]
    · have l1 : (List.zip (slice m.columnIndications (nth m.rowIndications i)
          (nth m.rowIndications (i + 1))) (slice vals1 (nth m.rowIndications i)
          (nth m.rowIndications (i + 1))))[t]? = none := by
        apply List.getElem?_eq_none
        rw [List.length_zip, length_slice _ _ _ hec, length_slice _ _ _ (by rw [g2]; exact hev)]
        omega
      have l2 : (List.zip (slice m.columnIndications (nth m.rowIndications i)
          (nth m.rowIndications (i + 1))) (slice m.valueStorage (nth m.rowIndications i)
          (nth m.rowIndications (i + 1))))[t]? = none := by
        apply List.getElem?_eq_none
        rw [List.length_zip, length_slice _ _ _ hec, length_slice _ _ _ hev]
        omega
      rw [l1, l2]
      rfl
  · obtain ⟨q, w, hq, hqw, hrow⟩ := g6 i hi
    rw [hp] at hq
    cases hq
    rw [hpv] at hqw
    cases hqw
    exact hrow

theorem exampleJacobi_finalized : Finalized exampleJacobi := by
  have h : build 2 2 4 [(0, 0, (2 : ℚ)), (0, 1, 3), (1, 0, 5), (1, 1, 4)] = .ok exampleJacobi := by
    with_unfolding_all rfl
  exact (build_in_range 2 2 4 (by decide) (by decide) (by decide) _ _ h (by
    intro e he
    simp only [List.mem_cons, List.mem_singleton, List.not_mem_nil, or_false] at he
    rcases he with rfl | rfl | rfl | rfl <;> exact ⟨by decide, by decide⟩)).1

/-- The row-group `getSubmatrix` has no check for a mask without a set bit: on
every matrix, for every vector of row-group starts and both values of
`insertDiagonalEntries`, the call returns a finalized matrix without rows and
columns. -/
theorem getSubmatrix_rowGroups_of_empty_mask {T : Type} [Zero T] (m : SparseMatrix T)
    (rowGroupConstraint : BitVector) (rowGroupIndices : List Nat) (insertDiagonalEntries : Bool)
    (h : rowGroupConstraint.getNumberOfSetBits = 0) :
    ∃ sub, m.getSubmatrix_rowGroups rowGroupConstraint rowGroupIndices insertDiagonalEntries =
        .ok sub ∧
      sub.rowCount = 0 ∧ sub.columnCount = 0 ∧ sub.internalStatus = .INITIALIZED := by
  have hs : rowGroupConstraint.setBits = [] := List.length_eq_zero.1 h
  unfold SparseMatrix.getSubmatrix_rowGroups SparseMatrix.getSubmatrix_columnConstraint
  rw [hs, h]
  simp only [getSubmatrix_rowGroups_count, getSubmatrix_rowGroups_copy]
  exact ⟨_, rfl, rfl, rfl, rfl⟩

theorem diagonalRowCalls_true {T : Type} [Zero T] (constraint : BitVector) (index : Nat) :
    ∀ es : List (Nat × T), diagonalRowCalls constraint index true es =
      (es.filter (fun e => constraint.bits[e.1]? = some true)).map
        (fun e => (constraint.rank e.1, e.2)) := by
  intro es
  induction es with
  | nil => rfl
  | cons e rest ih =>
    unfold diagonalRowCalls
    by_cases hb : constraint.bits[e.1]? = some true
    · simp only [hb, if_true, List.filter_cons, decide_True, List.map_cons, ih]
      split_ifs with h1 h2
      · rfl
      · exact absurd h2.1 (by decide)
      · rfl
    · simp only [hb, if_false, List.filter_cons, decide_False, ih]
      rfl

/-- For a row with non-decreasing columns the calls of the copy loop are the row
`diagonalRow` describes. -/
theorem diagonalRowCalls_false {T : Type} [Zero T] (constraint : BitVector) (index : Nat) :
    ∀ es : List (Nat × T), es.Pairwise (fun a b => a.1 ≤ b.1) →
      diagonalRowCalls constraint index false es = diagonalRow constraint index es := by
  intro es
  induction es with
  | nil =>
    intro _
    simp [diagonalRowCalls, diagonalRow]
  | cons e rest ih =>
    intro hs
    rw [List.pairwise_cons] at hs
    have ih1 := ih hs.2
    unfold diagonalRowCalls
    by_cases hb : constraint.bits[e.1]? = some true
    · simp only [hb, if_true]
      by_cases h1 : index = e.1
      · simp only [h1, if_true, diagonalRowCalls_true]
        simp [diagonalRow, hb, List.filter_cons]
      · simp only [h1, if_false, true_and]
        by_cases h2 : index < e.1
        · simp only [h2, if_true, diagonalRowCalls_true]
          have hall : ∀ b, b ∈ rest.filter (fun e => constraint.bits[e.1]? = some true) →
              index < b.1 := by
            intro b hb1
            have := hs.1 b (List.mem_filter.1 hb1).1
            omega
          have hany : (rest.filter (fun e => constraint.bits[e.1]? = some true)).any
              (fun e => e.1 = index) = false := by
            rw [List.any_eq_false]
            intro b hb1
            have := hall b hb1
            simp only [decide_eq_true_eq]
            omega
          have hlt : (rest.filter (fun e => constraint.bits[e.1]? = some true)).filter
              (fun e => e.1 < index) = [] := by
            rw [List.filter_eq_nil_iff]
            intro b hb1
            have := hall b hb1
            simp only [decide_eq_true_eq]
            omega
          have hgt : (rest.filter (fun e => constraint.bits[e.1]? = some true)).filter
              (fun e => index < e.1) = rest.filter (fun e => constraint.bits[e.1]? = some true) := by
            rw [List.filter_eq_self]
            intro b hb1
            simpa using hall b hb1
          have hne : ¬ e.1 = index := fun h => h1 h.symm
          have hnl : ¬ e.1 < index := by omega
          simp [diagonalRow, hb, List.filter_cons, hany, hlt, hgt, hne, hnl, h2]
        · simp only [h2, if_false, ih1]
          have hlt : e.1 < index := by omega
          have hne : ¬ e.1 = index := fun h => h1 h.symm
          by_cases hany : (rest.filter (fun e => constraint.bits[e.1]? = some true)).any
              (fun e => e.1 = index) = true
          · simp [diagonalRow, hb, List.filter_cons, hany, hne]
          · simp only [Bool.not_eq_true] at hany
            simp [diagonalRow, hb, List.filter_cons, hany, hne, hlt, h2]
    · simp only [hb, if_false, ih1]
      have hf : (e :: rest).filter (fun e => constraint.bits[e.1]? = some true) =
          rest.filter (fun e => constraint.bits[e.1]? = some true) := by
        simp [List.filter_cons, hb]
      unfold diagonalRow
      rw [hf]

theorem filter_lt_append_filter_gt {α : Type} (key : α → Nat) (index : Nat) :
    ∀ l : List α, l.Pairwise (fun a b => key a ≤ key b) → (∀ a, a ∈ l → key a ≠ index) →
      l.filter (fun a => key a < index) ++ l.filter (fun a => index < key a) = l := by
  intro l
  induction l with
  | nil => intro _ _; rfl
  | cons a rest ih =>
    intro hs hne
    rw [List.pairwise_cons] at hs
    have ha := hne a (List.mem_cons_self _ _)
    have ih1 := ih hs.2 (fun b hb => hne b (List.mem_cons_of_mem _ hb))
    by_cases hlt : key a < index
    · have hng : ¬ index < key a := by omega
      simp only [List.filter_cons, hlt, hng, decide_True, decide_False, if_true,
        Bool.false_eq_true, if_false, List.cons_append]
      rw [ih1]
    · have hgt : index < key a := by omega
      have h1 : rest.filter (fun a => key a < index) = [] := by
        rw [List.filter_eq_nil_iff]
        intro b hb
        have := hs.1 b hb
        simp only [decide_eq_true_eq]
        omega
      have h2 : rest.filter (fun a => index < key a) = rest := by
        rw [List.filter_eq_self]
        intro b hb
        have := hs.1 b hb
        simp only [decide_eq_true_eq]
        omega
      simp only [List.filter_cons, hlt, hgt, decide_True, decide_False, if_true,
        Bool.false_eq_true, if_false, h1, h2, List.nil_append]

/-- A row of the submatrix with diagonal insertion stores an entry at the new
index of its row group. -/
theorem diagonalRow_has_diagonal {T : Type} [Zero T] (constraint : BitVector) (index : Nat)
    (es : List (Nat × T)) : ∃ v, (constraint.rank index, v) ∈ diagonalRow constraint index es := by
  unfold diagonalRow
  split_ifs with h
  · obtain ⟨e, he, hei⟩ := List.any_eq_true.1 h
    have hei1 : e.1 = index := by simpa using hei
    exact ⟨e.2, List.mem_map.2 ⟨e, he, by rw [hei1]⟩⟩
  · exact ⟨0, List.mem_append_right _ (List.mem_cons_self _ _)⟩

/-- The entries of a row of the submatrix with diagonal insertion are the
selected entries of the source row with their values and remapped columns, in
their order, and at most one more entry, a zero at the new index of the row
group. -/
theorem diagonalRow_preserves {T : Type} [Zero T] (constraint : BitVector) (index : Nat)
    (es : List (Nat × T)) (hs : es.Pairwise (fun a b => a.1 ≤ b.1)) :
    ∃ l1 l2, (es.filter (fun e => constraint.bits[e.1]? = some true)).map
        (fun e => (constraint.rank e.1, e.2)) = l1 ++ l2 ∧
      (diagonalRow constraint index es = l1 ++ l2 ∨
        ((∀ e, e ∈ es → constraint.bits[e.1]? = some true → e.1 ≠ index) ∧
          diagonalRow constraint index es = l1 ++ (constraint.rank index, 0) :: l2)) := by
  unfold diagonalRow
  split_ifs with h
  · exact ⟨_, [], (List.append_nil _).symm, Or.inl (List.append_nil _).symm⟩
  · have hne : ∀ a, a ∈ es.filter (fun e => constraint.bits[e.1]? = some true) →
        a.1 ≠ index := by
      intro a ha hai
      exact h (List.any_eq_true.2 ⟨a, ha, by simpa using hai⟩)
    refine ⟨_, _, ?_, Or.inr ⟨?_, rfl⟩⟩
    · rw [← List.map_append, filter_lt_append_filter_gt (fun e : Nat × T => e.1) index _
        (List.Pairwise.filter _ hs) hne]
    · intro e he hb
      exact hne e (List.mem_filter.2 ⟨he, by simpa using hb⟩)

theorem length_diagonalRow {T : Type} [Zero T] (constraint : BitVector) (index : Nat)
    (es : List (Nat × T)) (hs : es.Pairwise (fun a b => a.1 ≤ b.1)) :
    (diagonalRow constraint index es).length =
      (es.filter (fun e => constraint.bits[e.1]? = some true)).length +
        (if (es.filter (fun e => constraint.bits[e.1]? = some true)).any
            (fun e => e.1 = index) then 0 else 1) := by
  have hne : ¬ (es.filter (fun e => constraint.bits[e.1]? = some true)).any
      (fun e => e.1 = index) = true →
      ∀ a, a ∈ es.filter (fun e => constraint.bits[e.1]? = some true) → a.1 ≠ index := by
    intro h a ha hai
    exact h (List.any_eq_true.2 ⟨a, ha, by simpa using hai⟩)
  unfold diagonalRow
  split_ifs with h
  · simp
  · have := congrArg List.length (filter_lt_append_filter_gt (fun e : Nat × T => e.1) index _
      (List.Pairwise.filter _ hs) (hne h))
    simp only [List.length_append] at this
    simp only [List.length_append, List.length_map, List.length_cons]
    omega

theorem diagonalRow_sorted {T : Type} [Zero T] (constraint : BitVector) (index : Nat)
    (es : List (Nat × T)) (hs : es.Pairwise (fun a b => a.1 ≤ b.1)) :
    (diagonalRow constraint index es).Pairwise (fun a b => a.1 ≤ b.1) := by
  have hsel : ∀ (p : Nat × T → Bool),
      (((es.filter (fun e => constraint.bits[e.1]? = some true)).filter p).map
        (fun e => (constraint.rank e.1, e.2))).Pairwise (fun a b => a.1 ≤ b.1) := by
    intro p
    rw [List.pairwise_map]
    exact List.Pairwise.imp (fun hab => rank_mono constraint hab)
      (List.Pairwise.filter _ (List.Pairwise.filter _ hs))
  unfold diagonalRow
  split_ifs with h
  · rw [List.pairwise_map]
    exact List.Pairwise.imp (fun hab => rank_mono constraint hab) (List.Pairwise.filter _ hs)
  · rw [List.pairwise_append, List.pairwise_cons]
    refine ⟨hsel _, ⟨?_, hsel _⟩, ?_⟩
    · intro b hb
      obtain ⟨c, hc, rfl⟩ := List.mem_map.1 hb
      have : index < c.1 := by simpa using (List.mem_filter.1 hc).2
      exact rank_mono constraint (le_of_lt this)
    · intro a ha b hb
      obtain ⟨c, hc, rfl⟩ := List.mem_map.1 ha
      have hci : c.1 < index := by simpa using (List.mem_filter.1 hc).2
      simp only [List.mem_cons] at hb
      rcases hb with rfl | hb
      · exact rank_mono constraint (le_of_lt hci)
      · obtain ⟨d, hd, rfl⟩ := List.mem_map.1 hb
        have hdi : index < d.1 := by simpa using (List.mem_filter.1 hd).2
        exact rank_mono constraint (by omega)

theorem mem_diagonalRow {T : Type} [Zero T] {constraint : BitVector} {index : Nat}
    (hi : constraint.bits[index]? = some true) {es : List (Nat × T)} {e : Nat × T}
    (h : e ∈ diagonalRow constraint index es) :
    ∃ c, constraint.bits[c]? = some true ∧ e.1 = constraint.rank c := by
  have hsel : ∀ (l : List (Nat × T)),
      (∀ a, a ∈ l → a ∈ es.filter (fun e => constraint.bits[e.1]? = some true)) →
      e ∈ l.map (fun e => (constraint.rank e.1, e.2)) →
      ∃ c, constraint.bits[c]? = some true ∧ e.1 = constraint.rank c := by
    intro l hl he
    obtain ⟨a, ha, rfl⟩ := List.mem_map.1 he
    exact ⟨a.1, by simpa using (List.mem_filter.1 (hl a ha)).2, rfl⟩
  unfold diagonalRow at h
  split_ifs at h
  · exact hsel _ (fun a ha => ha) h
  · simp only [List.mem_append, List.mem_cons] at h
    rcases h with h | rfl | h
    · exact hsel _ (fun a ha => (List.mem_filter.1 ha).1) h
    · exact ⟨index, hi, rfl⟩
    · exact hsel _ (fun a ha => (List.mem_filter.1 ha).1) h

theorem length_diagonalCalls {T : Type} [Zero T] (constraint : BitVector)
    (rows : Nat → List (Nat × T)) :
    ∀ (pairs : List (Nat × Nat)) (a b : Nat),
      (diagonalCalls constraint rows pairs a).length =
        (diagonalCalls constraint rows pairs b).length := by
  intro pairs
  induction pairs with
  | nil => intro a b; rfl
  | cons p rest ih =>
    intro a b
    simp only [diagonalCalls, List.length_append, List.length_map]
    rw [ih (a + 1) (b + 1)]

theorem diagonalCalls_append {T : Type} [Zero T] (constraint : BitVector)
    (rows : Nat → List (Nat × T)) :
    ∀ (a b : List (Nat × Nat)) (newRow : Nat),
      diagonalCalls constraint rows (a ++ b) newRow =
        diagonalCalls constraint rows a newRow ++
          diagonalCalls constraint rows b (newRow + a.length) := by
  intro a
  induction a with
  | nil => intro b newRow; rfl
  | cons p rest ih =>
    intro b newRow
    have e1 : newRow + 1 + rest.length = newRow + (rest.length + 1) := by omega
    show _ ++ diagonalCalls constraint rows (rest ++ b) (newRow + 1) = _
    rw [ih b (newRow + 1), e1]
    simp only [diagonalCalls, List.append_assoc, List.length_cons]

theorem length_le_length_diagonalCalls {T : Type} [Zero T] (constraint : BitVector)
    (rows : Nat → List (Nat × T)) :
    ∀ (pairs : List (Nat × Nat)) (newRow : Nat),
      pairs.length ≤ (diagonalCalls constraint rows pairs newRow).length := by
  intro pairs
  induction pairs with
  | nil => intro _; exact Nat.le_refl _
  | cons p rest ih =>
    intro newRow
    obtain ⟨v, hv⟩ := diagonalRow_has_diagonal constraint p.1 (rows p.2)
    have h1 : 0 < (diagonalRow constraint p.1 (rows p.2)).length := List.length_pos_of_mem hv
    have := ih (newRow + 1)
    simp only [diagonalCalls, List.length_append, List.length_map, List.length_cons]
    omega

theorem mem_diagonalCalls {T : Type} [Zero T] {constraint : BitVector}
    {rows : Nat → List (Nat × T)} :
    ∀ (pairs : List (Nat × Nat)) (newRow : Nat) (e : Entry T),
      (∀ p, p ∈ pairs → constraint.bits[p.1]? = some true) →
      e ∈ diagonalCalls constraint rows pairs newRow →
      newRow ≤ e.1 ∧ e.1 < newRow + pairs.length ∧
      ∃ c, constraint.bits[c]? = some true ∧ e.2.1 = constraint.rank c := by
  intro pairs
  induction pairs with
  | nil => intro newRow e _ h; cases h
  | cons p rest ih =>
    intro newRow e hp h
    simp only [diagonalCalls, List.mem_append] at h
    rcases h with h | h
    · obtain ⟨a, ha, rfl⟩ := List.mem_map.1 h
      exact ⟨le_refl _, by simp only [List.length_cons]; omega,
        mem_diagonalRow (hp p (List.mem_cons_self _ _)) ha⟩
    · obtain ⟨h1, h2, h3⟩ := ih (newRow + 1) e (fun q hq => hp q (List.mem_cons_of_mem _ hq)) h
      exact ⟨by omega, by simp only [List.length_cons]; omega, h3⟩

theorem diagonalCalls_pairwise {T : Type} [Zero T] (constraint : BitVector)
    (rows : Nat → List (Nat × T)) :
    ∀ (pairs : List (Nat × Nat)) (newRow : Nat),
      (∀ p, p ∈ pairs → constraint.bits[p.1]? = some true) →
      (∀ p, p ∈ pairs → (rows p.2).Pairwise (fun a b => a.1 ≤ b.1)) →
      ((diagonalCalls constraint rows pairs newRow).map
        (fun e => (e.1, e.2.1))).Pairwise PositionLE := by
  intro pairs
  induction pairs with
  | nil => intro newRow _ _; exact List.Pairwise.nil
  | cons p rest ih =>
    intro newRow hp hs
    simp only [diagonalCalls, List.map_append]
    rw [List.pairwise_append]
    refine ⟨?_, ih (newRow + 1) (fun q hq => hp q (List.mem_cons_of_mem _ hq))
      (fun q hq => hs q (List.mem_cons_of_mem _ hq)), ?_⟩
    · rw [List.map_map, List.pairwise_map]
      refine List.Pairwise.imp ?_ (diagonalRow_sorted constraint p.1 (rows p.2)
        (hs p (List.mem_cons_self _ _)))
      intro a b hab
      exact Or.inr ⟨rfl, hab⟩
    · intro a ha b hb
      obtain ⟨a1, ha1, rfl⟩ := List.mem_map.1 ha
      obtain ⟨b1, hb1, rfl⟩ := List.mem_map.1 hb
      obtain ⟨a2, -, rfl⟩ := List.mem_map.1 ha1
      have h2 := (mem_diagonalCalls rest (newRow + 1) b1
        (fun q hq => hp q (List.mem_cons_of_mem _ hq)) hb1).1
      exact Or.inl (by simp only; omega)

theorem insertedInRow_diagonalCalls {T : Type} [Zero T] (constraint : BitVector)
    (rows : Nat → List (Nat × T)) :
    ∀ (pairs : List (Nat × Nat)) (newRow t : Nat) (h : t < pairs.length),
      (∀ p, p ∈ pairs → constraint.bits[p.1]? = some true) →
      insertedInRow (diagonalCalls constraint rows pairs newRow) (newRow + t) =
        diagonalRow constraint pairs[t].1 (rows pairs[t].2) := by
  intro pairs
  induction pairs with
  | nil => intro newRow t h; simp at h
  | cons p rest ih =>
    intro newRow t h hp
    have hp1 : ∀ q, q ∈ rest → constraint.bits[q.1]? = some true :=
      fun q hq => hp q (List.mem_cons_of_mem _ hq)
    have hown : insertedInRow ((diagonalRow constraint p.1 (rows p.2)).map
        (fun e => ((newRow, e.1, e.2) : Entry T))) newRow =
        diagonalRow constraint p.1 (rows p.2) := by
      unfold insertedInRow
      rw [List.filter_eq_self.2 (fun a ha => by
        obtain ⟨b, -, rfl⟩ := List.mem_map.1 ha
        simp), List.map_map]
      simp
    simp only [diagonalCalls, insertedInRow_append]
    cases t with
    | zero =>
      rw [Nat.add_zero, hown, insertedInRow_eq_nil _ _ (fun e he => by
        have := (mem_diagonalCalls rest (newRow + 1) e hp1 he).1
        omega)]
      simp
    | succ t =>
      simp only [List.length_cons] at h
      rw [insertedInRow_eq_nil _ _ (fun e he => by
        obtain ⟨b, -, rfl⟩ := List.mem_map.1 he
        simp only
        omega)]
      have := ih (newRow + 1) t (by omega) hp1
      have e1 : newRow + 1 + t = newRow + (t + 1) := by omega
      rw [e1] at this
      simpa using this

/-- The copy of one row by the row-group `getSubmatrix` with diagonal insertion
(the inner loop and the statement after it) makes the calls of `addNextValue`
that `diagonalRowCalls` lists. -/
theorem getSubmatrix_rowGroups_copyRow_eq {T : Type} [Zero T] (m : SparseMatrix T)
    (constraint : BitVector) (table : List Nat) (index newRow : Nat)
    (htable : ∀ c, constraint.bits[c]? = some true → table[c]? = some (constraint.rank c))
    (hi : constraint.bits[index]? = some true) :
    ∀ (count j : Nat) (result : SparseMatrix T) (inserted : Bool),
      j + count ≤ m.columnIndications.length → j + count ≤ m.valueStorage.length →
      (∀ k (h : k < m.columnIndications.length), j ≤ k → k < j + count →
        m.columnIndications[k] < constraint.bits.length) →
      (match getSubmatrix_rowGroups_copyRow m constraint table true index newRow j count result
          inserted with
        | .error e => .error e
        | .ok p => getSubmatrix_rowGroups_finishRow table true index newRow p.1 p.2) =
        dropState (addAll result ((diagonalRowCalls constraint index inserted
          (List.zip (slice m.columnIndications j (j + count))
            (slice m.valueStorage j (j + count)))).map
          (fun e => ((newRow, e.1, e.2) : Entry T)))) := by
  have rt : readAt table index = some (constraint.rank index) := htable index hi
  intro count
  induction count with
  | zero =>
    intro j result inserted _ _ _
    cases inserted with
    | true =>
      simp [getSubmatrix_rowGroups_copyRow, getSubmatrix_rowGroups_finishRow, slice,
        diagonalRowCalls, addAll, dropState]
    | false =>
      simp only [getSubmatrix_rowGroups_copyRow, getSubmatrix_rowGroups_finishRow, rt, slice,
        Nat.add_zero, Nat.sub_self, List.take_zero, List.zip_nil_right, diagonalRowCalls,
        Bool.not_false, Bool.and_self, if_true, Bool.false_eq_true, if_false, List.map_cons,
        List.map_nil, addAll]
      cases result.addNextValue newRow (constraint.rank index) 0 with
      | error e => rfl
      | ok result1 => rfl
  | succ n ih =>
    intro j result inserted hc hv hin
    have hjc : j < m.columnIndications.length := by omega
    have hjv : j < m.valueStorage.length := by omega
    have hcol := hin j hjc (le_refl _) (by omega)
    rw [slice_succ _ _ _ hjc, slice_succ _ _ _ hjv, List.zip_cons_cons]
    have ih1 := fun r ins => ih (j + 1) r ins (by omega) (by omega)
      (fun k h a b => hin k h (by omega) (by omega))
    have r1 : readAt m.columnIndications j = some m.columnIndications[j] :=
      List.getElem?_eq_getElem hjc
    have r2 : readAt m.valueStorage j = some m.valueStorage[j] := List.getElem?_eq_getElem hjv
    have r3 : constraint.get m.columnIndications[j] =
        some constraint.bits[m.columnIndications[j]] := List.getElem?_eq_getElem hcol
    cases hbit : constraint.bits[m.columnIndications[j]] with
    | false =>
      have hb2 : ¬ constraint.bits[m.columnIndications[j]]? = some true := by
        rw [List.getElem?_eq_getElem hcol, hbit]
        simp
      simp only [getSubmatrix_rowGroups_copyRow, r1, r3, hbit]
      rw [ih1 result inserted]
      simp only [diagonalRowCalls, hb2, if_false]
    | true =>
      have hb2 : constraint.bits[m.columnIndications[j]]? = some true := by
        rw [List.getElem?_eq_getElem hcol, hbit]
      have r4 : readAt table m.columnIndications[j] =
          some (constraint.rank m.columnIndications[j]) := htable _ hb2
      simp only [getSubmatrix_rowGroups_copyRow, r1, r3, hbit, diagonalRowCalls, hb2, if_true]
      by_cases h1 : index = m.columnIndications[j]
      · rw [← h1] at r4 ⊢
        simp only [getSubmatrix_rowGroups_insertDiagonal, if_true, r4, r2, List.map_cons,
          addAll]
        cases result.addNextValue newRow (constraint.rank index) m.valueStorage[j] with
        | error e => rfl
        | ok result1 => exact ih1 result1 true
      · by_cases h2 : inserted = false ∧ index < m.columnIndications[j]
        · obtain ⟨h2a, h2b⟩ := h2
          subst h2a
          simp only [getSubmatrix_rowGroups_insertDiagonal, h1, if_false, h2b, gt_iff_lt,
            decide_True, Bool.not_false, Bool.and_self, if_true, rt, true_and, List.map_cons,
            addAll]
          cases result.addNextValue newRow (constraint.rank index) 0 with
          | error e => rfl
          | ok result1 =>
            simp only [r4, r2]
            cases result1.addNextValue newRow (constraint.rank m.columnIndications[j])
                m.valueStorage[j] with
            | error e => rfl
            | ok result2 => exact ih1 result2 true
        · have h3 : (true && !inserted && decide (m.columnIndications[j] > index)) = false := by
            cases inserted with
            | true => simp
            | false =>
              have : ¬ index < m.columnIndications[j] := fun h => h2 ⟨rfl, h⟩
              simp [this]
          simp only [getSubmatrix_rowGroups_insertDiagonal, h1, if_false, h3, Bool.false_eq_true,
            h2, r4, r2, List.map_cons, addAll]
          cases result.addNextValue newRow (constraint.rank m.columnIndications[j])
              m.valueStorage[j] with
          | error e => rfl
          | ok result1 => exact ih1 result1 inserted

/-- The counting loop over one row: the selected entries are counted, and the
flag tells whether one of them is on the diagonal of the row group. -/
theorem getSubmatrix_rowGroups_countRow_eq {T : Type} (m : SparseMatrix T)
    (constraint : BitVector) (index : Nat) :
    ∀ (count j subEntries : Nat) (found : Bool), j + count ≤ m.columnIndications.length →
      j + count ≤ m.valueStorage.length →
      (∀ k (h : k < m.columnIndications.length), j ≤ k → k < j + count →
        m.columnIndications[k] < constraint.bits.length) →
      getSubmatrix_rowGroups_countRow m.columnIndications constraint index j count subEntries
          found =
        some (subEntries +
            ((List.zip (slice m.columnIndications j (j + count))
              (slice m.valueStorage j (j + count))).filter
              (fun e => constraint.bits[e.1]? = some true)).length,
          found || ((List.zip (slice m.columnIndications j (j + count))
              (slice m.valueStorage j (j + count))).filter
              (fun e => constraint.bits[e.1]? = some true)).any (fun e => e.1 = index)) := by
  intro count
  induction count with
  | zero =>
    intro j subEntries found _ _ _
    simp [getSubmatrix_rowGroups_countRow, slice]
  | succ n ih =>
    intro j subEntries found hc hv hin
    have hjc : j < m.columnIndications.length := by omega
    have hjv : j < m.valueStorage.length := by omega
    have hcol := hin j hjc (le_refl _) (by omega)
    rw [slice_succ _ _ _ hjc, slice_succ _ _ _ hjv, List.zip_cons_cons]
    have r1 : readAt m.columnIndications j = some m.columnIndications[j] :=
      List.getElem?_eq_getElem hjc
    have r3 : constraint.get m.columnIndications[j] =
        some constraint.bits[m.columnIndications[j]] := List.getElem?_eq_getElem hcol
    cases hbit : constraint.bits[m.columnIndications[j]] with
    | false =>
      have hb2 : ¬ constraint.bits[m.columnIndications[j]]? = some true := by
        rw [List.getElem?_eq_getElem hcol, hbit]
        simp
      simp only [getSubmatrix_rowGroups_countRow, r1, r3, hbit]
      rw [ih (j + 1) _ _ (by omega) (by omega) (fun k h a b => hin k h (by omega) (by omega))]
      simp only [List.filter_cons, hb2, decide_False, Bool.false_eq_true, if_false]
    | true =>
      have hb2 : constraint.bits[m.columnIndications[j]]? = some true := by
        rw [List.getElem?_eq_getElem hcol, hbit]
      simp only [getSubmatrix_rowGroups_countRow, r1, r3, hbit]
      rw [ih (j + 1) _ _ (by omega) (by omega) (fun k h a b => hin k h (by omega) (by omega))]
      simp only [List.filter_cons, hb2, decide_True, if_true, List.length_cons, List.any_cons]
      congr 1
      · rw [Prod.mk.injEq]
        constructor
        · omega
        · by_cases h1 : index = m.columnIndications[j]
          · simp [h1]
          · have h2 : ¬ m.columnIndications[j] = index := fun h => h1 h.symm
            simp [h1, h2]

theorem dropState_eq_error {T : Type} {r : Result T} {e : Exception}
    (h : dropState r = .error e) : ∃ s, r = .error (e, s) := by
  cases r with
  | error p =>
    obtain ⟨e1, s⟩ := p
    simp only [dropState, Except.error.injEq] at h
    subst h
    exact ⟨s, rfl⟩
  | ok m => cases h

theorem dropState_eq_ok {T : Type} {r : Result T} {m : SparseMatrix T}
    (h : dropState r = .ok m) : r = .ok m := by
  cases r with
  | error p => cases h
  | ok m1 =>
    simp only [dropState, Except.ok.injEq] at h
    rw [h]

theorem groupRows_succ (index i count : Nat) :
    groupRows index i (count + 1) = (index, i) :: groupRows index (i + 1) count := by
  simp [groupRows, List.range'_succ]

theorem length_groupRows (index i count : Nat) : (groupRows index i count).length = count := by
  simp [groupRows]

theorem mem_groupRows {index i count : Nat} {p : Nat × Nat} (h : p ∈ groupRows index i count) :
    p.1 = index ∧ i ≤ p.2 ∧ p.2 < i + count := by
  obtain ⟨r, hr, rfl⟩ := List.mem_map.1 h
  have := List.mem_range'_1.1 hr
  exact ⟨rfl, this.1, this.2⟩

/-- The copy of the rows of one row group by the row-group `getSubmatrix` with
diagonal insertion makes the calls of `addNextValue` that `diagonalCalls`
lists for these rows. -/
theorem getSubmatrix_rowGroups_copyGroup_eq {T : Type} [Zero T] (m : SparseMatrix T)
    (hm : m.RowsOK) (constraint : BitVector) (table : List Nat)
    (htable : ∀ c, constraint.bits[c]? = some true → table[c]? = some (constraint.rank c))
    (index : Nat) (hi : constraint.bits[index]? = some true)
    (rows : Nat → List (Nat × T)) (hrows : ∀ i, i < m.rowCount → m.getRow i = .ok (rows i))
    (hcols : ∀ i, i < m.rowCount → ∀ e, e ∈ rows i → e.1 < constraint.bits.length)
    (hsorted : ∀ i, i < m.rowCount → (rows i).Pairwise (fun a b => a.1 ≤ b.1)) :
    ∀ (count i newRow : Nat) (result : SparseMatrix T), i + count ≤ m.rowCount →
      getSubmatrix_rowGroups_copyGroup m constraint table true index i count newRow result =
        match dropState (addAll result
            (diagonalCalls constraint rows (groupRows index i count) newRow)) with
        | .error e => .error e
        | .ok r => .ok (r, newRow + count) := by
  intro count
  induction count with
  | zero =>
    intro i newRow result _
    rfl
  | succ n ih =>
    intro i newRow result hin
    have hr : i < m.rowCount := by omega
    have hs := hm.1.readAt (i := i) (by omega)
    have he := hm.1.readAt (i := i + 1) (by omega)
    have hse : nth m.rowIndications i ≤ nth m.rowIndications (i + 1) := hm.1.2.1 i hr
    have hec : nth m.rowIndications (i + 1) ≤ m.columnIndications.length :=
      hm.1.le_bound (by omega)
    have hev : nth m.rowIndications (i + 1) ≤ m.valueStorage.length :=
      le_trans (hm.1.mono m.rowCount (i + 1) (by omega) (le_refl _)) hm.2
    have hrow : rows i = List.zip
        (slice m.columnIndications (nth m.rowIndications i) (nth m.rowIndications (i + 1)))
        (slice m.valueStorage (nth m.rowIndications i) (nth m.rowIndications (i + 1))) := by
      have := hrows i hr
      rw [getRow_eq hm hr] at this
      exact (Except.ok.inj this).symm
    have e1 : nth m.rowIndications i + (nth m.rowIndications (i + 1) - nth m.rowIndications i)
        = nth m.rowIndications (i + 1) := by omega
    have key := getSubmatrix_rowGroups_copyRow_eq m constraint table index newRow htable hi
      (nth m.rowIndications (i + 1) - nth m.rowIndications i) (nth m.rowIndications i) result
      false (by omega) (by omega) (by
        intro k hk h1 h2
        obtain ⟨a, b, c⟩ := zip_slice_mem m.columnIndications m.valueStorage
          (nth m.rowIndications i) (nth m.rowIndications (i + 1)) k hec hev h1 (by omega)
        rw [← hrow] at c
        exact hcols i hr _ c)
    rw [e1, ← hrow, diagonalRowCalls_false constraint index (rows i) (hsorted i hr)] at key
    have ih1 := fun r => ih (i + 1) (newRow + 1) r (by omega)
    have e2 : newRow + 1 + n = newRow + (n + 1) := by omega
    rw [groupRows_succ]
    simp only [getSubmatrix_rowGroups_copyGroup, hs, he, diagonalCalls, addAll_append]
    cases hcr : getSubmatrix_rowGroups_copyRow m constraint table true index newRow
        (nth m.rowIndications i) (nth m.rowIndications (i + 1) - nth m.rowIndications i) result
        false with
    | error e =>
      rw [hcr] at key
      obtain ⟨s, hs1⟩ := dropState_eq_error key.symm
      simp only [hs1, dropState]
    | ok p =>
      obtain ⟨result1, inserted⟩ := p
      rw [hcr] at key
      simp only at key
      cases hf : getSubmatrix_rowGroups_finishRow table true index newRow result1 inserted with
      | error e =>
        have key1 := key
        rw [hf] at key1
        obtain ⟨s, hs1⟩ := dropState_eq_error key1.symm
        simp only [hs1, dropState, hf]
      | ok result2 =>
        have key1 := key
        rw [hf] at key1
        have hs1 := dropState_eq_ok key1.symm
        simp only [hs1, hf]
        rw [ih1 result2, e2]

/-- The copy loop of the row-group `getSubmatrix` with diagonal insertion makes
the calls of `addNextValue` that `diagonalCalls` lists for the rows of the
selected row groups. -/
theorem getSubmatrix_rowGroups_copy_eq {T : Type} [Zero T] (m : SparseMatrix T)
    (hm : m.RowsOK) (constraint : BitVector) (table : List Nat)
    (htable : ∀ c, constraint.bits[c]? = some true → table[c]? = some (constraint.rank c))
    (rowGroupIndices : List Nat)
    (rows : Nat → List (Nat × T)) (hrows : ∀ i, i < m.rowCount → m.getRow i = .ok (rows i))
    (hcols : ∀ i, i < m.rowCount → ∀ e, e ∈ rows i → e.1 < constraint.bits.length)
    (hsorted : ∀ i, i < m.rowCount → (rows i).Pairwise (fun a b => a.1 ≤ b.1)) :
    ∀ (groups : List Nat) (newRow : Nat) (result : SparseMatrix T),
      (∀ index, index ∈ groups → constraint.bits[index]? = some true ∧
        index + 1 < rowGroupIndices.length ∧
        nth rowGroupIndices index ≤ nth rowGroupIndices (index + 1) ∧
        nth rowGroupIndices (index + 1) ≤ m.rowCount) →
      getSubmatrix_rowGroups_copy m constraint table rowGroupIndices true groups newRow result =
        dropState (addAll result
          (diagonalCalls constraint rows (selectedRows rowGroupIndices groups) newRow)) := by
  intro groups
  induction groups with
  | nil => intro newRow result _; rfl
  | cons index rest ih =>
    intro newRow result hin
    obtain ⟨hi, hlen, hmono, hle⟩ := hin index (List.mem_cons_self _ _)
    have r1 : readAt rowGroupIndices index = some (nth rowGroupIndices index) :=
      getElem?_eq_nth (by omega)
    have r2 : readAt rowGroupIndices (index + 1) = some (nth rowGroupIndices (index + 1)) :=
      getElem?_eq_nth hlen
    have key := getSubmatrix_rowGroups_copyGroup_eq m hm constraint table htable index hi rows
      hrows hcols hsorted (nth rowGroupIndices (index + 1) - nth rowGroupIndices index)
      (nth rowGroupIndices index) newRow result (by omega)
    simp only [getSubmatrix_rowGroups_copy, r1, r2, key, selectedRows, diagonalCalls_append,
      addAll_append, length_groupRows]
    cases addAll result (diagonalCalls constraint rows
        (groupRows index (nth rowGroupIndices index)
          (nth rowGroupIndices (index + 1) - nth rowGroupIndices index)) newRow) with
    | error e => rfl
    | ok result1 =>
      simp only [dropState]
      exact ih _ result1 (fun g hg => hin g (List.mem_cons_of_mem _ hg))

theorem getSubmatrix_rowGroups_countGroup_eq {T : Type} [Zero T] (m : SparseMatrix T)
    (hm : m.RowsOK) (constraint : BitVector) (index : Nat)
    (rows : Nat → List (Nat × T)) (hrows : ∀ i, i < m.rowCount → m.getRow i = .ok (rows i))
    (hcols : ∀ i, i < m.rowCount → ∀ e, e ∈ rows i → e.1 < constraint.bits.length)
    (hsorted : ∀ i, i < m.rowCount → (rows i).Pairwise (fun a b => a.1 ≤ b.1)) :
    ∀ (count i subEntries : Nat), i + count ≤ m.rowCount →
      getSubmatrix_rowGroups_countGroup m constraint true index i count subEntries =
        some (subEntries +
          (diagonalCalls constraint rows (groupRows index i count) 0).length) := by
  intro count
  induction count with
  | zero =>
    intro i subEntries _
    rfl
  | succ n ih =>
    intro i subEntries hin
    have hr : i < m.rowCount := by omega
    have hs := hm.1.readAt (i := i) (by omega)
    have he := hm.1.readAt (i := i + 1) (by omega)
    have hse : nth m.rowIndications i ≤ nth m.rowIndications (i + 1) := hm.1.2.1 i hr
    have hec : nth m.rowIndications (i + 1) ≤ m.columnIndications.length :=
      hm.1.le_bound (by omega)
    have hev : nth m.rowIndications (i + 1) ≤ m.valueStorage.length :=
      le_trans (hm.1.mono m.rowCount (i + 1) (by omega) (le_refl _)) hm.2
    have hrow : rows i = List.zip
        (slice m.columnIndications (nth m.rowIndications i) (nth m.rowIndications (i + 1)))
        (slice m.valueStorage (nth m.rowIndications i) (nth m.rowIndications (i + 1))) := by
      have := hrows i hr
      rw [getRow_eq hm hr] at this
      exact (Except.ok.inj this).symm
    have e1 : nth m.rowIndications i + (nth m.rowIndications (i + 1) - nth m.rowIndications i)
        = nth m.rowIndications (i + 1) := by omega
    have key := getSubmatrix_rowGroups_countRow_eq m constraint index
      (nth m.rowIndications (i + 1) - nth m.rowIndications i) (nth m.rowIndications i)
      subEntries false (by omega) (by omega) (by
        intro k hk h1 h2
        obtain ⟨a, b, c⟩ := zip_slice_mem m.columnIndications m.valueStorage
          (nth m.rowIndications i) (nth m.rowIndications (i + 1)) k hec hev h1 (by omega)
        rw [← hrow] at c
        exact hcols i hr _ c)
    rw [e1, ← hrow] at key
    have hl := length_diagonalRow constraint index (rows i) (hsorted i hr)
    rw [groupRows_succ]
    simp only [getSubmatrix_rowGroups_countGroup, hs, he, key, diagonalCalls,
      List.length_append, List.length_map, Bool.false_or, Bool.true_and]
    rw [ih (i + 1) _ (by omega), length_diagonalCalls constraint rows _ (0 + 1) 0, hl]
    congr 1
    by_cases hany : ((rows i).filter (fun e => constraint.bits[e.1]? = some true)).any
        (fun e => e.1 = index) = true
    · simp only [hany, Bool.not_true, Bool.false_eq_true, if_false, if_true]
      omega
    · simp only [Bool.not_eq_true] at hany
      simp only [hany, Bool.not_false, if_true, Bool.false_eq_true, if_false]
      omega

theorem difference64_of_le {a b : Nat} (h : b ≤ a) : difference64 a b = a - b := by
  unfold difference64
  rw [if_pos h]

/-- The counting loop of the row-group `getSubmatrix` with diagonal insertion
yields the number of calls of `addNextValue` that the copy loop makes, and the
number of rows of the selected row groups. -/
theorem getSubmatrix_rowGroups_count_eq {T : Type} [Zero T] (m : SparseMatrix T)
    (hm : m.RowsOK) (constraint : BitVector) (rowGroupIndices : List Nat)
    (rows : Nat → List (Nat × T)) (hrows : ∀ i, i < m.rowCount → m.getRow i = .ok (rows i))
    (hcols : ∀ i, i < m.rowCount → ∀ e, e ∈ rows i → e.1 < constraint.bits.length)
    (hsorted : ∀ i, i < m.rowCount → (rows i).Pairwise (fun a b => a.1 ≤ b.1)) :
    ∀ (groups : List Nat) (subEntries subRows : Nat),
      (∀ index, index ∈ groups → constraint.bits[index]? = some true ∧
        index + 1 < rowGroupIndices.length ∧
        nth rowGroupIndices index ≤ nth rowGroupIndices (index + 1) ∧
        nth rowGroupIndices (index + 1) ≤ m.rowCount) →
      subRows + (selectedRows rowGroupIndices groups).length < 2 ^ 64 →
      getSubmatrix_rowGroups_count m constraint rowGroupIndices true groups subEntries subRows =
        some (subEntries +
            (diagonalCalls constraint rows (selectedRows rowGroupIndices groups) 0).length,
          subRows + (selectedRows rowGroupIndices groups).length) := by
  intro groups
  induction groups with
  | nil => intro subEntries subRows _ _; rfl
  | cons index rest ih =>
    intro subEntries subRows hin hb
    obtain ⟨hi, hlen, hmono, hle⟩ := hin index (List.mem_cons_self _ _)
    have r1 : readAt rowGroupIndices index = some (nth rowGroupIndices index) :=
      getElem?_eq_nth (by omega)
    have r2 : readAt rowGroupIndices (index + 1) = some (nth rowGroupIndices (index + 1)) :=
      getElem?_eq_nth hlen
    have key := getSubmatrix_rowGroups_countGroup_eq m hm constraint index rows hrows hcols
      hsorted (nth rowGroupIndices (index + 1) - nth rowGroupIndices index)
      (nth rowGroupIndices index) subEntries (by omega)
    simp only [selectedRows, List.length_append, length_groupRows] at hb
    have hmod : (subRows + (nth rowGroupIndices (index + 1) - nth rowGroupIndices index)) %
        2 ^ 64 = subRows + (nth rowGroupIndices (index + 1) - nth rowGroupIndices index) :=
      Nat.mod_eq_of_lt (by omega)
    simp only [getSubmatrix_rowGroups_count, r1, r2, key, difference64_of_le hmono, hmod]
    rw [ih _ _ (fun g hg => hin g (List.mem_cons_of_mem _ hg)) (by omega)]
    simp only [selectedRows, diagonalCalls_append, List.length_append, length_groupRows]
    rw [length_diagonalCalls constraint rows (selectedRows rowGroupIndices rest)
      (0 + (nth rowGroupIndices (index + 1) - nth rowGroupIndices index)) 0]
    congr 1
    rw [Prod.mk.injEq]
    constructor <;> omega

theorem or_self_eq (b : BitVector) : b.or b = b := by
  cases b with
  | mk bits =>
    simp only [BitVector.or, BitVector.mk.injEq]
    induction bits with
    | nil => rfl
    | cons a rest ih => simp [List.zipWith_cons_cons, ih]

theorem mem_selectedRows {rowGroupIndices : List Nat} :
    ∀ (groups : List Nat) (p : Nat × Nat), p ∈ selectedRows rowGroupIndices groups →
      p.1 ∈ groups ∧ nth rowGroupIndices p.1 ≤ p.2 ∧
      p.2 < nth rowGroupIndices p.1 +
        (nth rowGroupIndices (p.1 + 1) - nth rowGroupIndices p.1) := by
  intro groups
  induction groups with
  | nil => intro p h; cases h
  | cons g rest ih =>
    intro p h
    simp only [selectedRows, List.mem_append] at h
    rcases h with h | h
    · obtain ⟨h1, h2, h3⟩ := mem_groupRows h
      rw [h1]
      exact ⟨List.mem_cons_self _ _, h2, h3⟩
    · obtain ⟨h1, h2, h3⟩ := ih p h
      exact ⟨List.mem_cons_of_mem _ h1, h2, h3⟩

/-- The selected row groups hold at most as many rows as the row-group starts
span. -/
theorem length_selectedRows_le {rowGroupIndices : List Nat} {groupCount bound : Nat}
    (hg : RowStartsOK rowGroupIndices groupCount bound) :
    ∀ (groups : List Nat) (lo : Nat), groups.Pairwise (fun a b => a < b) →
      (∀ g, g ∈ groups → lo ≤ g ∧ g < groupCount) → lo ≤ groupCount →
      (selectedRows rowGroupIndices groups).length + nth rowGroupIndices lo ≤
        nth rowGroupIndices groupCount := by
  intro groups
  induction groups with
  | nil =>
    intro lo _ _ hlo
    simp only [selectedRows, List.length_nil, Nat.zero_add]
    exact hg.mono groupCount lo hlo (le_refl _)
  | cons g rest ih =>
    intro lo hp hin hlo
    rw [List.pairwise_cons] at hp
    obtain ⟨h1, h2⟩ := hin g (List.mem_cons_self _ _)
    have := ih (g + 1) hp.2 (fun x hx => ⟨hp.1 x hx, (hin x (List.mem_cons_of_mem _ hx)).2⟩)
      (by omega)
    have m1 := hg.mono g lo h1 (by omega)
    have m2 : nth rowGroupIndices g ≤ nth rowGroupIndices (g + 1) := hg.2.1 g h2
    simp only [selectedRows, List.length_append, length_groupRows]
    omega

/-- The row-group submatrix with diagonal insertion of a matrix with well-formed
rows whose columns are sorted within each row and covered by the mask, for
row-group starts that do not decrease and end inside the matrix:
`getSubmatrix(rowGroupConstraint, rowGroupIndices, true)` returns a matrix with
one row for every row of the selected row groups, in their order, and as many
columns as the mask has members; the row that stems from row `i` of the row
group `g` is `diagonalRow` of row `i`. -/
theorem getSubmatrix_rowGroups_spec {T : Type} [Zero T] [One T] [Sub T] [Neg T]
    (m : SparseMatrix T) (hm : m.RowsOK) (constraint : BitVector) (rowGroupIndices : List Nat)
    (hgroups : RowStartsOK rowGroupIndices constraint.bits.length m.rowCount)
    (h64 : m.rowCount < 2 ^ 64)
    (rows : Nat → List (Nat × T)) (hrows : ∀ i, i < m.rowCount → m.getRow i = .ok (rows i))
    (hcols : ∀ i, i < m.rowCount → ∀ e, e ∈ rows i → e.1 < constraint.bits.length)
    (hsorted : ∀ i, i < m.rowCount → (rows i).Pairwise (fun a b => a.1 ≤ b.1)) :
    ∃ sub, m.getSubmatrix_rowGroups constraint rowGroupIndices true = .ok sub ∧
      sub.rowCount = (selectedRows rowGroupIndices constraint.setBits).length ∧
      sub.columnCount = constraint.getNumberOfSetBits ∧
      ∀ t (h : t < (selectedRows rowGroupIndices constraint.setBits).length),
        sub.getRow t = .ok (diagonalRow constraint
          ((selectedRows rowGroupIndices constraint.setBits).get ⟨t, h⟩).1
          (rows ((selectedRows rowGroupIndices constraint.setBits).get ⟨t, h⟩).2)) := by
  have hmem : ∀ index, index ∈ constraint.setBits →
      constraint.bits[index]? = some true ∧ index < constraint.bits.length := by
    intro index hi
    have h1 := mem_setBits.1 hi
    refine ⟨h1, ?_⟩
    by_contra hn
    rw [List.getElem?_eq_none (by omega)] at h1
    cases h1
  have hin : ∀ index, index ∈ constraint.setBits → constraint.bits[index]? = some true ∧
      index + 1 < rowGroupIndices.length ∧
      nth rowGroupIndices index ≤ nth rowGroupIndices (index + 1) ∧
      nth rowGroupIndices (index + 1) ≤ m.rowCount := by
    intro index hi
    obtain ⟨h1, h2⟩ := hmem index hi
    exact ⟨h1, by have := hgroups.1; omega, hgroups.2.1 index h2, hgroups.le_bound (by omega)⟩
  have hlen : (selectedRows rowGroupIndices constraint.setBits).length ≤ m.rowCount := by
    have := length_selectedRows_le hgroups constraint.setBits 0 (setBits_pairwise constraint)
      (fun g hg => ⟨Nat.zero_le _, (hmem g hg).2⟩) (Nat.zero_le _)
    have := hgroups.2.2
    omega
  have hpairs : ∀ p, p ∈ selectedRows rowGroupIndices constraint.setBits →
      constraint.bits[p.1]? = some true ∧ p.2 < m.rowCount := by
    intro p hp
    obtain ⟨h1, h2, h3⟩ := mem_selectedRows _ p hp
    obtain ⟨a1, a2, a3, a4⟩ := hin p.1 h1
    exact ⟨a1, by omega⟩
  have hcount := getSubmatrix_rowGroups_count_eq m hm constraint rowGroupIndices rows hrows
    hcols hsorted constraint.setBits 0 0 hin (by omega)
  simp only [Nat.zero_add] at hcount
  have hcopy := fun result => getSubmatrix_rowGroups_copy_eq m hm constraint
    (getSubmatrix_bitsSetBeforeIndex constraint.setBits [] 0 0)
    (bitsSetBeforeIndex_eq_rank constraint) rowGroupIndices rows hrows hcols hsorted
    constraint.setBits 0 result hin
  have hfinal : ∀ sub : SparseMatrix T,
      (∀ r, r < (selectedRows rowGroupIndices constraint.setBits).length → sub.getRow r =
        .ok (insertedInRow (diagonalCalls constraint rows
          (selectedRows rowGroupIndices constraint.setBits) 0) r)) →
      ∀ t (h : t < (selectedRows rowGroupIndices constraint.setBits).length),
        sub.getRow t = .ok (diagonalRow constraint
          ((selectedRows rowGroupIndices constraint.setBits).get ⟨t, h⟩).1
          (rows ((selectedRows rowGroupIndices constraint.setBits).get ⟨t, h⟩).2)) := by
    intro sub hsub t ht
    rw [hsub t ht]
    have := insertedInRow_diagonalCalls constraint rows
      (selectedRows rowGroupIndices constraint.setBits) 0 t ht (fun p hp => (hpairs p hp).1)
    rw [Nat.zero_add] at this
    rw [this]
    rfl
  unfold SparseMatrix.getSubmatrix_rowGroups SparseMatrix.getSubmatrix_columnConstraint
  rw [hcount]
  simp only [if_true, or_self_eq]
  rw [hcopy]
  by_cases hl : (diagonalCalls constraint rows
      (selectedRows rowGroupIndices constraint.setBits) 0).length = 0
  · -- no row is selected: the result is built in dynamic mode
    have hp0 : (selectedRows rowGroupIndices constraint.setBits).length = 0 := by
      have := length_le_length_diagonalCalls constraint rows
        (selectedRows rowGroupIndices constraint.setBits) 0
      omega
    have hnil := List.length_eq_zero.1 hl
    rw [hnil]
    simp only [List.length_nil, addAll, dropState]
    obtain ⟨a1, a2, -, a4, -, -, -, a8, -⟩ := create_fields (T := T)
      (selectedRows rowGroupIndices constraint.setBits).length constraint.getNumberOfSetBits 0
    have hdyn : (SparseMatrix.create (selectedRows rowGroupIndices constraint.setBits).length
        constraint.getNumberOfSetBits 0 : SparseMatrix T).storagePreallocated = false := by
      rw [a4]; simp
    obtain ⟨m1, f1, f2⟩ := finalize_of_inv
      (Inv.create (T := T) (selectedRows rowGroupIndices constraint.setBits).length
        constraint.getNumberOfSetBits 0)
      (by rw [a8]; simp) (by rw [hdyn]; simp)
    obtain ⟨g1, g2, g3⟩ := finalize_frame f1
    rw [f1]
    refine ⟨m1, rfl, by rw [g1, a1], by rw [g2, a2], fun t ht => ?_⟩
    omega
  · -- the result is preallocated and receives the calls in order
    have hp0 : (selectedRows rowGroupIndices constraint.setBits).length ≠ 0 := by
      intro h0
      rw [List.length_eq_zero.1 h0] at hl
      exact hl rfl
    have hne : constraint.getNumberOfSetBits ≠ 0 := by
      intro h0
      have hs : constraint.setBits = [] := List.length_eq_zero.1 h0
      rw [hs] at hp0
      exact hp0 rfl
    have hF := Filled.of_create (T := T)
      (selectedRows rowGroupIndices constraint.setBits).length constraint.getNumberOfSetBits
      (diagonalCalls constraint rows
        (selectedRows rowGroupIndices constraint.setBits) 0).length hp0 hne hl
    obtain ⟨a1, a2, a3, -, -, -, -, -, -, a10, a11⟩ := create_fields (T := T)
      (selectedRows rowGroupIndices constraint.setBits).length constraint.getNumberOfSetBits
      (diagonalCalls constraint rows
        (selectedRows rowGroupIndices constraint.setBits) 0).length
    have hrange : ∀ e, e ∈ diagonalCalls constraint rows
        (selectedRows rowGroupIndices constraint.setBits) 0 →
        e.1 < (selectedRows rowGroupIndices constraint.setBits).length ∧
        e.2.1 < constraint.getNumberOfSetBits := by
      intro e he
      obtain ⟨-, h2, c, hc1, hc2⟩ := mem_diagonalCalls _ _ e (fun p hp => (hpairs p hp).1) he
      refine ⟨by omega, ?_⟩
      rw [hc2]
      exact rank_lt hc1
    obtain ⟨m2, hadd⟩ := addAll_accepts (diagonalCalls constraint rows
        (selectedRows rowGroupIndices constraint.setBits) 0)
      _ [] hF (by rw [a3]; simp)
      (fun e he => by
        rw [a1, a2]
        exact ⟨le_of_lt (hrange e he).1, le_of_lt (hrange e he).2⟩)
      (by
        rw [a10, a11]
        apply List.Pairwise.chain
        rw [List.pairwise_cons]
        refine ⟨?_, diagonalCalls_pairwise constraint rows _ 0 (fun p hp => (hpairs p hp).1)
          (fun p hp => hsorted p.2 (hpairs p hp).2)⟩
        intro b _
        rcases Nat.eq_zero_or_pos b.1 with h | h
        · exact Or.inr ⟨h.symm, Nat.zero_le _⟩
        · exact Or.inl h)
    obtain ⟨m1, f1, f2, f3, -⟩ := roundTrip_preallocated_in_range
      (selectedRows rowGroupIndices constraint.setBits).length constraint.getNumberOfSetBits _
      hp0 hne hl _ m2 hadd rfl (fun e he => (hrange e he).1)
    obtain ⟨-, g2, -⟩ := finalize_frame f1
    obtain ⟨-, k2, -⟩ := addAll_frame _ _ _ hadd
    rw [hadd]
    simp only [dropState]
    rw [f1]
    exact ⟨m1, rfl, f2, by rw [g2, k2, a2], hfinal m1 f3⟩

/-- Diagonal insertion on a preallocated matrix built by the construction
protocol with every call inside the declared dimensions, for a row-group mask
that covers the columns and row-group starts that do not decrease and end at the
row count: `getSubmatrix(rowGroupConstraint, rowGroupIndices, true)` succeeds
and has one row for every row of the selected row groups, in their order.  The
row that stems from row `i` of row group `g` stores an entry at the column
`rank(g)`, its columns do not decrease, and it consists of the entries
`(rank(j), v)` for the entries `(j, v)` inserted with row `i` and `j` in the
mask, in their order, with at most one further entry, a zero at column
`rank(g)`, which is there only if the source row has no entry at column `g`. -/
theorem getSubmatrix_rowGroups_of_build {T : Type} [Zero T] [One T] [Sub T] [Neg T]
    (rows columns entries : Nat) (hr : rows ≠ 0) (hc : columns ≠ 0) (he : entries ≠ 0)
    (es : List (Entry T)) (m : SparseMatrix T) (hb : build rows columns entries es = .ok m)
    (hin : ∀ e, e ∈ es → e.1 < rows ∧ e.2.1 < columns) (h64 : rows < 2 ^ 64)
    (constraint : BitVector) (hsize : columns ≤ constraint.bits.length)
    (rowGroupIndices : List Nat)
    (hgroups : RowStartsOK rowGroupIndices constraint.bits.length rows) :
    ∃ sub, m.getSubmatrix_rowGroups constraint rowGroupIndices true = .ok sub ∧
      sub.rowCount = (selectedRows rowGroupIndices constraint.setBits).length ∧
      sub.columnCount = constraint.getNumberOfSetBits ∧
      ∀ t g i, (selectedRows rowGroupIndices constraint.setBits)[t]? = some (g, i) →
        ∃ row, sub.getRow t = .ok row ∧
          (∃ v, (constraint.rank g, v) ∈ row) ∧
          row.Pairwise (fun a b => a.1 ≤ b.1) ∧
          ∃ l1 l2, ((insertedInRow es i).filter
              (fun e => constraint.bits[e.1]? = some true)).map
                (fun e => (constraint.rank e.1, e.2)) = l1 ++ l2 ∧
            (row = l1 ++ l2 ∨
              ((∀ e, e ∈ insertedInRow es i → constraint.bits[e.1]? = some true →
                  e.1 ≠ g) ∧
                row = l1 ++ (constraint.rank g, 0) :: l2)) := by
  obtain ⟨b1, b2, -, b4⟩ := build_in_range rows columns entries hr hc he es m hb hin
  have hsorted : ∀ i, i < m.rowCount →
      (insertedInRow es i).Pairwise (fun a b => a.1 ≤ b.1) :=
    fun i hi => (b4 i (by omega)).2.1
  obtain ⟨sub, s1, s2, s3, s4⟩ := getSubmatrix_rowGroups_spec m b1.rowsOK constraint
    rowGroupIndices (by rw [b2]; exact hgroups) (by rw [b2]; exact h64) (insertedInRow es)
    (fun i hi => (b4 i (by omega)).1)
    (fun i hi e he => by have := (b4 i (by omega)).2.2 e he; omega)
    hsorted
  refine ⟨sub, s1, s2, s3, fun t g i ht => ?_⟩
  obtain ⟨hlt, hget⟩ := List.getElem?_eq_some_iff.1 ht
  have hrow := s4 t hlt
  have hp : (selectedRows rowGroupIndices constraint.setBits).get ⟨t, hlt⟩ = (g, i) := hget
  rw [hp] at hrow
  have hi : i < m.rowCount := by
    have hmem : (g, i) ∈ selectedRows rowGroupIndices constraint.setBits :=
      List.getElem?_mem ht
    obtain ⟨h1, h2, h3⟩ := mem_selectedRows _ _ hmem
    have hg1 := mem_setBits.1 h1
    have hg2 : g < constraint.bits.length := by
      by_contra hn
      rw [List.getElem?_eq_none (by omega)] at hg1
      cases hg1
    have m1 : nth rowGroupIndices g ≤ nth rowGroupIndices (g + 1) := hgroups.2.1 g hg2
    have m2 : nth rowGroupIndices (g + 1) ≤ rows := hgroups.le_bound (by omega)
    simp only at h2 h3
    omega
  exact ⟨_, hrow, diagonalRow_has_diagonal constraint g _,
    diagonalRow_sorted constraint g _ (hsorted i hi),
    diagonalRow_preserves constraint g _ (hsorted i hi)⟩

/-- The number of rows of the selected row groups is the sum of the sizes of
these groups. -/
theorem length_selectedRows (rowGroupIndices : List Nat) :
    ∀ groups : List Nat, (selectedRows rowGroupIndices groups).length =
      (groups.map (fun g => nth rowGroupIndices (g + 1) - nth rowGroupIndices g)).sum := by
  intro groups
  induction groups with
  | nil => rfl
  | cons g rest ih =>
    simp only [selectedRows, List.length_append, length_groupRows, List.map_cons, List.sum_cons,
      ih]

/-- A self-loop of 1 need not end the call: for `P = [[1, 1], [1, 0]]` (not a
stochastic matrix) the elimination of state 1 merges the weight 1 into the
self-loop of state 0, which then is 2, and the call returns; with state 0
eliminated first the scale factor is undefined. -/
theorem solveEquationSystem_self_loop_changed :
    solveEquationSystem exampleSelfLoop false [1, 1] [1, 0] = .ok ([-2, 1], exampleSelfLoop) ∧
    solveEquationSystem exampleSelfLoop false [1, 1] [0, 1] = .error (.undefinedScale 0) := by
  constructor <;> with_unfolding_all rfl

theorem slice_append {α : Type} (v : List α) {a b c : Nat} (hab : a ≤ b) (hbc : b ≤ c) :
    slice v a c = slice v a b ++ slice v b c := by
  unfold slice
  have e1 : c - a = (b - a) + (c - b) := by omega
  rw [e1, List.take_add, List.drop_drop]
  have e2 : a + (b - a) = b := by omega
  rw [e2]

theorem getRows_eq {T : Type} {m : SparseMatrix T} (hm : m.RowsOK) {lo hi : Nat}
    (hlo : lo ≤ hi) (hhi : hi < m.rowCount) :
    m.getRows lo hi = .ok (List.zip
      (slice m.columnIndications (nth m.rowIndications lo) (nth m.rowIndications (hi + 1)))
      (slice m.valueStorage (nth m.rowIndications lo) (nth m.rowIndications (hi + 1)))) := by
  have hs := hm.1.readAt (i := lo) (by omega)
  have he := hm.1.readAt (i := hi + 1) (by omega)
  have hse : nth m.rowIndications lo ≤ nth m.rowIndications (hi + 1) :=
    hm.1.mono (hi + 1) lo (by omega) (by omega)
  have hec : nth m.rowIndications (hi + 1) ≤ m.columnIndications.length :=
    hm.1.le_bound (by omega)
  have hev : nth m.rowIndications (hi + 1) ≤ m.valueStorage.length :=
    le_trans (hm.1.mono m.rowCount (hi + 1) (by omega) (le_refl _)) hm.2
  unfold SparseMatrix.getRows
  simp only [hs, he, hse, hec, hev, and_self, if_true]

theorem zip_slice_joinRows {T : Type} {m : SparseMatrix T} (hm : m.RowsOK) :
    ∀ (count lo : Nat), lo + count < m.rowCount →
      List.zip
        (slice m.columnIndications (nth m.rowIndications lo)
          (nth m.rowIndications (lo + count + 1)))
        (slice m.valueStorage (nth m.rowIndications lo)
          (nth m.rowIndications (lo + count + 1))) =
      joinRows (fun r => List.zip
        (slice m.columnIndications (nth m.rowIndications r) (nth m.rowIndications (r + 1)))
        (slice m.valueStorage (nth m.rowIndications r) (nth m.rowIndications (r + 1))))
        lo (count + 1) := by
  intro count
  induction count with
  | zero =>
    intro lo _
    simp [joinRows]
  | succ n ih =>
    intro lo h
    have h1 : nth m.rowIndications lo ≤ nth m.rowIndications (lo + 1) := hm.1.2.1 lo (by omega)
    have h2 : nth m.rowIndications (lo + 1) ≤ nth m.rowIndications (lo + (n + 1) + 1) :=
      hm.1.mono _ _ (by omega) (by omega)
    have hec : nth m.rowIndications (lo + 1) ≤ m.columnIndications.length :=
      hm.1.le_bound (by omega)
    have hev : nth m.rowIndications (lo + 1) ≤ m.valueStorage.length :=
      le_trans (hm.1.mono m.rowCount (lo + 1) (by omega) (le_refl _)) hm.2
    rw [slice_append m.columnIndications h1 h2, slice_append m.valueStorage h1 h2,
      List.zip_append (by rw [length_slice _ _ _ hec, length_slice _ _ _ hev])]
    have e : lo + (n + 1) + 1 = lo + 1 + n + 1 := by omega
    rw [e, ih (lo + 1) (by omega)]
    rfl

/-- The view `getRows(lo, hi)` of a well-formed matrix is the concatenation of
the row views `getRow(lo)`, ..., `getRow(hi)`. -/
theorem getRows_eq_joinRows {T : Type} {m : SparseMatrix T} (hm : m.RowsOK) {lo hi : Nat}
    (hlo : lo ≤ hi) (hhi : hi < m.rowCount) (rows : Nat → List (Nat × T))
    (hrows : ∀ r, lo ≤ r → r ≤ hi → m.getRow r = .ok (rows r)) :
    m.getRows lo hi = .ok (joinRows rows lo (hi + 1 - lo)) := by
  have key : ∀ (count i : Nat), lo ≤ i → i + count ≤ hi + 1 →
      joinRows (fun r => List.zip
        (slice m.columnIndications (nth m.rowIndications r) (nth m.rowIndications (r + 1)))
        (slice m.valueStorage (nth m.rowIndications r) (nth m.rowIndications (r + 1))))
        i count = joinRows rows i count := by
    intro count
    induction count with
    | zero => intro i _ _; rfl
    | succ n ih =>
      intro i h1 h2
      have := hrows i h1 (by omega)
      rw [getRow_eq hm (by omega)] at this
      simp only [joinRows]
      rw [ih (i + 1) (by omega) (by omega)]
      have h3 := Except.ok.inj this
      rw [h3]
  rw [getRows_eq hm hlo hhi]
  have e : hi + 1 = lo + (hi - lo) + 1 := by omega
  have e2 : hi + 1 - lo = hi - lo + 1 := by omega
  rw [e2, ← key (hi - lo + 1) lo (le_refl _) (by omega), ← zip_slice_joinRows hm (hi - lo) lo (by omega)]
  rw [← e]

/-- The binding `get_row(row)` on a well-formed matrix: when `row + 1` is a row
of the matrix too, the view holds the entries of row `row` followed by the
entries of row `row + 1`. -/
theorem get_row_eq_append {T : Type} {m : SparseMatrix T} (hm : m.RowsOK) {row : Nat}
    (h : row + 1 < m.rowCount) :
    ∃ a b, m.getRow row = .ok a ∧ m.getRow (row + 1) = .ok b ∧ m.get_row row = .ok (a ++ b) := by
  refine ⟨_, _, getRow_eq hm (by omega), getRow_eq hm h, ?_⟩
  unfold SparseMatrix.get_row
  rw [getRows_eq_joinRows hm (Nat.le_succ row) h _ (fun r _ _ => getRow_eq hm (by omega))]
  have e : row + 1 + 1 - row = 2 := by omega
  rw [e]
  simp [joinRows]

/-- The binding `get_row(row)` for the last row of a preallocated matrix reads
the row start `rowIndications[rowCount + 1]`, which does not exist. -/
theorem get_row_last {T : Type} [Zero T] [One T] [Sub T] [Neg T] {m : SparseMatrix T}
    (hm : Reachable m) (hp : m.storagePreallocated = true) {row : Nat}
    (h : row + 1 = m.rowCount) : m.get_row row = .error .OutOfBoundsAccess := by
  obtain ⟨l1, -, -⟩ := hm.inv.sizes hp
  have h2 : readAt m.rowIndications (row + 1 + 1) = none := by
    unfold readAt
    exact List.getElem?_eq_none (by omega)
  unfold SparseMatrix.get_row SparseMatrix.getRows
  rw [h2]
  split <;> first | rfl | simp_all

/-- The calls of `addNextValue` on a preallocated matrix.  A call that returns
has written the value and the column at storage index `currentEntryCount`, which
lies below `entryCount`, and has written row starts only at the indices
`lastRow + 1, ..., row`, which are at most `rowCount`.  A call that passes the
range check and the order checks when `entryCount` entries have been written is
not rejected: it writes at an index outside the value array. -/
theorem addNextValue_preallocated_writes {T : Type} [Zero T] [One T] [Sub T] [Neg T]
    (m : SparseMatrix T) (hm : Reachable m) (hp : m.storagePreallocated = true)
    (row column : Nat) (value : T) :
    (∀ m2, m.addNextValue row column value = .ok m2 →
      m.currentEntryCount < m.entryCount ∧ m.valueStorage.length = m.entryCount ∧
      m.columnIndications.length = m.entryCount ∧
      m2.valueStorage = m.valueStorage.set m.currentEntryCount value ∧
      m2.columnIndications = m.columnIndications.set m.currentEntryCount column ∧
      row ≤ m.rowCount ∧ m2.rowIndications.length = m.rowCount + 1 ∧
      ∀ k, nth m2.rowIndications k =
        if m.lastRow < k ∧ k ≤ row then m.currentEntryCount else nth m.rowIndications k) ∧
    (m.entryCount ≤ m.currentEntryCount → ¬(row > m.rowCount ∨ column > m.columnCount) →
      ¬ row < m.lastRow → ¬(row = m.lastRow ∧ column < m.lastColumn) →
      ∃ s, m.addNextValue row column value = .error (.OutOfBoundsAccess, s)) := by
  obtain ⟨l1, l2, l3⟩ := hm.inv.sizes hp
  constructor
  · intro m2 h
    obtain ⟨h1, h2, h3, m1, hs, hst⟩ := addNextValue_eq_ok_iff.1 h
    obtain ⟨-, -, -, -, a5, a6, a7, -, a9, -⟩ := addNextValue_switchRow_frame hs
    obtain ⟨b1, b2⟩ := (addNextValue_switchRow_spec hs h2).1 hp
    obtain ⟨c1, c2, c3, c4, -⟩ := (addNextValue_store_spec hst).1 (by rw [a5, hp])
    obtain ⟨-, -, -, -, -, -, d7, -⟩ := addNextValue_store_frame hst
    simp only [hp, true_and, not_or, not_lt, gt_iff_lt] at h1
    rw [a6, a9] at c1 c3
    rw [a7, a9] at c4
    refine ⟨by omega, l2, l3, c3, c4, h1.1, by rw [d7, b1, l1], fun k => ?_⟩
    rw [d7]
    exact b2 k
  · intro hfull h1 h2 h3
    unfold SparseMatrix.addNextValue
    have h0 : ¬(m.storagePreallocated = true ∧ (row > m.rowCount ∨ column > m.columnCount)) :=
      fun h => h1 h.2
    rw [if_neg h0, if_neg h2, if_neg h3]
    cases hs : addNextValue_switchRow m row with
    | none => exact ⟨_, rfl⟩
    | some m1 =>
      obtain ⟨-, -, -, -, a5, a6, a7, -, a9, -⟩ := addNextValue_switchRow_frame hs
      have hw : writeAt m1.valueStorage m1.currentEntryCount value = none := by
        unfold writeAt
        rw [if_neg (by rw [a6, a9]; omega)]
      have hst : addNextValue_store m1 column value = none := by
        unfold addNextValue_store
        rw [a5, hp, if_pos rfl, hw]
      simp only [hst]
      exact ⟨_, rfl⟩

theorem makeRowAbsorbing_loop_frame {T : Type} [Zero T] :
    ∀ (count : Nat) (vs : List T) (cs : List Nat) (valuePtr columnPtr : Nat) (vs1 : List T)
      (cs1 : List Nat), makeRowAbsorbing_loop vs cs valuePtr columnPtr count = some (vs1, cs1) →
        (∀ k, k < valuePtr ∨ valuePtr + count ≤ k → vs1[k]? = vs[k]?) ∧
        (∀ k, k ≠ columnPtr → cs1[k]? = cs[k]?) := by
  intro count
  induction count with
  | zero =>
    intro vs cs vp cp vs1 cs1 h
    simp only [makeRowAbsorbing_loop, Option.some.injEq, Prod.mk.injEq] at h
    rw [h.1, h.2]
    exact ⟨fun _ _ => rfl, fun _ _ => rfl⟩
  | succ n ih =>
    intro vs cs vp cp vs1 cs1 h
    simp only [makeRowAbsorbing_loop] at h
    split at h
    · rename_i a b ha hb
      obtain ⟨-, rfl⟩ := writeAt_eq_some.1 ha
      obtain ⟨-, rfl⟩ := writeAt_eq_some.1 hb
      obtain ⟨i1, i2⟩ := ih _ _ _ _ _ _ h
      refine ⟨fun k hk => ?_, fun k hk => ?_⟩
      · rw [i1 k (by omega), List.getElem?_set_ne (by omega)]
      · rw [i2 k hk, List.getElem?_set_ne (fun h => hk h.symm)]
    · cases h

theorem makeRowAbsorbing_loop_of_le {T : Type} [Zero T] :
    ∀ (count : Nat) (vs : List T) (cs : List Nat) (valuePtr columnPtr : Nat),
      valuePtr + count ≤ vs.length → columnPtr < cs.length →
      ∃ r, makeRowAbsorbing_loop vs cs valuePtr columnPtr count = some r := by
  intro count
  induction count with
  | zero => intro vs cs vp cp _ _; exact ⟨_, rfl⟩
  | succ n ih =>
    intro vs cs vp cp h1 h2
    simp only [makeRowAbsorbing_loop]
    rw [writeAt_of_lt 0 (show vp < vs.length by omega), writeAt_of_lt 0 h2]
    exact ih _ _ _ _ (by simp; omega) (by simpa using h2)

theorem slice_congr {α : Type} {v w : List α} {s e : Nat}
    (h : ∀ k, s ≤ k → k < e → v[k]? = w[k]?) : slice v s e = slice w s e := by
  apply List.ext_getElem?
  intro t
  rw [getElem?_slice, getElem?_slice]
  split_ifs with h1
  · exact h _ (by omega) (by omega)
  · rfl

/-- The effect of `makeRowAbsorbing(r, c)` on a well-formed matrix whose row
`r < rowCount` is not empty: the call returns, the row starts, the counts and the
lengths of the storage vectors stay as they were, and the value and the column
at every storage position outside `rowIndications[r] .. rowIndications[r + 1] - 1`
are unchanged. -/
theorem makeRowAbsorbing_frame {T : Type} [Zero T] [One T] {m : SparseMatrix T} (hm : m.RowsOK)
    {r : Nat} (c : Nat) (hr : r < m.rowCount)
    (hne : nth m.rowIndications r < nth m.rowIndications (r + 1)) :
    ∃ m1, m.makeRowAbsorbing r c = .ok m1 ∧ SameShape m m1 ∧
      ∀ k, k < nth m.rowIndications r ∨ nth m.rowIndications (r + 1) ≤ k →
        m1.valueStorage[k]? = m.valueStorage[k]? ∧
        m1.columnIndications[k]? = m.columnIndications[k]? := by
  have hs := hm.1.readAt (i := r) (by omega)
  have he := hm.1.readAt (i := r + 1) (by omega)
  have hec : nth m.rowIndications (r + 1) ≤ m.columnIndications.length :=
    hm.1.le_bound (by omega)
  have hev : nth m.rowIndications (r + 1) ≤ m.valueStorage.length :=
    le_trans (hm.1.mono m.rowCount (r + 1) (by omega) (le_refl _)) hm.2
  obtain ⟨⟨vs1, cs1⟩, hl⟩ := makeRowAbsorbing_loop_of_le
    (nth m.rowIndications (r + 1) - nth m.rowIndications r)
    (m.valueStorage.set (nth m.rowIndications r) 1)
    (m.columnIndications.set (nth m.rowIndications r) c)
    (nth m.rowIndications r) (nth m.rowIndications r) (by simp; omega) (by simp; omega)
  have hcall : m.makeRowAbsorbing r c =
      .ok { m with valueStorage := vs1, columnIndications := cs1 } := by
    unfold SparseMatrix.makeRowAbsorbing
    rw [if_neg (by omega), hs, he]
    simp only [ge_iff_le, not_le.2 hne, if_false]
    rw [writeAt_of_lt 1 (show nth m.rowIndications r < m.valueStorage.length by omega),
      writeAt_of_lt c (show nth m.rowIndications r < m.columnIndications.length by omega)]
    simp only [hl]
  refine ⟨_, hcall, makeRowAbsorbing_sameShape hcall, fun k hk => ?_⟩
  obtain ⟨f1, f2⟩ := makeRowAbsorbing_loop_frame _ _ _ _ _ _ _ hl
  constructor
  · show vs1[k]? = _
    rw [f1 k (by omega), List.getElem?_set_ne (by omega)]
  · show cs1[k]? = _
    rw [f2 k (by omega), List.getElem?_set_ne (by omega)]

theorem transpose_fillRow_columns_length {T : Type} [Zero T] [LT T]
    [DecidableRel (fun (a b : T) => a < b)] (i : Nat) :
    ∀ (es : List (Nat × T)) (st st1 : TransposeState T),
      transpose_fillRow st i es = some st1 →
        st1.columnIndications.length = st.columnIndications.length := by
  intro es
  induction es with
  | nil => intro st st1 h; simp only [transpose_fillRow, Option.some.injEq] at h; rw [← h]
  | cons e rest ih =>
    intro st st1 h
    obtain ⟨column, value⟩ := e
    unfold transpose_fillRow at h
    split_ifs at h with hv
    · cases hp : readAt st.nextIndices column with
      | none => rw [hp] at h; cases h
      | some p =>
        rw [hp] at h
        simp only at h
        split at h
        · rename_i vs cs ni h1 h2 h3
          have := ih _ _ h
          rw [this]
          obtain ⟨-, rfl⟩ := writeAt_eq_some.1 h2
          simp
        · cases h
    · exact ih _ _ h

theorem transpose_fill_columns_length {T : Type} [Zero T] [LT T]
    [DecidableRel (fun (a b : T) => a < b)] (m : SparseMatrix T) :
    ∀ (count i : Nat) (st st1 : TransposeState T),
      transpose_fill m st i count = some st1 →
        st1.columnIndications.length = st.columnIndications.length := by
  intro count
  induction count with
  | zero => intro i st st1 h; simp only [transpose_fill, Option.some.injEq] at h; rw [← h]
  | succ n ih =>
    intro i st st1 h
    unfold transpose_fill at h
    cases hr : m.getRow i with
    | error e => rw [hr] at h; cases h
    | ok row =>
      rw [hr] at h
      simp only at h
      cases hf : transpose_fillRow st i row with
      | none => rw [hf] at h; cases h
      | some st2 =>
        rw [hf] at h
        simp only at h
        rw [ih _ _ _ h, transpose_fillRow_columns_length i _ _ _ hf]

/-- The column vector of the transposed matrix has the `entryCount` slots that
`transpose` allocates. -/
theorem transpose_columnIndications_length {T : Type} [Zero T] [LT T]
    [DecidableRel (fun (a b : T) => a < b)] {m mT : SparseMatrix T}
    (h : m.transpose = .ok mT) : mT.columnIndications.length = m.entryCount := by
  unfold SparseMatrix.transpose at h
  split at h
  · cases h
  · split at h
    · cases h
    · split at h
      · cases h
      · rename_i st hst
        cases h
        simp only [SparseMatrix.fromVectors]
        rw [transpose_fill_columns_length m _ _ _ _ hst]
        simp

/-- The row starts of the transposed matrix: `rowIndications[k]` is the number
of stored entries with a positive value and a column below `k`. -/
theorem transpose_rowIndications {T : Type} [Zero T] [LT T]
    [DecidableRel (fun (a b : T) => a < b)]
    (m : SparseMatrix T) (rows : Nat → List (Nat × T))
    (hrows : ∀ i, i < m.rowCount → m.getRow i = .ok (rows i))
    (hcols : ∀ i, i < m.rowCount → ∀ e, e ∈ rows i → e.1 < m.columnCount)
    {mT : SparseMatrix T} (h : m.transpose = .ok mT) :
    mT.rowIndications.length = m.columnCount + 1 ∧
    ∀ k, k ≤ m.columnCount → nth mT.rowIndications k =
      ((taggedEntries rows 0 m.rowCount).filter (fun e => 0 < e.2.2 ∧ e.2.1 < k)).length := by
  have hEcol : ∀ e, e ∈ taggedEntries rows 0 m.rowCount → e.2.1 < m.columnCount := by
    intro e he
    obtain ⟨-, h2, h3⟩ := mem_taggedEntries rows _ _ e he
    exact hcols e.1 (by omega) _ h3
  have hsucc := fun j => length_filter_key_lt_succ (fun x : Entry T => x.2.1) j
    ((taggedEntries rows 0 m.rowCount).filter (fun e => 0 < e.2.2))
  obtain ⟨counted, c1, c2, c3⟩ := transpose_count_spec m rows hrows m.rowCount 0
    (List.replicate (m.columnCount + 1) 0) (by omega) (by
      intro e he _
      have := hEcol e he
      simp only [List.length_replicate]
      omega)
  simp only [List.length_replicate] at c2
  have hfilt : ∀ (q : Entry T → Bool),
      ((taggedEntries rows 0 m.rowCount).filter (fun e => 0 < e.2.2)).filter q =
        (taggedEntries rows 0 m.rowCount).filter (fun e => decide (0 < e.2.2) && q e) := by
    intro q
    rw [List.filter_filter]
    apply List.filter_congr
    intro x _
    rw [Bool.and_comm]
  obtain ⟨ri, a1, a2, a3⟩ := transpose_accumulate_spec
    (fun k => (((taggedEntries rows 0 m.rowCount).filter (fun e => 0 < e.2.2)).filter
      (fun e => e.2.1 < k)).length)
    (fun k => (((taggedEntries rows 0 m.rowCount).filter (fun e => 0 < e.2.2)).filter
      (fun e => e.2.1 + 1 = k)).length)
    (by
      intro k
      simp only
      rw [hsucc k]
      congr 2
      apply List.filter_congr
      intro x _
      simp)
    (m.columnCount + 1 - 1) 1 counted (le_refl _) (by rw [c2]; omega) (by
      intro k hk
      rw [c3 k, nth_replicate_zero, Nat.zero_add]
      by_cases hk0 : k < 1
      · have : k = 0 := by omega
        subst this
        simp
      · simp only [hk0, if_false]
        rw [hfilt]
        congr 1
        apply List.filter_congr
        intro x _
        simp)
  have hri : ∀ k, k ≤ m.columnCount → nth ri k =
      ((taggedEntries rows 0 m.rowCount).filter (fun e => 0 < e.2.2 ∧ e.2.1 < k)).length := by
    intro k hk
    rw [a3 k (by rw [c2]; omega)]
    simp only [show k < 1 + (m.columnCount + 1 - 1) by omega, if_true]
    rw [hfilt]
    congr 1
    apply List.filter_congr
    intro x _
    simp
  unfold SparseMatrix.transpose at h
  simp only [c1, a1] at h
  split at h
  · cases h
  · cases h
    simp only [SparseMatrix.fromVectors]
    exact ⟨by rw [a2, c2], hri⟩

theorem taggedEntries_pairwise {T : Type} (rows : Nat → List (Nat × T)) :
    ∀ (count i : Nat), (taggedEntries rows i count).Pairwise (fun a b => a.1 ≤ b.1) := by
  intro count
  induction count with
  | zero => intro i; simp [taggedEntries]
  | succ n ih =>
    intro i
    simp only [taggedEntries]
    rw [List.pairwise_append]
    refine ⟨?_, ih (i + 1), ?_⟩
    · rw [List.pairwise_map]
      exact List.pairwise_of_forall (fun _ _ => le_refl i)
    · intro a ha b hb
      obtain ⟨h1, -, -⟩ := mem_taggedEntries rows _ _ b hb
      simp only [List.mem_map] at ha
      obtain ⟨x, -, rfl⟩ := ha
      show i ≤ b.1
      omega

theorem Reachable.firstRowStart {T : Type} [Zero T] [One T] [Sub T] [Neg T]
    {m : SparseMatrix T} (h : Reachable m) :
    m.storagePreallocated = true → m.rowCount ≠ 0 ∧ nth m.rowIndications 0 = 0 := by
  have hshape : ∀ {a b : SparseMatrix T}, SameShape a b →
      (a.storagePreallocated = true → a.rowCount ≠ 0 ∧ nth a.rowIndications 0 = 0) →
      b.storagePreallocated = true → b.rowCount ≠ 0 ∧ nth b.rowIndications 0 = 0 := by
    intro a b hs ih hp
    obtain ⟨a1, -, -, a4, -, -, a7, -, -, -, -⟩ := hs
    rw [a1, a7]
    exact ih (by rw [← a4]; exact hp)
  induction h with
  | create rows columns entries =>
    intro hp
    obtain ⟨a1, -, -, a4, -, -, a7, -⟩ := create_fields (T := T) rows columns entries
    rw [a1, a7]
    rw [a4] at hp
    refine ⟨?_, nth_replicate_zero _ _⟩
    intro h0
    subst h0
    simp at hp
  | addNextValue row column value _ h ih =>
    intro hp
    obtain ⟨-, -, f3, -, -, f6, -, -⟩ := addNextValue_ok_fields h
    obtain ⟨-, h2, -, m1, hs, hst⟩ := addNextValue_eq_ok_iff.1 h
    rw [f6] at hp
    obtain ⟨i1, i2⟩ := ih hp
    obtain ⟨-, b2⟩ := (addNextValue_switchRow_spec hs h2).1 hp
    obtain ⟨-, -, -, -, -, -, d7, -⟩ := addNextValue_store_frame hst
    refine ⟨by rw [f3]; exact i1, ?_⟩
    rw [d7, b2 0]
    simp only [Nat.not_lt_zero, false_and, if_false]
    exact i2
  | finalize _ h ih =>
    rename_i m0 m1 _
    intro hp
    obtain ⟨g1, -, g3⟩ := finalize_frame h
    rw [g3] at hp
    obtain ⟨i1, i2⟩ := ih hp
    obtain ⟨-, f2, -⟩ := finalize_eq_ok h
    obtain ⟨-, ri, hri, -, rfl⟩ := f2 hp
    obtain ⟨-, -, b3⟩ := fillRowIndications_spec _ _ _ _ _ hri
    refine ⟨i1, ?_⟩
    show nth (ri.set m0.rowCount m0.entryCount) 0 = 0
    rw [nth_set, if_neg (fun hc => i1 hc.1), b3 0]
    simp only [Nat.le_zero_eq, Nat.add_one_ne_zero, false_and, if_false]
    exact i2
  | makeRowAbsorbing row column _ h ih => exact hshape (makeRowAbsorbing_sameShape h) ih
  | invertDiagonal _ h ih => exact hshape (invertDiagonal_sameShape.1 h) ih
  | invertDiagonal_throws _ h ih => exact hshape (invertDiagonal_sameShape.2 _ h) ih
  | negateAllNonDiagonalElements _ h ih =>
    exact hshape (negateAllNonDiagonalElements_sameShape h) ih

theorem mem_taggedEntries_of_mem {T : Type} (rows : Nat → List (Nat × T)) :
    ∀ (count i k : Nat) (e : Nat × T), i ≤ k → k < i + count → e ∈ rows k →
      (k, e.1, e.2) ∈ taggedEntries rows i count := by
  intro count
  induction count with
  | zero => intro i k e h1 h2 _; omega
  | succ n ih =>
    intro i k e h1 h2 he
    simp only [taggedEntries, List.mem_append, List.mem_map]
    by_cases hk : k = i
    · subst hk
      exact Or.inl ⟨e, he, rfl⟩
    · exact Or.inr (ih (i + 1) k e (by omega) (by omega) he)

/-- The storage invariant of the transposed matrix.  For a finalized
preallocated matrix whose stored columns lie below `columnCount`, `transpose()`
returns a matrix whose row starts begin with 0 and do not decrease, and whose
value and column vectors have `entryCount` slots, the number of entries the
source stores; its sentinel `rowIndications[rowCount]` is the number of stored
entries with a positive value.  So the sentinel equals `entryCount` exactly when
every stored value is positive. -/
theorem transpose_storage {T : Type} [Zero T] [One T] [Sub T] [Neg T] [LT T]
    [DecidableRel (fun (a b : T) => a < b)] (m : SparseMatrix T) (hm : Finalized m)
    (hp : m.storagePreallocated = true)
    (rows : Nat → List (Nat × T)) (hrows : ∀ i, i < m.rowCount → m.getRow i = .ok (rows i))
    (hcols : ∀ i, i < m.rowCount → ∀ e, e ∈ rows i → e.1 < m.columnCount) :
    ∃ mT, m.transpose = .ok mT ∧ mT.rowIndications.length = mT.rowCount + 1 ∧
      nth mT.rowIndications 0 = 0 ∧
      (∀ i, i < mT.rowCount → nth mT.rowIndications i ≤ nth mT.rowIndications (i + 1)) ∧
      mT.valueStorage.length = mT.entryCount ∧ mT.columnIndications.length = mT.entryCount ∧
      mT.entryCount = (taggedEntries rows 0 m.rowCount).length ∧
      nth mT.rowIndications mT.rowCount =
        ((taggedEntries rows 0 m.rowCount).filter (fun e => 0 < e.2.2)).length ∧
      (nth mT.rowIndications mT.rowCount = mT.entryCount ↔
        ∀ i, i < m.rowCount → ∀ e, e ∈ rows i → 0 < e.2) := by
  have hro := hm.rowsOK
  obtain ⟨mT, t1, t2, t3, t4, t5, -⟩ := transpose_spec m hro hm.capacity rows hrows hcols
  obtain ⟨r1, r2⟩ := transpose_rowIndications m rows hrows hcols t1
  have hEcol : ∀ e, e ∈ taggedEntries rows 0 m.rowCount → e.2.1 < m.columnCount := by
    intro e he
    obtain ⟨-, h2, h3⟩ := mem_taggedEntries rows _ _ e he
    exact hcols e.1 (by omega) _ h3
  have hlen : (taggedEntries rows 0 m.rowCount).length = m.entryCount := by
    have h1 := length_taggedEntries rows m.rowIndications m.rowCount _ hro.1
      (fun i hi => getRow_length hro hi (hrows i hi)) m.rowCount 0 (by omega)
    obtain ⟨-, -, f3⟩ := hm.1.inv.finalized hp hm.2
    rw [Nat.zero_add, f3, (hm.1.firstRowStart hp).2] at h1
    omega
  have hsent : nth mT.rowIndications mT.rowCount =
      ((taggedEntries rows 0 m.rowCount).filter (fun e => 0 < e.2.2)).length := by
    rw [t2, r2 _ (le_refl _)]
    congr 1
    apply List.filter_congr
    intro x hx
    have := hEcol x hx
    simp [this]
  refine ⟨mT, t1, by rw [r1, t2], ?_, t5.1.2.1, ?_, ?_, by rw [t4, hlen], hsent, ?_⟩
  · rw [r2 0 (Nat.zero_le _)]
    simp
  · rw [transpose_valueStorage_length t1, t4]
  · rw [transpose_columnIndications_length t1, t4]
  · rw [hsent, t4, ← hlen]
    constructor
    · intro heq i hi e he
      have hall := (List.filter_eq_self).1
        ((List.filter_sublist _).eq_of_length heq)
      have := hall _ (mem_taggedEntries_of_mem rows m.rowCount 0 i e (Nat.zero_le _) (by omega) he)
      simpa using this
    · intro hall
      congr 1
      rw [List.filter_eq_self]
      intro e he
      obtain ⟨-, h2, h3⟩ := mem_taggedEntries rows _ _ e he
      have := hall e.1 (by omega) _ h3
      simpa using this

/-- The rows of the transposed matrix, for a finalized matrix whose stored
columns lie below `columnCount`: `transpose()` returns, and row `j` of the result
lists the pairs `(i, v)` of the positive entries `(j, v)` of the source in the
order in which the source stores them row by row, so its column indices (the
source rows `i`) do not decrease and entries of one source row stay in their
order. -/
theorem transpose_rows_sorted {T : Type} [Zero T] [One T] [Sub T] [Neg T] [LT T]
    [DecidableRel (fun (a b : T) => a < b)] (m : SparseMatrix T) (hm : Finalized m)
    (rows : Nat → List (Nat × T)) (hrows : ∀ i, i < m.rowCount → m.getRow i = .ok (rows i))
    (hcols : ∀ i, i < m.rowCount → ∀ e, e ∈ rows i → e.1 < m.columnCount) :
    ∃ mT, m.transpose = .ok mT ∧ mT.rowCount = m.columnCount ∧
      ∀ j, j < mT.rowCount → ∃ es, mT.getRow j = .ok es ∧
        es.Pairwise (fun a b => a.1 ≤ b.1) ∧
        es = ((taggedEntries rows 0 m.rowCount).filter
          (fun e => 0 < e.2.2 ∧ e.2.1 = j)).map (fun e => (e.1, e.2.2)) := by
  obtain ⟨mT, h1, h2, -, h4⟩ := transpose_of_finalized m hm rows hrows hcols
  refine ⟨mT, h1, h2, fun j hj => ⟨_, h4 j (by omega), ?_, rfl⟩⟩
  rw [List.pairwise_map]
  exact (taggedEntries_pairwise rows m.rowCount 0).filter _

/-- The steps of `getSubmatrix(constraint)` on a matrix with well-formed rows
whose columns are sorted within each row and covered by the mask, for a mask
with a set bit: the counting loop completes, the copy loop completes (every
lookup in `bitsSetBeforeIndex` is inside the table and every call of
`addNextValue` returns), a preallocated result has then received as many entries
as were counted, and `finalize()` returns the submatrix. -/
theorem getSubmatrix_steps {T : Type} [Zero T] [One T] [Sub T] [Neg T] (m : SparseMatrix T)
    (hm : m.RowsOK) (constraint : BitVector) (hsize : constraint.bits.length ≤ m.rowCount)
    (hne : constraint.getNumberOfSetBits ≠ 0)
    (rows : Nat → List (Nat × T)) (hrows : ∀ i, i < m.rowCount → m.getRow i = .ok (rows i))
    (hcols : ∀ i, i < m.rowCount → ∀ e, e ∈ rows i → e.1 < constraint.bits.length)
    (hsorted : ∀ i, i < m.rowCount → (rows i).Pairwise (fun a b => a.1 ≤ b.1)) :
    ∃ subEntries result sub,
      getSubmatrix_count m constraint constraint.setBits 0 = some subEntries ∧
      getSubmatrix_copy m constraint (getSubmatrix_bitsSetBeforeIndex constraint.setBits [] 0 0)
        constraint.setBits 0
        (SparseMatrix.create constraint.getNumberOfSetBits constraint.getNumberOfSetBits
          subEntries) = .ok result ∧
      result.entryCount = subEntries ∧
      (result.storagePreallocated = true → result.currentEntryCount = subEntries) ∧
      result.finalize = .ok sub ∧ m.getSubmatrix constraint = .ok sub := by
  obtain ⟨sub, h, -⟩ := getSubmatrix_spec m hm constraint hsize hne rows hrows hcols hsorted
  have h0 := h
  unfold SparseMatrix.getSubmatrix at h
  rw [if_neg hne] at h
  cases hc : getSubmatrix_count m constraint constraint.setBits 0 with
  | none => rw [hc] at h; cases h
  | some subEntries =>
    rw [hc] at h
    simp only at h
    cases hcp : getSubmatrix_copy m constraint
        (getSubmatrix_bitsSetBeforeIndex constraint.setBits [] 0 0) constraint.setBits 0
        (SparseMatrix.create constraint.getNumberOfSetBits constraint.getNumberOfSetBits
          subEntries) with
    | error e => rw [hcp] at h; cases h
    | ok result =>
      rw [hcp] at h
      simp only at h
      cases hf : result.finalize with
      | error e => rw [hf] at h; cases h
      | ok result1 =>
        rw [hf] at h
        simp only [Except.ok.injEq] at h
        subst h
        obtain ⟨c1, c2, -, c4⟩ := getSubmatrix_copy_count m constraint _ _ 0 0 _ _ _ hc hcp
        obtain ⟨-, -, a3, -, -, -, -, -, a9, -⟩ := create_fields (T := T)
          constraint.getNumberOfSetBits constraint.getNumberOfSetBits subEntries
        refine ⟨subEntries, result, result1, rfl, hcp, by rw [c2, a3], fun hp => ?_, hf, h0⟩
        have := c4 (by rw [← c1]; exact hp)
        rw [a9] at this
        omega

theorem slice_eq_nil {α : Type} (v : List α) {s e : Nat} (h : e ≤ s) : slice v s e = [] := by
  unfold slice
  have : e - s = 0 := by omega
  rw [this, List.take_zero]

theorem slice_cons {α : Type} (v : List α) {s e : Nat} (h1 : s < e) (h2 : e ≤ v.length) :
    ∃ h : s < v.length, slice v s e = v[s] :: slice v (s + 1) e := by
  refine ⟨by omega, ?_⟩
  have h3 := slice_succ v s (e - s - 1) (by omega)
  have e1 : s + (e - s - 1 + 1) = e := by omega
  have e2 : s + 1 + (e - s - 1) = e := by omega
  rw [e1, e2] at h3
  exact h3

theorem isSubmatrixOf_skip_eq (cols2 : List Nat) (e2 c : Nat) (he : e2 ≤ cols2.length) :
    ∀ (count elem2 : Nat), elem2 + count = e2 →
      ∃ q, isSubmatrixOf_skip cols2 e2 c count elem2 = some q ∧ elem2 ≤ q ∧ q ≤ e2 ∧
        slice cols2 q e2 = (slice cols2 elem2 e2).dropWhile (fun c2 => c2 < c) := by
  intro count
  induction count with
  | zero =>
    intro elem2 h
    refine ⟨elem2, rfl, le_refl _, by omega, ?_⟩
    rw [slice_eq_nil cols2 (show e2 ≤ elem2 by omega)]
    rfl
  | succ n ih =>
    intro elem2 h
    obtain ⟨hlt, hs⟩ := slice_cons cols2 (show elem2 < e2 by omega) he
    simp only [isSubmatrixOf_skip, show elem2 < e2 by omega, if_true, readAt,
      List.getElem?_eq_getElem hlt]
    rw [hs, List.dropWhile_cons]
    by_cases hc : cols2[elem2] < c
    · simp only [hc, if_true, decide_True]
      exact (ih (elem2 + 1) (by omega)).imp (fun q hq => ⟨hq.1, by omega, hq.2.2.1, hq.2.2.2⟩)
    · simp only [hc, if_false, decide_False]
      exact ⟨elem2, rfl, le_refl _, by omega, hs⟩

theorem isSubmatrixOf_row_eq (cols cols2 : List Nat) (e2 : Nat) (he : e2 ≤ cols2.length) :
    ∀ (count elem elem2 : Nat), elem + count ≤ cols.length → elem2 ≤ e2 →
      isSubmatrixOf_row cols cols2 e2 count elem elem2 =
        some (includedSorted (slice cols elem (elem + count)) (slice cols2 elem2 e2)) := by
  intro count
  induction count with
  | zero =>
    intro elem elem2 _ _
    rw [slice_eq_nil cols (show elem + 0 ≤ elem by omega)]
    rfl
  | succ n ih =>
    intro elem elem2 h1 h2
    obtain ⟨hlt, hs⟩ := slice_cons cols (show elem < elem + (n + 1) by omega) h1
    rw [hs]
    simp only [isSubmatrixOf_row, includedSorted]
    by_cases hlt2 : elem2 < e2
    · obtain ⟨q, q1, q2, q3, q4⟩ := isSubmatrixOf_skip_eq cols2 e2 cols[elem] he (e2 - elem2) elem2
        (by omega)
      simp only [hlt2, if_true, readAt, List.getElem?_eq_getElem hlt, q1]
      rw [← q4]
      by_cases hq : q < e2
      · obtain ⟨hltq, hsq⟩ := slice_cons cols2 hq he
        simp only [hq, if_true, List.getElem?_eq_getElem hltq]
        rw [hsq]
        simp only
        by_cases hne : cols[elem] ≠ cols2[q]
        · simp only [hne, if_true, ne_eq, not_false_eq_true]
        · simp only [hne, if_false]
          rw [← hsq]
          have := ih (elem + 1) q (by omega) q3
          rw [this]
          have e : elem + 1 + n = elem + (n + 1) := by omega
          rw [e]
      · simp only [hq, if_false]
        rw [slice_eq_nil cols2 (show e2 ≤ q by omega)]
    · simp only [hlt2, if_false]
      rw [slice_eq_nil cols2 (show e2 ≤ elem2 by omega)]
      rfl

theorem includedSorted_iff : ∀ (as bs : List Nat), as.Pairwise (fun a b => a ≤ b) →
    bs.Pairwise (fun a b => a ≤ b) → (includedSorted as bs = true ↔ ∀ c, c ∈ as → c ∈ bs) := by
  intro as
  induction as with
  | nil => intro bs _ _; simp [includedSorted]
  | cons c as ih =>
    intro bs ha hb
    have hsplit := List.takeWhile_append_dropWhile (fun c2 => decide (c2 < c)) bs
    have hpre : ∀ x, x ∈ bs.takeWhile (fun c2 => decide (c2 < c)) → x < c := by
      intro x hx
      simpa using List.mem_takeWhile_imp hx
    rw [List.pairwise_cons] at ha
    simp only [includedSorted]
    cases hd : bs.dropWhile (fun c2 => decide (c2 < c)) with
    | nil =>
      rw [hd, List.append_nil] at hsplit
      simp only [Bool.false_eq_true, false_iff]
      intro hall
      have := hall c (List.mem_cons_self _ _)
      rw [← hsplit] at this
      exact absurd (hpre c this) (lt_irrefl c)
    | cons c2 rest =>
      rw [hd] at hsplit
      have hc2 : ¬ c2 < c := by
        have := List.head_dropWhile_not (fun c2 => decide (c2 < c)) bs (by rw [hd]; simp)
        simp only [hd, List.head_cons, decide_eq_false_iff_not] at this
        exact this
      have hsuf : (c2 :: rest).Pairwise (fun a b => a ≤ b) := by
        rw [← hsplit] at hb
        exact (List.pairwise_append.1 hb).2.1
      simp only
      by_cases hne : c ≠ c2
      · simp only [hne, if_true, ne_eq, not_false_eq_true, Bool.false_eq_true, false_iff]
        intro hall
        have hmem := hall c (List.mem_cons_self _ _)
        rw [← hsplit, List.mem_append] at hmem
        rcases hmem with h | h
        · exact absurd (hpre c h) (lt_irrefl c)
        · rcases List.mem_cons.1 h with h | h
          · exact hne h
          · have := (List.pairwise_cons.1 hsuf).1 c h
            omega
      · simp only [hne, if_false]
        simp only [ne_eq, not_not] at hne
        subst hne
        rw [ih (c :: rest) ha.2 hsuf]
        constructor
        · intro hall x hx
          rw [← hsplit]
          rcases List.mem_cons.1 hx with h | h
          · subst h
            exact List.mem_append_right _ (List.mem_cons_self _ _)
          · exact List.mem_append_right _ (hall x h)
        · intro hall x hx
          have hmem := hall x (List.mem_cons_of_mem _ hx)
          rw [← hsplit, List.mem_append] at hmem
          rcases hmem with h | h
          · have := hpre x h
            have := ha.1 x hx
            omega
          · exact h

theorem getRow_map_fst {T : Type} {m : SparseMatrix T} (hm : m.RowsOK) {i : Nat}
    (hi : i < m.rowCount) {es : List (Nat × T)} (h : m.getRow i = .ok es) :
    es.map (fun e => e.1) =
      slice m.columnIndications (nth m.rowIndications i) (nth m.rowIndications (i + 1)) := by
  rw [getRow_eq hm hi] at h
  have h2 := Except.ok.inj h
  have hec : nth m.rowIndications (i + 1) ≤ m.columnIndications.length :=
    hm.1.le_bound (by omega)
  have hev : nth m.rowIndications (i + 1) ≤ m.valueStorage.length :=
    le_trans (hm.1.mono m.rowCount (i + 1) (by omega) (le_refl _)) hm.2
  rw [← h2]
  exact List.map_fst_zip _ _ (by rw [length_slice _ _ _ hec, length_slice _ _ _ hev])

theorem getRow_map_snd {T : Type} {m : SparseMatrix T} (hm : m.RowsOK) {i : Nat}
    (hi : i < m.rowCount) {es : List (Nat × T)} (h : m.getRow i = .ok es) :
    es.map (fun e => e.2) =
      slice m.valueStorage (nth m.rowIndications i) (nth m.rowIndications (i + 1)) := by
  rw [getRow_eq hm hi] at h
  have h2 := Except.ok.inj h
  have hec : nth m.rowIndications (i + 1) ≤ m.columnIndications.length :=
    hm.1.le_bound (by omega)
  have hev : nth m.rowIndications (i + 1) ≤ m.valueStorage.length :=
    le_trans (hm.1.mono m.rowCount (i + 1) (by omega) (le_refl _)) hm.2
  rw [← h2]
  exact List.map_snd_zip _ _ (by rw [length_slice _ _ _ hec, length_slice _ _ _ hev])

theorem slice_take {α : Type} (v : List α) (s e k : Nat) :
    (slice v s e).take k = slice v s (min e (s + k)) := by
  unfold slice
  rw [List.take_take]
  congr 1
  omega

theorem isSubmatrixOf_rows_spec {T : Type} (A B : SparseMatrix T) (hA : A.RowsOK) (hB : B.RowsOK)
    (hrc : A.rowCount = B.rowCount) :
    ∀ (count row : Nat), row + count ≤ A.rowCount →
      ∃ b, isSubmatrixOf_rows A B count row = .ok b ∧
        (b = true ↔ ∀ r, row ≤ r → r < row + count →
          includedSorted
            (slice A.columnIndications (nth A.rowIndications r)
              (min (nth A.rowIndications (r + 1)) (nth B.rowIndications (r + 1))))
            (slice B.columnIndications (nth B.rowIndications r) (nth B.rowIndications (r + 1)))
            = true) := by
  intro count
  induction count with
  | zero =>
    intro row _
    exact ⟨true, rfl, by simp; intro r h1 h2; omega⟩
  | succ n ih =>
    intro row h
    obtain ⟨b, ib, ih2⟩ := ih (row + 1) (by omega)
    have r1 := hA.1.readAt (i := row) (by omega)
    have r2 := hB.1.readAt (i := row) (by omega)
    have r3 := hA.1.readAt (i := row + 1) (by omega)
    have r4 := hB.1.readAt (i := row + 1) (by omega)
    have hse : nth A.rowIndications row ≤ nth A.rowIndications (row + 1) := hA.1.2.1 row (by omega)
    have hse2 : nth B.rowIndications row ≤ nth B.rowIndications (row + 1) :=
      hB.1.2.1 row (by omega)
    have hec : nth A.rowIndications (row + 1) ≤ A.columnIndications.length :=
      hA.1.le_bound (by omega)
    have hec2 : nth B.rowIndications (row + 1) ≤ B.columnIndications.length :=
      hB.1.le_bound (by omega)
    have hstep : ∀ (x : Bool), x = includedSorted
          (slice A.columnIndications (nth A.rowIndications row)
            (min (nth A.rowIndications (row + 1)) (nth B.rowIndications (row + 1))))
          (slice B.columnIndications (nth B.rowIndications row)
            (nth B.rowIndications (row + 1))) →
        ((x = true ∧ b = true) ↔ ∀ r, row ≤ r → r < row + (n + 1) →
          includedSorted
            (slice A.columnIndications (nth A.rowIndications r)
              (min (nth A.rowIndications (r + 1)) (nth B.rowIndications (r + 1))))
            (slice B.columnIndications (nth B.rowIndications r) (nth B.rowIndications (r + 1)))
            = true) := by
      intro x hx
      rw [ih2, hx]
      constructor
      · rintro ⟨h1, h2⟩ r hr1 hr2
        by_cases hr : r = row
        · subst hr; exact h1
        · exact h2 r (by omega) (by omega)
      · intro hall
        exact ⟨hall row (le_refl _) (by omega), fun r hr1 hr2 => hall r (by omega) (by omega)⟩
    simp only [isSubmatrixOf_rows, r1, r2, r3]
    by_cases hlt : nth A.rowIndications row < nth A.rowIndications (row + 1)
    · simp only [hlt, if_true, r4]
      rw [isSubmatrixOf_row_eq _ _ _ hec2 _ _ _ (by omega) hse2]
      have hsl : slice A.columnIndications (nth A.rowIndications row)
          (nth A.rowIndications row +
            (min (nth A.rowIndications (row + 1)) (nth B.rowIndications (row + 1)) -
              nth A.rowIndications row)) =
          slice A.columnIndications (nth A.rowIndications row)
            (min (nth A.rowIndications (row + 1)) (nth B.rowIndications (row + 1))) := by
        unfold slice
        congr 1
        omega
      rw [hsl]
      cases hx : includedSorted
          (slice A.columnIndications (nth A.rowIndications row)
            (min (nth A.rowIndications (row + 1)) (nth B.rowIndications (row + 1))))
          (slice B.columnIndications (nth B.rowIndications row)
            (nth B.rowIndications (row + 1))) with
      | false =>
        refine ⟨false, rfl, ?_⟩
        have := hstep false hx.symm
        simp only [Bool.false_eq_true, false_and, false_iff] at this
        simp only [Bool.false_eq_true, false_iff]
        exact this
      | true =>
        refine ⟨b, ib, ?_⟩
        have := hstep true hx.symm
        simp only [true_and] at this
        exact this
    · simp only [hlt, if_false]
      refine ⟨b, ib, ?_⟩
      have hnil : slice A.columnIndications (nth A.rowIndications row)
          (min (nth A.rowIndications (row + 1)) (nth B.rowIndications (row + 1))) = [] :=
        slice_eq_nil _ (by omega)
      have := hstep true (by rw [hnil]; rfl)
      simp only [true_and] at this
      exact this

/-- What `isSubmatrixOf` decides for two matrices with well-formed rows whose
columns do not decrease within a row: the call returns, and it returns `true`
exactly when the row counts and the column counts agree and, in every row `r`,
each of the first `matrix.rowIndications[r + 1] - rowIndications[r]` entries of
the row of `this` has its column among the columns of row `r` of `matrix`.  The
remaining entries of the row are not looked at. -/
theorem isSubmatrixOf_spec {T : Type} (A B : SparseMatrix T) (hA : A.RowsOK) (hB : B.RowsOK)
    (rowsA rowsB : Nat → List (Nat × T))
    (hrowsA : ∀ i, i < A.rowCount → A.getRow i = .ok (rowsA i))
    (hrowsB : ∀ i, i < B.rowCount → B.getRow i = .ok (rowsB i))
    (hsA : ∀ i, i < A.rowCount → (rowsA i).Pairwise (fun a b => a.1 ≤ b.1))
    (hsB : ∀ i, i < B.rowCount → (rowsB i).Pairwise (fun a b => a.1 ≤ b.1)) :
    ∃ b, A.isSubmatrixOf B = .ok b ∧
      (b = true ↔ A.rowCount = B.rowCount ∧ A.columnCount = B.columnCount ∧
        ∀ r, r < A.rowCount →
          ∀ e, e ∈ (rowsA r).take (nth B.rowIndications (r + 1) - nth A.rowIndications r) →
            ∃ e2, e2 ∈ rowsB r ∧ e2.1 = e.1) := by
  unfold SparseMatrix.isSubmatrixOf
  by_cases hrc : A.rowCount = B.rowCount
  swap
  · rw [if_pos hrc]
    exact ⟨false, rfl, by simp [hrc]⟩
  rw [if_neg (not_not.2 hrc)]
  by_cases hcc : A.columnCount = B.columnCount
  swap
  · rw [if_pos hcc]
    exact ⟨false, rfl, by simp [hcc]⟩
  rw [if_neg (not_not.2 hcc)]
  obtain ⟨b, h1, h2⟩ := isSubmatrixOf_rows_spec A B hA hB hrc A.rowCount 0 (by omega)
  refine ⟨b, h1, ?_⟩
  rw [h2]
  simp only [hrc, hcc, true_and, Nat.zero_add, Nat.zero_le, true_implies]
  apply forall_congr'
  intro r
  apply imp_congr_right
  intro hr
  have hrA : r < A.rowCount := by omega
  have fA := getRow_map_fst hA hrA (hrowsA r hrA)
  have fB := getRow_map_fst hB hr (hrowsB r hr)
  have hse : nth A.rowIndications r ≤ nth A.rowIndications (r + 1) := hA.1.2.1 r hrA
  have hcut : slice A.columnIndications (nth A.rowIndications r)
      (min (nth A.rowIndications (r + 1)) (nth B.rowIndications (r + 1))) =
      ((rowsA r).take (nth B.rowIndications (r + 1) - nth A.rowIndications r)).map
        (fun e => e.1) := by
    rw [List.map_take, fA, slice_take]
    unfold slice
    congr 1
    omega
  have sA : ((rowsA r).take (nth B.rowIndications (r + 1) - nth A.rowIndications r)).map
      (fun e => e.1) |>.Pairwise (fun a b => a ≤ b) := by
    rw [List.pairwise_map]
    exact (hsA r hrA).sublist (List.take_sublist _ _)
  have sB : ((rowsB r).map (fun e => e.1)).Pairwise (fun a b => a ≤ b) := by
    rw [List.pairwise_map]
    exact hsB r hr
  rw [hcut, ← fB, includedSorted_iff _ _ sA sB]
  constructor
  · intro hall e he
    have := hall e.1 (List.mem_map.2 ⟨e, he, rfl⟩)
    obtain ⟨e2, h3, h4⟩ := List.mem_map.1 this
    exact ⟨e2, h3, h4⟩
  · intro hall c hc
    obtain ⟨e, h3, h4⟩ := List.mem_map.1 hc
    obtain ⟨e2, h5, h6⟩ := hall e h3
    exact List.mem_map.2 ⟨e2, h5, by rw [h6, h4]⟩

/-- The half of the pattern test that `isSubmatrixOf` gets right: when the
counts agree and every column stored in a row of `this` is stored in the same
row of `matrix`, the call returns `true`. -/
theorem isSubmatrixOf_of_included {T : Type} (A B : SparseMatrix T) (hA : A.RowsOK)
    (hB : B.RowsOK) (rowsA rowsB : Nat → List (Nat × T))
    (hrowsA : ∀ i, i < A.rowCount → A.getRow i = .ok (rowsA i))
    (hrowsB : ∀ i, i < B.rowCount → B.getRow i = .ok (rowsB i))
    (hsA : ∀ i, i < A.rowCount → (rowsA i).Pairwise (fun a b => a.1 ≤ b.1))
    (hsB : ∀ i, i < B.rowCount → (rowsB i).Pairwise (fun a b => a.1 ≤ b.1))
    (hrc : A.rowCount = B.rowCount) (hcc : A.columnCount = B.columnCount)
    (hinc : ∀ r, r < A.rowCount → ∀ e, e ∈ rowsA r → ∃ e2, e2 ∈ rowsB r ∧ e2.1 = e.1) :
    A.isSubmatrixOf B = .ok true := by
  obtain ⟨b, h1, h2⟩ := isSubmatrixOf_spec A B hA hB rowsA rowsB hrowsA hrowsB hsA hsB
  have : b = true :=
    h2.2 ⟨hrc, hcc, fun r hr e he => hinc r hr e (List.mem_of_mem_take he)⟩
  rw [h1, this]

/-- A matrix with well-formed rows whose columns do not decrease within a row is
a submatrix of itself. -/
theorem isSubmatrixOf_self {T : Type} (A : SparseMatrix T) (hA : A.RowsOK)
    (rows : Nat → List (Nat × T)) (hrows : ∀ i, i < A.rowCount → A.getRow i = .ok (rows i))
    (hs : ∀ i, i < A.rowCount → (rows i).Pairwise (fun a b => a.1 ≤ b.1)) :
    A.isSubmatrixOf A = .ok true :=
  isSubmatrixOf_of_included A A hA hA rows rows hrows hrows hs hs rfl rfl
    (fun _ _ e he => ⟨e, he, rfl⟩)

theorem set_eq_self_of_getElem? {α : Type} {l : List α} {i : Nat} {x : α}
    (h : l[i]? = some x) : l.set i x = l := by
  apply List.ext_getElem?
  intro k
  rw [List.getElem?_set]
  split_ifs with h1 h2
  · subst h1; exact h.symm
  · subst h1
    rw [List.getElem?_eq_none (by omega)]
  · rfl

theorem zip_slice_cons {α β : Type} (a : List α) (b : List β) {s e : Nat} (h1 : s < e)
    (ha : e ≤ a.length) (hb : e ≤ b.length) :
    ∃ (h2 : s < a.length) (h3 : s < b.length),
      List.zip (slice a s e) (slice b s e) =
        (a[s], b[s]) :: List.zip (slice a (s + 1) e) (slice b (s + 1) e) := by
  obtain ⟨p1, p2⟩ := slice_cons a h1 ha
  obtain ⟨q1, q2⟩ := slice_cons b h1 hb
  exact ⟨p1, q1, by rw [p2, q2, List.zip_cons_cons]⟩

theorem getPointwiseProductRowSumVector_row_eq {T : Type} [Add T] [Mul T]
    (m otherMatrix : SparseMatrix T) (row e2 : Nat)
    (hc2 : e2 ≤ otherMatrix.columnIndications.length)
    (hv2 : e2 ≤ otherMatrix.valueStorage.length) :
    ∀ (count element next : Nat) (result : List T) (x : T),
      element + count ≤ m.columnIndications.length →
      element + count ≤ m.valueStorage.length → next ≤ e2 → result[row]? = some x →
      getPointwiseProductRowSumVector_row m otherMatrix row e2 count element next result =
        some (result.set row (pointwiseProductSum x
          (List.zip (slice m.columnIndications element (element + count))
            (slice m.valueStorage element (element + count)))
          (List.zip (slice otherMatrix.columnIndications next e2)
            (slice otherMatrix.valueStorage next e2)))) := by
  intro count
  induction count with
  | zero =>
    intro element next result x _ _ _ hx
    rw [slice_eq_nil m.columnIndications (show element + 0 ≤ element by omega)]
    simp only [getPointwiseProductRowSumVector_row, List.zip_nil_left, pointwiseProductSum]
    rw [set_eq_self_of_getElem? hx]
  | succ n ih =>
    intro element next result x h1 h2 h3 hx
    obtain ⟨a1, a2, a3⟩ := zip_slice_cons m.columnIndications m.valueStorage
      (show element < element + (n + 1) by omega) h1 h2
    have e : element + 1 + n = element + (n + 1) := by omega
    rw [a3]
    by_cases hlt : next < e2
    · obtain ⟨b1, b2, b3⟩ := zip_slice_cons otherMatrix.columnIndications
        otherMatrix.valueStorage hlt hc2 hv2
      rw [b3]
      simp only [getPointwiseProductRowSumVector_row, hlt, if_true, readAt,
        List.getElem?_eq_getElem a1, List.getElem?_eq_getElem a2, List.getElem?_eq_getElem b1,
        List.getElem?_eq_getElem b2, pointwiseProductSum]
      by_cases hcol : m.columnIndications[element] < otherMatrix.columnIndications[next]
      · simp only [hcol, if_true]
        rw [ih (element + 1) next result x (by omega) (by omega) h3 hx, e, b3]
      · simp only [hcol, if_false, hx]
        have hrow : row < result.length := by
          by_contra hcon
          rw [List.getElem?_eq_none (by omega)] at hx
          cases hx
        rw [writeAt_of_lt _ hrow]
        simp only
        rw [ih (element + 1) (next + 1) _ (x + otherMatrix.valueStorage[next] *
          m.valueStorage[element]) (by omega) (by omega) (by omega)
          (by rw [List.getElem?_set_self hrow]), e, List.set_set]
    · simp only [getPointwiseProductRowSumVector_row, hlt, if_false]
      rw [slice_eq_nil otherMatrix.columnIndications (show e2 ≤ next by omega)]
      simp only [List.zip_nil_left, pointwiseProductSum]
      rw [set_eq_self_of_getElem? hx]

theorem rowValue_cons_of_ne {T : Type} [Zero T] [Add T] (c : Nat) (v : T) (es : List (Nat × T))
    {j : Nat} (h : c ≠ j) : rowValue ((c, v) :: es) j = rowValue es j := by
  unfold rowValue
  rw [List.filter_cons_of_neg (by simpa using h)]

theorem rowValue_of_not_mem {T : Type} [Zero T] [Add T] (es : List (Nat × T)) (j : Nat)
    (h : ∀ e, e ∈ es → e.1 ≠ j) : rowValue es j = 0 := by
  unfold rowValue
  have : es.filter (fun e => e.1 = j) = [] := by
    rw [List.filter_eq_nil_iff]
    intro e he
    simpa using h e he
  rw [this]
  rfl

/-- The inner loop of `getPointwiseProductRowSumVector` on two rows with
strictly increasing columns, when every column of `bs` occurs in `as`: it adds to
`acc`, for every entry `(j, w)` of `bs`, the product of the value of `as` at
column `j` and `w`. -/
theorem pointwiseProductSum_spec {T : Type} [CommSemiring T] :
    ∀ (as bs : List (Nat × T)) (acc : T), as.Pairwise (fun a b => a.1 < b.1) →
      bs.Pairwise (fun a b => a.1 < b.1) → (∀ e, e ∈ bs → ∃ e2, e2 ∈ as ∧ e2.1 = e.1) →
      pointwiseProductSum acc as bs = acc + (bs.map (fun e => rowValue as e.1 * e.2)).sum := by
  intro as
  induction as with
  | nil =>
    intro bs acc _ _ hinc
    have : bs = [] := by
      cases bs with
      | nil => rfl
      | cons b t =>
        obtain ⟨e2, h, -⟩ := hinc b (List.mem_cons_self _ _)
        cases h
    subst this
    simp [pointwiseProductSum]
  | cons a as ih =>
    intro bs acc hsa hsb hinc
    obtain ⟨c, v⟩ := a
    cases bs with
    | nil => simp [pointwiseProductSum]
    | cons b bs =>
      obtain ⟨c2, v2⟩ := b
      rw [List.pairwise_cons] at hsa hsb
      simp only [pointwiseProductSum]
      by_cases hlt : c < c2
      · simp only [hlt, if_true]
        have hge : ∀ e, e ∈ (c2, v2) :: bs → c < e.1 := by
          intro e he
          rcases List.mem_cons.1 he with h | h
          · subst h; exact hlt
          · have := hsb.1 e h
            simp only at this
            omega
        rw [ih ((c2, v2) :: bs) acc hsa.2 (List.pairwise_cons.2 hsb) (by
          intro e he
          obtain ⟨e2, h1, h2⟩ := hinc e he
          rcases List.mem_cons.1 h1 with h | h
          · subst h
            have := hge e he
            simp only at h2
            omega
          · exact ⟨e2, h, h2⟩)]
        congr 1
        congr 1
        apply List.map_congr_left
        intro e he
        rw [rowValue_cons_of_ne c v as (by have := hge e he; omega)]
      · simp only [hlt, if_false]
        have hc : c = c2 := by
          obtain ⟨e2, h1, h2⟩ := hinc (c2, v2) (List.mem_cons_self _ _)
          rcases List.mem_cons.1 h1 with h | h
          · subst h; exact h2
          · have := hsa.1 e2 h
            simp only at this h2
            omega
        subst hc
        have hgt : ∀ e, e ∈ bs → c < e.1 := fun e he => hsb.1 e he
        rw [ih bs (acc + v2 * v) hsa.2 hsb.2 (by
          intro e he
          obtain ⟨e2, h1, h2⟩ := hinc e (List.mem_cons_of_mem _ he)
          rcases List.mem_cons.1 h1 with h | h
          · subst h
            have := hgt e he
            simp only at h2
            omega
          · exact ⟨e2, h, h2⟩)]
        have h0 : rowValue as c = 0 := rowValue_of_not_mem as c (by
          intro e he
          have := hsa.1 e he
          simp only at this
          omega)
        have hhead : rowValue ((c, v) :: as) c = v := by
          unfold rowValue
          rw [List.filter_cons_of_pos (by simp)]
          simp only [List.map_cons, List.sum_cons]
          have := h0
          unfold rowValue at this
          rw [this, add_zero]
        have htail : bs.map (fun e => rowValue ((c, v) :: as) e.1 * e.2) =
            bs.map (fun e => rowValue as e.1 * e.2) := by
          apply List.map_congr_left
          intro e he
          rw [rowValue_cons_of_ne c v as (by have := hgt e he; omega)]
        simp only [List.map_cons, List.sum_cons, hhead, htail]
        ring

theorem exampleSubPattern_finalized : Finalized exampleSubPattern :=
  ⟨Reachable.finalize (m := _)
    (Reachable.addNextValue 1 1 4
      (Reachable.addNextValue 0 1 2 (Reachable.create 2 2 2) rfl) rfl) rfl, rfl⟩

theorem getPointwiseProductRowSumVector_rows_spec {T : Type} [Add T] [Mul T]
    (A B : SparseMatrix T) (hA : A.RowsOK) (hB : B.RowsOK) (rowsA rowsB : Nat → List (Nat × T))
    (hrowsA : ∀ i, i < A.rowCount → A.getRow i = .ok (rowsA i))
    (hrowsB : ∀ i, i < B.rowCount → B.getRow i = .ok (rowsB i)) :
    ∀ (count row : Nat) (result : List T), row + count ≤ A.rowCount →
      row + count ≤ B.rowCount → result.length = A.rowCount →
      ∃ result1, getPointwiseProductRowSumVector_rows A B count row result = .ok result1 ∧
        result1.length = A.rowCount ∧
        ∀ k, result1[k]? = if row ≤ k ∧ k < row + count then
          (result[k]?).map (fun x => pointwiseProductSum x (rowsA k) (rowsB k)) else result[k]? := by
  intro count
  induction count with
  | zero =>
    intro row result _ _ hl
    refine ⟨result, rfl, hl, fun k => ?_⟩
    rw [if_neg (by omega)]
  | succ n ih =>
    intro row result h1 h2 hl
    have r1 := hA.1.readAt (i := row) (by omega)
    have r2 := hB.1.readAt (i := row) (by omega)
    have r3 := hA.1.readAt (i := row + 1) (by omega)
    have r4 := hB.1.readAt (i := row + 1) (by omega)
    have hse : nth A.rowIndications row ≤ nth A.rowIndications (row + 1) := hA.1.2.1 row (by omega)
    have hse2 : nth B.rowIndications row ≤ nth B.rowIndications (row + 1) :=
      hB.1.2.1 row (by omega)
    have hec : nth A.rowIndications (row + 1) ≤ A.columnIndications.length :=
      hA.1.le_bound (by omega)
    have hev : nth A.rowIndications (row + 1) ≤ A.valueStorage.length :=
      le_trans (hA.1.mono A.rowCount (row + 1) (by omega) (le_refl _)) hA.2
    have hec2 : nth B.rowIndications (row + 1) ≤ B.columnIndications.length :=
      hB.1.le_bound (by omega)
    have hev2 : nth B.rowIndications (row + 1) ≤ B.valueStorage.length :=
      le_trans (hB.1.mono B.rowCount (row + 1) (by omega) (le_refl _)) hB.2
    have hrow : row < result.length := by omega
    have hx : result[row]? = some result[row] := List.getElem?_eq_getElem hrow
    have gA := hrowsA row (by omega)
    have gB := hrowsB row (by omega)
    rw [getRow_eq hA (by omega)] at gA
    rw [getRow_eq hB (by omega)] at gB
    have gA2 := Except.ok.inj gA
    have gB2 := Except.ok.inj gB
    -- the state after the inner loop of this row
    have hstep : ∃ result1,
        (match readAt A.rowIndications row, readAt B.rowIndications row,
            readAt A.rowIndications (row + 1) with
          | some element, some nextOtherElement, some rowEnd =>
            if element < rowEnd then
              match readAt B.rowIndications (row + 1) with
              | none => (.error .OutOfBoundsAccess : Except Exception (List T))
              | some otherRowEnd =>
                match getPointwiseProductRowSumVector_row A B row otherRowEnd
                    (rowEnd - element) element nextOtherElement result with
                | none => .error .OutOfBoundsAccess
                | some result1 => getPointwiseProductRowSumVector_rows A B n (row + 1) result1
            else getPointwiseProductRowSumVector_rows A B n (row + 1) result
          | _, _, _ => .error .OutOfBoundsAccess) =
          getPointwiseProductRowSumVector_rows A B n (row + 1) result1 ∧
        result1 = result.set row (pointwiseProductSum result[row] (rowsA row) (rowsB row)) := by
      simp only [r1, r2, r3]
      by_cases hlt : nth A.rowIndications row < nth A.rowIndications (row + 1)
      · simp only [hlt, if_true, r4]
        rw [getPointwiseProductRowSumVector_row_eq A B row _ hec2 hev2 _ _ _ result result[row]
          (by omega) (by omega) hse2 hx]
        have e : nth A.rowIndications row +
            (nth A.rowIndications (row + 1) - nth A.rowIndications row) =
            nth A.rowIndications (row + 1) := by omega
        rw [e, gA2, gB2]
        exact ⟨_, rfl, rfl⟩
      · simp only [hlt, if_false]
        refine ⟨_, rfl, ?_⟩
        have hnil : rowsA row = [] := by
          rw [← gA2, slice_eq_nil A.columnIndications (show _ ≤ _ by omega)]
          rfl
        rw [hnil]
        simp only [pointwiseProductSum]
        rw [set_eq_self_of_getElem? hx]
    obtain ⟨result1, s1, s2⟩ := hstep
    have hl1 : result1.length = A.rowCount := by rw [s2, List.length_set, hl]
    obtain ⟨result2, i1, i2, i3⟩ := ih (row + 1) result1 (by omega) (by omega) hl1
    refine ⟨result2, ?_, i2, fun k => ?_⟩
    · rw [← i1, ← s1]
      rfl
    · rw [i3 k, s2]
      by_cases hk : row = k
      · subst hk
        rw [if_neg (by omega), if_pos (by omega), List.getElem?_set_self hrow, hx]
        rfl
      · rw [List.getElem?_set_ne hk]
        by_cases hk2 : row + 1 ≤ k ∧ k < row + 1 + n
        · rw [if_pos hk2, if_pos (by omega)]
        · rw [if_neg hk2, if_neg (by omega)]

theorem rowValue_of_mem {T : Type} [AddMonoid T] (es : List (Nat × T))
    (hs : es.Pairwise (fun a b => a.1 < b.1)) (e : Nat × T) (he : e ∈ es) :
    rowValue es e.1 = e.2 := by
  induction es with
  | nil => cases he
  | cons a t ih =>
    rw [List.pairwise_cons] at hs
    rcases List.mem_cons.1 he with h | h
    · subst h
      unfold rowValue
      rw [List.filter_cons_of_pos (by simp)]
      have h0 := rowValue_of_not_mem t e.1 (by
        intro x hx
        have := hs.1 x hx
        omega)
      unfold rowValue at h0
      simp only [List.map_cons, List.sum_cons, h0, add_zero]
    · obtain ⟨c, v⟩ := a
      rw [rowValue_cons_of_ne c v t (by have := hs.1 e h; simp only at this; omega)]
      exact ih hs.2 h

/-- The matrix `exampleSquare` is what the construction protocol yields for the
entries `(0, 0, 5)`, `(0, 1, 3)`, `(1, 1, 7)` of a preallocated 2x2 matrix. -/
theorem exampleSquare_finalized : Finalized exampleSquare :=
  ⟨Reachable.finalize (m := _)
    (Reachable.addNextValue 1 1 7
      (Reachable.addNextValue 0 1 3
        (Reachable.addNextValue 0 0 5 (Reachable.create 2 2 3) rfl) rfl) rfl) rfl, rfl⟩

/-- An assignment between objects of the same construction mode yields a copy
of its source. -/
theorem assign_of_same_mode {T : Type} (m other : SparseMatrix T)
    (h : m.storagePreallocated = other.storagePreallocated) : m.assign other = other := by
  cases m
  cases other
  simp only [SparseMatrix.assign] at h ⊢
  simp only [h]

/-- The calls of `addNextValue` on a finalized matrix obtained without an
assignment across construction modes: `addNextValue` does not look at
`internalStatus`.  A call is rejected only by the range check (preallocated
matrices) and by the order checks, and then the matrix is as before the call.  A
call that passes them is accepted on a matrix built in dynamic mode, where it
appends the value and the column to the stored arrays; on a preallocated matrix
it writes at the storage index `currentEntryCount = entryCount`, which lies
outside the value and column arrays. -/
theorem addNextValue_after_finalize {T : Type} [Zero T] [One T] [Sub T] [Neg T]
    (m : SparseMatrix T) (hm : Finalized m) (row column : Nat) (value : T) :
    ((m.storagePreallocated = true ∧ (row > m.rowCount ∨ column > m.columnCount)) →
      m.addNextValue row column value = .error (.OutOfRangeException, m)) ∧
    (¬(m.storagePreallocated = true ∧ (row > m.rowCount ∨ column > m.columnCount)) →
      ¬ PositionLE (m.lastRow, m.lastColumn) (row, column) →
      m.addNextValue row column value = .error (.InvalidArgumentException, m)) ∧
    (¬(m.storagePreallocated = true ∧ (row > m.rowCount ∨ column > m.columnCount)) →
      PositionLE (m.lastRow, m.lastColumn) (row, column) →
      (m.storagePreallocated = true →
        m.currentEntryCount = m.valueStorage.length ∧
        m.currentEntryCount = m.columnIndications.length ∧
        ∃ s, m.addNextValue row column value = .error (.OutOfBoundsAccess, s) ∧
          s.valueStorage = m.valueStorage ∧ s.columnIndications = m.columnIndications) ∧
      (m.storagePreallocated = false →
        ∃ m2, m.addNextValue row column value = .ok m2 ∧
          m2.valueStorage = m.valueStorage ++ [value] ∧
          m2.columnIndications = m.columnIndications ++ [column] ∧
          m2.internalStatus = .INITIALIZED)) := by
  refine ⟨?_, ?_, ?_⟩
  · intro h
    unfold SparseMatrix.addNextValue
    rw [if_pos h]
  · intro h1 h2
    unfold SparseMatrix.addNextValue
    rw [if_neg h1]
    unfold PositionLE at h2
    simp only at h2
    by_cases h3 : row < m.lastRow
    · rw [if_pos h3]
    · rw [if_neg h3, if_pos (by omega)]
  · intro h1 h2
    unfold PositionLE at h2
    simp only at h2
    have h3 : ¬ row < m.lastRow := by omega
    have h4 : ¬ (row = m.lastRow ∧ column < m.lastColumn) := by omega
    constructor
    · intro hp
      have hinv := hm.1.inv
      obtain ⟨s1, s2, s3⟩ := hinv.sizes hp
      obtain ⟨f1, -, -⟩ := hinv.finalized hp hm.2
      have hrow : row ≤ m.rowCount := by
        by_contra hn
        exact h1 ⟨hp, Or.inl (by omega)⟩
      have hsw : ∃ m1, addNextValue_switchRow m row = some m1 := by
        unfold addNextValue_switchRow
        split_ifs with a1
        · obtain ⟨ri, hri⟩ := fillRowIndications_of_le (row + 1 - (m.lastRow + 1))
            m.rowIndications (m.lastRow + 1) m.currentEntryCount (by omega)
          rw [hri]
          exact ⟨_, rfl⟩
        · exact ⟨_, rfl⟩
      obtain ⟨m1, hm1⟩ := hsw
      obtain ⟨-, -, -, -, a5, a6, a7, -, a9, -⟩ := addNextValue_switchRow_frame hm1
      refine ⟨by rw [f1, s2], by rw [f1, s3], m1, ?_, a6, a7⟩
      unfold SparseMatrix.addNextValue
      rw [if_neg h1, if_neg h3, if_neg h4, hm1]
      simp only
      have hst : addNextValue_store m1 column value = none := by
        unfold addNextValue_store
        rw [a5, hp]
        simp only [if_true]
        have : writeAt m1.valueStorage m1.currentEntryCount value = none := by
          unfold writeAt
          rw [if_neg (by rw [a6, a9, f1, s2]; exact Nat.lt_irrefl _)]
        rw [this]
      rw [hst]
    · intro hp
      have hsw : ∃ m1, addNextValue_switchRow m row = some m1 := by
        unfold addNextValue_switchRow
        by_cases a1 : row ≠ m.lastRow
        · rw [if_pos a1]
          simp only [hp, Bool.false_eq_true, if_false]
          exact ⟨_, rfl⟩
        · rw [if_neg a1]
          exact ⟨_, rfl⟩
      obtain ⟨m1, hm1⟩ := hsw
      obtain ⟨-, -, -, -, a5, a6, a7, a8, a9, -⟩ := addNextValue_switchRow_frame hm1
      have hst : addNextValue_store m1 column value = some
          { m1 with lastColumn := column, valueStorage := m1.valueStorage ++ [value],
                    columnIndications := m1.columnIndications ++ [column] } := by
        unfold addNextValue_store
        rw [a5, hp]
        rfl
      refine ⟨_, addNextValue_eq_ok_iff.2 ⟨h1, h3, h4, m1, hm1, hst⟩, ?_, ?_, ?_⟩
      · simp only [a6]
      · simp only [a7]
      · simp only [a8, hm.2]

/-- The calls of `addNextValue` on the finalized preallocated 2x2 matrix
`exampleSquare` and the call `addNextValue(1, 1, 9)`, which is in range and in
order after the last entry `(1, 1)`. -/
theorem addNextValue_after_finalize_witness :
    Finalized exampleSquare ∧ exampleSquare.storagePreallocated = true ∧
    exampleSquare.currentEntryCount = exampleSquare.valueStorage.length ∧
    ∃ s, exampleSquare.addNextValue 1 1 9 = .error (.OutOfBoundsAccess, s) ∧
      s.valueStorage = exampleSquare.valueStorage :=
  ⟨exampleSquare_finalized, rfl,
   ((addNextValue_after_finalize exampleSquare exampleSquare_finalized 1 1 9).2.2
      (by decide) (Or.inr ⟨rfl, le_refl _⟩)).1 rfl |>.1,
   (((addNextValue_after_finalize exampleSquare exampleSquare_finalized 1 1 9).2.2
      (by decide) (Or.inr ⟨rfl, le_refl _⟩)).1 rfl).2.2.imp (fun _ h => ⟨h.1, h.2.1⟩)⟩

/-- The row views of a finalized matrix obtained without an assignment across
construction modes.  For every row `r < rowCount` the row starts
`rowIndications[r] <= rowIndications[r + 1]` exist, `getRow(r)` is
`getRows(r, r)` and yields `rowIndications[r + 1] - rowIndications[r]` pairs,
the pair number `k - rowIndications[r]` being the column and the value stored at
position `k`; for `lo <= hi < rowCount` the view `getRows(lo, hi)` yields the
pairs of `getRow(lo)`, ..., `getRow(hi)`, one row after the other. -/
theorem getRow_is_row_slice {T : Type} [Zero T] [One T] [Sub T] [Neg T] (m : SparseMatrix T)
    (hm : Finalized m) :
    (∀ r, r < m.rowCount →
      m.getRow r = m.getRows r r ∧
      ∃ s e es, readAt m.rowIndications r = some s ∧ readAt m.rowIndications (r + 1) = some e ∧
        s ≤ e ∧ m.getRow r = .ok es ∧ es.length = e - s ∧
        ∀ k, s ≤ k → k < e → ∃ c v, m.columnIndications[k]? = some c ∧
          m.valueStorage[k]? = some v ∧ es[k - s]? = some (c, v)) ∧
    (∀ lo hi, lo ≤ hi → hi < m.rowCount →
      ∃ rows : Nat → List (Nat × T), (∀ r, lo ≤ r → r ≤ hi → m.getRow r = .ok (rows r)) ∧
        m.getRows lo hi = .ok (joinRows rows lo (hi + 1 - lo))) := by
  have hr := hm.rowsOK
  refine ⟨fun r hlt => ⟨rfl, nth m.rowIndications r, nth m.rowIndications (r + 1), _,
    hr.1.readAt (by omega), hr.1.readAt (by omega), hr.1.2.1 r hlt, getRow_eq hr hlt,
    getRow_length hr hlt (getRow_eq hr hlt), ?_⟩, ?_⟩
  · intro k h1 h2
    have hec : nth m.rowIndications (r + 1) ≤ m.columnIndications.length :=
      hr.1.le_bound (by omega)
    have hev : nth m.rowIndications (r + 1) ≤ m.valueStorage.length :=
      le_trans (hr.1.mono m.rowCount (r + 1) (by omega) (le_refl _)) hr.2
    obtain ⟨a1, a2, a3⟩ := getElem?_zip_slice m.columnIndications m.valueStorage
      (nth m.rowIndications r) (nth m.rowIndications (r + 1)) (k - nth m.rowIndications r)
      hec hev (by omega)
    have e : nth m.rowIndications r + (k - nth m.rowIndications r) = k := by omega
    simp only [e] at a1 a2 a3
    exact ⟨_, _, List.getElem?_eq_getElem a1, List.getElem?_eq_getElem a2, a3⟩
  · intro lo hi h1 h2
    refine ⟨fun r => List.zip
        (slice m.columnIndications (nth m.rowIndications r) (nth m.rowIndications (r + 1)))
        (slice m.valueStorage (nth m.rowIndications r) (nth m.rowIndications (r + 1))),
      fun r _ h4 => getRow_eq hr (by omega), ?_⟩
    exact getRows_eq_joinRows hr h1 h2 _ (fun r _ h4 => getRow_eq hr (by omega))

/-- The row views of the finalized 2x2 matrix `exampleSquare`. -/
theorem getRow_is_row_slice_witness :
    Finalized exampleSquare ∧
    ((∀ r, r < exampleSquare.rowCount →
      exampleSquare.getRow r = exampleSquare.getRows r r ∧
      ∃ s e es, readAt exampleSquare.rowIndications r = some s ∧
        readAt exampleSquare.rowIndications (r + 1) = some e ∧
        s ≤ e ∧ exampleSquare.getRow r = .ok es ∧ es.length = e - s ∧
        ∀ k, s ≤ k → k < e → ∃ c v, exampleSquare.columnIndications[k]? = some c ∧
          exampleSquare.valueStorage[k]? = some v ∧ es[k - s]? = some (c, v)) ∧
    (∀ lo hi, lo ≤ hi → hi < exampleSquare.rowCount →
      ∃ rows : Nat → List (Nat × Int),
        (∀ r, lo ≤ r → r ≤ hi → exampleSquare.getRow r = .ok (rows r)) ∧
        exampleSquare.getRows lo hi = .ok (joinRows rows lo (hi + 1 - lo)))) :=
  ⟨exampleSquare_finalized, getRow_is_row_slice exampleSquare exampleSquare_finalized⟩

/-- The frame of `makeRowAbsorbing(r, c)` on a finalized matrix obtained without
an assignment across construction modes, for a row `r < rowCount` that stores at
least one entry: the call returns and leaves the row starts, `rowCount`,
`columnCount` and `entryCount` as they were; every other row reads as before,
and the value and the column at every storage position outside the positions of
row `r` are unchanged. -/
theorem makeRowAbsorbing_touches_only_its_row {T : Type} [Zero T] [One T] [Sub T] [Neg T]
    (m : SparseMatrix T) (hm : Finalized m) (r c : Nat) (hr : r < m.rowCount)
    (es : List (Nat × T)) (hes : m.getRow r = .ok es) (hne : es ≠ []) :
    ∃ m1, m.makeRowAbsorbing r c = .ok m1 ∧ m1.rowIndications = m.rowIndications ∧
      m1.rowCount = m.rowCount ∧ m1.columnCount = m.columnCount ∧
      m1.entryCount = m.entryCount ∧
      (∀ r2, r2 < m.rowCount → r2 ≠ r → m1.getRow r2 = m.getRow r2) ∧
      (∀ k, k < nth m.rowIndications r ∨ nth m.rowIndications (r + 1) ≤ k →
        m1.valueStorage[k]? = m.valueStorage[k]? ∧
        m1.columnIndications[k]? = m.columnIndications[k]?) := by
  have hro := hm.rowsOK
  have hlt : nth m.rowIndications r < nth m.rowIndications (r + 1) := by
    by_contra hcon
    have := (getRow_eq_nil_iff hro hr).2 (by omega)
    rw [hes] at this
    exact hne (Except.ok.inj this)
  obtain ⟨m1, h1, h2, h3⟩ := makeRowAbsorbing_frame hro c hr hlt
  obtain ⟨s1, s2, s3, -, s5, s6, s7, -, -, -, -⟩ := h2
  have hro1 : m1.RowsOK := by
    unfold SparseMatrix.RowsOK
    rw [s7, s1, s5, s6]
    exact hro
  refine ⟨m1, h1, s7, s1, s2, s3, fun r2 hr2 hne2 => ?_, h3⟩
  rw [getRow_eq hro hr2, getRow_eq hro1 (by rw [s1]; exact hr2), s7]
  have hout : ∀ k, nth m.rowIndications r2 ≤ k → k < nth m.rowIndications (r2 + 1) →
      k < nth m.rowIndications r ∨ nth m.rowIndications (r + 1) ≤ k := by
    intro k k1 k2
    rcases Nat.lt_or_gt_of_ne hne2 with hlt2 | hgt2
    · left
      exact lt_of_lt_of_le k2 (hro.1.mono r (r2 + 1) (by omega) (by omega))
    · right
      exact le_trans (hro.1.mono r2 (r + 1) (by omega) (by omega)) k1
  rw [slice_congr (fun k k1 k2 => (h3 k (hout k k1 k2)).1),
    slice_congr (fun k k1 k2 => (h3 k (hout k k1 k2)).2)]

/-- The frame of `makeRowAbsorbing(0, 1)` on the finalized 2x2 matrix
`exampleSquare`, whose row 0 is `(0, 5), (1, 3)`. -/
theorem makeRowAbsorbing_touches_only_its_row_witness :
    Finalized exampleSquare ∧ 0 < exampleSquare.rowCount ∧
    exampleSquare.getRow 0 = .ok [(0, 5), (1, 3)] ∧
    ∃ m1, exampleSquare.makeRowAbsorbing 0 1 = .ok m1 ∧
      m1.rowIndications = exampleSquare.rowIndications ∧
      m1.rowCount = exampleSquare.rowCount ∧ m1.columnCount = exampleSquare.columnCount ∧
      m1.entryCount = exampleSquare.entryCount ∧
      (∀ r2, r2 < exampleSquare.rowCount → r2 ≠ 0 → m1.getRow r2 = exampleSquare.getRow r2) ∧
      (∀ k, k < nth exampleSquare.rowIndications 0 ∨ nth exampleSquare.rowIndications (0 + 1) ≤ k →
        m1.valueStorage[k]? = exampleSquare.valueStorage[k]? ∧
        m1.columnIndications[k]? = exampleSquare.columnIndications[k]?) :=
  ⟨exampleSquare_finalized, by decide, rfl,
    makeRowAbsorbing_touches_only_its_row exampleSquare exampleSquare_finalized 0 1 (by decide)
      [(0, 5), (1, 3)] rfl (by simp)⟩

/-! ## The claims -/

/-- C1 (code defect): a preallocated 1x1 matrix with one declared entry accepts
`addNextValue(1, 0, 5)` (row 1 does not exist) and `finalize()` succeeds; then
`getRow(0)` yields `(0, 5)` although no entry was inserted with row 0. -/
theorem roundTrip_preallocated_row_eq_rowCount :
    ∃ m : SparseMatrix Int, build 1 1 1 [(1, 0, 5)] = .ok m ∧ m.rowCount = 1 ∧
      m.getRow 0 = .ok [(0, 5)] ∧ insertedInRow [((1 : Nat), (0 : Nat), (5 : Int))] 0 = [] :=
  ⟨_, rfl, rfl, rfl, rfl⟩

/-- C2 (code defect): in dynamic mode (`entries = 0`) the entries `(0, 0, 5)`,
`(1, 1, 7)` are accepted in order and `finalize()` succeeds, but `getRow(0)`
yields nothing instead of `(0, 5)`, whichever way `prepareInternalStorage` sets
up the vectors; with sized vectors `getRow(1)` is empty as well. -/
theorem roundTrip_dynamic_rows_empty :
    insertedInRow [((0 : Nat), (0 : Nat), (5 : Int)), (1, 1, 7)] 0 = [(0, 5)] ∧
    (∃ m : SparseMatrix Int, buildWith true 2 2 0 [(0, 0, 5), (1, 1, 7)] = .ok m ∧
      m.getRow 0 = .ok [] ∧ m.getRow 1 = .ok []) ∧
    (∃ m : SparseMatrix Int, buildWith false 2 2 0 [(0, 0, 5), (1, 1, 7)] = .ok m ∧
      m.getRow 0 = .ok [] ∧ m.getRow 1 = .error .OutOfBoundsAccess) :=
  ⟨rfl, ⟨_, rfl, rfl, rfl⟩, ⟨_, rfl, rfl, rfl⟩⟩

/-- C3, as stated, fails: on the preallocated 2x2 matrix whose last accepted
entry is at `(1, 0)`, `addNextValue(0, 3, 7)` moves back to row 0, yet it is
rejected by the range check, which comes first, with an OutOfRange error. -/
theorem order_violation_reported_out_of_range :
    (SparseMatrix.create 2 2 2).addNextValue 1 0 5 = .ok exampleBuilding ∧ 0 < 1 ∧
    exampleBuilding.addNextValue 0 3 7 = .error (.OutOfRangeException, exampleBuilding) :=
  ⟨rfl, by decide, rfl⟩

/-- C3, amended: when the last accepted entry of a matrix under construction was
at `(r', c')`, a call `addNextValue(r, c, v)` with `r < r'`, or `r = r'` and
`c < c'`, always fails and leaves the matrix unchanged, with an OutOfRange error
or with the order error (`InvalidArgumentException`): with the order error when
the matrix is dynamic or `c` is below the declared column count, with OutOfRange
when the matrix is preallocated and `c` is above the declared column count.  A
call at or after `(r', c')` never fails with the order error. -/
theorem addNextValue_order_violation {T : Type} (m0 m : SparseMatrix T) (r' c' : Nat) (v' : T)
    (h : m0.addNextValue r' c' v' = .ok m) (r c : Nat) (v : T) :
    ((r < r' ∨ (r = r' ∧ c < c')) →
      (m.addNextValue r c v = .error (.OutOfRangeException, m) ∨
        m.addNextValue r c v = .error (.InvalidArgumentException, m)) ∧
      (m.storagePreallocated = false ∨ c < m.columnCount →
        m.addNextValue r c v = .error (.InvalidArgumentException, m)) ∧
      (m.storagePreallocated = true ∧ c > m.columnCount →
        m.addNextValue r c v = .error (.OutOfRangeException, m))) ∧
    (¬(r < r' ∨ (r = r' ∧ c < c')) →
      ∀ s, m.addNextValue r c v ≠ .error (.InvalidArgumentException, s)) := by
  obtain ⟨f1, f2, f3, -, -, f6, -, f8⟩ := addNextValue_ok_fields h
  constructor
  · intro hlt
    have hr : r ≤ r' := by omega
    have key : m.addNextValue r c v =
        if m.storagePreallocated = true ∧ c > m.columnCount then
          .error (.OutOfRangeException, m)
        else .error (.InvalidArgumentException, m) := by
      unfold SparseMatrix.addNextValue
      rw [f1, f2]
      cases hp : m.storagePreallocated with
      | true =>
        have := f8 (by rw [← f6]; exact hp)
        have hrow : ¬ r > m.rowCount := by omega
        by_cases hc : c > m.columnCount
        · simp [hc]
        · simp only [hrow, hc, or_self, and_false, if_false]
          split_ifs with h2 h3
          · rfl
          · rfl
          · omega
      | false =>
        simp only [Bool.false_eq_true, false_and, if_false]
        split_ifs with h2 h3
        · rfl
        · rfl
        · omega
    rw [key]
    refine ⟨?_, ?_, ?_⟩
    · split_ifs
      · exact Or.inl rfl
      · exact Or.inr rfl
    · intro hcase
      have : ¬ (m.storagePreallocated = true ∧ c > m.columnCount) := by
        rintro ⟨a, b⟩
        rcases hcase with hcase | hcase
        · rw [a] at hcase; cases hcase
        · omega
      rw [if_neg this]
    · intro hcase
      rw [if_pos hcase]
  · intro hge s
    unfold SparseMatrix.addNextValue
    rw [f1, f2]
    split_ifs with h1 h2 h3
    · simp
    · omega
    · omega
    · split
      · simp
      · split <;> simp

/-- C3, amended, at a concrete input: after `addNextValue(1, 0, 5)` on the
preallocated 2x2 matrix, `addNextValue(0, 1, 7)` moves back to row 0 inside the
declared columns and fails with the order error, the matrix unchanged. -/
theorem addNextValue_order_violation_witness :
    (SparseMatrix.create 2 2 2).addNextValue 1 0 5 = .ok exampleBuilding ∧
    exampleBuilding.addNextValue 0 1 7 = .error (.InvalidArgumentException, exampleBuilding) :=
  ⟨rfl, ((addNextValue_order_violation (SparseMatrix.create 2 2 2) exampleBuilding 1 0 5 rfl
    0 1 7).1 (Or.inl (by decide))).2.1 (Or.inr (by decide))⟩

/-- C4 (code defect): on a preallocated 2x2 matrix the zero-based positions
`(2, 0)` and `(0, 2)` lie outside the declared dimensions, yet `addNextValue`
accepts both: the range check tests `row > rowCount || column > columnCount`. -/
theorem addNextValue_accepts_position_outside :
    (∃ m : SparseMatrix Int, (SparseMatrix.create 2 2 1).addNextValue 2 0 5 = .ok m) ∧
    (∃ m : SparseMatrix Int, (SparseMatrix.create 2 2 1).addNextValue 0 2 5 = .ok m) :=
  ⟨⟨_, rfl⟩, ⟨_, rfl⟩⟩

/-- C5: on every reachable matrix object `finalize()` throws
`InvalidStateException` if and only if the matrix is already finalized, or it is
preallocated and `currentEntryCount` (the number of entries written) differs
from `entryCount`; in every other case it returns normally and the matrix is
`INITIALIZED` afterwards. -/
theorem finalize_fails_iff {T : Type} [Zero T] [One T] [Sub T] [Neg T] (m : SparseMatrix T)
    (hm : Reachable m) :
    ((∃ s, m.finalize = .error (.InvalidStateException, s)) ↔
      (m.internalStatus = .INITIALIZED ∨
        (m.storagePreallocated = true ∧ m.currentEntryCount ≠ m.entryCount))) ∧
    (¬(m.internalStatus = .INITIALIZED ∨
        (m.storagePreallocated = true ∧ m.currentEntryCount ≠ m.entryCount)) →
      ∃ m1, m.finalize = .ok m1 ∧ m1.internalStatus = .INITIALIZED) := by
  have hsucc : ¬(m.internalStatus = .INITIALIZED ∨
        (m.storagePreallocated = true ∧ m.currentEntryCount ≠ m.entryCount)) →
      ∃ m1, m.finalize = .ok m1 ∧ m1.internalStatus = .INITIALIZED := by
    intro hn
    exact finalize_of_inv hm.inv (fun h => hn (Or.inl h)) (fun h => hn (Or.inr h))
  refine ⟨⟨?_, ?_⟩, hsucc⟩
  · rintro ⟨s, hs⟩
    by_contra hn
    obtain ⟨m1, h1, -⟩ := hsucc hn
    rw [h1] at hs
    cases hs
  · intro h
    unfold SparseMatrix.finalize
    rcases h with h | h
    · exact ⟨m, by simp [h]⟩
    · by_cases h1 : m.internalStatus = .INITIALIZED
      · exact ⟨m, by simp [h1]⟩
      · exact ⟨m, by simp [h1, h]⟩

/-- C5 at a concrete input: the preallocated 2x2 matrix with two declared
entries, of which one is written, is reachable, and `finalize()` throws
`InvalidStateException` on it. -/
theorem finalize_fails_iff_witness :
    Reachable exampleBuilding ∧
    ∃ s, exampleBuilding.finalize = .error (.InvalidStateException, s) :=
  ⟨Reachable.addNextValue 1 0 5 (Reachable.create 2 2 2) rfl,
   (finalize_fails_iff exampleBuilding
      (Reachable.addNextValue 1 0 5 (Reachable.create 2 2 2) rfl)).1.2
    (Or.inr ⟨rfl, by decide⟩)⟩

/-- C6 (code defect): after a successful `finalize()` in dynamic mode the row-start
vector of the 2-row matrix built from `(0, 0, 5)`, `(1, 1, 7)` has 5 elements
instead of `rowCount + 1 = 3`, and `entryCount` (also the sentinel) is 0 while 2
entries are stored.  In preallocated mode the last row of a 1x1 matrix received
no entry, yet it is not empty when an entry was added with `row = rowCount`. -/
theorem finalize_storage_invariant_broken :
    (∃ m : SparseMatrix Int, build 2 2 0 [(0, 0, 5), (1, 1, 7)] = .ok m ∧ m.rowCount = 2 ∧
      m.rowIndications.length = 5 ∧ m.entryCount = 0 ∧ m.valueStorage.length = 2) ∧
    (∃ m : SparseMatrix Int, build 1 1 1 [(1, 0, 5)] = .ok m ∧ m.rowCount = 1 ∧
      m.getRow 0 = .ok [(0, 5)]) :=
  ⟨⟨_, rfl, rfl, rfl, rfl, rfl⟩, ⟨_, rfl, rfl, rfl⟩⟩

/-- C7 (code defect): on the finalized 1x2 matrix with the row `(0, 5), (1, 6)`,
`makeRowAbsorbing(0, 1)` returns normally and leaves the row `(0, 0), (1, 0)`:
no entry has value 1, and the entry the call wrote first is back at column 0. -/
theorem makeRowAbsorbing_leaves_zero_row :
    ∃ m m1 : SparseMatrix Int, build 1 2 2 [(0, 0, 5), (0, 1, 6)] = .ok m ∧
      m.getRow 0 = .ok [(0, 5), (1, 6)] ∧ m.makeRowAbsorbing 0 1 = .ok m1 ∧
      m1.getRow 0 = .ok [(0, 0), (1, 0)] :=
  ⟨_, _, rfl, rfl, rfl, rfl⟩

/-- C8: for every finalized square matrix that stores a diagonal entry in every
row, over a ring (exact arithmetic), `convertToEquationSystem()` returns
normally, a second call on the result returns normally too, and the object it
leaves is the original one: values, column indices, row starts and every other
member are equal. -/
theorem convertToEquationSystem_self_inverse {T : Type} [Ring T] (m : SparseMatrix T)
    (hm : Finalized m) (hsq : m.rowCount = m.columnCount)
    (hdiag : ∀ i, i < m.rowCount → ∃ es v, m.getRow i = .ok es ∧ (i, v) ∈ es) :
    ∃ m1, m.convertToEquationSystem = .ok m1 ∧ m1.convertToEquationSystem = .ok m :=
  convertToEquationSystem_twice_of_rowsOK m hm.rowsOK hsq (hasDiagonal_of_getRow hm.rowsOK hdiag)

/-- C8 at a concrete input: the finalized 2x2 matrix `exampleSquare`. -/
theorem convertToEquationSystem_self_inverse_witness :
    Finalized exampleSquare ∧ exampleSquare.rowCount = exampleSquare.columnCount ∧
    ∃ m1, exampleSquare.convertToEquationSystem = .ok m1 ∧
      m1.convertToEquationSystem = .ok exampleSquare :=
  ⟨exampleSquare_finalized, rfl,
   convertToEquationSystem_self_inverse exampleSquare exampleSquare_finalized rfl (by
    intro i hi
    have hi2 : i < 2 := hi
    interval_cases i
    · exact ⟨[(0, 5), (1, 3)], 5, rfl, by simp⟩
    · exact ⟨[(1, 7)], 7, rfl, by simp⟩)⟩

/-- C9, as stated, fails: the preallocated 1x1 matrix with the two entries
`(0, 0, 1)`, `(0, 0, 1)` (equal positions are in order) has the dense value
`P(0, 0) = 2`; `convertToEquationSystem()` replaces only the first diagonal entry,
so the dense value afterwards is `0 + 1 = 1`, not `1 - 2`. -/
theorem convertToEquationSystem_duplicate_diagonal :
    ∃ m m1 : SparseMatrix Int, build 1 1 2 [(0, 0, 1), (0, 0, 1)] = .ok m ∧
      m.rowCount = m.columnCount ∧ m.getRow 0 = .ok [(0, 1), (0, 1)] ∧
      m.denseValue 0 0 = .ok 2 ∧ m.convertToEquationSystem = .ok m1 ∧
      m1.denseValue 0 0 = .ok 1 ∧ (1 : Int) ≠ 1 - 2 :=
  ⟨_, _, rfl, rfl, rfl, rfl, rfl, rfl, by decide⟩

/-- C9, amended: for every finalized square matrix `P` in which every row stores
exactly one entry on the diagonal, over a ring, `convertToEquationSystem()`
returns normally and afterwards the dense value at every position `(i, j)` of a
row `i < rowCount` is `delta(i, j) - P(i, j)`. -/
theorem convertToEquationSystem_dense {T : Type} [Ring T] (m : SparseMatrix T)
    (hm : Finalized m) (hsq : m.rowCount = m.columnCount)
    (hdiag : ∀ i, i < m.rowCount →
      ∃ es, m.getRow i = .ok es ∧ (es.filter (fun e => e.1 = i)).length = 1) :
    ∃ m1, m.convertToEquationSystem = .ok m1 ∧
      ∀ i j, i < m.rowCount →
        ∃ p, m.denseValue i j = .ok p ∧
          m1.denseValue i j = .ok ((if i = j then 1 else 0) - p) := by
  have hd : m.HasDiagonal := by
    apply hasDiagonal_of_getRow hm.rowsOK
    intro i hi
    obtain ⟨es, hes, hlen⟩ := hdiag i hi
    obtain ⟨a, ha⟩ := List.length_eq_one.1 hlen
    have hmem : a ∈ es.filter (fun e => e.1 = i) := by rw [ha]; exact List.mem_singleton_self a
    obtain ⟨h1, h2⟩ := List.mem_filter.1 hmem
    have hai : a.1 = i := by simpa using h2
    refine ⟨es, a.2, hes, ?_⟩
    rw [← hai]
    exact h1
  obtain ⟨m1, h1, h2⟩ := getRow_convertToEquationSystem m hm.rowsOK hsq hd
  refine ⟨m1, h1, fun i j hi => ?_⟩
  obtain ⟨es, hes, hlen⟩ := hdiag i hi
  have hes1 := h2 i hi es hes hlen
  refine ⟨((es.filter (fun e => e.1 = j)).map (fun e => e.2)).sum, ?_, ?_⟩
  · unfold SparseMatrix.denseValue
    rw [hes]
  · unfold SparseMatrix.denseValue
    rw [hes1]
    simp only
    rw [sum_filter_convertEntry i j es hlen]

/-- C9, amended, at a concrete input: the finalized 2x2 matrix `exampleSquare`,
whose rows store one diagonal entry each. -/
theorem convertToEquationSystem_dense_witness :
    Finalized exampleSquare ∧ exampleSquare.rowCount = exampleSquare.columnCount ∧
    ∃ m1, exampleSquare.convertToEquationSystem = .ok m1 ∧
      ∀ i j, i < exampleSquare.rowCount →
        ∃ p, exampleSquare.denseValue i j = .ok p ∧
          m1.denseValue i j = .ok ((if i = j then 1 else 0) - p) :=
  ⟨exampleSquare_finalized, rfl,
   convertToEquationSystem_dense exampleSquare exampleSquare_finalized rfl (by
    intro i hi
    have hi2 : i < 2 := hi
    interval_cases i
    · exact ⟨[(0, 5), (1, 3)], rfl, rfl⟩
    · exact ⟨[(1, 7)], rfl, rfl⟩)⟩

/-- C10 (code defect): the preallocated 1x1 matrix accepts the entry `(0, 1, 5)`
(column 1 does not exist) and finalizes; `transpose()` then increments
`rowIndications[column + 1] = rowIndications[2]` of a vector with 2 elements. -/
theorem transpose_column_eq_columnCount :
    ∃ m : SparseMatrix Int, build 1 1 1 [(0, 1, 5)] = .ok m ∧ m.columnCount = 1 ∧
      m.getRow 0 = .ok [(1, 5)] ∧ m.transpose = .error .OutOfBoundsAccess :=
  ⟨_, rfl, rfl, rfl, rfl⟩

/-- C11 (code defect): every stored entry of the preallocated 2x2 matrix built
from `(0, 0, 1)`, `(1, 2, 3)` is positive, and `addNextValue` accepts the column
2 that does not exist; `transpose()` then increments `rowIndications[2 + 1]` of a
vector with 3 elements, so there is no transpose to transpose again. -/
theorem transpose_involution_column_eq_columnCount :
    ∃ m : SparseMatrix Int, build 2 2 2 [(0, 0, 1), (1, 2, 3)] = .ok m ∧
      m.columnCount = 2 ∧ m.triples 0 m.rowCount = .ok [(0, 0, 1), (1, 2, 3)] ∧
      m.transpose = .error .OutOfBoundsAccess :=
  ⟨_, rfl, rfl, rfl, rfl⟩

/-- C12 (code defect): the preallocated 2x2 matrix accepts the entry `(2, 0, 30)`
in the row 2 that does not exist, and after `finalize()` row 1 reads
`(1, 20), (0, 30)`, with decreasing columns.  For the mask that selects rows 0
and 1, `getSubmatrix` hands row 1 to `addNextValue` in that order, which rejects
the second entry, so `getSubmatrix` throws `InvalidArgumentException` although
the mask is not empty. -/
theorem getSubmatrix_row_eq_rowCount :
    ∃ m : SparseMatrix Int, build 2 2 3 [(0, 1, 10), (1, 1, 20), (2, 0, 30)] = .ok m ∧
      m.rowCount = 2 ∧ m.getRow 0 = .ok [(1, 10)] ∧ m.getRow 1 = .ok [(1, 20), (0, 30)] ∧
      (BitVector.mk [true, true]).getNumberOfSetBits = 2 ∧
      m.getSubmatrix (BitVector.mk [true, true]) = .error .InvalidArgumentException :=
  ⟨_, rfl, rfl, rfl, rfl, rfl, rfl⟩

/-- C13 (code defect): the preallocated 1x1 matrix accepts the entry `(0, 1, 5)`
in the column 1 that does not exist and finalizes; `multiplyWithVector` with an
input vector of `columnCount = 1` elements then reads `vector[1]`. -/
theorem multiplyWithVector_column_eq_columnCount :
    ∃ m : SparseMatrix Int, build 1 1 1 [(0, 1, 5)] = .ok m ∧ m.rowCount = 1 ∧
      m.columnCount = 1 ∧ m.getRow 0 = .ok [(1, 5)] ∧
      m.multiplyWithVector [2] [0] = .error .OutOfBoundsAccess :=
  ⟨_, rfl, rfl, rfl, rfl, rfl⟩

/-- C14, as stated, fails: for `P = [[1/2, 1/2], [0, 1]]` the matrix `A = I - P`
has a zero on the diagonal of row 1.  When that zero is stored (as
`convertToEquationSystem()` produces `A` from `P`), `solveEquationSystem`
recovers `P` and the elimination of state 1 has the self-loop `p = 1`, so its
scale `1/(1 - p)` is undefined; when it is not stored,
`convertToEquationSystem()` throws `InvalidArgumentException`.  Neither call
returns `x = [1, 1]`. -/
theorem solveEquationSystem_absorbing_chain :
    build 2 2 3 [(0, 0, 1/2), (0, 1, 1/2), (1, 1, 1)] = .ok exampleAbsorbingChainP ∧
    exampleAbsorbingChainP.convertToEquationSystem = .ok exampleAbsorbingChain ∧
    exampleAbsorbingChain.convertToEquationSystem = .ok exampleAbsorbingChainP ∧
    solveEquationSystem exampleAbsorbingChain false [0, 1] [0, 1] =
      .error (.undefinedScale 1) ∧
    solveEquationSystem exampleAbsorbingChainSparse false [0, 1] [0, 1] =
      .error (.matrix .InvalidArgumentException) := by
  refine ⟨?_, ?_, ?_, ?_, ?_⟩ <;> with_unfolding_all rfl

/-- C14, amended: for the chain `P = [[1/2, 1/2], [0, 1]]`, the equation matrix
`A = I - P` with its zero diagonal entry stored and `b = [0, 1]`,
`solveEquationSystem` yields no solution vector: the elimination of the
absorbing state 1 needs the scale `1/(1 - 1)`, which is undefined, whichever of
the two states the queue pops first and whether the solver owns or borrows the
matrix. -/
theorem solveEquationSystem_zero_diagonal (hasLocalA : Bool) (order : List Nat)
    (h : order = [0, 1] ∨ order = [1, 0]) :
    solveEquationSystem exampleAbsorbingChain hasLocalA [0, 1] order =
      .error (.undefinedScale 1) := by
  rcases h with rfl | rfl <;> cases hasLocalA <;> with_unfolding_all rfl

/-- C14, amended, at a concrete input: the solver owns the matrix and state 1 is
popped first. -/
theorem solveEquationSystem_zero_diagonal_witness :
    solveEquationSystem exampleAbsorbingChain true [0, 1] [1, 0] =
      .error (.undefinedScale 1) :=
  solveEquationSystem_zero_diagonal true [1, 0] (Or.inr rfl)

/-- C16 (code defect): the preallocated 1x1 matrix accepts the entry `(0, 1, 5)`
in the column 1 that does not exist; one iteration of
`performMatrixVectorMultiplication` on it with `x` of length `rowCount = 1` reads
`x[1]`, with and without scratch memory. -/
theorem performMatrixVectorMultiplication_column_eq_columnCount :
    ∃ A : SparseMatrix Int, build 1 1 1 [(0, 1, 5)] = .ok A ∧ A.rowCount = A.columnCount ∧
      performMatrixVectorMultiplication A [2] none 1 none = .error .OutOfBoundsAccess ∧
      performMatrixVectorMultiplication A [2] none 1 (some [0]) = .error .OutOfBoundsAccess :=
  ⟨_, rfl, rfl, rfl, rfl⟩

/-- C17 (code defect): when `result` and `x` are the same vector and there is no
offset `b`, the single-step overload multiplies into a temporary and never
copies it to `result`: for the finalized 2x2 matrix `exampleSquare` and
`x = (1, 1)` the vector still holds `(1, 1)` after the call, not `A * x = (8, 7)`. -/
theorem performMatrixVectorMultiplicationStep_aliased_without_offset :
    exampleSquare.timesVector [1, 1] = [8, 7] ∧
    performMatrixVectorMultiplicationStep exampleSquare [1, 1] (some [0, 0]) none =
      .ok [8, 7] ∧
    performMatrixVectorMultiplicationStep exampleSquare [1, 1] none none = .ok [1, 1] :=
  ⟨rfl, rfl, rfl⟩

/-- C18: on every finalized matrix `invertDiagonal()` throws
`InvalidArgumentException` if and only if the matrix is not square or some row
`i` stores no entry with column `i`, and so does `convertToEquationSystem()`; in
every other case both return normally.  The condition does not look at values:
a stored diagonal entry of value zero counts. -/
theorem invertDiagonal_fails_iff {T : Type} [Zero T] [One T] [Sub T] [Neg T]
    (m : SparseMatrix T) (hm : Finalized m) :
    ((∃ s, m.invertDiagonal = .error (.InvalidArgumentException, s)) ↔
      (m.rowCount ≠ m.columnCount ∨
        ∃ i, i < m.rowCount ∧ ∃ es, m.getRow i = .ok es ∧ ∀ e, e ∈ es → e.1 ≠ i)) ∧
    ((∃ s, m.convertToEquationSystem = .error (.InvalidArgumentException, s)) ↔
      (m.rowCount ≠ m.columnCount ∨
        ∃ i, i < m.rowCount ∧ ∃ es, m.getRow i = .ok es ∧ ∀ e, e ∈ es → e.1 ≠ i)) ∧
    (¬(m.rowCount ≠ m.columnCount ∨
        ∃ i, i < m.rowCount ∧ ∃ es, m.getRow i = .ok es ∧ ∀ e, e ∈ es → e.1 ≠ i) →
      ∃ m1 m2, m.invertDiagonal = .ok m1 ∧ m.convertToEquationSystem = .ok m2) := by
  have hr := hm.rowsOK
  by_cases hsq : m.rowCount = m.columnCount
  · by_cases hd : m.HasDiagonal
    · obtain ⟨v1, i1, -⟩ := invertDiagonal_spec m hr hsq hd
      obtain ⟨v2, c1, -⟩ := convertToEquationSystem_spec m hr hsq hd
      have hC : ¬(m.rowCount ≠ m.columnCount ∨
          ∃ i, i < m.rowCount ∧ ∃ es, m.getRow i = .ok es ∧ ∀ e, e ∈ es → e.1 ≠ i) := by
        rintro (h | h)
        · exact h hsq
        · exact (not_hasDiagonal_iff hr).2 h hd
      refine ⟨⟨?_, fun h => absurd h hC⟩, ⟨?_, fun h => absurd h hC⟩, fun _ => ⟨_, _, i1, c1⟩⟩
      · rintro ⟨s, hs⟩
        rw [i1] at hs
        cases hs
      · rintro ⟨s, hs⟩
        rw [c1] at hs
        cases hs
    · obtain ⟨k, k1, k2, k3⟩ := exists_first_missing hd
      obtain ⟨v1, i1, -⟩ := invertDiagonal_fails_of_missing m hr hsq k k1 k2 k3
      have hC : (m.rowCount ≠ m.columnCount ∨
          ∃ i, i < m.rowCount ∧ ∃ es, m.getRow i = .ok es ∧ ∀ e, e ∈ es → e.1 ≠ i) :=
        Or.inr ((not_hasDiagonal_iff hr).1 hd)
      exact ⟨⟨fun _ => hC, fun _ => ⟨_, i1⟩⟩,
        ⟨fun _ => hC, fun _ => ⟨_, convertToEquationSystem_of_invertDiagonal_error i1⟩⟩,
        fun h => absurd hC h⟩
  · have i1 := invertDiagonal_not_square m hsq
    exact ⟨⟨fun _ => Or.inl hsq, fun _ => ⟨_, i1⟩⟩,
      ⟨fun _ => Or.inl hsq, fun _ => ⟨_, convertToEquationSystem_of_invertDiagonal_error i1⟩⟩,
      fun h => absurd (Or.inl hsq) h⟩

/-- C18 at a concrete input: the finalized 1x1 matrix whose diagonal entry is a
stored zero is square and has its diagonal entry, so both calls return. -/
theorem invertDiagonal_fails_iff_witness :
    Finalized exampleZeroDiagonal ∧ exampleZeroDiagonal.getRow 0 = .ok [(0, 0)] ∧
    ∃ m1 m2, exampleZeroDiagonal.invertDiagonal = .ok m1 ∧
      exampleZeroDiagonal.convertToEquationSystem = .ok m2 :=
  ⟨exampleZeroDiagonal_finalized, rfl,
   (invertDiagonal_fails_iff exampleZeroDiagonal exampleZeroDiagonal_finalized).2.2 (by
    rintro (h | ⟨i, hi, es, hes, hall⟩)
    · exact h rfl
    · have hi2 : i < 1 := hi
      interval_cases i
      have : es = [(0, 0)] := by
        have h2 : exampleZeroDiagonal.getRow 0 = .ok [(0, 0)] := rfl
        rw [h2] at hes
        cases hes
        rfl
      rw [this] at hall
      exact hall (0, 0) (List.mem_singleton_self _) rfl)⟩

/-- C19, as stated, fails: on the finalized 2x2 matrix with the entries
`(0, 0, 5)`, `(1, 0, 3)`, whose row 1 has no diagonal entry,
`convertToEquationSystem()` throws `InvalidArgumentException` after it has
replaced the diagonal value 5 of row 0 by `1 - 5`. -/
theorem convertToEquationSystem_partial_result :
    build 2 2 2 [(0, 0, 5), (1, 0, 3)] = .ok exampleMissingDiagonal ∧
    exampleMissingDiagonal.valueStorage = [5, 3] ∧
    ∃ s, exampleMissingDiagonal.convertToEquationSystem =
        .error (.InvalidArgumentException, s) ∧ s.valueStorage = [-4, 3] :=
  ⟨rfl, rfl, _, rfl, rfl⟩

/-- C19, amended: whenever `convertToEquationSystem()` fails on a finalized
matrix, it fails with `InvalidArgumentException` and column indices, row starts
and all members other than the values are as before the call.  If the matrix is
not square the values are as before too.  If it is square, some row `k` stores
no diagonal entry while every row before `k` does, the first diagonal value `v`
of every row before `k` has been replaced by `1 - v`, and every other stored
value is as before the call. -/
theorem convertToEquationSystem_failure_state {T : Type} [Zero T] [One T] [Sub T] [Neg T]
    (m : SparseMatrix T) (hm : Finalized m) (e : Exception) (s : SparseMatrix T)
    (h : m.convertToEquationSystem = .error (e, s)) :
    e = .InvalidArgumentException ∧ SameShape m s ∧
    s.columnIndications = m.columnIndications ∧
    (m.rowCount ≠ m.columnCount → s = m) ∧
    (m.rowCount = m.columnCount →
      ∃ k, k < m.rowCount ∧ (∃ es, m.getRow k = .ok es ∧ ∀ e, e ∈ es → e.1 ≠ k) ∧
        (∀ row, row < k → ∃ es v, m.getRow row = .ok es ∧ (row, v) ∈ es) ∧
        ∀ p, (InvertedAt m.rowIndications m.columnIndications 0 k p →
            s.valueStorage[p]? = (m.valueStorage[p]?).map (fun v => 1 - v)) ∧
          (¬ InvertedAt m.rowIndications m.columnIndications 0 k p →
            s.valueStorage[p]? = m.valueStorage[p]?)) := by
  have hr := hm.rowsOK
  by_cases hsq : m.rowCount = m.columnCount
  · by_cases hd : m.HasDiagonal
    · obtain ⟨v2, c1, -⟩ := convertToEquationSystem_spec m hr hsq hd
      rw [c1] at h
      cases h
    · obtain ⟨k, k1, k2, k3⟩ := exists_first_missing hd
      obtain ⟨v1, i1, i2, i3⟩ := invertDiagonal_fails_of_missing m hr hsq k k1 k2 k3
      rw [convertToEquationSystem_of_invertDiagonal_error i1] at h
      cases h
      refine ⟨rfl, ⟨rfl, rfl, rfl, rfl, i2, rfl, rfl, rfl, rfl, rfl, rfl⟩, rfl,
        fun hn => absurd hsq hn, fun _ => ⟨k, k1, ⟨_, getRow_eq hr k1, ?_⟩, ?_, i3⟩⟩
      · intro e he hek
        obtain ⟨q, q1, q2, q3⟩ := mem_slice (List.of_mem_zip (a := e.1) (b := e.2) he).1
        rw [hek] at q3
        exact findDiagonal_none _ _ _ _ k3 q q1 q2 q3
      · intro row hrow
        obtain ⟨p, hp⟩ := Option.ne_none_iff_exists'.1 (k2 row hrow)
        exact getRow_of_findDiagonal hr (by omega) hp
  · rw [convertToEquationSystem_of_invertDiagonal_error (invertDiagonal_not_square m hsq)] at h
    cases h
    exact ⟨rfl, ⟨rfl, rfl, rfl, rfl, rfl, rfl, rfl, rfl, rfl, rfl, rfl⟩, rfl, fun _ => rfl,
      fun hn => absurd hn hsq⟩

/-- C19, amended, at a concrete input: the finalized 2x2 matrix whose row 1 has
no diagonal entry. -/
theorem convertToEquationSystem_failure_state_witness :
    Finalized exampleMissingDiagonal ∧
    ∃ s, exampleMissingDiagonal.convertToEquationSystem =
        .error (.InvalidArgumentException, s) ∧
      s.columnIndications = exampleMissingDiagonal.columnIndications ∧
      SameShape exampleMissingDiagonal s :=
  ⟨exampleMissingDiagonal_finalized, _, rfl,
   (convertToEquationSystem_failure_state exampleMissingDiagonal
      exampleMissingDiagonal_finalized _ _ rfl).2.2.1,
   (convertToEquationSystem_failure_state exampleMissingDiagonal
      exampleMissingDiagonal_finalized _ _ rfl).2.1⟩

/-- C20 (code defect): the row index 2 is out of range for a matrix with 2 rows,
yet `makeRowAbsorbing(2, 0)` on the finalized empty 2x2 matrix built in dynamic
mode throws `InvalidStateException`: the range check lets `row = rowCount`
pass, and the row-start vector holds elements beyond the sentinel.  On the
preallocated 1x1 matrix `makeRowAbsorbing(1, 0)` passes the range check as well
and reads `rowIndications[2]`, which does not exist. -/
theorem makeRowAbsorbing_row_eq_rowCount :
    (∃ m : SparseMatrix Int, build 2 2 0 [] = .ok m ∧ m.rowCount = 2 ∧
      m.makeRowAbsorbing 2 0 = .error (.InvalidStateException, m)) ∧
    (∃ m : SparseMatrix Int, build 1 1 1 [(0, 0, 5)] = .ok m ∧ m.rowCount = 1 ∧
      m.makeRowAbsorbing 1 0 = .error (.OutOfBoundsAccess, m)) :=
  ⟨⟨_, rfl, rfl, rfl⟩, ⟨_, rfl, rfl, rfl⟩⟩

/-- C21 (code defect): the row index 2 is out of range for the finalized 2x2
matrix `exampleSquare`, yet `makeRowAbsorbing(2, 0)` does not throw
`OutOfRangeException`: the check `row > rowCount` lets `row = rowCount` pass, the
code reads the row starts `rowIndications[2]` and `rowIndications[3]`, and the
second read lies outside the vector.  Only from row index 3 on is the call
rejected. -/
theorem makeRowAbsorbing_range_check_off_by_one :
    exampleSquare.rowCount = 2 ∧ exampleSquare.rowIndications.length = 3 ∧
    exampleSquare.makeRowAbsorbing 2 0 = .error (.OutOfBoundsAccess, exampleSquare) ∧
    exampleSquare.makeRowAbsorbing 3 0 = .error (.OutOfRangeException, exampleSquare) :=
  ⟨rfl, rfl, rfl, rfl⟩

/-- C22 (code defect): the preallocated 2x2 matrix accepts the entry `(2, 0, 30)`
after `(1, 1, 20)`, and after `finalize()` its row 1 reads `(1, 20), (0, 30)`.
For the mask with both bits set `getSubmatrix` throws
`InvalidArgumentException`, as it does for the mask without a set bit: the
exception comes from the order check of the `addNextValue` call that copies
`(0, 30)`. -/
theorem getSubmatrix_invalidArgument_with_set_bits :
    ∃ m : SparseMatrix Int, build 2 2 2 [(1, 1, 20), (2, 0, 30)] = .ok m ∧
      m.getRow 1 = .ok [(1, 20), (0, 30)] ∧
      (BitVector.mk [true, true]).getNumberOfSetBits = 2 ∧
      m.getSubmatrix ⟨[true, true]⟩ = .error .InvalidArgumentException ∧
      m.getSubmatrix ⟨[false, false]⟩ = .error .InvalidArgumentException :=
  ⟨_, rfl, rfl, rfl, rfl, rfl⟩

/-- C23 (code defect): for the mask of size 2 without a set bit the row-group
`getSubmatrix` on the finalized 2x2 matrix `exampleSquare` (row groups of one
row each) does not throw: with and without diagonal insertion it returns a
finalized matrix with no rows and no columns.  The row-mask `getSubmatrix`
throws `InvalidArgumentException` for the same mask. -/
theorem getSubmatrix_rowGroups_empty_mask_accepted :
    (BitVector.mk [false, false]).getNumberOfSetBits = 0 ∧
    (∃ sub, exampleSquare.getSubmatrix_rowGroups ⟨[false, false]⟩ [0, 1, 2] true = .ok sub ∧
      sub.rowCount = 0 ∧ sub.columnCount = 0 ∧ sub.internalStatus = .INITIALIZED) ∧
    (∃ sub, exampleSquare.getSubmatrix_rowGroups ⟨[false, false]⟩ [0, 1, 2] false = .ok sub ∧
      sub.rowCount = 0 ∧ sub.columnCount = 0 ∧ sub.internalStatus = .INITIALIZED) ∧
    exampleSquare.getSubmatrix ⟨[false, false]⟩ = .error .InvalidArgumentException :=
  ⟨rfl, ⟨_, rfl, rfl, rfl, rfl⟩, ⟨_, rfl, rfl, rfl, rfl⟩, rfl⟩

/-- C24 (code defect): the preallocated 3x3 matrix accepts the entry `(3, 1, 3)`
after `(2, 2, 2)`, and after `finalize()` its row 2 reads `(2, 2), (1, 3)`.  With
one row per row group and the mask `{1, 2}`,
`getSubmatrix(rowGroupConstraint, rowGroupIndices, true)` does not succeed: the
copy of row 2 calls `addNextValue` with the new column 0 after the new column 1,
and the call throws `InvalidArgumentException`. -/
theorem getSubmatrix_rowGroups_row_eq_rowCount :
    ∃ m : SparseMatrix Int, build 3 3 3 [(0, 0, 1), (2, 2, 2), (3, 1, 3)] = .ok m ∧
      m.rowCount = 3 ∧ m.getRow 2 = .ok [(2, 2), (1, 3)] ∧
      (BitVector.mk [false, true, true]).setBits = [1, 2] ∧
      m.getSubmatrix_rowGroups ⟨[false, true, true]⟩ [0, 1, 2, 3] true =
        .error .InvalidArgumentException :=
  ⟨_, rfl, rfl, rfl, rfl, rfl⟩

/-- C25, as stated, fails: the finalized 1x1 matrix with the two entries
`(0, 0, 2)`, `(0, 0, 3)` (equal positions are in order) stores non-zero diagonal
entries, and `A(0, 0) = 5`.  `getJacobiDecomposition()` reaches the diagonal
through one reference per row: `resultLU` keeps the second diagonal value 3, and
the one entry of `resultDinv` has the value `1/2`, not `1 / A(0, 0) = 1/5`. -/
theorem getJacobiDecomposition_duplicate_diagonal :
    build 1 1 2 [(0, 0, 2), (0, 0, 3)] = .ok exampleDuplicateDiagonal ∧
    exampleDuplicateDiagonal.rowCount = exampleDuplicateDiagonal.columnCount ∧
    exampleDuplicateDiagonal.getRow 0 = .ok [(0, 2), (0, 3)] ∧
    exampleDuplicateDiagonal.denseValue 0 0 = .ok 5 ∧
    exampleDuplicateDiagonal.getJacobiDecomposition =
      .ok ({ exampleDuplicateDiagonal with valueStorage := [0, 3] },
           { rowCount := 1, columnCount := 1, entryCount := 1, storagePreallocated := true,
             valueStorage := [1/2], columnIndications := [0], rowIndications := [0, 1],
             internalStatus := .INITIALIZED, currentEntryCount := 1, lastRow := 0,
             lastColumn := 0 }) ∧
    ({ exampleDuplicateDiagonal with valueStorage := [0, 3] } : SparseMatrix ℚ).getRow 0 =
      .ok [(0, 0), (0, 3)] ∧
    (1/2 : ℚ) ≠ 1/5 := by
  refine ⟨?_, ?_, ?_, ?_, ?_, ?_, by norm_num⟩ <;> with_unfolding_all rfl

/-- C25, amended: for every finalized square matrix `A` in which every row
stores exactly one entry on the diagonal, of non-zero value, over a field,
`getJacobiDecomposition()` returns `(resultLU, resultDinv)`; `resultLU` has the
row starts and column indices of `A` and all its other members apart from the
values, row `i` of `resultLU` is row `i` of `A` with the diagonal value replaced
by zero and every other entry as it is, and row `i` of `resultDinv` (a matrix
with as many rows and columns as `A`) holds exactly the entry `(i, 1 / A(i, i))`. -/
theorem getJacobiDecomposition_rows {T : Type} [Field T] [DecidableEq T] (m : SparseMatrix T)
    (hm : Finalized m) (hsq : m.rowCount = m.columnCount)
    (hdiag : ∀ i, i < m.rowCount → ∃ es v, m.getRow i = .ok es ∧
      es.filter (fun e => e.1 = i) = [(i, v)] ∧ v ≠ 0) :
    ∃ resultLU resultDinv, m.getJacobiDecomposition = .ok (resultLU, resultDinv) ∧
      SameShape m resultLU ∧ resultLU.columnIndications = m.columnIndications ∧
      resultDinv.rowCount = m.rowCount ∧ resultDinv.columnCount = m.rowCount ∧
      ∀ i, i < m.rowCount → ∀ es v, m.getRow i = .ok es → (i, v) ∈ es →
        resultLU.getRow i = .ok (es.map (zeroDiagonalEntry i)) ∧
        resultDinv.getRow i = .ok [(i, 1 / v)] :=
  getJacobiDecomposition_of_rowsOK m hm.rowsOK hsq hdiag

/-- C25, amended, at a concrete input: the finalized 2x2 matrix with the rows
`(0, 2), (1, 3)` and `(0, 5), (1, 4)`. -/
theorem getJacobiDecomposition_rows_witness :
    Finalized exampleJacobi ∧ exampleJacobi.getRow 0 = .ok [(0, 2), (1, 3)] ∧
    exampleJacobi.getRow 1 = .ok [(0, 5), (1, 4)] ∧
    ∃ resultLU resultDinv, exampleJacobi.getJacobiDecomposition = .ok (resultLU, resultDinv) ∧
      resultLU.getRow 0 = .ok [(0, 0), (1, 3)] ∧ resultLU.getRow 1 = .ok [(0, 5), (1, 0)] ∧
      resultDinv.getRow 0 = .ok [(0, 1/2)] ∧ resultDinv.getRow 1 = .ok [(1, 1/4)] := by
  have h0 : exampleJacobi.getRow 0 = .ok [(0, 2), (1, 3)] := by with_unfolding_all rfl
  have h1 : exampleJacobi.getRow 1 = .ok [(0, 5), (1, 4)] := by with_unfolding_all rfl
  obtain ⟨lu, dinv, g1, -, -, -, -, g6⟩ :=
    getJacobiDecomposition_rows exampleJacobi exampleJacobi_finalized rfl (by
      intro i hi
      have hi2 : i < 2 := hi
      interval_cases i
      · exact ⟨_, 2, h0, by with_unfolding_all rfl, by norm_num⟩
      · exact ⟨_, 4, h1, by with_unfolding_all rfl, by norm_num⟩)
  obtain ⟨a1, a2⟩ := g6 0 (by decide) _ 2 h0 (by simp)
  obtain ⟨b1, b2⟩ := g6 1 (by decide) _ 4 h1 (by simp)
  refine ⟨exampleJacobi_finalized, h0, h1, lu, dinv, g1, ?_, ?_, ?_, ?_⟩
  · rw [a1]; simp [zeroDiagonalEntry]
  · rw [b1]; simp [zeroDiagonalEntry]
  · rw [a2]
  · rw [b2]

/-- C26: on every matrix whose row count differs from its column count
`getJacobiDecomposition()` throws `InvalidArgumentException`.  The check is the
first statement of the function and the function is `const`: it yields no new
state of the matrix, which stays as it is. -/
theorem getJacobiDecomposition_not_square {T : Type} [Field T] [DecidableEq T]
    (m : SparseMatrix T) (h : m.rowCount ≠ m.columnCount) :
    m.getJacobiDecomposition = .error (.matrix .InvalidArgumentException) := by
  unfold SparseMatrix.getJacobiDecomposition
  rw [if_pos h]

/-- C26 at a concrete input: the finalized 1x2 matrix with the entries
`(0, 0, 1/2)`, `(0, 1, 1/2)`. -/
theorem getJacobiDecomposition_not_square_witness :
    exampleRectangular.rowCount = 1 ∧ exampleRectangular.columnCount = 2 ∧
    exampleRectangular.getJacobiDecomposition = .error (.matrix .InvalidArgumentException) :=
  ⟨rfl, rfl, getJacobiDecomposition_not_square exampleRectangular (by decide)⟩

/-- C27, as stated, fails: on the preallocated 2x2 matrix under construction
after `addNextValue(1, 0, 5)` (not finalized) `getRow(0)` returns an empty row,
`multiplyWithVector` returns the zero vector, `transpose()` and `getSubmatrix`
return a matrix, and `convertToEquationSystem()` throws
`InvalidArgumentException` for the missing diagonal; after `addNextValue(0, 0, 5)`
and `addNextValue(1, 1, 7)` (not finalized) `getRow(0)` returns the row and
`makeRowAbsorbing(0, 0)` returns normally.  None of the calls throws
`InvalidStateException`. -/
theorem use_before_finalize_not_rejected :
    (SparseMatrix.create 2 2 2).addNextValue 1 0 5 = .ok exampleBuilding ∧
    exampleBuilding.internalStatus = .UNINITIALIZED ∧
    exampleBuilding.getRow 0 = .ok [] ∧
    exampleBuilding.multiplyWithVector [1, 1] [9, 9] = .ok [0, 0] ∧
    (∃ t, exampleBuilding.transpose = .ok t) ∧
    (∃ sub, exampleBuilding.getSubmatrix ⟨[true, true]⟩ = .ok sub) ∧
    (∃ s, exampleBuilding.convertToEquationSystem = .error (.InvalidArgumentException, s)) ∧
    addAll (SparseMatrix.create 2 2 2) [(0, 0, 5), (1, 1, 7)] = .ok exampleUnfinalized ∧
    exampleUnfinalized.internalStatus = .UNINITIALIZED ∧
    exampleUnfinalized.getRow 0 = .ok [(0, 5)] ∧
    (∃ m1, exampleUnfinalized.makeRowAbsorbing 0 0 = .ok m1) :=
  ⟨rfl, rfl, rfl, rfl, ⟨_, rfl⟩, ⟨_, rfl⟩, ⟨_, rfl⟩, rfl, rfl, rfl, ⟨_, rfl⟩⟩

/-- C27, amended: none of the read and compute operations looks at
`internalStatus`.  On every matrix object, finalized or not, `getRow`,
`multiplyWithVector`, `transpose`, the row-mask `getSubmatrix` and
`convertToEquationSystem` never throw `InvalidStateException`, and
`makeRowAbsorbing(row, column)` throws it exactly when `row` passes the range
check and the row starts as they stand show no entry in the row
(`rowIndications[row + 1] <= rowIndications[row]`). -/
theorem read_operations_ignore_state {T : Type} [Zero T] [One T] [Add T] [Mul T] [Sub T] [Neg T]
    [LT T] [DecidableRel (fun (a b : T) => a < b)] (m : SparseMatrix T) :
    (∀ row, m.getRow row ≠ .error .InvalidStateException) ∧
    (∀ vector result, m.multiplyWithVector vector result ≠ .error .InvalidStateException) ∧
    m.transpose ≠ .error .InvalidStateException ∧
    (∀ constraint, m.getSubmatrix constraint ≠ .error .InvalidStateException) ∧
    (∀ s, m.convertToEquationSystem ≠ .error (.InvalidStateException, s)) ∧
    (∀ row column,
      (∃ s, m.makeRowAbsorbing row column = .error (.InvalidStateException, s)) ↔
        row ≤ m.rowCount ∧ ∃ a b, readAt m.rowIndications row = some a ∧
          readAt m.rowIndications (row + 1) = some b ∧ b ≤ a) :=
  ⟨fun row => getRows_ne_invalidState m row row,
   fun vector result => multiplyWithVector_rows_ne_invalidState m vector result 0,
   transpose_ne_invalidState m,
   fun constraint => getSubmatrix_ne_invalidState m constraint,
   fun s => convertToEquationSystem_ne_invalidState m s,
   fun row column => makeRowAbsorbing_invalidState_iff_reads m row column⟩

/-- C28 (code defect): `addNextValue` does not test `internalStatus`, as
`finalize()` does.  The 2x2 matrix built in dynamic mode and finalized accepts
`addNextValue(1, 0, 5)` after `finalize()`; the call appends to the value and
column arrays and to the row starts.  On the finalized preallocated 2x2 matrix
`exampleSquare` the call `addNextValue(1, 1, 9)` is not rejected either: it
passes the range and order checks and writes at storage index 3, outside the
arrays of length 3. -/
theorem addNextValue_after_finalize_accepted :
    (∃ m : SparseMatrix Int, build 2 2 0 [] = .ok m ∧ m.internalStatus = .INITIALIZED ∧
      m.valueStorage = [] ∧ m.columnIndications = [] ∧ m.rowIndications = [0, 0, 0, 0, 0] ∧
      ∃ m2, m.addNextValue 1 0 5 = .ok m2 ∧ m2.valueStorage = [5] ∧
        m2.columnIndications = [0] ∧ m2.rowIndications = [0, 0, 0, 0, 0, 0]) ∧
    exampleSquare.internalStatus = .INITIALIZED ∧ exampleSquare.valueStorage.length = 3 ∧
    exampleSquare.currentEntryCount = 3 ∧
    exampleSquare.addNextValue 1 1 9 = .error (.OutOfBoundsAccess, exampleSquare) :=
  ⟨⟨_, rfl, rfl, rfl, rfl, rfl, _, rfl, rfl, rfl, rfl⟩, rfl, rfl, rfl, rfl⟩

/-- C29: for every finalized square matrix `A` that stores a diagonal entry in
every row, over a field, whenever `solveEquationSystem(x, b)` returns, the matrix
the solver holds afterwards is `A` itself, member by member (stored values,
column indices, row starts and all other members), whether the solver owns the
matrix (it is converted in place before the elimination and converted back
after it) or borrows it (only a copy is converted), whatever the right-hand
side and the order of elimination. -/
theorem solveEquationSystem_restores_matrix {T : Type} [Field T] [DecidableEq T] [LT T]
    [DecidableRel (fun (a b : T) => a < b)] (A : SparseMatrix T) (hA : Finalized A)
    (hsq : A.rowCount = A.columnCount)
    (hdiag : ∀ i, i < A.rowCount → ∃ es v, A.getRow i = .ok es ∧ (i, v) ∈ es)
    (hasLocalA : Bool) (b : List T) (order : List Nat) (x : List T) (after : SparseMatrix T)
    (h : solveEquationSystem A hasLocalA b order = .ok (x, after)) :
    after = A ∧ after.valueStorage = A.valueStorage ∧
    after.columnIndications = A.columnIndications ∧
    after.rowIndications = A.rowIndications := by
  suffices hs : after = A by
    subst hs
    exact ⟨rfl, rfl, rfl, rfl⟩
  obtain ⟨P, c1, c2⟩ := convertToEquationSystem_twice_of_rowsOK A hA.rowsOK hsq
    (hasDiagonal_of_getRow hA.rowsOK hdiag)
  unfold solveEquationSystem at h
  rw [c1] at h
  simp only at h
  split at h
  · cases h
  · split at h
    · split at h
      · cases h
      · cases hasLocalA with
        | true =>
          simp only [if_true, c2] at h
          cases h
          rfl
        | false =>
          simp only [Bool.false_eq_true, if_false] at h
          cases h
          rfl
    · cases h
    · cases h

/-- C29 at a concrete input: the solver owns the equation matrix
`[[1/2, -1/2], [0, 1]]`; with `b = [0, 1]` and the order `0, 1` the call returns,
and the matrix the solver holds is as before the call. -/
theorem solveEquationSystem_restores_matrix_witness :
    Finalized exampleIdentityRow ∧
    ∃ x after, solveEquationSystem exampleIdentityRow true [0, 1] [0, 1] = .ok (x, after) ∧
      after = exampleIdentityRow ∧ after.valueStorage = [1/2, -1/2, 1] :=
  ⟨exampleIdentityRow_finalized, [0, 1], exampleIdentityRow, by with_unfolding_all rfl,
   (solveEquationSystem_restores_matrix exampleIdentityRow exampleIdentityRow_finalized rfl
     (fun i hi => by
       have hi2 : i < 2 := hi
       interval_cases i
       · exact ⟨[(0, 1/2), (1, -1/2)], 1/2, by with_unfolding_all rfl, by simp⟩
       · exact ⟨[(1, 1)], 1, by with_unfolding_all rfl, by simp⟩)
     true [0, 1] [0, 1] [0, 1] exampleIdentityRow (by with_unfolding_all rfl)).1, rfl⟩

/-- C30, as stated, fails: the probability matrix `P = [[1/2, 1/2], [0, 1]]` has
the self-loop 1 at state 1.  With the order `0, 1` the call
`solveEquationSystem` on `A = I - P` is not rejected before the elimination: the
elimination step of state 0 is performed (it is defined and removes state 0
from the graph), and the call fails only afterwards, at the elimination of
state 1, whether the solver owns or borrows the matrix. -/
theorem solveEquationSystem_eliminates_before_failure :
    exampleAbsorbingChain.convertToEquationSystem = .ok exampleAbsorbingChainP ∧
    exampleAbsorbingChainP.getRow 1 = .ok [(1, 1)] ∧
    exampleAbsorbingChainP.adjacency = .ok exampleAbsorbingChainGraph.forward ∧
    (exampleAbsorbingChainP.transpose.bind (fun PT => PT.adjacency)) =
      .ok exampleAbsorbingChainGraph.backward ∧
    (exampleAbsorbingChainGraph.eliminateState [0, 1] 0).map (fun p => (p.1.forward, p.2)) =
      some ([[], [(1, 1)]], [0, 1]) ∧
    eliminateStates exampleAbsorbingChainGraph [0, 1] [0, 1] = .error 1 ∧
    solveEquationSystem exampleAbsorbingChain true [0, 1] [0, 1] = .error (.undefinedScale 1) ∧
    solveEquationSystem exampleAbsorbingChain false [0, 1] [0, 1] =
      .error (.undefinedScale 1) := by
  refine ⟨?_, ?_, ?_, ?_, ?_, ?_, ?_, ?_⟩ <;> with_unfolding_all rfl

/-- C30, amended: `solveEquationSystem` has no check for a self-loop of 1 ahead
of the elimination.  The call fails for an undefined scale factor at a state `s`
exactly when the conversion to the probability matrix, the transposition and
the construction of the graph have succeeded, the states that the queue pops
before `s` have all been eliminated, and in the graph these steps leave the
self-loop of `s` has the weight 1. -/
theorem solveEquationSystem_undefinedScale_iff {T : Type} [Field T] [DecidableEq T] [LT T]
    [DecidableRel (fun (a b : T) => a < b)] (A : SparseMatrix T) (hasLocalA : Bool)
    (b : List T) (order : List Nat) (s : Nat) :
    solveEquationSystem A hasLocalA b order = .error (.undefinedScale s) ↔
      ∃ P PT forward backward, A.convertToEquationSystem = .ok P ∧ P.transpose = .ok PT ∧
        P.adjacency = .ok forward ∧ PT.adjacency = .ok backward ∧
        ∃ pre post g1 x1, order = pre ++ s :: post ∧
          eliminatePrefix { forward := forward, backward := backward } b pre = some (g1, x1) ∧
          edgeWeight (g1.forward.getD s []) s = 1 := by
  constructor
  · intro h
    unfold solveEquationSystem at h
    split at h
    · cases h
    · rename_i P hP
      split at h
      · cases h
      · rename_i PT hPT
        split at h
        · rename_i forward backward hf hb
          split at h
          · rename_i state hstate
            simp only [Except.error.injEq, SolverFailure.undefinedScale.injEq] at h
            subst h
            obtain ⟨pre, post, g1, x1, h1, h2, h3⟩ :=
              (eliminateStates_error_iff order _ b state).1 hstate
            exact ⟨P, PT, forward, backward, hP, hPT, hf, hb, pre, post, g1, x1, h1, h2,
              (eliminateState_eq_none_iff g1 x1 state).1 h3⟩
          · split at h
            · split at h
              · cases h
              · cases h
            · cases h
        · cases h
        · cases h
  · rintro ⟨P, PT, forward, backward, hP, hPT, hf, hb, pre, post, g1, x1, h1, h2, h3⟩
    have hstate := (eliminateStates_error_iff order
      { forward := forward, backward := backward } b s).2
      ⟨pre, post, g1, x1, h1, h2, (eliminateState_eq_none_iff g1 x1 s).2 h3⟩
    unfold solveEquationSystem
    simp only [hP, hPT, hf, hb, hstate]

/-- C31 (code defect): `operator=` does not copy `storagePreallocated`.  The
preallocated 2x2 matrix `a` with the entries `(0, 0, 5)`, `(1, 1, 7)` is assigned
to `b`, created in dynamic mode by `SparseMatrix(2, 2, 0)`; `b.finalize()` then
succeeds and appends the sentinel instead of writing it at index `rowCount`, so
the finalized `b` has the row starts `[0, 1, 0, 2]`.  Row 1 runs from position 1
to position 0: the view `getRow(1)` has the length `0 - 1` and does not lie in
the storage vectors, and `getRows(0, 1)` is empty although `getRow(0)` yields
`(0, 5)`. -/
theorem getRow_after_assignment_across_modes :
    ∃ a b : SparseMatrix Int,
      addAll (SparseMatrix.create 2 2 2) [(0, 0, 5), (1, 1, 7)] = .ok a ∧
      a.storagePreallocated = true ∧
      ((SparseMatrix.create 2 2 0).assign a).storagePreallocated = false ∧
      ((SparseMatrix.create 2 2 0).assign a).finalize = .ok b ∧
      b.internalStatus = .INITIALIZED ∧ b.rowCount = 2 ∧ b.rowIndications = [0, 1, 0, 2] ∧
      b.valueStorage = [5, 7] ∧ b.columnIndications = [0, 1] ∧
      b.getRow 0 = .ok [(0, 5)] ∧ b.getRow 1 = .error .OutOfBoundsAccess ∧
      b.getRows 0 1 = .ok [] :=
  ⟨_, _, rfl, rfl, rfl, rfl, rfl, rfl, rfl, rfl, rfl, rfl, rfl, rfl⟩

/-- C32 (code defect): on the finalized 2x2 matrix `exampleSquare`, whose row 0
is `(0, 5), (1, 3)` and whose row 1 is `(1, 7)`, the binding `get_row(0)` yields
the three entries of both rows, and `get_row(1)` reads the row start
`rowIndications[3]` of a vector with 3 elements. -/
theorem get_row_yields_two_rows :
    exampleSquare.rowCount = 2 ∧ exampleSquare.rowIndications.length = 3 ∧
    exampleSquare.getRow 0 = .ok [(0, 5), (1, 3)] ∧ exampleSquare.getRow 1 = .ok [(1, 7)] ∧
    exampleSquare.get_row 0 = .ok [(0, 5), (1, 3), (1, 7)] ∧
    exampleSquare.get_row 1 = .error .OutOfBoundsAccess :=
  ⟨rfl, rfl, rfl, rfl, rfl, rfl⟩

/-- C33: a call of `addNextValue` that throws (`OutOfRangeException` from the
range check, `InvalidArgumentException` from the order checks) leaves the object
exactly as it was before the call, so every call the state before accepted is
accepted after the rejected one, with the same result.  The exception tells the
check that failed. -/
theorem addNextValue_rejected_unchanged {T : Type} (m s : SparseMatrix T) (row column : Nat)
    (value : T) (e : Exception) (h : m.addNextValue row column value = .error (e, s))
    (he : e ≠ .OutOfBoundsAccess) :
    s = m ∧
    (s.valueStorage = m.valueStorage ∧ s.columnIndications = m.columnIndications ∧
      s.rowIndications = m.rowIndications ∧ s.currentEntryCount = m.currentEntryCount ∧
      s.lastRow = m.lastRow ∧ s.lastColumn = m.lastColumn) ∧
    ((e = .OutOfRangeException ∧ m.storagePreallocated = true ∧
        (row > m.rowCount ∨ column > m.columnCount)) ∨
      (e = .InvalidArgumentException ∧
        (row < m.lastRow ∨ (row = m.lastRow ∧ column < m.lastColumn)))) ∧
    ∀ row2 column2 value2 m2, m.addNextValue row2 column2 value2 = .ok m2 →
      s.addNextValue row2 column2 value2 = .ok m2 := by
  have key : s = m ∧
      ((e = .OutOfRangeException ∧ m.storagePreallocated = true ∧
          (row > m.rowCount ∨ column > m.columnCount)) ∨
        (e = .InvalidArgumentException ∧
          (row < m.lastRow ∨ (row = m.lastRow ∧ column < m.lastColumn)))) := by
    unfold SparseMatrix.addNextValue at h
    split_ifs at h with h1 h2 h3
    · cases h
      exact ⟨rfl, Or.inl ⟨rfl, h1⟩⟩
    · cases h
      exact ⟨rfl, Or.inr ⟨rfl, Or.inl h2⟩⟩
    · cases h
      exact ⟨rfl, Or.inr ⟨rfl, Or.inr h3⟩⟩
    · split at h
      · cases h
        exact absurd rfl he
      · split at h
        · cases h
          exact absurd rfl he
        · cases h
  obtain ⟨k1, k2⟩ := key
  subst k1
  exact ⟨rfl, ⟨rfl, rfl, rfl, rfl, rfl, rfl⟩, k2, fun _ _ _ _ h2 => h2⟩

/-- C33 at a concrete input: on the matrix under construction `exampleBuilding`,
whose last position is `(1, 0)`, the call `addNextValue(0, 0, 1)` is rejected by
the order check. -/
theorem addNextValue_rejected_unchanged_witness :
    exampleBuilding.addNextValue 0 0 1 = .error (.InvalidArgumentException, exampleBuilding) ∧
    (exampleBuilding = exampleBuilding ∧
    (exampleBuilding.valueStorage = exampleBuilding.valueStorage ∧
      exampleBuilding.columnIndications = exampleBuilding.columnIndications ∧
      exampleBuilding.rowIndications = exampleBuilding.rowIndications ∧
      exampleBuilding.currentEntryCount = exampleBuilding.currentEntryCount ∧
      exampleBuilding.lastRow = exampleBuilding.lastRow ∧
      exampleBuilding.lastColumn = exampleBuilding.lastColumn) ∧
    ((Exception.InvalidArgumentException = .OutOfRangeException ∧
        exampleBuilding.storagePreallocated = true ∧
        (0 > exampleBuilding.rowCount ∨ 0 > exampleBuilding.columnCount)) ∨
      (Exception.InvalidArgumentException = .InvalidArgumentException ∧
        (0 < exampleBuilding.lastRow ∨
          (0 = exampleBuilding.lastRow ∧ 0 < exampleBuilding.lastColumn)))) ∧
    ∀ row2 column2 value2 m2, exampleBuilding.addNextValue row2 column2 value2 = .ok m2 →
      exampleBuilding.addNextValue row2 column2 value2 = .ok m2) :=
  ⟨rfl, addNextValue_rejected_unchanged exampleBuilding exampleBuilding 0 0 1
    .InvalidArgumentException rfl (by decide)⟩

/-- C34 (code defect): the preallocated 1x1 matrix with one declared entry
accepts `addNextValue(0, 0, 5)`, which fills its value and column arrays of
length 1.  The call `addNextValue(0, 0, 7)` that follows passes the range check
and the order checks and is not rejected: it writes at storage index 1, outside
both arrays. -/
theorem addNextValue_writes_past_preallocated_arrays :
    ∃ m1 : SparseMatrix Int, (SparseMatrix.create 1 1 1).addNextValue 0 0 5 = .ok m1 ∧
      m1.storagePreallocated = true ∧ m1.entryCount = 1 ∧ m1.currentEntryCount = 1 ∧
      m1.valueStorage.length = 1 ∧ m1.columnIndications.length = 1 ∧
      m1.addNextValue 0 0 7 = .error (.OutOfBoundsAccess, m1) :=
  ⟨_, rfl, rfl, rfl, rfl, rfl, rfl, rfl⟩

/-- C35 (code defect): the finalized 1x2 matrices `A`, built from `(0, 0, 1)`,
`(0, 1, 1)`, and `B`, built from `(0, 0, 1)`, have the same counts and rows with
increasing columns; column 1 is stored in row 0 of `A` and not in row 0 of `B`.
`A.isSubmatrixOf(B)` returns `true`: the loop over row 0 of `A` runs while
`elem < matrix.rowIndications[1] = 1`, so it ends before the entry at position 1
is looked at. -/
theorem isSubmatrixOf_true_without_inclusion :
    ∃ A B : SparseMatrix Int, build 1 2 2 [(0, 0, 1), (0, 1, 1)] = .ok A ∧
      build 1 2 1 [(0, 0, 1)] = .ok B ∧
      A.rowCount = B.rowCount ∧ A.columnCount = B.columnCount ∧
      A.getRow 0 = .ok [(0, 1), (1, 1)] ∧ B.getRow 0 = .ok [(0, 1)] ∧
      B.rowIndications = [0, 1] ∧ A.isSubmatrixOf B = .ok true ∧
      B.isSubmatrixOf A = .ok true :=
  ⟨_, _, rfl, rfl, rfl, rfl, rfl, rfl, rfl, rfl, rfl⟩

/-- C36 (code defect): the finalized 2x2 matrix built from `(0, 0, 3)`,
`(0, 1, -2)`, `(1, 1, 0)` stores a negative and a zero value.  Its transpose has
the row starts `[0, 1, 1]`, so the sentinel `rowIndications[2]` is 1, while
`entryCount` is 3 and the value and column vectors have 3 elements. -/
theorem transpose_sentinel_ne_entryCount :
    ∃ m mT : SparseMatrix Int, build 2 2 3 [(0, 0, 3), (0, 1, -2), (1, 1, 0)] = .ok m ∧
      m.internalStatus = .INITIALIZED ∧ m.transpose = .ok mT ∧ mT.rowCount = 2 ∧
      mT.rowIndications = [0, 1, 1] ∧ mT.entryCount = 3 ∧ mT.valueStorage = [3, 0, 0] ∧
      mT.columnIndications = [0, 0, 0] :=
  ⟨_, _, rfl, rfl, rfl, rfl, rfl, rfl, rfl, rfl⟩

/-- C37 (code defect): the preallocated 2x2 matrix accepts the entry `(2, 0, 30)`
in the row 2 that does not exist, so its row 1 reads `(1, 20), (0, 30)`.  For the
mask `{0, 1}` the counting loop of `getSubmatrix` finds 3 entries and the rank
table is `[0, 1]`; the copy loop has `addNextValue(0, 1, 10)` and
`addNextValue(1, 1, 20)` accepted, and its third call `addNextValue(1, 0, 30)` is
rejected by the order check, so `getSubmatrix` throws. -/
theorem getSubmatrix_internal_call_rejected :
    ∃ m result : SparseMatrix Int,
      build 2 2 3 [(0, 1, 10), (1, 1, 20), (2, 0, 30)] = .ok m ∧ m.rowCount = 2 ∧
      (BitVector.mk [true, true]).setBits = [0, 1] ∧
      getSubmatrix_count m ⟨[true, true]⟩ [0, 1] 0 = some 3 ∧
      getSubmatrix_bitsSetBeforeIndex [0, 1] [] 0 0 = [0, 1] ∧
      addAll (SparseMatrix.create 2 2 3) [(0, 1, 10), (1, 1, 20)] = .ok result ∧
      result.addNextValue 1 0 30 = .error (.InvalidArgumentException, result) ∧
      getSubmatrix_copy m ⟨[true, true]⟩ [0, 1] [0, 1] 0 (SparseMatrix.create 2 2 3) =
        .error .InvalidArgumentException ∧
      m.getSubmatrix ⟨[true, true]⟩ = .error .InvalidArgumentException :=
  ⟨_, _, rfl, rfl, rfl, rfl, rfl, rfl, rfl, rfl, rfl⟩

/-- C38 (code defect): `operator=` does not copy `storagePreallocated`.  The
preallocated matrix `a` with the entries `(0, 0, 5)`, `(0, 1, 6)`, `(1, 0, 7)` is
assigned to `d`, created in dynamic mode, which then accepts
`addNextValue(2, 0, 8)` and appends the row start of row 2; `d` is assigned to
`p`, created preallocated, and `p.finalize()` succeeds with the row starts
`[0, 2, 0, 3, 3]`.  Row 2 of the finalized `p` runs over the positions 0 to 2,
which hold row 0 as well: `makeRowAbsorbing(2, 0)` turns row 0 from
`(0, 5), (1, 6)` into `(0, 0), (1, 0)`. -/
theorem makeRowAbsorbing_after_assignment_across_modes :
    ∃ a d p m1 : SparseMatrix Int,
      addAll (SparseMatrix.create 3 3 3) [(0, 0, 5), (0, 1, 6), (1, 0, 7)] = .ok a ∧
      ((SparseMatrix.create 1 1 0).assign a).addNextValue 2 0 8 = .ok d ∧
      ((SparseMatrix.create 1 1 1).assign d).finalize = .ok p ∧
      p.internalStatus = .INITIALIZED ∧ p.rowCount = 3 ∧
      p.rowIndications = [0, 2, 0, 3, 3] ∧ p.valueStorage = [5, 6, 7, 8] ∧
      p.getRow 0 = .ok [(0, 5), (1, 6)] ∧ p.getRow 2 = .ok [(0, 5), (1, 6), (0, 7)] ∧
      p.makeRowAbsorbing 2 0 = .ok m1 ∧ m1.rowIndications = p.rowIndications ∧
      m1.getRow 0 = .ok [(0, 0), (1, 0)] :=
  ⟨_, _, _, _, rfl, rfl, rfl, rfl, rfl, rfl, rfl, rfl, rfl, rfl, rfl, rfl⟩

/-- C39 (code defect): the preallocated 2x2 matrix accepts the entry `(0, 2, 1)`
in the column 2 that does not exist and finalizes; `transpose()` then increments
`rowIndications[2 + 1]` of a vector with 3 elements, so the call yields no
matrix whose rows could be in order. -/
theorem transpose_no_rows_for_column_eq_columnCount :
    ∃ m : SparseMatrix Int, build 2 2 2 [(0, 2, 1), (1, 0, 1)] = .ok m ∧
      m.internalStatus = .INITIALIZED ∧ m.columnCount = 2 ∧ m.getRow 0 = .ok [(2, 1)] ∧
      m.getRow 1 = .ok [(0, 1)] ∧ m.transpose = .error .OutOfBoundsAccess :=
  ⟨_, rfl, rfl, rfl, rfl, rfl, rfl⟩

/-- C40: for finalized matrices `A` and `B` with equal row counts whose rows
have strictly increasing columns, every column stored in a row of `B` being
stored in the same row of `A`, the call `A.getPointwiseProductRowSumVector(B)`
returns a vector of length `A.rowCount` whose element `r` is the sum, over the
columns `j` stored in row `r` of `B`, of `A(r, j) * B(r, j)`. -/
theorem getPointwiseProductRowSumVector_of_submatrix {T : Type} [CommRing T]
    (A B : SparseMatrix T) (hA : Finalized A) (hB : Finalized B)
    (hrc : A.rowCount = B.rowCount) (rowsA rowsB : Nat → List (Nat × T))
    (hrowsA : ∀ r, r < A.rowCount → A.getRow r = .ok (rowsA r))
    (hrowsB : ∀ r, r < B.rowCount → B.getRow r = .ok (rowsB r))
    (hsA : ∀ r, r < A.rowCount → (rowsA r).Pairwise (fun a b => a.1 < b.1))
    (hsB : ∀ r, r < B.rowCount → (rowsB r).Pairwise (fun a b => a.1 < b.1))
    (hinc : ∀ r, r < B.rowCount → ∀ e, e ∈ rowsB r → ∃ e2, e2 ∈ rowsA r ∧ e2.1 = e.1) :
    ∃ result, A.getPointwiseProductRowSumVector B = .ok result ∧
      result.length = A.rowCount ∧
      ∀ r, r < A.rowCount → ∃ a b : Nat → T,
        (∀ j, A.denseValue r j = .ok (a j)) ∧ (∀ j, B.denseValue r j = .ok (b j)) ∧
        result[r]? = some (((rowsB r).map (fun e => a e.1 * b e.1)).sum) := by
  obtain ⟨result, h1, h2, h3⟩ := getPointwiseProductRowSumVector_rows_spec A B hA.rowsOK
    hB.rowsOK rowsA rowsB hrowsA hrowsB (min A.rowCount B.rowCount) 0
    (List.replicate A.rowCount 0) (by omega) (by omega) (by simp)
  refine ⟨result, h1, h2, fun r hr => ⟨rowValue (rowsA r), rowValue (rowsB r), ?_, ?_, ?_⟩⟩
  · intro j
    unfold SparseMatrix.denseValue
    rw [hrowsA r hr]
    rfl
  · intro j
    unfold SparseMatrix.denseValue
    rw [hrowsB r (by omega)]
    rfl
  · rw [h3 r, if_pos (by omega), List.getElem?_replicate, if_pos hr]
    simp only [Option.map_some']
    rw [pointwiseProductSum_spec _ _ _ (hsA r hr) (hsB r (by omega)) (hinc r (by omega)),
      zero_add]
    congr 2
    apply List.map_congr_left
    intro e he
    rw [rowValue_of_mem (rowsB r) (hsB r (by omega)) e he]

/-- C40 at a concrete input: `A` is the finalized 2x2 matrix with the rows
`(0, 5), (1, 3)` and `(1, 7)`, `B` the finalized 2x2 matrix with the rows
`(1, 2)` and `(1, 4)`; the call returns `[3 * 2, 7 * 4]`. -/
theorem getPointwiseProductRowSumVector_of_submatrix_witness :
    Finalized exampleSquare ∧ Finalized exampleSubPattern ∧
    exampleSquare.rowCount = exampleSubPattern.rowCount ∧
    exampleSquare.getRow 0 = .ok [(0, 5), (1, 3)] ∧ exampleSquare.getRow 1 = .ok [(1, 7)] ∧
    exampleSubPattern.getRow 0 = .ok [(1, 2)] ∧ exampleSubPattern.getRow 1 = .ok [(1, 4)] ∧
    ∃ result, exampleSquare.getPointwiseProductRowSumVector exampleSubPattern = .ok result ∧
      result.length = 2 ∧ result[0]? = some 6 ∧ result[1]? = some 28 := by
  obtain ⟨result, h1, h2, h3⟩ := getPointwiseProductRowSumVector_of_submatrix exampleSquare
    exampleSubPattern exampleSquare_finalized exampleSubPattern_finalized rfl
    (fun r => if r = 0 then [(0, 5), (1, 3)] else [(1, 7)])
    (fun r => if r = 0 then [(1, 2)] else [(1, 4)])
    (by intro r hr; have hr2 : r < 2 := hr; interval_cases r <;> rfl)
    (by intro r hr; have hr2 : r < 2 := hr; interval_cases r <;> rfl)
    (by intro r hr; have hr2 : r < 2 := hr; interval_cases r <;> simp)
    (by intro r hr; have hr2 : r < 2 := hr; interval_cases r <;> simp)
    (by intro r hr; have hr2 : r < 2 := hr; interval_cases r <;> simp)
  refine ⟨exampleSquare_finalized, exampleSubPattern_finalized, rfl, rfl, rfl, rfl, rfl,
    result, h1, h2, ?_, ?_⟩
  · obtain ⟨a, b, ha, hb, hr⟩ := h3 0 (by decide)
    have a1 : a 1 = 3 := (Except.ok.inj (ha 1)).symm
    have b1 : b 1 = 2 := (Except.ok.inj (hb 1)).symm
    rw [hr]
    simp [a1, b1]
  · obtain ⟨a, b, ha, hb, hr⟩ := h3 1 (by decide)
    have a1 : a 1 = 7 := (Except.ok.inj (ha 1)).symm
    have b1 : b 1 = 4 := (Except.ok.inj (hb 1)).symm
    rw [hr]
    simp [a1, b1]

end storm.storage
